import Mathlib

/-!
# Simple inode file system (`filesystem.c`): shallow embedding

The disk is modelled at byte level.  A block is a function from byte offsets to
bytes; the C structs `Inode` (32 bytes: thirteen `uint16_t` direct pointers, one
`uint16_t` indirect pointer, one `uint32_t` size) and `DirectoryEntry` (512
bytes: `char filename[508]`, `uint16_t inode_num` at offset 508, `uint8_t used`
at offset 510) are read from and written to blocks through explicit
little-endian encode/decode routines.  Machine integers are natural numbers,
truncated with an explicit `%` wherever the C code stores into a narrower type.

C strings (`char *name`) are represented by the list of their characters before
the terminating NUL; a `char *` argument is taken to be non-null.
-/

namespace SimpleFS

/-! ## Bytes, blocks and the block device -/

/-- One `uint8_t`. -/
abbrev Byte := Fin 256

/-- Conversion of an integer value to `uint8_t`. -/
def toByte (n : Nat) : Byte := ⟨n % 256, Nat.mod_lt n (by decide)⟩

/-- A buffer of bytes, indexed by byte offset. -/
abbrev Block := Nat → Byte

/-- Modelled from the spec: `SOFTWARE_DISK_BLOCK_SIZE` of the absent
`softwaredisk.h`.  The spec gives the indirect block `block_size / 2 = 2048`
entries, and 128 inode records of 32 bytes (8 directory entries of 512 bytes)
fill one block. -/
def SOFTWARE_DISK_BLOCK_SIZE : Nat := 4096

def INODE_BITMAP_BLOCK : Nat := 1
def FIRST_INODE_BLOCK : Nat := 2
def LAST_INODE_BLOCK : Nat := 5
def FIRST_DIR_ENTRY_BLOCK : Nat := 6
def LAST_DIR_ENTRY_BLOCK : Nat := 69
def FIRST_DATA_BLOCK : Nat := 70
def MAX_FILES : Nat := 512
def MAX_FILENAME_SIZE : Nat := 507
def INODES_PER_BLOCK : Nat := 128
def DIR_ENTRIES_PER_BLOCK : Nat := 8
def NUM_DIRECT_INODE_BLOCKS : Nat := 13
def NUM_SINGLE_INDIRECT_BLOCKS : Nat := SOFTWARE_DISK_BLOCK_SIZE / 2

/-- Size in bytes of `Inode`. -/
def INODE_SIZE : Nat := 32
/-- Size in bytes of `DirectoryEntry`. -/
def DIR_ENTRY_SIZE : Nat := 512

/-- Modelled from the spec: the block device of the absent `softwaredisk.c`
(spec section 6): `capacity` is `software_disk_size()`, `blocks n` the payload
of block `n`. -/
structure Disk where
  capacity : Nat
  blocks : Nat → Block

/-- Modelled from the spec: `read_sd_block(buf, n)` of the absent
`softwaredisk.c`: the payload of block `n`, or failure when `n` is not a block
of the device. -/
def read_sd_block (d : Disk) (n : Nat) : Option Block :=
  if n < d.capacity then some (d.blocks n) else none

/-- Modelled from the spec: `write_sd_block(buf, n)` of the absent
`softwaredisk.c`: block `n` now holds `buf`, or failure when `n` is not a block
of the device. -/
def write_sd_block (d : Disk) (buf : Block) (n : Nat) : Option Disk :=
  if n < d.capacity then
    some { d with blocks := fun m => if m = n then buf else d.blocks m }
  else none

/-- Contents of a stack buffer that an unchecked, failed `read_sd_block` left
unfilled.  C leaves them indeterminate; the model fixes zeros. -/
def indeterminate : Block := fun _ => 0

/-- An unchecked `read_sd_block(buf, n)` into a fresh stack buffer. -/
def read_unchecked (d : Disk) (n : Nat) : Block :=
  match read_sd_block d n with
  | some buf => buf
  | none => indeterminate

/-- An unchecked `write_sd_block(buf, n)`: on failure the disk is as before. -/
def write_unchecked (d : Disk) (buf : Block) (n : Nat) : Disk :=
  match write_sd_block d buf n with
  | some d1 => d1
  | none => d

/-! ## Little-endian integer fields -/

/-- Read of a `uint16_t` stored at byte offset `o`. -/
def rd16 (buf : Block) (o : Nat) : Nat :=
  (buf o).val + 256 * (buf (o + 1)).val

/-- Store of `v` (truncated to `uint16_t`) at byte offset `o`. -/
def wr16 (buf : Block) (o : Nat) (v : Nat) : Block :=
  fun k => if k = o then toByte v else if k = o + 1 then toByte (v / 256) else buf k

/-- Read of a `uint32_t` stored at byte offset `o`. -/
def rd32 (buf : Block) (o : Nat) : Nat :=
  (buf o).val + 256 * (buf (o + 1)).val + 65536 * (buf (o + 2)).val
    + 16777216 * (buf (o + 3)).val

/-- Store of one byte at offset `o`. -/
def wr8 (buf : Block) (o : Nat) (v : Nat) : Block :=
  fun k => if k = o then toByte v else buf k

/-- The memory effect of `memcpy(dst + doff, src + soff, n)`. -/
def memcpy (dst : Block) (doff : Nat) (src : Block) (soff : Nat) (n : Nat) : Block :=
  fun k => if doff ≤ k ∧ k < doff + n then src (soff + (k - doff)) else dst k

/-! ## Error slot, modes, handles -/

/-- Modelled from the spec: `FSError` of the absent `filesystem.h`, in the order
of the message table of `fs_print_error`. -/
inductive FSError where
  | FS_NONE
  | FS_OUT_OF_SPACE
  | FS_FILE_NOT_OPEN
  | FS_FILE_OPEN
  | FS_FILE_NOT_FOUND
  | FS_FILE_READ_ONLY
  | FS_FILE_ALREADY_EXISTS
  | FS_EXCEEDS_MAX_FILE_SIZE
  | FS_ILLEGAL_FILENAME
  | FS_IO_ERROR
  deriving DecidableEq, Repr

/-- Modelled from the spec: `FileMode` of the absent `filesystem.h`. -/
inductive FileMode where
  | READ_ONLY
  | READ_WRITE
  deriving DecidableEq, Repr

/-- The `struct FileInternals` behind a handle. -/
structure FileInternals where
  inode_num : Nat
  mode : FileMode
  pos : Nat
  deriving DecidableEq, Repr

/-- A `File`: a pointer to a `struct FileInternals`, or `NULL`. -/
abbrev File := Option FileInternals

/-- The state the operations act on: the disk and the global `fserror`. -/
structure FSState where
  disk : Disk
  fserror : FSError

/-! ## Inode records -/

/-- The C struct `Inode`. -/
structure Inode where
  direct : Nat → Nat
  indirect : Nat
  size : Nat

/-- The initialiser `Inode node = {0}`. -/
def Inode.zero : Inode := ⟨fun _ => 0, 0, 0⟩

/-- The assignment `inode->direct[i] = v` (stored as `uint16_t`). -/
def Inode.setDirect (n : Inode) (i : Nat) (v : Nat) : Inode :=
  { n with direct := fun j => if j = i then v % 65536 else n.direct j }

/-- Decoding of the record `inodes[slot]` of an inode block. -/
def get_inode (buf : Block) (slot : Nat) : Inode :=
  { direct := fun i =>
      if i < NUM_DIRECT_INODE_BLOCKS then rd16 buf (INODE_SIZE * slot + 2 * i) else 0
    indirect := rd16 buf (INODE_SIZE * slot + 26)
    size := rd32 buf (INODE_SIZE * slot + 28) }

/-- Byte `r` (0 to 31) of the encoding of an inode record. -/
def inode_byte (n : Inode) (r : Nat) : Byte :=
  if r < 26 then toByte (n.direct (r / 2) / 256 ^ (r % 2))
  else if r < 28 then toByte (n.indirect / 256 ^ (r - 26))
  else toByte (n.size / 256 ^ (r - 28))

/-- The assignment `inodes[slot] = *node` in an inode block. -/
def put_inode (buf : Block) (slot : Nat) (n : Inode) : Block :=
  fun k =>
    if INODE_SIZE * slot ≤ k ∧ k < INODE_SIZE * slot + INODE_SIZE then
      inode_byte n (k - INODE_SIZE * slot)
    else buf k

def inode_block_for (inode_num : Nat) : Nat :=
  FIRST_INODE_BLOCK + inode_num / INODES_PER_BLOCK

def inode_offset_in_block (inode_num : Nat) : Nat :=
  inode_num % INODES_PER_BLOCK

/-- The function `save_inode`; `none` is the return value 0. -/
def save_inode (d : Disk) (inode_num : Nat) (node : Inode) : Option Disk :=
  match read_sd_block d (inode_block_for inode_num) with
  | none => none
  | some inodes =>
    write_sd_block d (put_inode inodes (inode_offset_in_block inode_num) node)
      (inode_block_for inode_num)

/-- A call of `save_inode` whose return value is ignored: on failure the disk
is as before. -/
def save_inode_unchecked (d : Disk) (inode_num : Nat) (node : Inode) : Disk :=
  match save_inode d inode_num node with
  | some d1 => d1
  | none => d

/-- The function `load_inode`; `none` is the return value 0. -/
def load_inode (d : Disk) (inode_num : Nat) : Option Inode :=
  match read_sd_block d (inode_block_for inode_num) with
  | none => none
  | some inodes => some (get_inode inodes (inode_offset_in_block inode_num))

/-! ## Bitmaps and allocation -/

/-- The test `buf[i / 8] & (1 << (i % 8))`. -/
def bit_is_set (buf : Block) (i : Nat) : Bool :=
  (buf (i / 8)).val.testBit (i % 8)

/-- The update `buf[i / 8] |= (1 << (i % 8))`. -/
def set_bit (buf : Block) (i : Nat) : Block :=
  fun k => if k = i / 8 then toByte ((buf k).val ||| (1 <<< (i % 8))) else buf k

/-- The update `buf[i / 8] &= ~(1 << (i % 8))`. -/
def clear_bit (buf : Block) (i : Nat) : Block :=
  fun k => if k = i / 8 then toByte ((buf k).val &&& (255 ^^^ (1 <<< (i % 8)))) else buf k

/-- The function `alloc_bitmap_block`; `none` is the return value -1. -/
def alloc_bitmap_block (d : Disk) (blocknum max_bits : Nat) : Option Nat × Disk :=
  match read_sd_block d blocknum with
  | none => (none, d)
  | some buf =>
    match (List.range max_bits).find? (fun i => !bit_is_set buf i) with
    | none => (none, d)
    | some i =>
      match write_sd_block d (set_bit buf i) blocknum with
      | none => (none, d)
      | some d1 => (some i, d1)

/-- The function `alloc_inode`. -/
def alloc_inode (s : FSState) : Option Nat × FSState :=
  match alloc_bitmap_block s.disk INODE_BITMAP_BLOCK MAX_FILES with
  | (none, d1) => (none, ⟨d1, .FS_OUT_OF_SPACE⟩)
  | (some num, d1) => (some num, ⟨d1, s.fserror⟩)

/-- The function `alloc_data_block`. -/
def alloc_data_block (s : FSState) : Option Nat × FSState :=
  match read_sd_block s.disk 0 with
  | none => (none, ⟨s.disk, .FS_IO_ERROR⟩)
  | some bitmap =>
    match (List.range' FIRST_DATA_BLOCK (s.disk.capacity - FIRST_DATA_BLOCK)).find?
        (fun block_num => !bit_is_set bitmap block_num) with
    | none => (none, ⟨s.disk, .FS_OUT_OF_SPACE⟩)
    | some block_num =>
      match write_sd_block s.disk (set_bit bitmap block_num) 0 with
      | none => (none, ⟨s.disk, .FS_IO_ERROR⟩)
      | some d1 => (some block_num, ⟨d1, s.fserror⟩)

/-- The function `free_inode`. -/
def free_inode (s : FSState) (inode_num : Nat) : FSState :=
  match read_sd_block s.disk INODE_BITMAP_BLOCK with
  | none => ⟨s.disk, .FS_IO_ERROR⟩
  | some bitmap =>
    ⟨write_unchecked s.disk (clear_bit bitmap inode_num) INODE_BITMAP_BLOCK, s.fserror⟩

/-- The function `free_data_block`. -/
def free_data_block (s : FSState) (block : Nat) : FSState :=
  match read_sd_block s.disk 0 with
  | none => ⟨s.disk, .FS_IO_ERROR⟩
  | some bitmap => ⟨write_unchecked s.disk (clear_bit bitmap block) 0, s.fserror⟩

/-! ## Directory entries -/

/-- The field `entries[i].used`. -/
def entry_used (entries : Block) (i : Nat) : Byte :=
  entries (DIR_ENTRY_SIZE * i + 510)

/-- The field `entries[i].inode_num`. -/
def entry_inode_num (entries : Block) (i : Nat) : Nat :=
  rd16 entries (DIR_ENTRY_SIZE * i + 508)

/-- The test `strcmp(mem + p, name) == 0`. -/
def strcmp_eq (mem : Block) (p : Nat) : List Byte → Bool
  | [] => mem p == 0
  | c :: cs => mem p == c && strcmp_eq mem (p + 1) cs

/-- The memory effect of `strcpy(mem + p, name)`: the characters and the
terminating NUL. -/
def strcpy (mem : Block) (p : Nat) (name : List Byte) : Block :=
  fun k =>
    if p ≤ k ∧ k < p + name.length then name.getD (k - p) 0
    else if k = p + name.length then 0
    else mem k

/-- The C struct `DirectoryEntry`, as copied out by `*entry_out = entries[i]`. -/
structure DirectoryEntry where
  filename : List Byte
  inode_num : Nat
  used : Byte
  deriving DecidableEq

/-- Decoding of the record `entries[i]` of a directory block. -/
def get_entry (entries : Block) (i : Nat) : DirectoryEntry :=
  { filename := (List.range (MAX_FILENAME_SIZE + 1)).map
      (fun k => entries (DIR_ENTRY_SIZE * i + k))
    inode_num := entry_inode_num entries i
    used := entry_used entries i }

/-- The directory blocks, in scan order. -/
def dir_blocks : List Nat :=
  List.range' FIRST_DIR_ENTRY_BLOCK (LAST_DIR_ENTRY_BLOCK + 1 - FIRST_DIR_ENTRY_BLOCK)

/-- The outer loop of `find_file_entry` over the blocks `bs`. -/
def find_file_entry_in (d : Disk) (name : List Byte) :
    List Nat → Option (DirectoryEntry × Nat × Nat)
  | [] => none
  | b :: bs =>
    match read_sd_block d b with
    | none => none
    | some entries =>
      match (List.range DIR_ENTRIES_PER_BLOCK).find?
          (fun i => entry_used entries i != 0 && strcmp_eq entries (DIR_ENTRY_SIZE * i) name) with
      | some i => some (get_entry entries i, b, i)
      | none => find_file_entry_in d name bs

/-- The function `find_file_entry`; `none` is the return value 0, otherwise the
entry, its block and its index. -/
def find_file_entry (d : Disk) (name : List Byte) : Option (DirectoryEntry × Nat × Nat) :=
  find_file_entry_in d name dir_blocks

/-- The outer loop of `find_free_dir_entry` over the blocks `bs`. -/
def find_free_dir_entry_in (d : Disk) : List Nat → Option (Nat × Nat)
  | [] => none
  | b :: bs =>
    match read_sd_block d b with
    | none => none
    | some entries =>
      match (List.range DIR_ENTRIES_PER_BLOCK).find? (fun i => entry_used entries i == 0) with
      | some i => some (b, i)
      | none => find_free_dir_entry_in d bs

/-- The function `find_free_dir_entry`. -/
def find_free_dir_entry (d : Disk) : Option (Nat × Nat) :=
  find_free_dir_entry_in d dir_blocks

/-! ## Address resolution -/

/-- The first half of the indirect branch of `get_data_block_for_offset`: make
sure the inode has an indirect block.  `none` is the early `return -1`. -/
def ensure_indirect (s : FSState) (inode : Inode) (allocate : Bool) :
    Option Unit × Inode × FSState :=
  if inode.indirect = 0 then
    if !allocate then (none, inode, s)
    else
      match alloc_data_block s with
      | (none, s1) => (none, inode, s1)
      | (some b, s1) =>
        (some (), { inode with indirect := b % 65536 },
          ⟨write_unchecked s1.disk (fun _ => 0) b, s1.fserror⟩)
  else (some (), inode, s)

/-- The expression `v == 0 ? -1 : v`; `none` is -1. -/
def nonzero_or_fail (v : Nat) : Option Nat := if v = 0 then none else some v

/-- The second half of the indirect branch of `get_data_block_for_offset`, from
the read of the indirect block on. -/
def indirect_lookup (s : FSState) (inode : Inode) (offset : Nat) (allocate : Bool) :
    Option Nat × Inode × FSState :=
  let pointers := read_unchecked s.disk inode.indirect
  let index := offset - NUM_DIRECT_INODE_BLOCKS
  if index ≥ NUM_SINGLE_INDIRECT_BLOCKS then
    (none, inode, ⟨s.disk, .FS_EXCEEDS_MAX_FILE_SIZE⟩)
  else if rd16 pointers (2 * index) = 0 ∧ allocate = true then
    match alloc_data_block s with
    | (none, s2) => (none, inode, s2)
    | (some b, s2) =>
      let pointers1 := wr16 pointers (2 * index) b
      (nonzero_or_fail (rd16 pointers1 (2 * index)), inode,
        ⟨write_unchecked s2.disk pointers1 inode.indirect, s2.fserror⟩)
  else (nonzero_or_fail (rd16 pointers (2 * index)), inode, s)

/-- The function `get_data_block_for_offset`: the block (`none` is -1), the
inode as the call left it, and the state after the call. -/
def get_data_block_for_offset (s : FSState) (inode : Inode) (offset : Nat) (allocate : Bool) :
    Option Nat × Inode × FSState :=
  if offset < NUM_DIRECT_INODE_BLOCKS then
    if inode.direct offset = 0 ∧ allocate = true then
      match alloc_data_block s with
      | (none, s1) => (none, inode, s1)
      | (some b, s1) =>
        (nonzero_or_fail ((inode.setDirect offset b).direct offset), inode.setDirect offset b, s1)
    else (nonzero_or_fail (inode.direct offset), inode, s)
  else
    match ensure_indirect s inode allocate with
    | (none, inode1, s1) => (none, inode1, s1)
    | (some _, inode1, s1) => indirect_lookup s1 inode1 offset allocate

/-! ## The public operations -/

/-- The function `create_file`. -/
def create_file (s : FSState) (name : List Byte) : File × FSState :=
  if name = [] then (none, ⟨s.disk, .FS_ILLEGAL_FILENAME⟩)
  else if (find_file_entry s.disk name).isSome then (none, ⟨s.disk, .FS_FILE_ALREADY_EXISTS⟩)
  else
    match alloc_inode s with
    | (none, s1) => (none, s1)
    | (some inode_num, s1) =>
      match save_inode s1.disk inode_num Inode.zero with
      | none => (none, s1)
      | some d2 =>
        match find_free_dir_entry d2 with
        | none => (none, ⟨d2, .FS_OUT_OF_SPACE⟩)
        | some (block, index) =>
          match read_sd_block d2 block with
          | none => (none, ⟨d2, s1.fserror⟩)
          | some entries =>
            let entries1 := strcpy entries (DIR_ENTRY_SIZE * index) name
            let entries2 := wr16 entries1 (DIR_ENTRY_SIZE * index + 508) inode_num
            let entries3 := wr8 entries2 (DIR_ENTRY_SIZE * index + 510) 1
            match write_sd_block d2 entries3 block with
            | none => (none, ⟨d2, s1.fserror⟩)
            | some d3 => (some ⟨inode_num, .READ_WRITE, 0⟩, ⟨d3, .FS_NONE⟩)

/-- The function `open_file`. -/
def open_file (s : FSState) (name : List Byte) (mode : FileMode) : File × FSState :=
  match find_file_entry s.disk name with
  | none => (none, ⟨s.disk, .FS_FILE_NOT_FOUND⟩)
  | some (entry, _, _) => (some ⟨entry.inode_num, mode, 0⟩, ⟨s.disk, .FS_NONE⟩)

/-- The function `close_file`; the handle is gone after the call. -/
def close_file (s : FSState) (file : File) : FSState :=
  match file with
  | none => ⟨s.disk, .FS_FILE_NOT_OPEN⟩
  | some _ => ⟨s.disk, .FS_NONE⟩

/-- The function `file_length`. -/
def file_length (s : FSState) (file : File) : Nat × FSState :=
  match file with
  | none => (0, ⟨s.disk, .FS_FILE_NOT_OPEN⟩)
  | some f =>
    match load_inode s.disk f.inode_num with
    | none => (0, ⟨s.disk, .FS_FILE_NOT_OPEN⟩)
    | some node => (node.size, s)

/-- The function `seek_file`: the return value, the handle after the call and
the state after the call.  `bytepos` is an `unsigned long`; the position is a
`uint32_t`. -/
def seek_file (s : FSState) (file : File) (bytepos : Nat) : Nat × File × FSState :=
  match file with
  | none => (0, none, ⟨s.disk, .FS_FILE_NOT_OPEN⟩)
  | some f =>
    match load_inode s.disk f.inode_num with
    | none => (0, file, ⟨s.disk, .FS_FILE_NOT_OPEN⟩)
    | some node =>
      let pos := bytepos % 2 ^ 32
      let node1 := if pos > node.size then { node with size := pos } else node
      match save_inode s.disk f.inode_num node1 with
      | none => (0, some { f with pos := pos }, s)
      | some d1 => (1, some { f with pos := pos }, ⟨d1, s.fserror⟩)

/-- The `while` loop of `read_file`, run for at most `fuel` iterations: the
final `bytes_read`, position, destination buffer and state. -/
def read_loop (node : Inode) (numbytes : Nat) :
    Nat → Nat → Nat → Block → FSState → Nat × Nat × Block × FSState
  | 0, bytes_read, pos, dst, s => (bytes_read, pos, dst, s)
  | fuel + 1, bytes_read, pos, dst, s =>
    if bytes_read < numbytes ∧ pos < node.size then
      let block_offset := pos / SOFTWARE_DISK_BLOCK_SIZE
      let inner_offset := pos % SOFTWARE_DISK_BLOCK_SIZE
      match get_data_block_for_offset s node block_offset false with
      | (none, _, s1) => (bytes_read, pos, dst, s1)
      | (some block, _, s1) =>
        let tmp := read_unchecked s1.disk block
        let to_copy := min (min (SOFTWARE_DISK_BLOCK_SIZE - inner_offset) (node.size - pos))
          (numbytes - bytes_read)
        read_loop node numbytes fuel (bytes_read + to_copy) ((pos + to_copy) % 2 ^ 32)
          (memcpy dst bytes_read tmp inner_offset to_copy) s1
    else (bytes_read, pos, dst, s)

/-- The function `read_file`: the return value, the handle after the call, the
destination buffer after the call and the state after the call. -/
def read_file (s : FSState) (file : File) (buf : Block) (numbytes : Nat) :
    Nat × File × Block × FSState :=
  match file with
  | none => (0, none, buf, ⟨s.disk, .FS_FILE_NOT_OPEN⟩)
  | some f =>
    if f.mode = .READ_WRITE ∨ f.mode = .READ_ONLY then
      match load_inode s.disk f.inode_num with
      | none => (0, file, buf, s)
      | some node =>
        match read_loop node numbytes numbytes 0 f.pos buf s with
        | (bytes_read, pos, dst, s1) => (bytes_read, some { f with pos := pos }, dst, s1)
    else (0, file, buf, ⟨s.disk, .FS_FILE_READ_ONLY⟩)

/-- The `while` loop of `write_file`, run for at most `fuel` iterations: the
final `bytes_written`, position, in-memory inode and state. -/
def write_loop (src : Block) (numbytes : Nat) :
    Nat → Nat → Nat → Inode → FSState → Nat × Nat × Inode × FSState
  | 0, bytes_written, pos, node, s => (bytes_written, pos, node, s)
  | fuel + 1, bytes_written, pos, node, s =>
    if bytes_written < numbytes then
      let block_offset := pos / SOFTWARE_DISK_BLOCK_SIZE
      let inner_offset := pos % SOFTWARE_DISK_BLOCK_SIZE
      match get_data_block_for_offset s node block_offset true with
      | (none, node1, s1) => (bytes_written, pos, node1, s1)
      | (some block, node1, s1) =>
        let tmp := read_unchecked s1.disk block
        let to_copy := min (SOFTWARE_DISK_BLOCK_SIZE - inner_offset) (numbytes - bytes_written)
        write_loop src numbytes fuel (bytes_written + to_copy) ((pos + to_copy) % 2 ^ 32) node1
          ⟨write_unchecked s1.disk (memcpy tmp inner_offset src bytes_written to_copy) block,
            s1.fserror⟩
    else (bytes_written, pos, node, s)

/-- The function `write_file`: the return value, the handle after the call and
the state after the call. -/
def write_file (s : FSState) (file : File) (buf : Block) (numbytes : Nat) :
    Nat × File × FSState :=
  match file with
  | none => (0, none, ⟨s.disk, .FS_FILE_READ_ONLY⟩)
  | some f =>
    if f.mode ≠ .READ_WRITE then (0, file, ⟨s.disk, .FS_FILE_READ_ONLY⟩)
    else
      match load_inode s.disk f.inode_num with
      | none => (0, file, s)
      | some node =>
        match write_loop buf numbytes numbytes 0 f.pos node s with
        | (bytes_written, pos, node1, s1) =>
          let node2 := if pos > node1.size then { node1 with size := pos } else node1
          (bytes_written, some { f with pos := pos },
            ⟨save_inode_unchecked s1.disk f.inode_num node2, s1.fserror⟩)

/-- The loop of `delete_file` that frees the non-zero pointers `ptr i` for `i`
in `idxs`. -/
def free_pointers (ptr : Nat → Nat) : List Nat → FSState → FSState
  | [], s => s
  | i :: is, s =>
    free_pointers ptr is (if ptr i ≠ 0 then free_data_block s (ptr i) else s)

/-- The part of `delete_file` that frees the blocks of the inode `node`: the
loop over the direct pointers and, when there is an indirect block, the loop
over its entries and the indirect block itself. -/
def free_file_blocks (s : FSState) (node : Inode) : FSState :=
  let s1 := free_pointers node.direct (List.range NUM_DIRECT_INODE_BLOCKS) s
  if node.indirect ≠ 0 then
    let pointers := read_unchecked s1.disk node.indirect
    free_data_block
      (free_pointers (fun i => rd16 pointers (2 * i))
        (List.range NUM_SINGLE_INDIRECT_BLOCKS) s1)
      node.indirect
  else s1

/-- The function `delete_file`. -/
def delete_file (s : FSState) (name : List Byte) : Nat × FSState :=
  match find_file_entry s.disk name with
  | none => (0, ⟨s.disk, .FS_FILE_NOT_FOUND⟩)
  | some (entry, block, index) =>
    match load_inode s.disk entry.inode_num with
    | none => (0, ⟨s.disk, .FS_IO_ERROR⟩)
    | some node =>
      let s2 := free_file_blocks s node
      let entries := read_unchecked s2.disk block
      let d3 := write_unchecked s2.disk (wr8 entries (DIR_ENTRY_SIZE * index + 510) 0) block
      let s4 := free_inode ⟨d3, s2.fserror⟩ entry.inode_num
      (1, ⟨s4.disk, .FS_NONE⟩)

/-- The function `file_exists`. -/
def file_exists (s : FSState) (name : List Byte) : Nat × FSState :=
  (if (find_file_entry s.disk name).isSome then 1 else 0, ⟨s.disk, .FS_NONE⟩)

/-- The volume `formatfs.c` leaves on a device of `capacity` blocks:
`init_software_disk` (of the absent `softwaredisk.c`; by the comment at its
call it clears out any existing content, the `reset` of spec section 6) and
then zeros written to the inode bitmap, the inode blocks and the directory
blocks.  Every block is zero and the error slot has its initial value. -/
def formatted (capacity : Nat) : FSState :=
  ⟨⟨capacity, fun _ _ => 0⟩, .FS_NONE⟩

/-! ## Views of the disk used to state the properties -/

/-- Validity of the fields of an inode record as C values: every field within
its type, and no direct pointer beyond the thirteenth. -/
structure Inode.WF (n : Inode) : Prop where
  direct_lt : ∀ i, n.direct i < 65536
  direct_zero : ∀ i, NUM_DIRECT_INODE_BLOCKS ≤ i → n.direct i = 0
  indirect_lt : n.indirect < 65536
  size_lt : n.size < 2 ^ 32

/-- Bit `b` of the data-block bitmap (block 0). -/
def data_bit (d : Disk) (b : Nat) : Bool := bit_is_set (d.blocks 0) b

/-- Bit `n` of the inode bitmap (block 1). -/
def inode_bit (d : Disk) (n : Nat) : Bool := bit_is_set (d.blocks INODE_BITMAP_BLOCK) n

/-- The inode record number `n` as stored on the disk. -/
def inode_at (d : Disk) (n : Nat) : Inode :=
  get_inode (d.blocks (inode_block_for n)) (inode_offset_in_block n)

/-- The places where an inode holds a block number: a direct pointer, the
indirect pointer, or an entry of the indirect block. -/
inductive Slot where
  | direct (i : Nat)
  | indirect
  | entry (j : Nat)
  deriving DecidableEq, Repr

/-- The slots an inode has: thirteen direct pointers, the indirect pointer and,
when there is an indirect block, its 2048 entries. -/
def Slot.valid (node : Inode) : Slot → Prop
  | .direct i => i < NUM_DIRECT_INODE_BLOCKS
  | .indirect => True
  | .entry j => node.indirect ≠ 0 ∧ j < NUM_SINGLE_INDIRECT_BLOCKS

/-- The block number stored in a slot. -/
def slot_val (d : Disk) (node : Inode) : Slot → Nat
  | .direct i => node.direct i
  | .indirect => node.indirect
  | .entry j => rd16 (d.blocks node.indirect) (2 * j)

/-- Block `b` is held by the inode: it is the non-zero value of one of its
slots. -/
def holds (d : Disk) (node : Inode) (b : Nat) : Prop :=
  b ≠ 0 ∧ ∃ sl : Slot, sl.valid node ∧ slot_val d node sl = b

/-- The block-ownership invariant for the inodes selected by `U`, whose records
are given by `tab`: every non-zero block number they hold is a data block of
the device with its bitmap bit set, and no block number is held twice. -/
structure PtrInv (d : Disk) (U : Nat → Prop) (tab : Nat → Inode) : Prop where
  range : ∀ n sl, U n → sl.valid (tab n) → slot_val d (tab n) sl ≠ 0 →
    FIRST_DATA_BLOCK ≤ slot_val d (tab n) sl ∧ slot_val d (tab n) sl < d.capacity ∧
      data_bit d (slot_val d (tab n) sl) = true
  inj : ∀ n m sl sl1, U n → U m → sl.valid (tab n) → sl1.valid (tab m) →
    slot_val d (tab n) sl ≠ 0 → slot_val d (tab n) sl = slot_val d (tab m) sl1 →
    n = m ∧ sl = sl1

/-- The physical block backing logical block `lb` of an inode: the answer of
`get_data_block_for_offset` when no allocation is requested. -/
def block_of (d : Disk) (node : Inode) (lb : Nat) : Option Nat :=
  (get_data_block_for_offset ⟨d, .FS_NONE⟩ node lb false).1

/-- The byte of the file at byte offset `off`, when its logical block is
backed by a block of the device. -/
def file_byte (d : Disk) (node : Inode) (off : Nat) : Option Byte :=
  match block_of d node (off / SOFTWARE_DISK_BLOCK_SIZE) with
  | none => none
  | some b =>
    match read_sd_block d b with
    | none => none
    | some buf => some (buf (off % SOFTWARE_DISK_BLOCK_SIZE))

/-- Number of free data blocks: clear bitmap bits among the blocks
`FIRST_DATA_BLOCK .. capacity - 1`. -/
def free_count (d : Disk) : Nat :=
  ((List.range' FIRST_DATA_BLOCK (d.capacity - FIRST_DATA_BLOCK)).filter
    (fun b => !data_bit d b)).length

/-- The slot that addresses logical block `lb`. -/
def lb_slot (lb : Nat) : Slot :=
  if lb < NUM_DIRECT_INODE_BLOCKS then .direct lb else .entry (lb - NUM_DIRECT_INODE_BLOCKS)

/-- At least `k` data blocks are free: there are `k` distinct block numbers in
`FIRST_DATA_BLOCK .. capacity - 1` whose bitmap bit is clear. -/
def FreeAtLeast (d : Disk) (k : Nat) : Prop :=
  ∃ L : List Nat, L.Nodup ∧ k ≤ L.length ∧
    ∀ b ∈ L, FIRST_DATA_BLOCK ≤ b ∧ b < d.capacity ∧ data_bit d b = false

/-- Number of blocks `get_data_block_for_offset` has to allocate to back
logical block `lb`. -/
def alloc_cost (d : Disk) (node : Inode) (lb : Nat) : Nat :=
  if (block_of d node lb).isSome then 0
  else if lb < NUM_DIRECT_INODE_BLOCKS then 1
  else if node.indirect = 0 then 2
  else 1

/-- How the disk and the in-memory inode of one file evolve while the file
is written: `(d1, node1)` comes after `(d, node)`.  The only blocks that change
are the bitmap and blocks the inode holds afterwards, bitmap bits are only
set, and every bit newly set belongs to a block the inode now holds; non-zero
slots are kept, and every new non-zero slot value had its bit clear before. -/
structure Grows (d : Disk) (node : Inode) (d1 : Disk) (node1 : Inode) : Prop where
  cap : d1.capacity = d.capacity
  size : node1.size = node.size
  frame : ∀ m, m ≠ 0 → ¬ holds d1 node1 m → d1.blocks m = d.blocks m
  bit_mono : ∀ b, data_bit d b = true → data_bit d1 b = true
  bit_new : ∀ b, data_bit d1 b = true → data_bit d b = true ∨ holds d1 node1 b
  keep : ∀ sl : Slot, sl.valid node → slot_val d node sl ≠ 0 →
    sl.valid node1 ∧ slot_val d1 node1 sl = slot_val d node sl
  fresh : ∀ sl : Slot, sl.valid node1 → slot_val d1 node1 sl ≠ 0 →
    (sl.valid node ∧ slot_val d node sl = slot_val d1 node1 sl) ∨
      data_bit d (slot_val d1 node1 sl) = false

/-- What an allocating call of `get_data_block_for_offset` for logical block
`lb` of inode `n` establishes, from state `s` with inode table `tab`, when it
answers `r` and leaves the inode `node1` and the state `s1`. -/
structure AllocSpec (U : Nat → Prop) (tab : Nat → Inode) (n lb : Nat) (s : FSState)
    (r : Option Nat) (node1 : Inode) (s1 : FSState) : Prop where
  inv : PtrInv s1.disk U (fun m => if m = n then node1 else tab m)
  grows : Grows s.disk (tab n) s1.disk node1
  wf : node1.WF
  frame : ∀ m, m ≠ 0 → m ≠ node1.indirect → s1.disk.blocks m = s.disk.blocks m
  res : r = block_of s1.disk node1 lb
  res_other : ∀ lb1, lb1 ≠ lb → block_of s1.disk node1 lb1 = block_of s.disk (tab n) lb1
  ind_direct : lb < NUM_DIRECT_INODE_BLOCKS → node1.indirect = (tab n).indirect

/-- What a run of the loop of `write_file` on inode `n` establishes, from
`bytes_written = bw` at position `pos` in state `s` with inode table `tab`, when
it ends with `bytes_written = bw1` at position `pos1`, in-memory inode `node1`
and state `s1`: the bytes copied are bytes of the file at the positions passed
over, and every other byte of the file is as before. -/
structure WriteSpec (U : Nat → Prop) (tab : Nat → Inode) (n : Nat) (src : Block)
    (bw pos : Nat) (s : FSState) (bw1 pos1 : Nat) (node1 : Inode) (s1 : FSState) : Prop where
  inv : PtrInv s1.disk U (fun m => if m = n then node1 else tab m)
  grows : Grows s.disk (tab n) s1.disk node1
  wf : node1.WF
  count : bw ≤ bw1
  pos_eq : pos1 = pos + (bw1 - bw)
  written : ∀ k, k < bw1 - bw → file_byte s1.disk node1 (pos + k) = some (src (bw + k))
  kept : ∀ off v, (off < pos ∨ pos + (bw1 - bw) ≤ off) →
    file_byte s.disk (tab n) off = some v → file_byte s1.disk node1 off = some v

/-- What a run of the loop of `read_file` establishes, from `bytes_read = br`
at position `pos` with destination buffer `dst` in state `s`, when it ends with
`bytes_read = br1` at position `pos1`, destination buffer `dst1` and state
`s1`. -/
structure ReadSpec (node : Inode) (numbytes br pos : Nat) (dst : Block) (s : FSState)
    (br1 pos1 : Nat) (dst1 : Block) (s1 : FSState) : Prop where
  disk : s1.disk = s.disk
  count : br ≤ br1
  le_n : br ≤ numbytes → br1 ≤ numbytes
  le_size : br1 - br ≤ node.size - pos
  pos_eq : pos1 = pos + (br1 - br)
  outside : ∀ k, k < br ∨ br1 ≤ k → dst1 k = dst k
  bytes : ∀ k v, k < br1 - br → file_byte s.disk node (pos + k) = some v → dst1 (br + k) = v

/-- How the disk evolves under an operation on the file with inode `n`
(`d1` comes after `d`): the records of the other inodes stay, the only blocks
that change are the bitmap, the block of the inode record and blocks the inode
holds afterwards; bitmap bits are only set, every bit newly set belongs to a
block the inode now holds, non-zero slots are kept and every new non-zero slot
value had its bit clear before. -/
structure FileStep (n : Nat) (d d1 : Disk) : Prop where
  cap : d1.capacity = d.capacity
  others : ∀ m, m ≠ n → m < MAX_FILES → inode_at d1 m = inode_at d m
  frame : ∀ m, m ≠ 0 → m ≠ inode_block_for n → ¬ holds d1 (inode_at d1 n) m →
    d1.blocks m = d.blocks m
  bit_mono : ∀ b, data_bit d b = true → data_bit d1 b = true
  bit_new : ∀ b, data_bit d1 b = true → data_bit d b = true ∨ holds d1 (inode_at d1 n) b
  keep : ∀ sl : Slot, sl.valid (inode_at d n) → slot_val d (inode_at d n) sl ≠ 0 →
    sl.valid (inode_at d1 n) ∧ slot_val d1 (inode_at d1 n) sl = slot_val d (inode_at d n) sl
  fresh : ∀ sl : Slot, sl.valid (inode_at d1 n) → slot_val d1 (inode_at d1 n) sl ≠ 0 →
    (sl.valid (inode_at d n) ∧ slot_val d (inode_at d n) sl = slot_val d1 (inode_at d1 n) sl) ∨
      data_bit d (slot_val d1 (inode_at d1 n) sl) = false

/-- Number of logical blocks among `lb, lb + 1, ..., lb + cnt - 1` that have
no backing block. -/
def missing (d : Disk) (node : Inode) : Nat → Nat → Nat
  | _, 0 => 0
  | lb, cnt + 1 => (if (block_of d node lb).isSome then 0 else 1) + missing d node (lb + 1) cnt

/-- Number of data blocks a write of `len` bytes at position `pos` has to
allocate: one for each logical block touched that is not backed, and one for
the indirect block when the inode has none and the write goes beyond the
direct blocks. -/
def write_need (d : Disk) (node : Inode) (pos len : Nat) : Nat :=
  if len = 0 then 0
  else
    missing d node (pos / SOFTWARE_DISK_BLOCK_SIZE)
        ((pos + len - 1) / SOFTWARE_DISK_BLOCK_SIZE - pos / SOFTWARE_DISK_BLOCK_SIZE + 1)
      + (if node.indirect = 0 ∧ NUM_DIRECT_INODE_BLOCKS ≤ (pos + len - 1) / SOFTWARE_DISK_BLOCK_SIZE
          then 1 else 0)

/-- Number of data blocks a new file of `len` bytes occupies: its data blocks
and, beyond thirteen of them, the indirect block. -/
def blocks_for (len : Nat) : Nat :=
  if (len + SOFTWARE_DISK_BLOCK_SIZE - 1) / SOFTWARE_DISK_BLOCK_SIZE > NUM_DIRECT_INODE_BLOCKS then
    (len + SOFTWARE_DISK_BLOCK_SIZE - 1) / SOFTWARE_DISK_BLOCK_SIZE + 1
  else (len + SOFTWARE_DISK_BLOCK_SIZE - 1) / SOFTWARE_DISK_BLOCK_SIZE

/-- The largest file size: thirteen direct blocks and the entries of one
indirect block. -/
def MAX_FILE_SIZE : Nat :=
  (NUM_DIRECT_INODE_BLOCKS + NUM_SINGLE_INDIRECT_BLOCKS) * SOFTWARE_DISK_BLOCK_SIZE

/-- What `write_file` through the read-write handle `f` establishes when it
returns `r` from a state `s` that satisfies the ownership invariant for the
inodes selected by `U`. -/
structure WriteFileSpec (U : Nat → Prop) (s : FSState) (f : FileInternals) (buf : Block)
    (cnt : Nat) (r : Nat × File × FSState) : Prop where
  handle : r.2.1 = some { f with pos := f.pos + r.1 }
  inv : PtrInv r.2.2.disk U (inode_at r.2.2.disk)
  step : FileStep f.inode_num s.disk r.2.2.disk
  low : ∀ m, 0 < m → m < FIRST_DATA_BLOCK → m ≠ inode_block_for f.inode_num →
    r.2.2.disk.blocks m = s.disk.blocks m
  size : (inode_at r.2.2.disk f.inode_num).size
    = max (inode_at s.disk f.inode_num).size (f.pos + r.1)
  written : ∀ k, k < r.1 →
    file_byte r.2.2.disk (inode_at r.2.2.disk f.inode_num) (f.pos + k) = some (buf k)
  kept : ∀ off v, (off < f.pos ∨ f.pos + r.1 ≤ off) →
    file_byte s.disk (inode_at s.disk f.inode_num) off = some v →
    file_byte r.2.2.disk (inode_at r.2.2.disk f.inode_num) off = some v
  complete : ∀ k, f.pos + cnt ≤ MAX_FILE_SIZE →
    FreeAtLeast s.disk (write_need s.disk (inode_at s.disk f.inode_num) f.pos cnt + k) →
    r.1 = cnt ∧ FreeAtLeast r.2.2.disk k

/-! ## Directory views and the invariants of a volume -/

/-- A file name argument is a C string: no NUL among its characters. -/
def CString (name : List Byte) : Prop := ∀ c ∈ name, c ≠ 0

/-- A name `create_file` can store: a C string of at most `MAX_FILENAME_SIZE`
characters, so that `strcpy` stays inside `filename`. -/
def ValidName (name : List Byte) : Prop := CString name ∧ name.length ≤ MAX_FILENAME_SIZE

/-- The C string stored at `mem + p` is `nm`. -/
def StoredName (mem : Block) (p : Nat) (nm : List Byte) : Prop :=
  (∀ k, k < nm.length → mem (p + k) = nm.getD k 0) ∧ mem (p + nm.length) = 0 ∧ CString nm

/-- Entry `i` of block `b` is one of the 512 directory slots. -/
def DirSlot (b i : Nat) : Prop :=
  FIRST_DIR_ENTRY_BLOCK ≤ b ∧ b ≤ LAST_DIR_ENTRY_BLOCK ∧ i < DIR_ENTRIES_PER_BLOCK

/-- The directory slot `(b, i)` is used. -/
def slot_used (d : Disk) (b i : Nat) : Prop := entry_used (d.blocks b) i ≠ 0

/-- The inode number recorded in the directory slot `(b, i)`. -/
def slot_inode (d : Disk) (b i : Nat) : Nat := entry_inode_num (d.blocks b) i

/-- Inode `n` is in use: it is one of the 512 inodes and its bitmap bit is
set. -/
def InUse (d : Disk) (n : Nat) : Prop := n < MAX_FILES ∧ inode_bit d n = true

/-- The directory invariant: every used slot stores a non-empty name of at most
`MAX_FILENAME_SIZE` characters and the number of an inode in use, and no two
used slots share a name or an inode number. -/
structure DirInv (d : Disk) : Prop where
  named : ∀ b i, DirSlot b i → slot_used d b i →
    ∃ nm, StoredName (d.blocks b) (DIR_ENTRY_SIZE * i) nm ∧ nm ≠ [] ∧
      nm.length ≤ MAX_FILENAME_SIZE
  inode_ok : ∀ b i, DirSlot b i → slot_used d b i → InUse d (slot_inode d b i)
  name_inj : ∀ b i b1 i1 nm, DirSlot b i → DirSlot b1 i1 → slot_used d b i →
    slot_used d b1 i1 → StoredName (d.blocks b) (DIR_ENTRY_SIZE * i) nm →
    StoredName (d.blocks b1) (DIR_ENTRY_SIZE * i1) nm → b = b1 ∧ i = i1
  inode_inj : ∀ b i b1 i1, DirSlot b i → DirSlot b1 i1 → slot_used d b i →
    slot_used d b1 i1 → slot_inode d b i = slot_inode d b1 i1 → b = b1 ∧ i = i1

/-- The invariant of a volume: the device has room for the metadata blocks and
is covered by the one-block bitmap, the blocks held by inodes in use obey the
ownership invariant, and the directory invariant holds. -/
structure Inv (s : FSState) : Prop where
  cap_lo : FIRST_DATA_BLOCK ≤ s.disk.capacity
  cap_hi : s.disk.capacity ≤ 8 * SOFTWARE_DISK_BLOCK_SIZE
  ptr : PtrInv s.disk (InUse s.disk) (inode_at s.disk)
  dir : DirInv s.disk

/-- The disk after `create_file` allocated inode `n` and saved its zeroed
record: `blocks1` is the contents of `d` with bit `n` of the inode bitmap set
and record `n` zeroed. -/
def with_new_inode (d : Disk) (n : Nat) : Nat → Block :=
  fun m =>
    if m = inode_block_for n then
      (put_inode (d.blocks (inode_block_for n)) (inode_offset_in_block n) Inode.zero)
    else if m = INODE_BITMAP_BLOCK then (set_bit (d.blocks INODE_BITMAP_BLOCK) n)
    else d.blocks m

/-- The directory entry `create_file` writes at index `i` of a directory
block. -/
def new_entry (entries : Block) (i inode_num : Nat) (name : List Byte) : Block :=
  wr8 (wr16 (strcpy entries (DIR_ENTRY_SIZE * i) name) (DIR_ENTRY_SIZE * i + 508) inode_num)
    (DIR_ENTRY_SIZE * i + 510) 1

/-- A successful `create_file(name)` from state `s`: it found no entry for the
non-empty `name`, allocated the free inode `n`, zeroed its record, and wrote
the entry into the unused directory slot `(b, i)`, leaving state `s1`. -/
structure Created (s : FSState) (name : List Byte) (n b i : Nat) (s1 : FSState) : Prop where
  inode_lt : n < MAX_FILES
  inode_free : inode_bit s.disk n = false
  slot : DirSlot b i
  slot_free : ¬ slot_used s.disk b i
  absent : find_file_entry s.disk name = none
  nonempty : name ≠ []
  cap : s1.disk.capacity = s.disk.capacity
  err : s1.fserror = .FS_NONE
  blocks : ∀ m, s1.disk.blocks m
    = if m = b then new_entry (s.disk.blocks b) i n name else with_new_inode s.disk n m

/-- The file behind a handle has not been deleted: a used directory slot
records the handle's inode number; the position fits `uint32_t`. -/
def LiveHandle (s : FSState) (f : FileInternals) : Prop :=
  f.pos < 2 ^ 32 ∧ ∃ b i, DirSlot b i ∧ slot_used s.disk b i ∧ slot_inode s.disk b i = f.inode_num

/-- The states reachable from a freshly formatted volume by the public
operations: names are C strings (at most `MAX_FILENAME_SIZE` characters for
`create_file`), and a non-null handle is only used while its file exists. -/
inductive Reachable : FSState → Prop
  | format (capacity : Nat) (h1 : FIRST_DATA_BLOCK ≤ capacity)
      (h2 : capacity ≤ 8 * SOFTWARE_DISK_BLOCK_SIZE) : Reachable (formatted capacity)
  | create (s : FSState) (name : List Byte) (h : Reachable s) (hname : ValidName name) :
      Reachable (create_file s name).2
  | open_file (s : FSState) (name : List Byte) (mode : FileMode) (h : Reachable s)
      (hname : CString name) : Reachable (open_file s name mode).2
  | close (s : FSState) (file : File) (h : Reachable s) : Reachable (close_file s file)
  | length (s : FSState) (file : File) (h : Reachable s)
      (hlive : ∀ f, file = some f → LiveHandle s f) : Reachable (file_length s file).2
  | seek (s : FSState) (file : File) (bytepos : Nat) (h : Reachable s)
      (hlive : ∀ f, file = some f → LiveHandle s f) : Reachable (seek_file s file bytepos).2.2
  | read (s : FSState) (file : File) (buf : Block) (numbytes : Nat) (h : Reachable s)
      (hlive : ∀ f, file = some f → LiveHandle s f) :
      Reachable (read_file s file buf numbytes).2.2.2
  | write (s : FSState) (file : File) (buf : Block) (numbytes : Nat) (h : Reachable s)
      (hlive : ∀ f, file = some f → LiveHandle s f) :
      Reachable (write_file s file buf numbytes).2.2
  | delete (s : FSState) (name : List Byte) (h : Reachable s) (hname : CString name) :
      Reachable (delete_file s name).2
  | file_exists (s : FSState) (name : List Byte) (h : Reachable s) (hname : CString name) :
      Reachable (file_exists s name).2

/-- The directory holds `name`: a used slot stores it. -/
def Present (d : Disk) (name : List Byte) : Prop :=
  ∃ b i, DirSlot b i ∧ slot_used d b i ∧ StoredName (d.blocks b) (DIR_ENTRY_SIZE * i) name

/-- A sequence of `write_file` calls through one handle, each element of the
list being the source buffer and the byte count of one call: the handle and
the state after the last call. -/
def write_seq : List (Block × Nat) → File → FSState → File × FSState
  | [], file, s => (file, s)
  | w :: ws, file, s =>
    write_seq ws (write_file s file w.1 w.2).2.1 (write_file s file w.1 w.2).2.2

/-- The handle `file` and the state `s2` some way through a sequence of writes
to the file with inode `n`, whose record was empty in state `s1`: the handle is
a read-write handle of `n`, the blocks the inode holds obey the ownership
invariant, the metadata blocks other than the bitmap and the block of the
record are as in `s1`, bitmap bits were only set, and the bits set since `s1`
are exactly those of the blocks the inode holds. -/
structure Written (n : Nat) (s1 : FSState) (file : File) (s2 : FSState) : Prop where
  handle : ∃ f, file = some f ∧ f.inode_num = n ∧ f.mode = .READ_WRITE ∧ f.pos < 2 ^ 32
  inv : PtrInv s2.disk (fun m => m = n) (inode_at s2.disk)
  cap : s2.disk.capacity = s1.disk.capacity
  low : ∀ m, 0 < m → m < FIRST_DATA_BLOCK → m ≠ inode_block_for n →
    s2.disk.blocks m = s1.disk.blocks m
  bit_mono : ∀ x, data_bit s1.disk x = true → data_bit s2.disk x = true
  bit_new : ∀ x, data_bit s2.disk x = true →
    data_bit s1.disk x = true ∨ holds s2.disk (inode_at s2.disk n) x
  fresh : ∀ x, holds s2.disk (inode_at s2.disk n) x → data_bit s1.disk x = false

/-- The file behind the handle `g` looks the same in state `s1` as in state
`s`: `file_length` returns the same length, `read_file` returns the same count,
the same handle and the same bytes for every buffer and every count, and the
directory blocks and the inode bitmap are the same. -/
def Unaffected (g : FileInternals) (s s1 : FSState) : Prop :=
  (file_length s1 (some g)).1 = (file_length s (some g)).1 ∧
  (∀ (rbuf : Block) (k : Nat),
    (read_file s1 (some g) rbuf k).1 = (read_file s (some g) rbuf k).1 ∧
    (read_file s1 (some g) rbuf k).2.1 = (read_file s (some g) rbuf k).2.1 ∧
    (read_file s1 (some g) rbuf k).2.2.1 = (read_file s (some g) rbuf k).2.2.1) ∧
  (∀ b, FIRST_DIR_ENTRY_BLOCK ≤ b → b ≤ LAST_DIR_ENTRY_BLOCK →
    s1.disk.blocks b = s.disk.blocks b) ∧
  s1.disk.blocks INODE_BITMAP_BLOCK = s.disk.blocks INODE_BITMAP_BLOCK

/-- The block of the directory slot number `k` (0 to 511, in scan order). -/
def slot_block (k : Nat) : Nat := FIRST_DIR_ENTRY_BLOCK + k / DIR_ENTRIES_PER_BLOCK

/-- The index in its block of the directory slot number `k`. -/
def slot_index (k : Nat) : Nat := k % DIR_ENTRIES_PER_BLOCK

/-- Number of used directory entries among the 512 slots. -/
def used_entries (d : Disk) : Nat :=
  ((List.range MAX_FILES).filter
    (fun k => entry_used (d.blocks (slot_block k)) (slot_index k) != 0)).length

/-- Number of set bits among the 512 bits of the inode bitmap. -/
def inodes_in_use (d : Disk) : Nat :=
  ((List.range MAX_FILES).filter (fun n => inode_bit d n)).length

/-- Every inode in use is recorded by a used directory entry. -/
def Owned (d : Disk) : Prop :=
  ∀ n, InUse d n → ∃ b i, DirSlot b i ∧ slot_used d b i ∧ slot_inode d b i = n

/-! ## The round trip of C1 -/

/-- The buffer holding the bytes of `B`. -/
def bytes_of (B : List Byte) : Block := fun k => B.getD k 0

/-- `write_file(h, B, len(B))` through the handle `h`. -/
def rt_write (s1 : FSState) (h : FileInternals) (B : List Byte) : Nat × File × FSState :=
  write_file s1 (some h) (bytes_of B) B.length

/-- After `rt_write`: `seek_file(h, 0)` and `read_file(h, buf, len(B))` on the
same handle. -/
def rt_read_same (s1 : FSState) (h : FileInternals) (B : List Byte) (buf : Block) :
    Nat × File × Block × FSState :=
  read_file (seek_file (rt_write s1 h B).2.2 (rt_write s1 h B).2.1 0).2.2
    (seek_file (rt_write s1 h B).2.2 (rt_write s1 h B).2.1 0).2.1 buf B.length

/-- After `rt_write`: `close_file(h)` and `open_file(name, mode)`. -/
def rt_reopen (s1 : FSState) (h : FileInternals) (B : List Byte) (name : List Byte)
    (mode : FileMode) : File × FSState :=
  open_file (close_file (rt_write s1 h B).2.2 (rt_write s1 h B).2.1) name mode

/-- After `rt_reopen`: `read_file(g, buf, len(B))` on the fresh handle. -/
def rt_read_reopened (s1 : FSState) (h : FileInternals) (B : List Byte) (name : List Byte)
    (mode : FileMode) (buf : Block) : Nat × File × Block × FSState :=
  read_file (rt_reopen s1 h B name mode).2 (rt_reopen s1 h B name mode).1 buf B.length

/-- The file name `"a"`. -/
def ex_name : List Byte := [97]

/-- Example run: `create_file("a")` on a freshly formatted volume of 100
blocks. -/
def ex_created : File × FSState := create_file (formatted 100) ex_name

/-- Example run, continued: ten bytes `'A'` written through the new handle. -/
def ex_written : Nat × File × FSState :=
  write_file ex_created.2 ex_created.1 (fun _ => 65) 10

/-- Example run, continued: `seek_file` to position 100, beyond the length 10. -/
def ex_grown : Nat × File × FSState := seek_file ex_written.2.2 ex_written.2.1 100

/-- Example run, continued: `seek_file` back to position 50, between the old
length 10 and the new length 100. -/
def ex_in_hole : Nat × File × FSState := seek_file ex_grown.2.2 ex_grown.2.1 50

/-- A name of 508 characters `'b'`, one more than `MAX_FILENAME_SIZE`. -/
def long_name : List Byte := List.replicate 508 98

/-- Example run: `create_file` with the name of 508 characters on the volume
that already holds the file `"a"`. -/
def ex_long : File × FSState := create_file ex_created.2 long_name

/-- Example run: on the volume where ten bytes were written to the file `"a"`,
an `open_file` of the absent name `"b"` fails and leaves the last error
`FS_FILE_NOT_FOUND`. -/
def ex_stale : FSState := (open_file ex_written.2.2 [98] .READ_ONLY).2

/-- Example run: `create_file("a")` on a freshly formatted volume of 72 blocks,
which has the two data blocks 70 and 71. -/
def ex_small : File × FSState := create_file (formatted 72) ex_name

/-- Example run, continued: a write of 10000 bytes `'A'`, which needs three
data blocks, through the new handle. -/
def ex_short : Nat × File × FSState := write_file ex_small.2 ex_small.1 (fun _ => 65) 10000

/-- Example state: a volume of 100 blocks whose inode bitmap has every bit
set and whose other blocks are zero. -/
def ex_no_inode : FSState := ⟨⟨100, fun m _ => if m = INODE_BITMAP_BLOCK then 255 else 0⟩, .FS_NONE⟩

/-- Example run: on the volume that holds the empty file `"a"`, `seek_file` to
ten bytes before the largest file size `(13 + 2048) * 4096 = 8441856`. -/
def ex_near_max : Nat × File × FSState := seek_file ex_created.2 ex_created.1 8441846

/-- Example run, continued: a write of 20 bytes `'A'` from there. -/
def ex_over : Nat × File × FSState :=
  write_file ex_near_max.2.2 ex_near_max.2.1 (fun _ => 65) 20

/-- Example run: on the volume where ten bytes were written to the file `"a"`,
`create_file("b")`; the volume then holds two files, inodes 0 and 1. -/
def ex_two : File × FSState := create_file ex_written.2.2 [98]

/-- Example run, continued: on the example file of length 10, `seek_file` to
position 10000 raises the length to 10000; logical block 0 keeps its backing
block, logical blocks 1 and 2 have none. -/
def ex_far : Nat × File × FSState := seek_file ex_written.2.2 ex_written.2.1 10000

/-- Example run, continued: `seek_file` back to position 5000, between the old
length 10 and the new length 10000, in logical block 1. -/
def ex_far_hole : Nat × File × FSState := seek_file ex_far.2.2 ex_far.2.1 5000

/-- Example run, continued: on the volume that holds the file `"a"` and the
file created with the name of 508 characters (inode 1), the two bytes `"Hi"`
written through the handle `create_file` returned. -/
def ex_long_written : File × FSState :=
  write_seq [(bytes_of [72, 105], 2)] ex_long.1 ex_long.2

/-- Example run: `create_file` of `"p"`, `"x"` and `"y"` on a freshly formatted
volume of 100 blocks; they take the directory slots 0, 1, 2 and the inodes 0,
1, 2. -/
def ex_three : FSState :=
  (create_file (create_file (create_file (formatted 100) [112]).2 [120]).2 [121]).2

/-- Example run, continued: `delete_file("p")` frees slot 0 and inode 0. -/
def ex_gap : Nat × FSState := delete_file ex_three [112]

/-- A name of 513 characters: 512 characters `'b'` and then `'y'`. -/
def spill_name : List Byte := List.replicate 512 98 ++ [121]

/-- Example run, continued: `create_file` with the name of 513 characters; it
takes slot 0, and `strcpy` writes its last character and the NUL over the
first two bytes of slot 1. -/
def ex_spilled : File × FSState := create_file ex_gap.2 spill_name

/-- A name of 1023 characters `'b'`: with its NUL it fills two directory
entries of 512 bytes. -/
def double_name : List Byte := List.replicate 1023 98

/-- Example run: `create_file` with the name of 1023 characters on a freshly
formatted volume of 100 blocks. -/
def ex_double : File × FSState := create_file (formatted 100) double_name

/-- A name of 511 characters: 508 characters `'b'` and then the bytes 48, 2
and 1.  Copied over a directory entry it fills `filename`, stores the inode
number `48 + 2 * 256 = 560` and sets `used` to 1. -/
def alias_name : List Byte := List.replicate 508 98 ++ [48, 2, 1]

/-- A name of 1023 characters: 512 characters `'c'` and then `alias_name`. -/
def clobber_name : List Byte := List.replicate 512 99 ++ alias_name

/-- Example run: on the volume where ten bytes `'A'` were written to the file
`"a"` (inode 0, data block 70), `create_file` with the name of 1023
characters.  It takes slot 1 and inode 1, and `strcpy` writes `alias_name`
and the NUL over slot 2. -/
def ex_clobbered : File × FSState := create_file ex_written.2.2 clobber_name

/-- Example run, continued: `create_file("F")`.  It takes slot 3 and inode 2;
the first bytes of slot 3, 70 and 0, are also the first direct pointer of
the record that `load_inode` reads for inode number 560 (block
`2 + 560 / 128 = 6`, index `560 % 128 = 48`, byte offset `48 * 32 = 1536`). -/
def ex_f : File × FSState := create_file ex_clobbered.2 [70]

/-- Example run, continued: `delete_file` of the name that slot 2 stores. -/
def ex_alias_deleted : Nat × FSState := delete_file ex_f.2 alias_name

/-- Example run, continued: ten bytes `'B'` written through the handle that
`create_file("F")` returned. -/
def ex_reused : Nat × File × FSState :=
  write_file ex_alias_deleted.2 ex_f.1 (fun _ => 66) 10

/-! ## Bytes and bitmaps -/

theorem toByte_val (n : Nat) : (toByte n).val = n % 256 := rfl

theorem toByte_of_lt {n : Nat} (h : n < 256) : (toByte n).val = n := by
  simp [toByte, Nat.mod_eq_of_lt h]

theorem toByte_self (b : Byte) : toByte b.val = b := by
  apply Fin.ext; simp [toByte, Nat.mod_eq_of_lt b.isLt]

theorem testBit_mod_256 (x k : Nat) : (x % 256).testBit k = (decide (k < 8) && x.testBit k) :=
  Nat.testBit_mod_two_pow x 8 k

theorem testBit_255 (k : Nat) : (255 : Nat).testBit k = decide (k < 8) :=
  Nat.testBit_two_pow_sub_one 8 k

theorem div_mod_eq_iff (i j : Nat) : (j / 8 = i / 8 ∧ j % 8 = i % 8) ↔ j = i := by
  constructor
  · rintro ⟨h1, h2⟩; omega
  · rintro rfl; exact ⟨rfl, rfl⟩

theorem bit_is_set_set_bit (buf : Block) (i j : Nat) :
    bit_is_set (set_bit buf i) j = (bit_is_set buf j || decide (j = i)) := by
  unfold bit_is_set set_bit
  have hj : j % 8 < 8 := Nat.mod_lt _ (by decide)
  by_cases h : j / 8 = i / 8
  · simp only [h, if_true, toByte_val]
    rw [testBit_mod_256, Nat.testBit_or, Nat.testBit_shiftLeft]
    simp only [hj, decide_True, Bool.true_and]
    by_cases h2 : j % 8 = i % 8
    · have : j = i := (div_mod_eq_iff i j).1 ⟨h, h2⟩
      subst this; simp
    · have hne : j ≠ i := fun e => h2 (by rw [e])
      have : ¬ (i % 8 ≤ j % 8 ∧ j % 8 - i % 8 = 0) := by omega
      by_cases h3 : i % 8 ≤ j % 8
      · have h4 : j % 8 - i % 8 ≠ 0 := by omega
        obtain ⟨k, hk⟩ := Nat.exists_eq_succ_of_ne_zero h4
        simp [h3, hne, hk, Nat.testBit_succ]
      · simp [h3, hne]
  · have hne : j ≠ i := fun e => h (by rw [e])
    simp [h, hne]

theorem bit_is_set_clear_bit (buf : Block) (i j : Nat) :
    bit_is_set (clear_bit buf i) j = (bit_is_set buf j && !decide (j = i)) := by
  unfold bit_is_set clear_bit
  have hj : j % 8 < 8 := Nat.mod_lt _ (by decide)
  by_cases h : j / 8 = i / 8
  · simp only [h, if_true, toByte_val]
    rw [testBit_mod_256, Nat.testBit_and, Nat.testBit_xor, testBit_255, Nat.testBit_shiftLeft]
    simp only [hj, decide_True, Bool.true_and]
    by_cases h2 : j % 8 = i % 8
    · have : j = i := (div_mod_eq_iff i j).1 ⟨h, h2⟩
      subst this; simp
    · have hne : j ≠ i := fun e => h2 (by rw [e])
      by_cases h3 : i % 8 ≤ j % 8
      · have h4 : j % 8 - i % 8 ≠ 0 := by omega
        obtain ⟨k, hk⟩ := Nat.exists_eq_succ_of_ne_zero h4
        simp [h3, hne, hk, Nat.testBit_succ]
      · simp [h3, hne]
  · have hne : j ≠ i := fun e => h (by rw [e])
    simp [h, hne]

/-- A buffer is determined by its bits. -/
theorem block_ext_bits {b1 b2 : Block} (h : ∀ i, bit_is_set b1 i = bit_is_set b2 i) :
    b1 = b2 := by
  funext k
  apply Fin.ext
  apply Nat.eq_of_testBit_eq
  intro m
  by_cases hm : m < 8
  · have := h (8 * k + m)
    unfold bit_is_set at this
    have e1 : (8 * k + m) / 8 = k := by omega
    have e2 : (8 * k + m) % 8 = m := by omega
    rw [e1, e2] at this
    exact this
  · have h1 : (b1 k).val < 2 ^ m :=
      lt_of_lt_of_le (b1 k).isLt (by
        calc 256 = 2 ^ 8 := by norm_num
          _ ≤ 2 ^ m := Nat.pow_le_pow_right (by decide) (by omega))
    have h2 : (b2 k).val < 2 ^ m :=
      lt_of_lt_of_le (b2 k).isLt (by
        calc 256 = 2 ^ 8 := by norm_num
          _ ≤ 2 ^ m := Nat.pow_le_pow_right (by decide) (by omega))
    rw [Nat.testBit_lt_two_pow h1, Nat.testBit_lt_two_pow h2]

/-! ## Integer fields -/

theorem rd16_lt (buf : Block) (o : Nat) : rd16 buf o < 65536 := by
  unfold rd16
  have h1 := (buf o).isLt
  have h2 := (buf (o + 1)).isLt
  omega

theorem rd32_lt (buf : Block) (o : Nat) : rd32 buf o < 2 ^ 32 := by
  unfold rd32
  have h1 := (buf o).isLt
  have h2 := (buf (o + 1)).isLt
  have h3 := (buf (o + 2)).isLt
  have h4 := (buf (o + 3)).isLt
  norm_num
  omega

theorem rd16_wr16_same (buf : Block) (o v : Nat) : rd16 (wr16 buf o v) o = v % 65536 := by
  unfold rd16 wr16
  simp [toByte_val]
  omega

theorem rd16_wr16_other (buf : Block) (o o1 v : Nat) (h : o1 + 1 < o ∨ o + 1 < o1) :
    rd16 (wr16 buf o v) o1 = rd16 buf o1 := by
  unfold rd16 wr16
  have h1 : o1 ≠ o := by omega
  have h2 : o1 ≠ o + 1 := by omega
  have h3 : o1 + 1 ≠ o := by omega
  have h4 : o1 + 1 ≠ o + 1 := by omega
  simp [h1, h2, h3, h4]

theorem rd16_congr {b1 b2 : Block} {o : Nat} (h0 : b1 o = b2 o) (h1 : b1 (o + 1) = b2 (o + 1)) :
    rd16 b1 o = rd16 b2 o := by
  unfold rd16; rw [h0, h1]

theorem rd32_congr {b1 b2 : Block} {o : Nat} (h0 : b1 o = b2 o) (h1 : b1 (o + 1) = b2 (o + 1))
    (h2 : b1 (o + 2) = b2 (o + 2)) (h3 : b1 (o + 3) = b2 (o + 3)) :
    rd32 b1 o = rd32 b2 o := by
  unfold rd32; rw [h0, h1, h2, h3]

/-! ## Inode records -/

theorem Inode.ext_inode {a b : Inode} (h1 : ∀ i, a.direct i = b.direct i)
    (h2 : a.indirect = b.indirect) (h3 : a.size = b.size) : a = b := by
  cases a; cases b
  simp only [Inode.mk.injEq]
  exact ⟨funext h1, h2, h3⟩

theorem get_inode_wf (buf : Block) (slot : Nat) : (get_inode buf slot).WF := by
  refine ⟨?_, ?_, rd16_lt _ _, rd32_lt _ _⟩
  · intro i
    simp only [get_inode]
    split
    · exact rd16_lt _ _
    · decide
  · intro i hi
    simp only [get_inode]
    rw [if_neg (by omega)]

theorem Inode.zero_wf : Inode.zero.WF :=
  ⟨fun _ => by simp [Inode.zero], fun _ _ => rfl, by simp [Inode.zero], by simp [Inode.zero]⟩

theorem Inode.setDirect_wf {n : Inode} (h : n.WF) {i : Nat} (hi : i < NUM_DIRECT_INODE_BLOCKS)
    (v : Nat) : (n.setDirect i v).WF := by
  refine ⟨?_, ?_, h.indirect_lt, h.size_lt⟩
  · intro j
    simp only [Inode.setDirect]
    split
    · exact Nat.mod_lt _ (by decide)
    · exact h.direct_lt j
  · intro j hj
    simp only [Inode.setDirect]
    rw [if_neg (by omega)]
    exact h.direct_zero j hj

theorem put_inode_byte_in (buf : Block) (slot : Nat) (n : Inode) (r : Nat) (hr : r < 32) :
    put_inode buf slot n (INODE_SIZE * slot + r) = inode_byte n r := by
  unfold put_inode INODE_SIZE
  rw [if_pos (by omega)]
  congr 1
  omega

theorem put_inode_byte_out (buf : Block) (slot : Nat) (n : Inode) (k : Nat)
    (hk : k < INODE_SIZE * slot ∨ INODE_SIZE * slot + INODE_SIZE ≤ k) :
    put_inode buf slot n k = buf k := by
  unfold put_inode
  rw [if_neg (by omega)]

theorem rd16_put_in (buf : Block) (slot : Nat) (n : Inode) (r : Nat) (hr : r + 1 < 32) :
    rd16 (put_inode buf slot n) (INODE_SIZE * slot + r)
      = (inode_byte n r).val + 256 * (inode_byte n (r + 1)).val := by
  unfold rd16
  rw [Nat.add_assoc, put_inode_byte_in _ _ _ r (by omega),
    put_inode_byte_in _ _ _ (r + 1) (by omega)]

theorem rd16_put_out (buf : Block) {slot slot1 : Nat} (n : Inode) (h : slot1 ≠ slot) (r : Nat)
    (hr : r + 1 < 32) :
    rd16 (put_inode buf slot n) (INODE_SIZE * slot1 + r) = rd16 buf (INODE_SIZE * slot1 + r) := by
  unfold rd16
  rw [put_inode_byte_out, put_inode_byte_out]
  · unfold INODE_SIZE; omega
  · unfold INODE_SIZE; omega

theorem get_put_same (buf : Block) (slot : Nat) {n : Inode} (h : n.WF) :
    get_inode (put_inode buf slot n) slot = n := by
  apply Inode.ext_inode
  · intro i
    simp only [get_inode]
    split
    · rename_i hi
      unfold NUM_DIRECT_INODE_BLOCKS at hi
      rw [rd16_put_in _ _ _ (2 * i) (by omega)]
      unfold inode_byte
      rw [if_pos (by omega), if_pos (by omega)]
      have e1 : 2 * i / 2 = i := by omega
      have e2 : (2 * i + 1) / 2 = i := by omega
      have e3 : 2 * i % 2 = 0 := by omega
      have e4 : (2 * i + 1) % 2 = 1 := by omega
      rw [e1, e2, e3, e4, toByte_val, toByte_val]
      have := h.direct_lt i
      simp only [pow_zero, pow_one, Nat.div_one]
      omega
    · rename_i hi
      exact (h.direct_zero i (by omega)).symm
  · simp only [get_inode]
    rw [rd16_put_in _ _ _ 26 (by omega)]
    have := h.indirect_lt
    simp [inode_byte, toByte_val]
    omega
  · simp only [get_inode]
    unfold rd32
    rw [Nat.add_assoc, Nat.add_assoc, Nat.add_assoc,
      put_inode_byte_in _ _ _ 28 (by omega),
      put_inode_byte_in _ _ _ (28 + 1) (by omega),
      put_inode_byte_in _ _ _ (28 + 2) (by omega),
      put_inode_byte_in _ _ _ (28 + 3) (by omega)]
    have := h.size_lt
    simp [inode_byte, toByte_val] at this ⊢
    omega

theorem get_put_other (buf : Block) {slot slot1 : Nat} (n : Inode) (h : slot1 ≠ slot) :
    get_inode (put_inode buf slot n) slot1 = get_inode buf slot1 := by
  apply Inode.ext_inode
  · intro i
    simp only [get_inode]
    split
    · rename_i hi
      unfold NUM_DIRECT_INODE_BLOCKS at hi
      exact rd16_put_out buf n h (2 * i) (by omega)
    · rfl
  · simp only [get_inode]
    exact rd16_put_out buf n h 26 (by omega)
  · simp only [get_inode]
    unfold rd32
    rw [put_inode_byte_out, put_inode_byte_out, put_inode_byte_out, put_inode_byte_out]
    all_goals (unfold INODE_SIZE; omega)

/-! ## The block device -/

theorem read_sd_block_of_lt {d : Disk} {n : Nat} (h : n < d.capacity) :
    read_sd_block d n = some (d.blocks n) := by
  simp [read_sd_block, h]

theorem read_sd_block_eq_some {d : Disk} {n : Nat} {buf : Block}
    (h : read_sd_block d n = some buf) : n < d.capacity ∧ buf = d.blocks n := by
  unfold read_sd_block at h
  split at h
  · rename_i hlt; exact ⟨hlt, by injection h with h; exact h.symm⟩
  · cases h

theorem read_sd_block_eq_none {d : Disk} {n : Nat} (h : read_sd_block d n = none) :
    d.capacity ≤ n := by
  unfold read_sd_block at h
  split at h
  · cases h
  · omega

theorem read_unchecked_of_lt {d : Disk} {n : Nat} (h : n < d.capacity) :
    read_unchecked d n = d.blocks n := by
  simp [read_unchecked, read_sd_block_of_lt h]

theorem write_unchecked_capacity (d : Disk) (buf : Block) (n : Nat) :
    (write_unchecked d buf n).capacity = d.capacity := by
  unfold write_unchecked write_sd_block
  split <;> rename_i h
  · split at h
    · injection h with h; rw [← h]
    · cases h
  · rfl

theorem write_unchecked_blocks_of_lt {d : Disk} (buf : Block) {n : Nat} (h : n < d.capacity)
    (m : Nat) : (write_unchecked d buf n).blocks m = if m = n then buf else d.blocks m := by
  simp [write_unchecked, write_sd_block, h]

theorem write_unchecked_blocks_ne (d : Disk) (buf : Block) {n m : Nat} (h : m ≠ n) :
    (write_unchecked d buf n).blocks m = d.blocks m := by
  unfold write_unchecked write_sd_block
  split <;> rename_i h1
  · split at h1
    · injection h1 with h1; rw [← h1]; simp [h]
    · cases h1
  · rfl

theorem write_unchecked_of_ge {d : Disk} (buf : Block) {n : Nat} (h : d.capacity ≤ n) :
    write_unchecked d buf n = d := by
  unfold write_unchecked write_sd_block
  rw [if_neg (by omega)]

theorem write_sd_block_eq_some {d d1 : Disk} {buf : Block} {n : Nat}
    (h : write_sd_block d buf n = some d1) :
    n < d.capacity ∧ d1.capacity = d.capacity ∧
      ∀ m, d1.blocks m = if m = n then buf else d.blocks m := by
  unfold write_sd_block at h
  split at h
  · rename_i hlt
    injection h with h
    subst h
    exact ⟨hlt, rfl, fun m => rfl⟩
  · cases h

theorem write_sd_block_of_lt {d : Disk} (buf : Block) {n : Nat} (h : n < d.capacity) :
    write_sd_block d buf n
      = some { d with blocks := fun m => if m = n then buf else d.blocks m } := by
  simp [write_sd_block, h]

theorem Disk.ext_disk {a b : Disk} (h1 : a.capacity = b.capacity)
    (h2 : ∀ m, a.blocks m = b.blocks m) : a = b := by
  cases a; cases b
  simp only [Disk.mk.injEq]
  exact ⟨h1, funext h2⟩

/-! ## Allocation of data blocks -/

theorem mem_data_range {cap q : Nat} :
    q ∈ List.range' FIRST_DATA_BLOCK (cap - FIRST_DATA_BLOCK) ↔ FIRST_DATA_BLOCK ≤ q ∧ q < cap := by
  rw [List.mem_range'_1]
  unfold FIRST_DATA_BLOCK
  omega

/-- What a successful `alloc_data_block` does: the block returned is the lowest
data block whose bit was clear, and only that bit of block 0 changes. -/
theorem alloc_data_block_some {s s1 : FSState} {p : Nat}
    (h : alloc_data_block s = (some p, s1)) :
    FIRST_DATA_BLOCK ≤ p ∧ p < s.disk.capacity ∧ data_bit s.disk p = false ∧
      (∀ q, FIRST_DATA_BLOCK ≤ q → q < p → data_bit s.disk q = true) ∧
      s1.disk.capacity = s.disk.capacity ∧ s1.fserror = s.fserror ∧
      0 < s.disk.capacity ∧
      ∀ m, s1.disk.blocks m = if m = 0 then set_bit (s.disk.blocks 0) p else s.disk.blocks m := by
  unfold alloc_data_block at h
  split at h
  · cases h
  · rename_i bitmap hr
    obtain ⟨h0, hb⟩ := read_sd_block_eq_some hr
    subst hb
    split at h
    · cases h
    · rename_i q hq
      split at h
      · cases h
      · rename_i d1 hw
        simp only [Prod.mk.injEq, Option.some.injEq] at h
        obtain ⟨hqp, hs⟩ := h
        subst hqp
        subst hs
        obtain ⟨_, hc, hbl⟩ := write_sd_block_eq_some hw
        have hmem := List.mem_of_find?_eq_some hq
        rw [mem_data_range] at hmem
        have hp := List.find?_some hq
        simp only [Bool.not_eq_true'] at hp
        refine ⟨hmem.1, hmem.2, hp, ?_, hc, rfl, h0, hbl⟩
        intro r hr1 hr2
        rw [List.find?_eq_some] at hq
        obtain ⟨_, as, bs, hsplit, hall⟩ := hq
        have hrmem : r ∈ List.range' FIRST_DATA_BLOCK (s.disk.capacity - FIRST_DATA_BLOCK) :=
          mem_data_range.2 ⟨hr1, by omega⟩
        rw [hsplit] at hrmem
        rcases List.mem_append.1 hrmem with hin | hin
        · have := hall r hin
          simpa [data_bit] using this
        · exfalso
          have hsorted : (List.range' FIRST_DATA_BLOCK (s.disk.capacity - FIRST_DATA_BLOCK)).Pairwise
              (· < ·) := List.pairwise_lt_range' _ _
          rw [hsplit, List.pairwise_append] at hsorted
          rcases List.mem_cons.1 hin with e | hin2
          · omega
          · have := (List.pairwise_cons.1 hsorted.2.1).1 r hin2
            omega

theorem alloc_data_block_none {s s1 : FSState} (h : alloc_data_block s = (none, s1)) :
    s1.disk = s.disk ∧ (0 < s.disk.capacity →
      s1.fserror = .FS_OUT_OF_SPACE ∧
      ∀ q, FIRST_DATA_BLOCK ≤ q → q < s.disk.capacity → data_bit s.disk q = true) := by
  unfold alloc_data_block at h
  split at h
  · rename_i hr
    have := read_sd_block_eq_none hr
    simp only [Prod.mk.injEq, true_and] at h
    subst h
    exact ⟨rfl, fun h0 => by omega⟩
  · rename_i bitmap hr
    obtain ⟨h0, hb⟩ := read_sd_block_eq_some hr
    subst hb
    split at h
    · rename_i hnone
      simp only [Prod.mk.injEq, true_and] at h
      subst h
      refine ⟨rfl, fun _ => ⟨rfl, ?_⟩⟩
      intro q hq1 hq2
      rw [List.find?_eq_none] at hnone
      have := hnone q (mem_data_range.2 ⟨hq1, hq2⟩)
      simpa [data_bit] using this
    · rename_i q hq
      split at h
      · rename_i hw
        exfalso
        rw [write_sd_block_of_lt _ h0] at hw
        cases hw
      · cases h

theorem alloc_data_block_succeeds {s : FSState} (h0 : 0 < s.disk.capacity) {q : Nat}
    (hq1 : FIRST_DATA_BLOCK ≤ q) (hq2 : q < s.disk.capacity) (hq : data_bit s.disk q = false) :
    ∃ p s1, alloc_data_block s = (some p, s1) := by
  rcases hres : alloc_data_block s with ⟨r, s1⟩
  cases r with
  | some p => exact ⟨p, s1, rfl⟩
  | none =>
    have := ((alloc_data_block_none hres).2 h0).2 q hq1 hq2
    rw [hq] at this
    cases this

/-! ## The resolver without allocation -/

theorem block_of_direct (d : Disk) (node : Inode) {lb : Nat} (h : lb < NUM_DIRECT_INODE_BLOCKS) :
    block_of d node lb = nonzero_or_fail (node.direct lb) := by
  simp [block_of, get_data_block_for_offset, h]

theorem block_of_no_indirect (d : Disk) (node : Inode) {lb : Nat}
    (h : NUM_DIRECT_INODE_BLOCKS ≤ lb) (h0 : node.indirect = 0) : block_of d node lb = none := by
  have : ¬ lb < NUM_DIRECT_INODE_BLOCKS := by omega
  simp [block_of, get_data_block_for_offset, this, ensure_indirect, h0]

theorem block_of_too_large (d : Disk) (node : Inode) {lb : Nat}
    (h : NUM_DIRECT_INODE_BLOCKS + NUM_SINGLE_INDIRECT_BLOCKS ≤ lb) : block_of d node lb = none := by
  have h1 : ¬ lb < NUM_DIRECT_INODE_BLOCKS := by omega
  have h2 : NUM_SINGLE_INDIRECT_BLOCKS ≤ lb - NUM_DIRECT_INODE_BLOCKS := by omega
  unfold block_of get_data_block_for_offset
  rw [if_neg h1]
  unfold ensure_indirect indirect_lookup
  by_cases h0 : node.indirect = 0
  · simp [h0]
  · simp [h0, h2]

theorem block_of_entry (d : Disk) (node : Inode) {lb : Nat}
    (h : NUM_DIRECT_INODE_BLOCKS ≤ lb) (h0 : node.indirect ≠ 0)
    (h2 : lb < NUM_DIRECT_INODE_BLOCKS + NUM_SINGLE_INDIRECT_BLOCKS) :
    block_of d node lb
      = nonzero_or_fail (rd16 (read_unchecked d node.indirect)
          (2 * (lb - NUM_DIRECT_INODE_BLOCKS))) := by
  have h1 : ¬ lb < NUM_DIRECT_INODE_BLOCKS := by omega
  have h3 : ¬ NUM_SINGLE_INDIRECT_BLOCKS ≤ lb - NUM_DIRECT_INODE_BLOCKS := by omega
  unfold block_of get_data_block_for_offset
  rw [if_neg h1]
  unfold ensure_indirect indirect_lookup
  simp [h0, h3]

/-- A call of `get_data_block_for_offset` without allocation leaves the inode
and the disk alone and answers `block_of`; it sets `FS_EXCEEDS_MAX_FILE_SIZE`
exactly when the inode has an indirect block and the index is beyond it. -/
theorem get_data_block_no_alloc (s : FSState) (node : Inode) (lb : Nat) :
    get_data_block_for_offset s node lb false
      = (block_of s.disk node lb, node,
          ⟨s.disk, if NUM_DIRECT_INODE_BLOCKS ≤ lb ∧ node.indirect ≠ 0 ∧
              NUM_SINGLE_INDIRECT_BLOCKS ≤ lb - NUM_DIRECT_INODE_BLOCKS
            then .FS_EXCEEDS_MAX_FILE_SIZE else s.fserror⟩) := by
  unfold block_of get_data_block_for_offset
  by_cases h1 : lb < NUM_DIRECT_INODE_BLOCKS
  · have : ¬ NUM_DIRECT_INODE_BLOCKS ≤ lb := by omega
    simp [h1, this]
  · have h1' : NUM_DIRECT_INODE_BLOCKS ≤ lb := by omega
    rw [if_neg h1, if_neg h1]
    unfold ensure_indirect indirect_lookup
    by_cases h0 : node.indirect = 0
    · simp [h0]
    · by_cases h2 : NUM_SINGLE_INDIRECT_BLOCKS ≤ lb - NUM_DIRECT_INODE_BLOCKS
      · simp [h0, h2, h1']
      · simp [h0, h2, h1']

theorem nonzero_or_fail_eq_some {v p : Nat} (h : nonzero_or_fail v = some p) : v = p ∧ p ≠ 0 := by
  unfold nonzero_or_fail at h
  split at h
  · cases h
  · rename_i hv; injection h with h; subst h; exact ⟨rfl, hv⟩

theorem nonzero_or_fail_of_ne {v : Nat} (h : v ≠ 0) : nonzero_or_fail v = some v := by
  simp [nonzero_or_fail, h]

/-- A backing block is the non-zero value of the slot that addresses the
logical block. -/
theorem block_of_eq_some {d : Disk} {node : Inode} {lb p : Nat} (h : block_of d node lb = some p) :
    p ≠ 0 ∧
    ((lb < NUM_DIRECT_INODE_BLOCKS ∧ node.direct lb = p) ∨
     (NUM_DIRECT_INODE_BLOCKS ≤ lb ∧ lb < NUM_DIRECT_INODE_BLOCKS + NUM_SINGLE_INDIRECT_BLOCKS ∧
       node.indirect ≠ 0 ∧
       rd16 (read_unchecked d node.indirect) (2 * (lb - NUM_DIRECT_INODE_BLOCKS)) = p)) := by
  by_cases h1 : lb < NUM_DIRECT_INODE_BLOCKS
  · rw [block_of_direct d node h1] at h
    obtain ⟨e, hp⟩ := nonzero_or_fail_eq_some h
    exact ⟨hp, Or.inl ⟨h1, e⟩⟩
  · have h1' : NUM_DIRECT_INODE_BLOCKS ≤ lb := by omega
    by_cases h0 : node.indirect = 0
    · rw [block_of_no_indirect d node h1' h0] at h; cases h
    · by_cases h2 : lb < NUM_DIRECT_INODE_BLOCKS + NUM_SINGLE_INDIRECT_BLOCKS
      · rw [block_of_entry d node h1' h0 h2] at h
        obtain ⟨e, hp⟩ := nonzero_or_fail_eq_some h
        exact ⟨hp, Or.inr ⟨h1', h2, h0, e⟩⟩
      · rw [block_of_too_large d node (by omega)] at h; cases h

/-! ## The ownership invariant: generic preservation lemmas -/

/-- The invariant only depends on the capacity, the bitmap bits and the slot
values of the selected inodes. -/
theorem PtrInv.congr {d d1 : Disk} {U : Nat → Prop} {tab tab1 : Nat → Inode}
    (h : PtrInv d U tab) (hcap : d1.capacity = d.capacity)
    (hbit : ∀ b, data_bit d b = true → data_bit d1 b = true)
    (hvalid : ∀ n (sl : Slot), U n → sl.valid (tab1 n) → sl.valid (tab n))
    (hval : ∀ n (sl : Slot), U n → sl.valid (tab1 n) → slot_val d1 (tab1 n) sl = slot_val d (tab n) sl) :
    PtrInv d1 U tab1 := by
  constructor
  · intro n sl hU hv hne
    rw [hval n sl hU hv] at hne ⊢
    obtain ⟨h1, h2, h3⟩ := h.range n sl hU (hvalid n sl hU hv) hne
    exact ⟨h1, by omega, hbit _ h3⟩
  · intro n m sl sl1 hUn hUm hv hv1 hne heq
    rw [hval n sl hUn hv] at hne heq
    rw [hval m sl1 hUm hv1] at heq
    exact h.inj n m sl sl1 hUn hUm (hvalid n sl hUn hv) (hvalid m sl1 hUm hv1) hne heq

/-- Restriction of the invariant to fewer inodes. -/
theorem PtrInv.restrict {d : Disk} {U V : Nat → Prop} {tab : Nat → Inode}
    (h : PtrInv d U tab) (hVU : ∀ n, V n → U n) : PtrInv d V tab :=
  ⟨fun n sl hV => h.range n sl (hVU n hV),
   fun n m sl sl1 hVn hVm => h.inj n m sl sl1 (hVU n hVn) (hVU m hVm)⟩

/-- Storing a freshly allocated block `p` in slot `sl0` of inode `n` keeps the
invariant: every other slot of `n` is zero or as before, the slots of the other
inodes are as before, and the only new bitmap bit is the one of `p`. -/
theorem PtrInv.add {d d1 : Disk} {U : Nat → Prop} {tab : Nat → Inode} {n p : Nat}
    {node1 : Inode} {sl0 : Slot}
    (h : PtrInv d U tab) (hcap : d1.capacity = d.capacity)
    (hp1 : FIRST_DATA_BLOCK ≤ p) (hp2 : p < d.capacity) (hfresh : data_bit d p = false)
    (hbit : ∀ b, data_bit d1 b = (data_bit d b || decide (b = p)))
    (hother : ∀ m (sl : Slot), U m → m ≠ n → sl.valid (tab m) →
      slot_val d1 (tab m) sl = slot_val d (tab m) sl)
    (hnew : slot_val d1 node1 sl0 = p)
    (hold : ∀ sl : Slot, sl.valid node1 → sl ≠ sl0 →
      slot_val d1 node1 sl = 0 ∨ (sl.valid (tab n) ∧ slot_val d1 node1 sl = slot_val d (tab n) sl)) :
    PtrInv d1 U (fun m => if m = n then node1 else tab m) := by
  have hp0 : p ≠ 0 := by unfold FIRST_DATA_BLOCK at hp1; omega
  -- every non-zero slot value of the new table is `p` or an old slot value
  have key : ∀ m (sl : Slot), U m → sl.valid (if m = n then node1 else tab m) →
      slot_val d1 (if m = n then node1 else tab m) sl ≠ 0 →
      (m = n ∧ sl = sl0 ∧ slot_val d1 (if m = n then node1 else tab m) sl = p) ∨
      (sl.valid (tab m) ∧ slot_val d1 (if m = n then node1 else tab m) sl = slot_val d (tab m) sl
        ∧ ¬ (m = n ∧ sl = sl0)) := by
    intro m sl hU hv hne
    by_cases hm : m = n
    · subst hm
      simp only [if_true] at hv hne ⊢
      by_cases hs : sl = sl0
      · subst hs; exact Or.inl ⟨trivial, rfl, hnew⟩
      · rcases hold sl hv hs with h0 | ⟨h1, h2⟩
        · exact absurd h0 hne
        · exact Or.inr ⟨h1, h2, fun c => hs c.2⟩
    · simp only [if_neg hm] at hv hne ⊢
      exact Or.inr ⟨hv, hother m sl hU hm hv, fun c => hm c.1⟩
  constructor
  · intro m sl hU hv hne
    rcases key m sl hU hv hne with ⟨_, _, e⟩ | ⟨h1, h2, _⟩
    · rw [e]
      refine ⟨hp1, by omega, ?_⟩
      rw [hbit]; simp
    · rw [h2] at hne ⊢
      obtain ⟨a, b, c⟩ := h.range m sl hU h1 hne
      refine ⟨a, by omega, ?_⟩
      rw [hbit, c]; rfl
  · intro m m1 sl sl1 hUm hUm1 hv hv1 hne heq
    have hne1 : slot_val d1 (if m1 = n then node1 else tab m1) sl1 ≠ 0 := by
      rw [← heq]; exact hne
    rcases key m sl hUm hv hne with ⟨e1, e2, e3⟩ | ⟨h1, h2, h3⟩
    · rcases key m1 sl1 hUm1 hv1 hne1 with ⟨f1, f2, _⟩ | ⟨g1, g2, _⟩
      · exact ⟨e1.trans f1.symm, e2.trans f2.symm⟩
      · exfalso
        rw [e3, g2] at heq
        have hne2 : slot_val d (tab m1) sl1 ≠ 0 := by rw [← heq]; exact hp0
        have := (h.range m1 sl1 hUm1 g1 hne2).2.2
        rw [← heq, hfresh] at this
        cases this
    · rcases key m1 sl1 hUm1 hv1 hne1 with ⟨f1, f2, f3⟩ | ⟨g1, g2, _⟩
      · exfalso
        rw [h2, f3] at heq
        have hne2 : slot_val d (tab m) sl ≠ 0 := by rw [heq]; exact hp0
        have := (h.range m sl hUm h1 hne2).2.2
        rw [heq, hfresh] at this
        cases this
      · rw [h2] at hne
        rw [h2, g2] at heq
        exact h.inj m m1 sl sl1 hUm hUm1 h1 g1 hne heq

/-! ## Free blocks -/

theorem data_bit_after_set {d d1 : Disk} {p : Nat} (h : d1.blocks 0 = set_bit (d.blocks 0) p)
    (b : Nat) : data_bit d1 b = (data_bit d b || decide (b = p)) := by
  unfold data_bit
  rw [h, bit_is_set_set_bit]

theorem FreeAtLeast.of_free_count {d : Disk} {k : Nat} (h : k ≤ free_count d) :
    FreeAtLeast d k := by
  refine ⟨_, (List.nodup_range' _ _).filter _, h, ?_⟩
  intro b hb
  rw [List.mem_filter, mem_data_range] at hb
  refine ⟨hb.1.1, hb.1.2, ?_⟩
  simpa using hb.2

theorem FreeAtLeast.weaken {d : Disk} {k j : Nat} (h : FreeAtLeast d k) (hj : j ≤ k) :
    FreeAtLeast d j := by
  obtain ⟨L, h1, h2, h3⟩ := h
  exact ⟨L, h1, by omega, h3⟩

/-- With a free block left, `alloc_data_block` succeeds and uses up one. -/
theorem alloc_data_block_of_free {s : FSState} {k : Nat} (h : FreeAtLeast s.disk (k + 1)) :
    ∃ p s1, alloc_data_block s = (some p, s1) ∧ FreeAtLeast s1.disk k := by
  obtain ⟨L, hnd, hlen, hfree⟩ := h
  have hne : L ≠ [] := by
    intro e; rw [e] at hlen; simp at hlen
  obtain ⟨b, hb⟩ := List.exists_mem_of_ne_nil L hne
  obtain ⟨hb1, hb2, hb3⟩ := hfree b hb
  obtain ⟨p, s1, hs⟩ := alloc_data_block_succeeds (s := s) (by omega) hb1 hb2 hb3
  refine ⟨p, s1, hs, L.erase p, hnd.erase p, ?_, ?_⟩
  · have := List.length_erase_of_mem (a := p) (l := L)
    by_cases hp : p ∈ L
    · rw [List.length_erase_of_mem hp]; omega
    · rw [List.erase_of_not_mem hp]; omega
  · intro c hc
    obtain ⟨_, _, _, _, hcap, _, _, hbl⟩ := alloc_data_block_some hs
    have hcL : c ∈ L := List.mem_of_mem_erase hc
    have hcp : c ≠ p := fun e => by
      rw [e] at hc
      exact (List.Nodup.not_mem_erase hnd) hc
    obtain ⟨c1, c2, c3⟩ := hfree c hcL
    refine ⟨c1, by omega, ?_⟩
    have h0 := hbl 0
    simp only [if_true] at h0
    rw [data_bit_after_set h0, c3]
    simp [hcp]

/-! ## Slots and backing blocks -/

theorem lb_slot_injective {a b : Nat} (h : lb_slot a = lb_slot b) : a = b := by
  unfold lb_slot at h
  split at h <;> split at h
  · injection h
  · cases h
  · cases h
  · injection h with h; omega

/-- Under the range part of the invariant, the backing block of `lb` is the
non-zero value of the slot addressing `lb`. -/
theorem block_of_iff_slot {d : Disk} {node : Inode}
    (hi : node.indirect ≠ 0 → node.indirect < d.capacity) (lb p : Nat) :
    block_of d node lb = some p ↔
      p ≠ 0 ∧ (lb_slot lb).valid node ∧ slot_val d node (lb_slot lb) = p := by
  unfold lb_slot
  by_cases h1 : lb < NUM_DIRECT_INODE_BLOCKS
  · rw [block_of_direct d node h1, if_pos h1]
    simp only [Slot.valid, slot_val, h1, true_and]
    constructor
    · intro h
      obtain ⟨e, hp⟩ := nonzero_or_fail_eq_some h
      exact ⟨hp, e⟩
    · rintro ⟨hp, e⟩
      rw [e]; exact nonzero_or_fail_of_ne hp
  · rw [if_neg h1]
    simp only [Slot.valid, slot_val]
    have h1' : NUM_DIRECT_INODE_BLOCKS ≤ lb := by omega
    by_cases h0 : node.indirect = 0
    · rw [block_of_no_indirect d node h1' h0]
      simp [h0]
    · by_cases h2 : lb < NUM_DIRECT_INODE_BLOCKS + NUM_SINGLE_INDIRECT_BLOCKS
      · rw [block_of_entry d node h1' h0 h2, read_unchecked_of_lt (hi h0)]
        have h3 : lb - NUM_DIRECT_INODE_BLOCKS < NUM_SINGLE_INDIRECT_BLOCKS := by omega
        constructor
        · intro h
          obtain ⟨e, hp⟩ := nonzero_or_fail_eq_some h
          exact ⟨hp, ⟨h0, h3⟩, e⟩
        · rintro ⟨hp, _, e⟩
          rw [e]; exact nonzero_or_fail_of_ne hp
      · rw [block_of_too_large d node (by omega)]
        have h3 : ¬ lb - NUM_DIRECT_INODE_BLOCKS < NUM_SINGLE_INDIRECT_BLOCKS := by omega
        simp [h3]

theorem PtrInv.indirect_lt {d : Disk} {U : Nat → Prop} {tab : Nat → Inode} (h : PtrInv d U tab)
    {n : Nat} (hU : U n) (h0 : (tab n).indirect ≠ 0) : (tab n).indirect < d.capacity :=
  (h.range n .indirect hU trivial h0).2.1

theorem PtrInv.holds_range {d : Disk} {U : Nat → Prop} {tab : Nat → Inode} (h : PtrInv d U tab)
    {n : Nat} (hU : U n) {b : Nat} (hb : holds d (tab n) b) :
    FIRST_DATA_BLOCK ≤ b ∧ b < d.capacity ∧ data_bit d b = true := by
  obtain ⟨hb0, sl, hv, e⟩ := hb
  subst e
  exact h.range n sl hU hv hb0

/-- Two logical blocks of one inode never share a backing block, and a backing
block is never the indirect block. -/
theorem PtrInv.block_of_inj {d : Disk} {U : Nat → Prop} {tab : Nat → Inode} (h : PtrInv d U tab)
    {n : Nat} (hU : U n) {lb lb1 p : Nat} (h1 : block_of d (tab n) lb = some p)
    (h2 : block_of d (tab n) lb1 = some p) : lb = lb1 := by
  have hi := fun h0 => h.indirect_lt hU h0
  obtain ⟨hp, hv, e⟩ := (block_of_iff_slot hi lb p).1 h1
  obtain ⟨_, hv1, e1⟩ := (block_of_iff_slot hi lb1 p).1 h2
  have := (h.inj n n _ _ hU hU hv hv1 (by rw [e]; exact hp) (by rw [e, e1])).2
  exact lb_slot_injective this

theorem PtrInv.block_of_ne_indirect {d : Disk} {U : Nat → Prop} {tab : Nat → Inode}
    (h : PtrInv d U tab) {n : Nat} (hU : U n) {lb p : Nat}
    (h1 : block_of d (tab n) lb = some p) : p ≠ (tab n).indirect := by
  have hi := fun h0 => h.indirect_lt hU h0
  obtain ⟨hp, hv, e⟩ := (block_of_iff_slot hi lb p).1 h1
  intro c
  have := (h.inj n n (lb_slot lb) .indirect hU hU hv trivial (by rw [e]; exact hp)
    (by rw [e]; exact c)).2
  unfold lb_slot at this
  split at this <;> cases this

theorem PtrInv.block_of_range {d : Disk} {U : Nat → Prop} {tab : Nat → Inode}
    (h : PtrInv d U tab) {n : Nat} (hU : U n) {lb p : Nat}
    (h1 : block_of d (tab n) lb = some p) :
    FIRST_DATA_BLOCK ≤ p ∧ p < d.capacity ∧ data_bit d p = true := by
  have hi := fun h0 => h.indirect_lt hU h0
  obtain ⟨hp, hv, e⟩ := (block_of_iff_slot hi lb p).1 h1
  have := h.range n _ hU hv (by rw [e]; exact hp)
  rw [e] at this
  exact this

/-! ## Growth of a file -/

theorem Grows.grefl (d : Disk) (node : Inode) : Grows d node d node :=
  ⟨rfl, rfl, fun _ _ _ => rfl, fun _ h => h, fun _ h => Or.inl h, fun _ hv _ => ⟨hv, rfl⟩,
    fun _ hv _ => Or.inl ⟨hv, rfl⟩⟩

theorem Grows.holds_mono {d d1 : Disk} {node node1 : Inode} (g : Grows d node d1 node1) {b : Nat}
    (hb : holds d node b) : holds d1 node1 b := by
  obtain ⟨hb0, sl, hv, e⟩ := hb
  subst e
  obtain ⟨hv1, e1⟩ := g.keep sl hv hb0
  exact ⟨hb0, sl, hv1, e1⟩

theorem Grows.gtrans {d d1 d2 : Disk} {node node1 node2 : Inode} (g1 : Grows d node d1 node1)
    (g2 : Grows d1 node1 d2 node2) : Grows d node d2 node2 := by
  refine ⟨g2.cap.trans g1.cap, g2.size.trans g1.size, ?_, ?_, ?_, ?_, ?_⟩
  · intro m hm hnh
    rw [g2.frame m hm hnh]
    exact g1.frame m hm (fun c => hnh (g2.holds_mono c))
  · intro b hb
    exact g2.bit_mono b (g1.bit_mono b hb)
  · intro b hb
    rcases g2.bit_new b hb with h1 | h1
    · rcases g1.bit_new b h1 with h2 | h2
      · exact Or.inl h2
      · exact Or.inr (g2.holds_mono h2)
    · exact Or.inr h1
  · intro sl hv hne
    obtain ⟨hv1, e1⟩ := g1.keep sl hv hne
    obtain ⟨hv2, e2⟩ := g2.keep sl hv1 (by rw [e1]; exact hne)
    exact ⟨hv2, e2.trans e1⟩
  · intro sl hv hne
    rcases g2.fresh sl hv hne with ⟨hv1, e1⟩ | hf
    · rcases g1.fresh sl hv1 (by rw [e1]; exact hne) with ⟨hv0, e0⟩ | hf
      · exact Or.inl ⟨hv0, e0.trans e1⟩
      · right; rw [← e1]; exact hf
    · right
      cases hb : data_bit d (slot_val d2 node2 sl) with
      | false => rfl
      | true => rw [g1.bit_mono _ hb] at hf; cases hf

/-! ## One allocation -/

/-- The generic allocation step: a fresh block `p` is recorded in slot `sl0` of
inode `n`; block 0 gets the bit of `p`, and the only other block that may
change is the inode's indirect block. -/
theorem add_step {d : Disk} (d1 : Disk) {U : Nat → Prop} {tab : Nat → Inode} {n p : Nat}
    (node1 : Inode) (sl0 : Slot)
    (h : PtrInv d U tab) (hU : U n) (hcap : d1.capacity = d.capacity)
    (hp1 : FIRST_DATA_BLOCK ≤ p) (hp2 : p < d.capacity) (hfresh : data_bit d p = false)
    (hblk0 : d1.blocks 0 = set_bit (d.blocks 0) p)
    (hframe : ∀ m, m ≠ 0 → m ≠ node1.indirect → d1.blocks m = d.blocks m)
    (hsize : node1.size = (tab n).size)
    (hind : node1.indirect = (tab n).indirect ∨ node1.indirect = p)
    (hv0 : sl0.valid node1) (hnew : slot_val d1 node1 sl0 = p)
    (hold : ∀ sl : Slot, sl.valid node1 → sl ≠ sl0 →
      slot_val d1 node1 sl = 0 ∨ (sl.valid (tab n) ∧ slot_val d1 node1 sl = slot_val d (tab n) sl))
    (hkeep : ∀ sl : Slot, sl.valid (tab n) → slot_val d (tab n) sl ≠ 0 →
      sl.valid node1 ∧ slot_val d1 node1 sl = slot_val d (tab n) sl) :
    PtrInv d1 U (fun m => if m = n then node1 else tab m) ∧ Grows d (tab n) d1 node1 := by
  have hp0 : p ≠ 0 := by unfold FIRST_DATA_BLOCK at hp1; omega
  have hbit := data_bit_after_set hblk0
  have hother : ∀ m (sl : Slot), U m → m ≠ n → sl.valid (tab m) →
      slot_val d1 (tab m) sl = slot_val d (tab m) sl := by
    intro m sl hUm hmn hv
    cases sl with
    | direct i => rfl
    | indirect => rfl
    | entry j =>
      simp only [slot_val]
      have h0 : (tab m).indirect ≠ 0 := hv.1
      have hr := h.range m .indirect hUm trivial h0
      simp only [slot_val] at hr
      rw [hframe _ h0]
      rcases hind with e | e
      · rw [e]
        intro c
        exact hmn (h.inj m n .indirect .indirect hUm hU trivial trivial h0 c).1
      · rw [e]
        intro c
        rw [c, hfresh] at hr
        cases hr.2.2
  refine ⟨PtrInv.add h hcap hp1 hp2 hfresh hbit hother hnew hold, ?_⟩
  refine ⟨hcap, hsize, ?_, ?_, ?_, hkeep, ?_⟩
  · intro m hm hnh
    apply hframe m hm
    intro c
    exact hnh ⟨hm, .indirect, trivial, c.symm⟩
  · intro b hb
    rw [hbit, hb]; rfl
  · intro b hb
    rw [hbit] at hb
    cases hdb : data_bit d b with
    | true => exact Or.inl rfl
    | false =>
      rw [hdb] at hb
      simp only [Bool.false_or, decide_eq_true_eq] at hb
      subst hb
      exact Or.inr ⟨hp0, sl0, hv0, hnew⟩
  · intro sl hv hne
    by_cases hs : sl = sl0
    · subst hs; right; rw [hnew]; exact hfresh
    · rcases hold sl hv hs with h0 | ⟨h1, h2⟩
      · exact absurd h0 hne
      · exact Or.inl ⟨h1, h2.symm⟩

/-- The table with the record of inode `n` replaced. -/
theorem tab_update_self (tab : Nat → Inode) (n : Nat) :
    (fun m => if m = n then tab n else tab m) = tab := by
  funext m
  split
  · rename_i e; rw [e]
  · rfl

/-! ## The allocating resolver -/

theorem tab_update_update (tab : Nat → Inode) (n : Nat) (a b : Inode) :
    (fun m => if m = n then b else (fun m => if m = n then a else tab m) m)
      = (fun m => if m = n then b else tab m) := by
  funext m
  by_cases h : m = n <;> simp [h]

/-- A call that changes neither the disk nor the inode. -/
theorem AllocSpec.unchanged {U : Nat → Prop} {tab : Nat → Inode} {n : Nat} (lb : Nat) {s : FSState}
    (s1 : FSState) (h : PtrInv s.disk U tab) (hwf : (tab n).WF) (hd : s1.disk = s.disk) :
    AllocSpec U tab n lb s (block_of s.disk (tab n) lb) (tab n) s1 := by
  refine ⟨?_, ?_, hwf, ?_, ?_, ?_, fun _ => rfl⟩
  · rw [tab_update_self, hd]; exact h
  · rw [hd]; exact Grows.grefl _ _
  · intro m _ _; rw [hd]
  · rw [hd]
  · intro lb1 _; rw [hd]

theorem AllocSpec.atrans {U : Nat → Prop} {tab : Nat → Inode} {n lb : Nat} {s s1 s2 : FSState}
    {r1 r2 : Option Nat} {node1 node2 : Inode}
    (a1 : AllocSpec U tab n lb s r1 node1 s1)
    (a2 : AllocSpec U (fun m => if m = n then node1 else tab m) n lb s1 r2 node2 s2) :
    AllocSpec U tab n lb s r2 node2 s2 := by
  have a2g := a2.grows
  have a2r := a2.res_other
  have a2i := a2.ind_direct
  simp only [if_true] at a2g a2r a2i
  refine ⟨?_, a1.grows.gtrans a2g, a2.wf, ?_, a2.res, ?_, ?_⟩
  · have := a2.inv
    rw [tab_update_update] at this
    exact this
  · intro m hm hne
    rw [a2.frame m hm hne]
    apply a1.frame m hm
    by_cases h0 : node1.indirect = 0
    · rw [h0]; exact hm
    · have := (a2g.keep .indirect trivial h0).2
      simp only [slot_val] at this
      rw [← this]; exact hne
  · intro lb1 hne
    rw [a2r lb1 hne, a1.res_other lb1 hne]
  · intro hlb
    rw [a2i hlb, a1.ind_direct hlb]

theorem mod_65536_of_lt_cap {p cap : Nat} (h1 : p < cap) (h2 : cap ≤ 65536) : p % 65536 = p :=
  Nat.mod_eq_of_lt (by omega)

/-- Allocation of a direct block. -/
theorem alloc_direct_spec {U : Nat → Prop} {tab : Nat → Inode} {n lb : Nat} {s s1 : FSState}
    {p : Nat} (h : PtrInv s.disk U tab) (hU : U n) (hwf : (tab n).WF)
    (hcap : s.disk.capacity ≤ 65536) (hlb : lb < NUM_DIRECT_INODE_BLOCKS)
    (h0 : (tab n).direct lb = 0) (ha : alloc_data_block s = (some p, s1)) :
    AllocSpec U tab n lb s (some p) ((tab n).setDirect lb p) s1 := by
  obtain ⟨hp1, hp2, hfresh, _, hc, _, _, hbl⟩ := alloc_data_block_some ha
  have hpm : p % 65536 = p := mod_65536_of_lt_cap hp2 hcap
  have hp0 : p ≠ 0 := by unfold FIRST_DATA_BLOCK at hp1; omega
  have hb0 : s1.disk.blocks 0 = set_bit (s.disk.blocks 0) p := by
    have := hbl 0; simpa using this
  have hfr : ∀ m, m ≠ 0 → s1.disk.blocks m = s.disk.blocks m := by
    intro m hm; rw [hbl m, if_neg hm]
  have step := add_step s1.disk ((tab n).setDirect lb p) (.direct lb)
    h hU hc hp1 hp2 hfresh hb0 (fun m hm _ => hfr m hm) rfl (Or.inl rfl) hlb
    (by simp [slot_val, Inode.setDirect, hpm])
    (by
      intro sl hv hne
      right
      cases sl with
      | direct i =>
        have hi : i ≠ lb := fun e => hne (by rw [e])
        exact ⟨hv, by simp [slot_val, Inode.setDirect, hi]⟩
      | indirect => exact ⟨trivial, rfl⟩
      | entry j =>
        have hi : (tab n).indirect ≠ 0 := hv.1
        refine ⟨hv, ?_⟩
        simp only [slot_val, Inode.setDirect]
        rw [hfr _ hi])
    (by
      intro sl hv hne
      cases sl with
      | direct i =>
        have hi : i ≠ lb := fun e => hne (by rw [e]; exact h0)
        exact ⟨hv, by simp [slot_val, Inode.setDirect, hi]⟩
      | indirect => exact ⟨trivial, rfl⟩
      | entry j =>
        have hi : (tab n).indirect ≠ 0 := hv.1
        refine ⟨hv, ?_⟩
        simp only [slot_val, Inode.setDirect]
        rw [hfr _ hi])
  refine ⟨step.1, step.2, Inode.setDirect_wf hwf hlb p, fun m hm _ => hfr m hm, ?_, ?_,
    fun _ => rfl⟩
  · rw [block_of_direct _ _ hlb]
    simp [Inode.setDirect, hpm, nonzero_or_fail, hp0]
  · intro lb1 hne
    by_cases h1 : lb1 < NUM_DIRECT_INODE_BLOCKS
    · rw [block_of_direct _ _ h1, block_of_direct _ _ h1]
      simp [Inode.setDirect, hne]
    · have h1' : NUM_DIRECT_INODE_BLOCKS ≤ lb1 := by omega
      by_cases hi : (tab n).indirect = 0
      · rw [block_of_no_indirect _ _ h1' (by simpa [Inode.setDirect] using hi),
          block_of_no_indirect _ _ h1' hi]
      · by_cases h2 : lb1 < NUM_DIRECT_INODE_BLOCKS + NUM_SINGLE_INDIRECT_BLOCKS
        · rw [block_of_entry _ _ h1' (by simpa [Inode.setDirect] using hi) h2,
            block_of_entry _ _ h1' hi h2]
          have hlt := h.indirect_lt hU hi
          simp only [Inode.setDirect]
          rw [read_unchecked_of_lt (by rw [hc]; exact hlt), read_unchecked_of_lt hlt, hfr _ hi]
        · rw [block_of_too_large _ _ (by omega), block_of_too_large _ _ (by omega)]

theorem rd16_zero_block (o : Nat) : rd16 (fun _ => (0 : Byte)) o = 0 := by
  simp [rd16]

/-- Allocation of the indirect block. -/
theorem alloc_indirect_spec {U : Nat → Prop} {tab : Nat → Inode} {n lb : Nat} {s s1 : FSState}
    {b : Nat} (h : PtrInv s.disk U tab) (hU : U n) (hwf : (tab n).WF)
    (hcap : s.disk.capacity ≤ 65536) (hlb : NUM_DIRECT_INODE_BLOCKS ≤ lb)
    (h0 : (tab n).indirect = 0) (ha : alloc_data_block s = (some b, s1)) :
    AllocSpec U tab n lb s none { tab n with indirect := b % 65536 }
      ⟨write_unchecked s1.disk (fun _ => 0) b, s1.fserror⟩ := by
  obtain ⟨hp1, hp2, hfresh, _, hc, _, _, hbl⟩ := alloc_data_block_some ha
  have hpm : b % 65536 = b := mod_65536_of_lt_cap hp2 hcap
  have hp0 : b ≠ 0 := by unfold FIRST_DATA_BLOCK at hp1; omega
  have hb1 : b < s1.disk.capacity := by omega
  rw [hpm]
  have hblk : ∀ m, (write_unchecked s1.disk (fun _ => 0) b).blocks m
      = if m = b then (fun _ => 0) else if m = 0 then set_bit (s.disk.blocks 0) b
        else s.disk.blocks m := by
    intro m
    rw [write_unchecked_blocks_of_lt _ hb1, hbl m]
  have hb0 : (write_unchecked s1.disk (fun _ => 0) b).blocks 0 = set_bit (s.disk.blocks 0) b := by
    rw [hblk 0, if_neg (Ne.symm hp0), if_pos rfl]
  have hfr : ∀ m, m ≠ 0 → m ≠ b →
      (write_unchecked s1.disk (fun _ => 0) b).blocks m = s.disk.blocks m := by
    intro m hm hmb; rw [hblk m, if_neg hmb, if_neg hm]
  have hzero : (write_unchecked s1.disk (fun _ => 0) b).blocks b = fun _ => 0 := by
    rw [hblk b, if_pos rfl]
  have hc1 : (write_unchecked s1.disk (fun _ => 0) b).capacity = s.disk.capacity := by
    rw [write_unchecked_capacity, hc]
  have step := add_step (write_unchecked s1.disk (fun _ => 0) b)
    { tab n with indirect := b } .indirect
    h hU hc1 hp1 hp2 hfresh hb0 (fun m hm hmb => hfr m hm hmb) rfl (Or.inr rfl) trivial rfl
    (by
      intro sl hv hne
      cases sl with
      | direct i => exact Or.inr ⟨hv, rfl⟩
      | indirect => exact absurd rfl hne
      | entry j =>
        left
        simp only [slot_val]
        rw [hzero, rd16_zero_block])
    (by
      intro sl hv hne
      cases sl with
      | direct i => exact ⟨hv, rfl⟩
      | indirect => exact absurd h0 hne
      | entry j => exact absurd h0 hv.1)
  have hnone : ∀ lb1, NUM_DIRECT_INODE_BLOCKS ≤ lb1 →
      block_of (write_unchecked s1.disk (fun _ => 0) b) { tab n with indirect := b } lb1 = none := by
    intro lb1 h1
    by_cases h2 : lb1 < NUM_DIRECT_INODE_BLOCKS + NUM_SINGLE_INDIRECT_BLOCKS
    · rw [block_of_entry _ _ h1 hp0 h2, read_unchecked_of_lt (by rw [hc1]; exact hp2), hzero,
        rd16_zero_block]
      rfl
    · exact block_of_too_large _ _ (by omega)
  have hblt : b < 65536 := by omega
  refine ⟨step.1, step.2, ⟨hwf.direct_lt, hwf.direct_zero, hblt, hwf.size_lt⟩,
    fun m hm hmb => hfr m hm hmb, (hnone lb hlb).symm, ?_, fun hl => by omega⟩
  intro lb1 _
  by_cases h1 : lb1 < NUM_DIRECT_INODE_BLOCKS
  · rw [block_of_direct _ _ h1, block_of_direct _ _ h1]
  · rw [hnone lb1 (by omega), block_of_no_indirect _ _ (by omega) h0]

/-- Allocation of a block addressed through the indirect block. -/
theorem alloc_entry_spec {U : Nat → Prop} {tab : Nat → Inode} {n lb : Nat} {s s1 : FSState}
    {b : Nat} (h : PtrInv s.disk U tab) (hU : U n) (hwf : (tab n).WF)
    (hcap : s.disk.capacity ≤ 65536) (hlb : NUM_DIRECT_INODE_BLOCKS ≤ lb)
    (hlb2 : lb < NUM_DIRECT_INODE_BLOCKS + NUM_SINGLE_INDIRECT_BLOCKS)
    (hi : (tab n).indirect ≠ 0)
    (h0 : rd16 (read_unchecked s.disk (tab n).indirect) (2 * (lb - NUM_DIRECT_INODE_BLOCKS)) = 0)
    (ha : alloc_data_block s = (some b, s1)) :
    AllocSpec U tab n lb s
      (nonzero_or_fail (rd16 (wr16 (read_unchecked s.disk (tab n).indirect)
        (2 * (lb - NUM_DIRECT_INODE_BLOCKS)) b) (2 * (lb - NUM_DIRECT_INODE_BLOCKS))))
      (tab n)
      ⟨write_unchecked s1.disk (wr16 (read_unchecked s.disk (tab n).indirect)
        (2 * (lb - NUM_DIRECT_INODE_BLOCKS)) b) (tab n).indirect, s1.fserror⟩ := by
  obtain ⟨hp1, hp2, hfresh, _, hc, _, _, hbl⟩ := alloc_data_block_some ha
  have hpm : b % 65536 = b := mod_65536_of_lt_cap hp2 hcap
  have hp0 : b ≠ 0 := by unfold FIRST_DATA_BLOCK at hp1; omega
  have hilt := h.indirect_lt hU hi
  have hilt1 : (tab n).indirect < s1.disk.capacity := by omega
  rw [read_unchecked_of_lt hilt] at h0 ⊢
  rw [rd16_wr16_same, hpm]
  generalize hidx : lb - NUM_DIRECT_INODE_BLOCKS = idx at h0 ⊢
  have hidx2 : idx < NUM_SINGLE_INDIRECT_BLOCKS := by omega
  generalize hd1 : write_unchecked s1.disk (wr16 (s.disk.blocks (tab n).indirect) (2 * idx) b)
    (tab n).indirect = d1
  have hblk : ∀ m, d1.blocks m
      = if m = (tab n).indirect then wr16 (s.disk.blocks (tab n).indirect) (2 * idx) b
        else if m = 0 then set_bit (s.disk.blocks 0) b else s.disk.blocks m := by
    intro m
    rw [← hd1, write_unchecked_blocks_of_lt _ hilt1, hbl m]
  have hb0 : d1.blocks 0 = set_bit (s.disk.blocks 0) b := by
    rw [hblk 0, if_neg (Ne.symm hi), if_pos rfl]
  have hfr : ∀ m, m ≠ 0 → m ≠ (tab n).indirect → d1.blocks m = s.disk.blocks m := by
    intro m hm hmb; rw [hblk m, if_neg hmb, if_neg hm]
  have hind : d1.blocks (tab n).indirect = wr16 (s.disk.blocks (tab n).indirect) (2 * idx) b := by
    rw [hblk, if_pos rfl]
  have hc1 : d1.capacity = s.disk.capacity := by
    rw [← hd1, write_unchecked_capacity, hc]
  have hentry_other : ∀ j, j ≠ idx →
      rd16 (d1.blocks (tab n).indirect) (2 * j) = rd16 (s.disk.blocks (tab n).indirect) (2 * j) := by
    intro j hj
    rw [hind, rd16_wr16_other _ _ _ _ (by omega)]
  have hentry_same : rd16 (d1.blocks (tab n).indirect) (2 * idx) = b := by
    rw [hind, rd16_wr16_same, hpm]
  have step := add_step d1 (tab n) (.entry idx)
    h hU hc1 hp1 hp2 hfresh hb0 hfr rfl (Or.inl rfl) ⟨hi, hidx2⟩ hentry_same
    (by
      intro sl hv hne
      right
      cases sl with
      | direct i => exact ⟨hv, rfl⟩
      | indirect => exact ⟨trivial, rfl⟩
      | entry j =>
        have hj : j ≠ idx := fun e => hne (by rw [e])
        exact ⟨hv, hentry_other j hj⟩)
    (by
      intro sl hv hne
      cases sl with
      | direct i => exact ⟨hv, rfl⟩
      | indirect => exact ⟨trivial, rfl⟩
      | entry j =>
        have hj : j ≠ idx := fun e => hne (by rw [e]; exact h0)
        exact ⟨hv, hentry_other j hj⟩)
  have hst1 := step.1
  rw [tab_update_self] at hst1
  refine ⟨step.1, step.2, hwf, hfr, ?_, ?_, fun _ => rfl⟩
  · rw [block_of_entry _ _ hlb hi hlb2, read_unchecked_of_lt (by rw [hc1]; exact hilt), hidx,
      hentry_same]
  · intro lb1 hne
    by_cases h1 : lb1 < NUM_DIRECT_INODE_BLOCKS
    · rw [block_of_direct _ _ h1, block_of_direct _ _ h1]
    · by_cases h2 : lb1 < NUM_DIRECT_INODE_BLOCKS + NUM_SINGLE_INDIRECT_BLOCKS
      · rw [block_of_entry _ _ (by omega) hi h2, block_of_entry _ _ (by omega) hi h2,
          read_unchecked_of_lt (by rw [hc1]; exact hilt), read_unchecked_of_lt hilt,
          hentry_other _ (by omega)]
      · rw [block_of_too_large _ _ (by omega), block_of_too_large _ _ (by omega)]

theorem AllocSpec.unchanged_none {U : Nat → Prop} {tab : Nat → Inode} {n lb : Nat}
    {s s1 : FSState} (h : PtrInv s.disk U tab) (hwf : (tab n).WF) (hd : s1.disk = s.disk)
    (hr : block_of s.disk (tab n) lb = none) :
    AllocSpec U tab n lb s none (tab n) s1 := by
  have := AllocSpec.unchanged lb s1 h hwf hd
  rw [hr] at this
  exact this

/-- The second half of the indirect branch, for an inode that has an indirect
block. -/
theorem indirect_lookup_spec {U : Nat → Prop} {tab : Nat → Inode} {n : Nat} (lb : Nat) {s : FSState}
    (h : PtrInv s.disk U tab) (hU : U n) (hwf : (tab n).WF)
    (hcap : s.disk.capacity ≤ 65536) (hlb : NUM_DIRECT_INODE_BLOCKS ≤ lb)
    (hi : (tab n).indirect ≠ 0) :
    AllocSpec U tab n lb s (indirect_lookup s (tab n) lb true).1
      (indirect_lookup s (tab n) lb true).2.1 (indirect_lookup s (tab n) lb true).2.2 := by
  unfold indirect_lookup
  by_cases h2 : lb < NUM_DIRECT_INODE_BLOCKS + NUM_SINGLE_INDIRECT_BLOCKS
  · have h3 : ¬ lb - NUM_DIRECT_INODE_BLOCKS ≥ NUM_SINGLE_INDIRECT_BLOCKS := by omega
    simp only [h3, if_false, and_true]
    by_cases h0 : rd16 (read_unchecked s.disk (tab n).indirect)
        (2 * (lb - NUM_DIRECT_INODE_BLOCKS)) = 0
    · rw [if_pos h0]
      rcases ha : alloc_data_block s with ⟨r, s1⟩
      cases r with
      | none =>
        simp only []
        apply AllocSpec.unchanged_none h hwf (alloc_data_block_none ha).1
        rw [block_of_entry _ _ hlb hi h2, h0]; rfl
      | some b =>
        simp only []
        exact alloc_entry_spec h hU hwf hcap hlb h2 hi h0 ha
    · rw [if_neg h0]
      simp only []
      have := AllocSpec.unchanged lb s h hwf rfl
      rw [block_of_entry _ _ hlb hi h2] at this
      exact this
  · have h3 : lb - NUM_DIRECT_INODE_BLOCKS ≥ NUM_SINGLE_INDIRECT_BLOCKS := by omega
    simp only [h3, if_true]
    exact AllocSpec.unchanged_none h hwf rfl (block_of_too_large _ _ (by omega))

/-- The effect of an allocating call of `get_data_block_for_offset` on a disk
that satisfies the ownership invariant. -/
theorem get_data_block_alloc_spec {U : Nat → Prop} {tab : Nat → Inode} {n : Nat} (lb : Nat)
    {s : FSState} (h : PtrInv s.disk U tab) (hU : U n) (hwf : (tab n).WF)
    (hcap : s.disk.capacity ≤ 65536) :
    AllocSpec U tab n lb s (get_data_block_for_offset s (tab n) lb true).1
      (get_data_block_for_offset s (tab n) lb true).2.1
      (get_data_block_for_offset s (tab n) lb true).2.2 := by
  unfold get_data_block_for_offset
  by_cases hlb : lb < NUM_DIRECT_INODE_BLOCKS
  · rw [if_pos hlb]
    by_cases h0 : (tab n).direct lb = 0
    · simp only [h0, and_self, if_true]
      rcases ha : alloc_data_block s with ⟨r, s1⟩
      cases r with
      | none =>
        simp only []
        apply AllocSpec.unchanged_none h hwf (alloc_data_block_none ha).1
        rw [block_of_direct _ _ hlb, h0]; rfl
      | some p =>
        simp only []
        have hs := alloc_direct_spec h hU hwf hcap hlb h0 ha
        have e := hs.res
        rw [block_of_direct _ _ hlb] at e
        rw [← e]
        exact hs
    · simp only [h0, false_and, if_false]
      have := AllocSpec.unchanged lb s h hwf rfl
      rw [block_of_direct _ _ hlb] at this
      exact this
  · rw [if_neg hlb]
    have hlb' : NUM_DIRECT_INODE_BLOCKS ≤ lb := by omega
    unfold ensure_indirect
    by_cases hi : (tab n).indirect = 0
    · simp only [hi, if_true, Bool.not_true, Bool.false_eq_true, if_false]
      rcases ha : alloc_data_block s with ⟨r, s1⟩
      cases r with
      | none =>
        simp only []
        exact AllocSpec.unchanged_none h hwf (alloc_data_block_none ha).1
          (block_of_no_indirect _ _ hlb' hi)
      | some b =>
        simp only []
        have a1 := alloc_indirect_spec h hU hwf hcap hlb' hi ha
        obtain ⟨hp1, hp2, _⟩ := alloc_data_block_some ha
        have hpm : b % 65536 = b := mod_65536_of_lt_cap hp2 hcap
        have hb0 : b ≠ 0 := by unfold FIRST_DATA_BLOCK at hp1; omega
        have hcap1 : (⟨write_unchecked s1.disk (fun _ => 0) b, s1.fserror⟩ : FSState).disk.capacity
            ≤ 65536 := by
          have := a1.grows.cap
          omega
        have a2 := indirect_lookup_spec (n := n) lb a1.inv hU
          (by simpa using a1.wf) hcap1 hlb' (by simp [hpm, hb0])
        simp only [if_true] at a2
        exact a1.atrans (by simpa using a2)
    · simp only [hi, if_false]
      exact indirect_lookup_spec lb h hU hwf hcap hlb' hi

/-! ## Writing into a backing block -/

theorem block_of_congr {d d1 : Disk} {node : Inode}
    (h : node.indirect ≠ 0 → read_unchecked d1 node.indirect = read_unchecked d node.indirect)
    (lb : Nat) : block_of d1 node lb = block_of d node lb := by
  by_cases h1 : lb < NUM_DIRECT_INODE_BLOCKS
  · rw [block_of_direct _ _ h1, block_of_direct _ _ h1]
  · by_cases hi : node.indirect = 0
    · rw [block_of_no_indirect _ _ (by omega) hi, block_of_no_indirect _ _ (by omega) hi]
    · by_cases h2 : lb < NUM_DIRECT_INODE_BLOCKS + NUM_SINGLE_INDIRECT_BLOCKS
      · rw [block_of_entry _ _ (by omega) hi h2, block_of_entry _ _ (by omega) hi h2, h hi]
      · rw [block_of_too_large _ _ (by omega), block_of_too_large _ _ (by omega)]

/-- Overwriting a backing block of inode `n` keeps the invariant and every
block number. -/
theorem data_write_spec {d : Disk} {U : Nat → Prop} {tab : Nat → Inode} {n lb p : Nat}
    (h : PtrInv d U tab) (hU : U n) (hb : block_of d (tab n) lb = some p) (buf : Block) :
    PtrInv (write_unchecked d buf p) U tab ∧
    Grows d (tab n) (write_unchecked d buf p) (tab n) ∧
    (∀ lb1, block_of (write_unchecked d buf p) (tab n) lb1 = block_of d (tab n) lb1) ∧
    (write_unchecked d buf p).blocks p = buf ∧
    (∀ m, m ≠ p → (write_unchecked d buf p).blocks m = d.blocks m) := by
  obtain ⟨hp1, hp2, hp3⟩ := h.block_of_range hU hb
  have hp0 : p ≠ 0 := by unfold FIRST_DATA_BLOCK at hp1; omega
  have hi := fun h0 => h.indirect_lt hU h0
  obtain ⟨_, hv, e⟩ := (block_of_iff_slot hi lb p).1 hb
  have hblk := write_unchecked_blocks_of_lt buf hp2
  have hne : ∀ m, m ≠ p → (write_unchecked d buf p).blocks m = d.blocks m := by
    intro m hm; rw [hblk, if_neg hm]
  have hbits : ∀ b, data_bit (write_unchecked d buf p) b = data_bit d b := by
    intro b; unfold data_bit; rw [hne 0 (Ne.symm hp0)]
  -- no indirect block of a selected inode is the block written
  have hind : ∀ m, U m → (tab m).indirect ≠ 0 → (tab m).indirect ≠ p := by
    intro m hUm h0 c
    have := (h.inj m n .indirect (lb_slot lb) hUm hU trivial hv h0 (by rw [e]; exact c)).2
    unfold lb_slot at this
    split at this <;> cases this
  have hval : ∀ m (sl : Slot), U m → sl.valid (tab m) →
      slot_val (write_unchecked d buf p) (tab m) sl = slot_val d (tab m) sl := by
    intro m sl hUm hvm
    cases sl with
    | direct i => rfl
    | indirect => rfl
    | entry j =>
      simp only [slot_val]
      rw [hne _ (hind m hUm hvm.1)]
  refine ⟨h.congr (write_unchecked_capacity _ _ _) (fun b hb => by rw [hbits]; exact hb)
    (fun _ _ _ hv => hv) hval, ?_, ?_, ?_, hne⟩
  · refine ⟨write_unchecked_capacity _ _ _, rfl, ?_, fun b hb => by rw [hbits]; exact hb,
      fun b hb => Or.inl (by rw [← hbits]; exact hb), ?_, ?_⟩
    · intro m _ hnh
      apply hne
      intro c
      apply hnh
      refine ⟨by rw [c]; exact hp0, lb_slot lb, hv, ?_⟩
      rw [hval n _ hU hv, e, c]
    · intro sl hvs _
      exact ⟨hvs, hval n sl hU hvs⟩
    · intro sl hvs _
      exact Or.inl ⟨hvs, (hval n sl hU hvs).symm⟩
  · intro lb1
    apply block_of_congr
    intro h0
    have hlt := hi h0
    rw [read_unchecked_of_lt (by rw [write_unchecked_capacity]; exact hlt),
      read_unchecked_of_lt hlt, hne _ (hind n hU h0)]
  · rw [hblk, if_pos rfl]

/-! ## Bytes of a file -/

theorem file_byte_eq_some {d : Disk} {node : Inode} {off : Nat} {v : Byte}
    (h : file_byte d node off = some v) :
    ∃ q, block_of d node (off / SOFTWARE_DISK_BLOCK_SIZE) = some q ∧ q < d.capacity ∧
      d.blocks q (off % SOFTWARE_DISK_BLOCK_SIZE) = v := by
  unfold file_byte at h
  split at h
  · cases h
  · rename_i q hq
    split at h
    · cases h
    · rename_i buf hbuf
      obtain ⟨hlt, e⟩ := read_sd_block_eq_some hbuf
      injection h with h
      subst e
      exact ⟨q, hq, hlt, h⟩

theorem file_byte_of_block {d : Disk} {node : Inode} {off q : Nat}
    (h : block_of d node (off / SOFTWARE_DISK_BLOCK_SIZE) = some q) (hq : q < d.capacity) :
    file_byte d node off = some (d.blocks q (off % SOFTWARE_DISK_BLOCK_SIZE)) := by
  unfold file_byte
  rw [h]
  simp only []
  rw [read_sd_block_of_lt hq]

/-- One iteration of the loop of `write_file`, after a successful resolver
call: the `c` bytes copied into block `p` are now bytes of the file, and every
other byte of the file is as before. -/
theorem write_iter_spec {U : Nat → Prop} {tab : Nat → Inode} {n : Nat} {s s1 : FSState}
    {node1 : Inode} {p pos : Nat} (src : Block) (bw c : Nat)
    (h : PtrInv s.disk U tab) (hU : U n) (hwf : (tab n).WF) (hcap : s.disk.capacity ≤ 65536)
    (hg : get_data_block_for_offset s (tab n) (pos / SOFTWARE_DISK_BLOCK_SIZE) true
      = (some p, node1, s1))
    (hc : c ≤ SOFTWARE_DISK_BLOCK_SIZE - pos % SOFTWARE_DISK_BLOCK_SIZE) :
    PtrInv (write_unchecked s1.disk (memcpy (read_unchecked s1.disk p)
        (pos % SOFTWARE_DISK_BLOCK_SIZE) src bw c) p) U (fun m => if m = n then node1 else tab m) ∧
    Grows s.disk (tab n) (write_unchecked s1.disk (memcpy (read_unchecked s1.disk p)
        (pos % SOFTWARE_DISK_BLOCK_SIZE) src bw c) p) node1 ∧
    node1.WF ∧
    pos / SOFTWARE_DISK_BLOCK_SIZE < NUM_DIRECT_INODE_BLOCKS + NUM_SINGLE_INDIRECT_BLOCKS ∧
    (∀ k, k < c → file_byte (write_unchecked s1.disk (memcpy (read_unchecked s1.disk p)
        (pos % SOFTWARE_DISK_BLOCK_SIZE) src bw c) p) node1 (pos + k) = some (src (bw + k))) ∧
    (∀ off v, (off < pos ∨ pos + c ≤ off) → file_byte s.disk (tab n) off = some v →
      file_byte (write_unchecked s1.disk (memcpy (read_unchecked s1.disk p)
        (pos % SOFTWARE_DISK_BLOCK_SIZE) src bw c) p) node1 off = some v) := by
  have spec := get_data_block_alloc_spec (pos / SOFTWARE_DISK_BLOCK_SIZE) h hU hwf hcap
  rw [hg] at spec
  simp only [] at spec
  have hres : block_of s1.disk node1 (pos / SOFTWARE_DISK_BLOCK_SIZE) = some p := spec.res.symm
  have hinv := spec.inv
  have e1 : (fun m => if m = n then node1 else tab m) n = node1 := by simp
  have hres' : block_of s1.disk ((fun m => if m = n then node1 else tab m) n)
      (pos / SOFTWARE_DISK_BLOCK_SIZE) = some p := by rw [e1]; exact hres
  obtain ⟨dinv, dgrows, dres, dsame, dother⟩ := data_write_spec hinv hU hres'
    (memcpy (read_unchecked s1.disk p) (pos % SOFTWARE_DISK_BLOCK_SIZE) src bw c)
  simp only [↓reduceIte] at dgrows dres
  generalize write_unchecked s1.disk (memcpy (read_unchecked s1.disk p)
        (pos % SOFTWARE_DISK_BLOCK_SIZE) src bw c) p = d2 at *
  obtain ⟨hp1, hp2, _⟩ := hinv.block_of_range hU hres'
  have hd2cap : d2.capacity = s1.disk.capacity := dgrows.cap
  have hlt : pos / SOFTWARE_DISK_BLOCK_SIZE < NUM_DIRECT_INODE_BLOCKS + NUM_SINGLE_INDIRECT_BLOCKS := by
    by_contra hc
    rw [block_of_too_large _ _ (by omega)] at hres
    cases hres
  have hBS : SOFTWARE_DISK_BLOCK_SIZE = 4096 := rfl
  refine ⟨dinv, spec.grows.gtrans dgrows, spec.wf, hlt, ?_, ?_⟩
  · intro k hk
    have hdiv : (pos + k) / SOFTWARE_DISK_BLOCK_SIZE = pos / SOFTWARE_DISK_BLOCK_SIZE := by
      simp only [SOFTWARE_DISK_BLOCK_SIZE] at hc ⊢; omega
    have hmod : (pos + k) % SOFTWARE_DISK_BLOCK_SIZE = pos % SOFTWARE_DISK_BLOCK_SIZE + k := by
      simp only [SOFTWARE_DISK_BLOCK_SIZE] at hc ⊢; omega
    have hb : block_of d2 node1 ((pos + k) / SOFTWARE_DISK_BLOCK_SIZE) = some p := by
      rw [hdiv, dres]; exact hres
    have hp3 : p < d2.capacity := by rw [hd2cap]; exact hp2
    rw [file_byte_of_block hb hp3, dsame, hmod]
    unfold memcpy
    rw [if_pos ⟨Nat.le_add_right _ _, Nat.add_lt_add_left hk _⟩, Nat.add_sub_cancel_left]
  · intro off v hoff hfb
    obtain ⟨q, hq, _, hqv⟩ := file_byte_eq_some hfb
    have hi := fun h0 => h.indirect_lt hU h0
    obtain ⟨hq0, hqv1, hqe⟩ := (block_of_iff_slot hi _ q).1 hq
    obtain ⟨hqv2, hqe2⟩ := spec.grows.keep _ hqv1 (by rw [hqe]; exact hq0)
    have hi1 : node1.indirect ≠ 0 → node1.indirect < s1.disk.capacity := by
      intro h0
      have := hinv.indirect_lt hU (by simpa using h0)
      simpa using this
    have hq1 : block_of s1.disk node1 (off / SOFTWARE_DISK_BLOCK_SIZE) = some q :=
      (block_of_iff_slot hi1 _ q).2 ⟨hq0, hqv2, hqe2.trans hqe⟩
    have hq1' : block_of s1.disk ((fun m => if m = n then node1 else tab m) n)
        (off / SOFTWARE_DISK_BLOCK_SIZE) = some q := by rw [e1]; exact hq1
    have hq2 : block_of d2 node1 (off / SOFTWARE_DISK_BLOCK_SIZE) = some q := by
      rw [dres]; exact hq1
    obtain ⟨_, hqlt, _⟩ := hinv.block_of_range hU hq1'
    have hqni : q ≠ node1.indirect := by
      have := hinv.block_of_ne_indirect hU hq1'
      simpa using this
    have hqlt0 : q < s.disk.capacity := by have := spec.grows.cap; omega
    have hqlt2 : q < d2.capacity := by rw [hd2cap]; exact hqlt
    rw [file_byte_of_block hq2 hqlt2, ← hqv]
    by_cases hqp : q = p
    · subst hqp
      have hsame : off / SOFTWARE_DISK_BLOCK_SIZE = pos / SOFTWARE_DISK_BLOCK_SIZE :=
        hinv.block_of_inj hU hq1' hres'
      rw [dsame]
      unfold memcpy
      have hout : ¬ (pos % SOFTWARE_DISK_BLOCK_SIZE ≤ off % SOFTWARE_DISK_BLOCK_SIZE ∧
          off % SOFTWARE_DISK_BLOCK_SIZE < pos % SOFTWARE_DISK_BLOCK_SIZE + c) := by
        simp only [SOFTWARE_DISK_BLOCK_SIZE] at hc hsame ⊢; omega
      rw [if_neg hout, read_unchecked_of_lt hqlt, spec.frame q hq0 hqni]
    · rw [dother q hqp, spec.frame q hq0 hqni]

/-- An allocating resolver call keeps every byte of the file. -/
theorem AllocSpec.file_byte_kept {U : Nat → Prop} {tab : Nat → Inode} {n lb : Nat}
    {s s1 : FSState} {r : Option Nat} {node1 : Inode}
    (spec : AllocSpec U tab n lb s r node1 s1) (h : PtrInv s.disk U tab) (hU : U n)
    {off : Nat} {v : Byte} (hfb : file_byte s.disk (tab n) off = some v) :
    file_byte s1.disk node1 off = some v := by
  have hinv := spec.inv
  obtain ⟨q, hq, _, hqv⟩ := file_byte_eq_some hfb
  have hi := fun h0 => h.indirect_lt hU h0
  obtain ⟨hq0, hqv1, hqe⟩ := (block_of_iff_slot hi _ q).1 hq
  obtain ⟨hqv2, hqe2⟩ := spec.grows.keep _ hqv1 (by rw [hqe]; exact hq0)
  have hi1 : node1.indirect ≠ 0 → node1.indirect < s1.disk.capacity := by
    intro h0
    have := hinv.indirect_lt hU (by simpa using h0)
    simpa using this
  have hq1 : block_of s1.disk node1 (off / SOFTWARE_DISK_BLOCK_SIZE) = some q :=
    (block_of_iff_slot hi1 _ q).2 ⟨hq0, hqv2, hqe2.trans hqe⟩
  have hq1' : block_of s1.disk ((fun m => if m = n then node1 else tab m) n)
      (off / SOFTWARE_DISK_BLOCK_SIZE) = some q := by simpa using hq1
  obtain ⟨_, hqlt, _⟩ := hinv.block_of_range hU hq1'
  have hqni : q ≠ node1.indirect := by
    have := hinv.block_of_ne_indirect hU hq1'
    simpa using this
  have hqlt0 : q < s.disk.capacity := by have := spec.grows.cap; omega
  rw [file_byte_of_block hq1 hqlt, ← hqv, spec.frame q hq0 hqni]

theorem WriteSpec.wrefl {U : Nat → Prop} {tab : Nat → Inode} {n : Nat} (src : Block)
    (bw pos : Nat) {s : FSState} (h : PtrInv s.disk U tab) (hwf : (tab n).WF) :
    WriteSpec U tab n src bw pos s bw pos (tab n) s := by
  refine ⟨by rw [tab_update_self]; exact h, Grows.grefl _ _, hwf, le_refl _, by simp, ?_, ?_⟩
  · intro k hk; simp at hk
  · intro off v _ hv; exact hv

/-- The loop of `write_file`. -/
theorem write_loop_spec (U : Nat → Prop) (n : Nat) (src : Block) (numbytes : Nat) :
    ∀ (fuel : Nat) (tab : Nat → Inode) (node : Inode) (bw pos : Nat) (s : FSState),
      tab n = node → PtrInv s.disk U tab → U n → node.WF → s.disk.capacity ≤ 65536 →
      WriteSpec U tab n src bw pos s
        (write_loop src numbytes fuel bw pos node s).1
        (write_loop src numbytes fuel bw pos node s).2.1
        (write_loop src numbytes fuel bw pos node s).2.2.1
        (write_loop src numbytes fuel bw pos node s).2.2.2 := by
  intro fuel
  induction fuel with
  | zero =>
    intro tab node bw pos s hn h _ hwf _
    subst hn
    exact WriteSpec.wrefl src bw pos h hwf
  | succ fuel ih =>
    intro tab node bw pos s hn h hU hwf hcap
    subst hn
    unfold write_loop
    by_cases hlt : bw < numbytes
    · rw [if_pos hlt]
      simp only []
      rcases hg : get_data_block_for_offset s (tab n) (pos / SOFTWARE_DISK_BLOCK_SIZE) true
        with ⟨r, node1, s1⟩
      cases r with
      | none =>
        simp only []
        have spec := get_data_block_alloc_spec (pos / SOFTWARE_DISK_BLOCK_SIZE) h hU hwf hcap
        rw [hg] at spec
        simp only [] at spec
        refine ⟨spec.inv, spec.grows, spec.wf, le_refl _, by simp, ?_, ?_⟩
        · intro k hk; simp at hk
        · intro off v _ hv
          exact spec.file_byte_kept h hU hv
      | some p =>
        simp only []
        generalize hc : min (SOFTWARE_DISK_BLOCK_SIZE - pos % SOFTWARE_DISK_BLOCK_SIZE)
          (numbytes - bw) = c
        have hc1 : c ≤ SOFTWARE_DISK_BLOCK_SIZE - pos % SOFTWARE_DISK_BLOCK_SIZE := by
          rw [← hc]; exact Nat.min_le_left _ _
        obtain ⟨i1, i2, i3, i4, i5, i6⟩ := write_iter_spec src bw c h hU hwf hcap hg hc1
        generalize hd2 : write_unchecked s1.disk (memcpy (read_unchecked s1.disk p)
          (pos % SOFTWARE_DISK_BLOCK_SIZE) src bw c) p = d2 at *
        have hposc : (pos + c) % 2 ^ 32 = pos + c := by
          apply Nat.mod_eq_of_lt
          have : pos + c ≤ (pos / SOFTWARE_DISK_BLOCK_SIZE + 1) * SOFTWARE_DISK_BLOCK_SIZE := by
            simp only [SOFTWARE_DISK_BLOCK_SIZE] at hc1 ⊢; omega
          simp only [SOFTWARE_DISK_BLOCK_SIZE, NUM_DIRECT_INODE_BLOCKS,
            NUM_SINGLE_INDIRECT_BLOCKS] at this i4
          omega
        rw [hposc]
        have hcap2 : d2.capacity ≤ 65536 := by have := i2.cap; omega
        have rec := ih (fun m => if m = n then node1 else tab m) node1 (bw + c) (pos + c)
          ⟨d2, s1.fserror⟩ (by simp) i1 hU i3 hcap2
        generalize write_loop src numbytes fuel (bw + c) (pos + c) node1 ⟨d2, s1.fserror⟩ = res
          at rec ⊢
        obtain ⟨bw1, pos1, node2, s2⟩ := res
        simp only [] at rec ⊢
        have hcount := rec.count
        have rinv := rec.inv
        have rgrows := rec.grows
        have rwritten := rec.written
        have rkept := rec.kept
        have rpos := rec.pos_eq
        simp only [↓reduceIte] at rgrows rwritten rkept
        rw [tab_update_update] at rinv
        refine ⟨rinv, i2.gtrans rgrows, rec.wf, by omega, ?_, ?_, ?_⟩
        · rw [rpos]; omega
        · intro k hk
          by_cases hkc : k < c
          · apply rkept _ _ (Or.inl (by omega))
            exact i5 k hkc
          · have := rwritten (k - c) (by omega)
            have e2 : pos + c + (k - c) = pos + k := by omega
            have e3 : bw + c + (k - c) = bw + k := by omega
            rw [e2, e3] at this
            exact this
        · intro off v hoff hv
          have hoff1 : off < pos ∨ pos + c ≤ off := by omega
          have hoff2 : off < pos + c ∨ pos + c + (bw1 - (bw + c)) ≤ off := by omega
          exact rkept _ _ hoff2 (i6 off v hoff1 hv)
    · rw [if_neg hlt]
      exact WriteSpec.wrefl src bw pos h hwf

/-! ## The loop of `read_file` -/

theorem ReadSpec.rrefl (node : Inode) (numbytes br pos : Nat) (dst : Block) (s : FSState) :
    ReadSpec node numbytes br pos dst s br pos dst s :=
  ⟨rfl, le_refl _, fun h => h, by simp, by simp, fun _ _ => rfl, fun k v hk => by simp at hk⟩

/-- The loop of `read_file`: it never touches the disk, copies at most the
bytes left before the recorded size, and what it copies from a backed block are
the bytes of the file. -/
theorem read_loop_spec (node : Inode) (numbytes : Nat) (hsize : node.size < 2 ^ 32) :
    ∀ (fuel br pos : Nat) (dst : Block) (s : FSState),
      ReadSpec node numbytes br pos dst s
        (read_loop node numbytes fuel br pos dst s).1
        (read_loop node numbytes fuel br pos dst s).2.1
        (read_loop node numbytes fuel br pos dst s).2.2.1
        (read_loop node numbytes fuel br pos dst s).2.2.2 := by
  intro fuel
  induction fuel with
  | zero => intro br pos dst s; exact ReadSpec.rrefl _ _ _ _ _ _
  | succ fuel ih =>
    intro br pos dst s
    unfold read_loop
    by_cases hc : br < numbytes ∧ pos < node.size
    · rw [if_pos hc]
      simp only []
      rw [get_data_block_no_alloc]
      cases hb : block_of s.disk node (pos / SOFTWARE_DISK_BLOCK_SIZE) with
      | none =>
        simp only []
        exact ⟨rfl, le_refl _, fun h => h, by simp, by simp, fun _ _ => rfl,
          fun k v hk => by simp at hk⟩
      | some p =>
        simp only []
        generalize hcdef : min (min (SOFTWARE_DISK_BLOCK_SIZE - pos % SOFTWARE_DISK_BLOCK_SIZE)
          (node.size - pos)) (numbytes - br) = c
        have hc1 : c ≤ SOFTWARE_DISK_BLOCK_SIZE - pos % SOFTWARE_DISK_BLOCK_SIZE := by
          rw [← hcdef]; exact le_trans (Nat.min_le_left _ _) (Nat.min_le_left _ _)
        have hc2 : c ≤ node.size - pos := by
          rw [← hcdef]; exact le_trans (Nat.min_le_left _ _) (Nat.min_le_right _ _)
        have hc3 : c ≤ numbytes - br := by
          rw [← hcdef]; exact Nat.min_le_right _ _
        have hposc : (pos + c) % 2 ^ 32 = pos + c := Nat.mod_eq_of_lt (by omega)
        rw [hposc]
        generalize hs1 : (⟨s.disk, if NUM_DIRECT_INODE_BLOCKS ≤ pos / SOFTWARE_DISK_BLOCK_SIZE ∧
            node.indirect ≠ 0 ∧ NUM_SINGLE_INDIRECT_BLOCKS ≤
              pos / SOFTWARE_DISK_BLOCK_SIZE - NUM_DIRECT_INODE_BLOCKS
            then FSError.FS_EXCEEDS_MAX_FILE_SIZE else s.fserror⟩ : FSState) = s1
        have hd1 : s1.disk = s.disk := by rw [← hs1]
        have rec := ih (br + c) (pos + c)
          (memcpy dst br (read_unchecked s.disk p) (pos % SOFTWARE_DISK_BLOCK_SIZE) c) s1
        generalize read_loop node numbytes fuel (br + c) (pos + c)
          (memcpy dst br (read_unchecked s.disk p) (pos % SOFTWARE_DISK_BLOCK_SIZE) c) s1 = res
          at rec ⊢
        obtain ⟨br1, pos1, dst1, s2⟩ := res
        simp only [] at rec ⊢
        have hcount := rec.count
        have hle := rec.le_size
        refine ⟨rec.disk.trans hd1, by omega, fun _ => rec.le_n (by omega), by omega, ?_, ?_, ?_⟩
        · rw [rec.pos_eq]; omega
        · intro k hk
          rw [rec.outside k (by omega)]
          unfold memcpy
          rw [if_neg (by omega)]
        · intro k v hk hv
          by_cases hkc : k < c
          · rw [rec.outside (br + k) (Or.inl (by omega))]
            unfold memcpy
            rw [if_pos ⟨Nat.le_add_right _ _, Nat.add_lt_add_left hkc _⟩, Nat.add_sub_cancel_left]
            obtain ⟨q, hq, hqlt, hqv⟩ := file_byte_eq_some hv
            have hdiv : (pos + k) / SOFTWARE_DISK_BLOCK_SIZE = pos / SOFTWARE_DISK_BLOCK_SIZE := by
              simp only [SOFTWARE_DISK_BLOCK_SIZE] at hc1 ⊢; omega
            have hmod : (pos + k) % SOFTWARE_DISK_BLOCK_SIZE
                = pos % SOFTWARE_DISK_BLOCK_SIZE + k := by
              simp only [SOFTWARE_DISK_BLOCK_SIZE] at hc1 ⊢; omega
            rw [hdiv, hb] at hq
            injection hq with hq
            subst hq
            rw [read_unchecked_of_lt hqlt, ← hqv, hmod]
          · have := rec.bytes (k - c) v (by omega)
              (by
                have e : pos + c + (k - c) = pos + k := by omega
                rw [e, hd1]; exact hv)
            have e2 : br + c + (k - c) = br + k := by omega
            rw [e2] at this
            exact this
    · rw [if_neg hc]
      exact ReadSpec.rrefl _ _ _ _ _ _

/-- With enough fuel and every logical block in range backed, the loop of
`read_file` copies everything that is left, up to `numbytes`. -/
theorem read_loop_complete (node : Inode) (numbytes : Nat) (hsize : node.size < 2 ^ 32) :
    ∀ (fuel br pos : Nat) (dst : Block) (s : FSState),
      numbytes - br ≤ fuel →
      (∀ off, pos ≤ off → off < pos + min (numbytes - br) (node.size - pos) →
        (block_of s.disk node (off / SOFTWARE_DISK_BLOCK_SIZE)).isSome) →
      (read_loop node numbytes fuel br pos dst s).1 - br = min (numbytes - br) (node.size - pos) := by
  intro fuel
  induction fuel with
  | zero =>
    intro br pos dst s hf _
    simp only [read_loop]
    omega
  | succ fuel ih =>
    intro br pos dst s hf hback
    unfold read_loop
    by_cases hc : br < numbytes ∧ pos < node.size
    · rw [if_pos hc]
      simp only []
      rw [get_data_block_no_alloc]
      have hb0 := hback pos (le_refl _) (by omega)
      cases hb : block_of s.disk node (pos / SOFTWARE_DISK_BLOCK_SIZE) with
      | none => rw [hb] at hb0; cases hb0
      | some p =>
        simp only []
        generalize hcdef : min (min (SOFTWARE_DISK_BLOCK_SIZE - pos % SOFTWARE_DISK_BLOCK_SIZE)
          (node.size - pos)) (numbytes - br) = c
        have hc1 : c ≤ SOFTWARE_DISK_BLOCK_SIZE - pos % SOFTWARE_DISK_BLOCK_SIZE := by
          rw [← hcdef]; exact le_trans (Nat.min_le_left _ _) (Nat.min_le_left _ _)
        have hc2 : c ≤ node.size - pos := by
          rw [← hcdef]; exact le_trans (Nat.min_le_left _ _) (Nat.min_le_right _ _)
        have hc3 : c ≤ numbytes - br := by
          rw [← hcdef]; exact Nat.min_le_right _ _
        have hc0 : 0 < c := by
          rw [← hcdef]
          have : pos % SOFTWARE_DISK_BLOCK_SIZE < SOFTWARE_DISK_BLOCK_SIZE :=
            Nat.mod_lt _ (by decide)
          omega
        rw [Nat.mod_eq_of_lt (show pos + c < 2 ^ 32 by omega)]
        generalize hs1 : (⟨s.disk, if NUM_DIRECT_INODE_BLOCKS ≤ pos / SOFTWARE_DISK_BLOCK_SIZE ∧
            node.indirect ≠ 0 ∧ NUM_SINGLE_INDIRECT_BLOCKS ≤
              pos / SOFTWARE_DISK_BLOCK_SIZE - NUM_DIRECT_INODE_BLOCKS
            then FSError.FS_EXCEEDS_MAX_FILE_SIZE else s.fserror⟩ : FSState) = s1
        have hd1 : s1.disk = s.disk := by rw [← hs1]
        have rec := ih (br + c) (pos + c)
          (memcpy dst br (read_unchecked s.disk p) (pos % SOFTWARE_DISK_BLOCK_SIZE) c) s1
          (by omega)
          (by
            intro off h1 h2
            rw [hd1]
            exact hback off (by omega) (by omega))
        have hcount := (read_loop_spec node numbytes hsize fuel (br + c) (pos + c)
          (memcpy dst br (read_unchecked s.disk p) (pos % SOFTWARE_DISK_BLOCK_SIZE) c) s1).count
        omega
    · rw [if_neg hc]
      simp only []
      omega

/-! ## Loading and saving inodes -/

theorem load_inode_eq_some {d : Disk} {n : Nat} {node : Inode} (h : load_inode d n = some node) :
    inode_block_for n < d.capacity ∧ node = inode_at d n := by
  unfold load_inode at h
  split at h
  · cases h
  · rename_i buf hbuf
    obtain ⟨hlt, e⟩ := read_sd_block_eq_some hbuf
    injection h with h
    subst e
    exact ⟨hlt, h.symm⟩

theorem load_inode_of_lt {d : Disk} {n : Nat} (h : inode_block_for n < d.capacity) :
    load_inode d n = some (inode_at d n) := by
  unfold load_inode
  rw [read_sd_block_of_lt h]
  rfl

theorem load_inode_wf {d : Disk} {n : Nat} {node : Inode} (h : load_inode d n = some node) :
    node.WF := by
  rw [(load_inode_eq_some h).2]
  exact get_inode_wf _ _

theorem file_byte_isSome_block {d : Disk} {node : Inode} {off : Nat}
    (h : (file_byte d node off).isSome) :
    (block_of d node (off / SOFTWARE_DISK_BLOCK_SIZE)).isSome := by
  unfold file_byte at h
  split at h
  · cases h
  · rename_i q hq; rw [hq]; rfl

/-- The function `read_file` on a non-null handle whose inode loads: the loop
runs from `bytes_read = 0` at the handle's position. -/
theorem read_file_eq {s : FSState} {f : FileInternals} {node : Inode} (buf : Block) (n : Nat)
    (hload : load_inode s.disk f.inode_num = some node) :
    read_file s (some f) buf n
      = ((read_loop node n n 0 f.pos buf s).1,
          some { f with pos := (read_loop node n n 0 f.pos buf s).2.1 },
          (read_loop node n n 0 f.pos buf s).2.2.1,
          (read_loop node n n 0 f.pos buf s).2.2.2) := by
  unfold read_file
  have hm : f.mode = .READ_WRITE ∨ f.mode = .READ_ONLY := by
    cases f.mode
    · exact Or.inr rfl
    · exact Or.inl rfl
  simp only [hm, if_true, hload]

/-! ## Facts that hold in every state -/

theorem alloc_data_block_capacity (s : FSState) :
    (alloc_data_block s).2.disk.capacity = s.disk.capacity := by
  rcases h : alloc_data_block s with ⟨r, s1⟩
  cases r with
  | none => rw [(alloc_data_block_none h).1]
  | some p =>
    obtain ⟨_, _, _, _, hc, _⟩ := alloc_data_block_some h
    exact hc

theorem ensure_indirect_raw (s : FSState) (inode : Inode) (allocate : Bool) :
    (ensure_indirect s inode allocate).2.2.disk.capacity = s.disk.capacity ∧
    (ensure_indirect s inode allocate).2.1.size = inode.size ∧
    (inode.WF → (ensure_indirect s inode allocate).2.1.WF) := by
  unfold ensure_indirect
  split
  · split
    · exact ⟨rfl, rfl, fun h => h⟩
    · have hc := alloc_data_block_capacity s
      rcases h : alloc_data_block s with ⟨r, s1⟩
      rw [h] at hc
      cases r with
      | none => exact ⟨hc, rfl, fun h => h⟩
      | some b =>
        refine ⟨by simp only [write_unchecked_capacity]; exact hc, rfl, fun h => ?_⟩
        exact ⟨h.direct_lt, h.direct_zero, Nat.mod_lt _ (by decide), h.size_lt⟩
  · exact ⟨rfl, rfl, fun h => h⟩

theorem indirect_lookup_raw (s : FSState) (inode : Inode) (offset : Nat) (allocate : Bool) :
    (indirect_lookup s inode offset allocate).2.2.disk.capacity = s.disk.capacity ∧
    (indirect_lookup s inode offset allocate).2.1 = inode := by
  unfold indirect_lookup
  simp only []
  split
  · exact ⟨rfl, rfl⟩
  · split
    · have hc := alloc_data_block_capacity s
      rcases h : alloc_data_block s with ⟨r, s1⟩
      rw [h] at hc
      cases r with
      | none => exact ⟨hc, rfl⟩
      | some b => exact ⟨by simp only [write_unchecked_capacity]; exact hc, rfl⟩
    · exact ⟨rfl, rfl⟩

/-- In every state, `get_data_block_for_offset` keeps the capacity of the
device, the size field of the inode and the validity of its fields. -/
theorem get_data_block_raw (s : FSState) (inode : Inode) (offset : Nat) (allocate : Bool) :
    (get_data_block_for_offset s inode offset allocate).2.2.disk.capacity = s.disk.capacity ∧
    (get_data_block_for_offset s inode offset allocate).2.1.size = inode.size ∧
    (inode.WF → (get_data_block_for_offset s inode offset allocate).2.1.WF) := by
  unfold get_data_block_for_offset
  split
  · rename_i hlt
    split
    · have hc := alloc_data_block_capacity s
      rcases h : alloc_data_block s with ⟨r, s1⟩
      rw [h] at hc
      cases r with
      | none => exact ⟨hc, rfl, fun h => h⟩
      | some b => exact ⟨hc, rfl, fun h => Inode.setDirect_wf h hlt b⟩
    · exact ⟨rfl, rfl, fun h => h⟩
  · have he := ensure_indirect_raw s inode allocate
    rcases h : ensure_indirect s inode allocate with ⟨r, inode1, s1⟩
    rw [h] at he
    simp only [] at he
    cases r with
    | none => exact he
    | some u =>
      simp only []
      have hl := indirect_lookup_raw s1 inode1 offset allocate
      refine ⟨hl.1.trans he.1, ?_, ?_⟩
      · rw [hl.2]; exact he.2.1
      · rw [hl.2]; exact he.2.2

/-- In every state, the loop of `write_file` keeps the capacity of the device,
the size field of the in-memory inode and the validity of its fields, and
leaves a position that fits `uint32_t`. -/
theorem write_loop_raw (src : Block) (numbytes : Nat) :
    ∀ (fuel bw pos : Nat) (node : Inode) (s : FSState),
      (write_loop src numbytes fuel bw pos node s).2.2.2.disk.capacity = s.disk.capacity ∧
      (write_loop src numbytes fuel bw pos node s).2.2.1.size = node.size ∧
      (node.WF → (write_loop src numbytes fuel bw pos node s).2.2.1.WF) ∧
      (pos < 2 ^ 32 → (write_loop src numbytes fuel bw pos node s).2.1 < 2 ^ 32) := by
  intro fuel
  induction fuel with
  | zero => intro bw pos node s; exact ⟨rfl, rfl, fun h => h, fun h => h⟩
  | succ fuel ih =>
    intro bw pos node s
    unfold write_loop
    split
    · simp only []
      have hg := get_data_block_raw s node (pos / SOFTWARE_DISK_BLOCK_SIZE) true
      rcases h : get_data_block_for_offset s node (pos / SOFTWARE_DISK_BLOCK_SIZE) true
        with ⟨r, node1, s1⟩
      rw [h] at hg
      simp only [] at hg
      cases r with
      | none => exact ⟨hg.1, hg.2.1, hg.2.2, fun h => h⟩
      | some p =>
        simp only []
        have rec := ih (bw + min (SOFTWARE_DISK_BLOCK_SIZE - pos % SOFTWARE_DISK_BLOCK_SIZE)
            (numbytes - bw))
          ((pos + min (SOFTWARE_DISK_BLOCK_SIZE - pos % SOFTWARE_DISK_BLOCK_SIZE)
            (numbytes - bw)) % 2 ^ 32) node1
          ⟨write_unchecked s1.disk (memcpy (read_unchecked s1.disk p)
            (pos % SOFTWARE_DISK_BLOCK_SIZE) src bw
            (min (SOFTWARE_DISK_BLOCK_SIZE - pos % SOFTWARE_DISK_BLOCK_SIZE) (numbytes - bw))) p,
            s1.fserror⟩
        refine ⟨?_, rec.2.1.trans hg.2.1, fun hw => rec.2.2.1 (hg.2.2 hw),
          fun _ => rec.2.2.2 (Nat.mod_lt _ (by norm_num))⟩
        rw [rec.1]
        simp only [write_unchecked_capacity]
        exact hg.1
    · exact ⟨rfl, rfl, fun h => h, fun h => h⟩

theorem save_inode_of_lt {d : Disk} {n : Nat} (h : inode_block_for n < d.capacity)
    (node : Inode) :
    save_inode d n node
      = some ⟨d.capacity, fun m =>
          if m = inode_block_for n then
            (put_inode (d.blocks (inode_block_for n)) (inode_offset_in_block n) node)
          else d.blocks m⟩ := by
  unfold save_inode
  rw [read_sd_block_of_lt h]
  simp only []
  rw [write_sd_block_of_lt _ h]

theorem save_inode_lt {d d1 : Disk} {n : Nat} {node : Inode}
    (h : save_inode d n node = some d1) : inode_block_for n < d.capacity := by
  unfold save_inode at h
  split at h
  · cases h
  · rename_i buf hbuf; exact (read_sd_block_eq_some hbuf).1

/-- A saved inode loads back. -/
theorem load_after_save {d d1 : Disk} {n : Nat} {node : Inode}
    (h : save_inode d n node = some d1) (hwf : node.WF) : load_inode d1 n = some node := by
  have hlt := save_inode_lt h
  rw [save_inode_of_lt hlt] at h
  injection h with h
  subst h
  rw [load_inode_of_lt (by exact hlt)]
  unfold inode_at
  simp only [if_true]
  rw [get_put_same _ _ hwf]

/-- The function `write_file` on a read-write handle whose inode loads. -/
theorem write_file_eq {s : FSState} {f : FileInternals} {node : Inode} (buf : Block) (n : Nat)
    (hmode : f.mode = .READ_WRITE) (hload : load_inode s.disk f.inode_num = some node) :
    write_file s (some f) buf n
      = ((write_loop buf n n 0 f.pos node s).1,
          some { f with pos := (write_loop buf n n 0 f.pos node s).2.1 },
          ⟨save_inode_unchecked (write_loop buf n n 0 f.pos node s).2.2.2.disk f.inode_num
              (if (write_loop buf n n 0 f.pos node s).2.1
                  > (write_loop buf n n 0 f.pos node s).2.2.1.size
                then { (write_loop buf n n 0 f.pos node s).2.2.1 with
                  size := (write_loop buf n n 0 f.pos node s).2.1 }
                else (write_loop buf n n 0 f.pos node s).2.2.1),
            (write_loop buf n n 0 f.pos node s).2.2.2.fserror⟩) := by
  unfold write_file
  simp only [hmode, ne_eq, not_true_eq_false, if_false, hload]

theorem save_inode_unchecked_of_lt {d : Disk} {n : Nat} (h : inode_block_for n < d.capacity)
    (node : Inode) :
    save_inode_unchecked d n node
      = ⟨d.capacity, fun m =>
          if m = inode_block_for n then
            (put_inode (d.blocks (inode_block_for n)) (inode_offset_in_block n) node)
          else d.blocks m⟩ := by
  unfold save_inode_unchecked
  rw [save_inode_of_lt h]

theorem save_inode_unchecked_load {d : Disk} {n : Nat} (h : inode_block_for n < d.capacity)
    {node : Inode} (hwf : node.WF) :
    load_inode (save_inode_unchecked d n node) n = some node := by
  have e : save_inode d n node = some (save_inode_unchecked d n node) := by
    unfold save_inode_unchecked
    rw [save_inode_of_lt h]
  exact load_after_save e hwf

/-- The inode `write_file` and `seek_file` save: the size is raised to the
position when the position is beyond it. -/
theorem raise_size_wf {node : Inode} (hwf : node.WF) {pos : Nat} (hpos : pos < 2 ^ 32) :
    (if pos > node.size then { node with size := pos } else node).WF := by
  split
  · exact ⟨hwf.direct_lt, hwf.direct_zero, hwf.indirect_lt, hpos⟩
  · exact hwf

theorem raise_size_size (node : Inode) (pos : Nat) :
    (if pos > node.size then { node with size := pos } else node).size = max node.size pos := by
  split
  · rename_i h; simp only []; omega
  · rename_i h; omega

/-- The function `seek_file` on a non-null handle whose inode loads. -/
theorem seek_file_eq {s : FSState} {f : FileInternals} {node : Inode} (bytepos : Nat)
    (hload : load_inode s.disk f.inode_num = some node) :
    seek_file s (some f) bytepos
      = (1, some { f with pos := bytepos % 2 ^ 32 },
          ⟨save_inode_unchecked s.disk f.inode_num
            (if bytepos % 2 ^ 32 > node.size then { node with size := bytepos % 2 ^ 32 }
              else node), s.fserror⟩) := by
  have hlt := (load_inode_eq_some hload).1
  unfold seek_file
  simp only [hload]
  rw [save_inode_of_lt hlt, save_inode_unchecked_of_lt hlt]

/-! ## Enough free blocks -/

theorem FreeAtLeast.congr_free {d d1 : Disk} {k : Nat} (h : FreeAtLeast d k)
    (hcap : d1.capacity = d.capacity) (h0 : d1.blocks 0 = d.blocks 0) : FreeAtLeast d1 k := by
  obtain ⟨L, h1, h2, h3⟩ := h
  refine ⟨L, h1, h2, ?_⟩
  intro b hb
  obtain ⟨a, b1, c⟩ := h3 b hb
  refine ⟨a, by omega, ?_⟩
  unfold data_bit at c ⊢
  rw [h0]; exact c

theorem alloc_cost_of_some {d : Disk} {node : Inode} {lb p : Nat}
    (h : block_of d node lb = some p) : alloc_cost d node lb = 0 := by
  unfold alloc_cost
  rw [h]; rfl

theorem alloc_cost_of_none {d : Disk} {node : Inode} {lb : Nat}
    (h : block_of d node lb = none) :
    alloc_cost d node lb
      = if lb < NUM_DIRECT_INODE_BLOCKS then 1 else if node.indirect = 0 then 2 else 1 := by
  unfold alloc_cost
  rw [h]; rfl

/-- The second half of the indirect branch succeeds when enough blocks are
free. -/
theorem indirect_lookup_enough {s : FSState} {inode : Inode} {lb : Nat} (k : Nat)
    (hcap : s.disk.capacity ≤ 65536) (hlb : NUM_DIRECT_INODE_BLOCKS ≤ lb)
    (hlb2 : lb < NUM_DIRECT_INODE_BLOCKS + NUM_SINGLE_INDIRECT_BLOCKS)
    (hi : inode.indirect ≠ 0)
    (hfree : FreeAtLeast s.disk (alloc_cost s.disk inode lb + k)) :
    (indirect_lookup s inode lb true).1.isSome ∧
    FreeAtLeast (indirect_lookup s inode lb true).2.2.disk k := by
  unfold indirect_lookup
  have h3 : ¬ lb - NUM_DIRECT_INODE_BLOCKS ≥ NUM_SINGLE_INDIRECT_BLOCKS := by omega
  simp only [h3, if_false, and_true]
  have hbo := block_of_entry s.disk inode hlb hi hlb2
  by_cases h0 : rd16 (read_unchecked s.disk inode.indirect)
      (2 * (lb - NUM_DIRECT_INODE_BLOCKS)) = 0
  · rw [if_pos h0]
    rw [h0] at hbo
    have hcost : alloc_cost s.disk inode lb = 1 := by
      rw [alloc_cost_of_none hbo, if_neg (by omega), if_neg hi]
    rw [hcost, Nat.add_comm] at hfree
    obtain ⟨p, s1, ha, hf1⟩ := alloc_data_block_of_free hfree
    rw [ha]
    simp only []
    obtain ⟨hp1, hp2, _, _, hc, _, _, hbl⟩ := alloc_data_block_some ha
    have hpm : p % 65536 = p := mod_65536_of_lt_cap hp2 hcap
    have hp0 : p ≠ 0 := by unfold FIRST_DATA_BLOCK at hp1; omega
    refine ⟨?_, ?_⟩
    · rw [rd16_wr16_same, hpm, nonzero_or_fail_of_ne hp0]; rfl
    · exact hf1.congr_free (write_unchecked_capacity _ _ _)
        (write_unchecked_blocks_ne _ _ (Ne.symm hi))
  · rw [if_neg h0]
    simp only []
    rw [nonzero_or_fail_of_ne h0] at hbo ⊢
    rw [alloc_cost_of_some hbo, Nat.zero_add] at hfree
    exact ⟨rfl, hfree⟩

/-- An allocating call of `get_data_block_for_offset` within the addressable
range succeeds when the blocks it has to allocate are free, and uses up exactly
those. -/
theorem get_data_block_enough {s : FSState} (inode : Inode) {lb : Nat} (k : Nat)
    (hcap : s.disk.capacity ≤ 65536)
    (hlb2 : lb < NUM_DIRECT_INODE_BLOCKS + NUM_SINGLE_INDIRECT_BLOCKS)
    (hfree : FreeAtLeast s.disk (alloc_cost s.disk inode lb + k)) :
    (get_data_block_for_offset s inode lb true).1.isSome ∧
    FreeAtLeast (get_data_block_for_offset s inode lb true).2.2.disk k := by
  unfold get_data_block_for_offset
  by_cases hlb : lb < NUM_DIRECT_INODE_BLOCKS
  · rw [if_pos hlb]
    have hbo := block_of_direct s.disk inode hlb
    by_cases h0 : inode.direct lb = 0
    · simp only [h0, and_self, if_true]
      rw [h0] at hbo
      have hcost : alloc_cost s.disk inode lb = 1 := by
        rw [alloc_cost_of_none hbo, if_pos hlb]
      rw [hcost, Nat.add_comm] at hfree
      obtain ⟨p, s1, ha, hf1⟩ := alloc_data_block_of_free hfree
      rw [ha]
      simp only []
      obtain ⟨hp1, hp2, _⟩ := alloc_data_block_some ha
      have hpm : p % 65536 = p := mod_65536_of_lt_cap hp2 hcap
      have hp0 : p ≠ 0 := by unfold FIRST_DATA_BLOCK at hp1; omega
      refine ⟨?_, hf1⟩
      simp [Inode.setDirect, hpm, nonzero_or_fail, hp0]
    · simp only [h0, false_and, if_false]
      rw [nonzero_or_fail_of_ne h0] at hbo ⊢
      rw [alloc_cost_of_some hbo, Nat.zero_add] at hfree
      exact ⟨rfl, hfree⟩
  · rw [if_neg hlb]
    have hlb' : NUM_DIRECT_INODE_BLOCKS ≤ lb := by omega
    unfold ensure_indirect
    by_cases hi : inode.indirect = 0
    · simp only [hi, if_true, Bool.not_true, Bool.false_eq_true, if_false]
      have hcost : alloc_cost s.disk inode lb = 2 := by
        rw [alloc_cost_of_none (block_of_no_indirect _ _ hlb' hi), if_neg hlb, if_pos hi]
      rw [hcost] at hfree
      have hfree1 : FreeAtLeast s.disk ((1 + k) + 1) := hfree.weaken (by omega)
      obtain ⟨b, s1, ha, hf1⟩ := alloc_data_block_of_free hfree1
      rw [ha]
      simp only []
      obtain ⟨hp1, hp2, _, _, hc, _, _, hbl⟩ := alloc_data_block_some ha
      have hpm : b % 65536 = b := mod_65536_of_lt_cap hp2 hcap
      have hb0 : b ≠ 0 := by unfold FIRST_DATA_BLOCK at hp1; omega
      rw [hpm]
      have hb1 : b < s1.disk.capacity := by omega
      have hf2 : FreeAtLeast (write_unchecked s1.disk (fun _ => 0) b) (1 + k) :=
        hf1.congr_free (write_unchecked_capacity _ _ _)
          (write_unchecked_blocks_ne _ _ (Ne.symm hb0))
      have hbo : block_of (write_unchecked s1.disk (fun _ => 0) b)
          { inode with indirect := b } lb = none := by
        rw [block_of_entry _ _ hlb' hb0 hlb2,
          read_unchecked_of_lt (by rw [write_unchecked_capacity]; exact hb1),
          write_unchecked_blocks_of_lt _ hb1, if_pos rfl, rd16_zero_block]
        rfl
      apply indirect_lookup_enough k (by simp only [write_unchecked_capacity]; omega) hlb' hlb2 hb0
      rw [alloc_cost_of_none hbo, if_neg hlb, if_neg hb0]
      exact hf2
    · simp only [hi, if_false]
      exact indirect_lookup_enough k hcap hlb' hlb2 hi hfree

/-! ## Completeness of the loop of `write_file` -/

theorem missing_congr {d d1 : Disk} {node node1 : Inode} (lb0 : Nat)
    (h : ∀ lb1, lb0 ≤ lb1 → block_of d1 node1 lb1 = block_of d node lb1) :
    ∀ (m lb : Nat), lb0 ≤ lb → missing d1 node1 lb m = missing d node lb m := by
  intro m
  induction m with
  | zero => intro lb _; rfl
  | succ m ih =>
    intro lb hlb
    simp only [missing]
    rw [h lb hlb, ih (lb + 1) (by omega)]

theorem missing_succ (d : Disk) (node : Inode) (lb m : Nat) :
    missing d node lb (m + 1)
      = (if (block_of d node lb).isSome then 0 else 1) + missing d node (lb + 1) m := rfl

/-- The blocks needed by a write split into those of its first iteration and
those of the rest. -/
theorem write_need_step (d d2 : Disk) (node node1 : Inode) (pos len c : Nat)
    (hlen : 0 < len)
    (hc : c = min (SOFTWARE_DISK_BLOCK_SIZE - pos % SOFTWARE_DISK_BLOCK_SIZE) len)
    (hother : ∀ lb1, lb1 ≠ pos / SOFTWARE_DISK_BLOCK_SIZE →
      block_of d2 node1 lb1 = block_of d node lb1)
    (hind1 : pos / SOFTWARE_DISK_BLOCK_SIZE < NUM_DIRECT_INODE_BLOCKS →
      node1.indirect = node.indirect)
    (hind2 : node.indirect ≠ 0 → node1.indirect ≠ 0)
    (hind3 : NUM_DIRECT_INODE_BLOCKS ≤ pos / SOFTWARE_DISK_BLOCK_SIZE → node1.indirect ≠ 0) :
    alloc_cost d node (pos / SOFTWARE_DISK_BLOCK_SIZE) + write_need d2 node1 (pos + c) (len - c)
      ≤ write_need d node pos len := by
  have hBS : SOFTWARE_DISK_BLOCK_SIZE = 4096 := rfl
  have hND : NUM_DIRECT_INODE_BLOCKS = 13 := rfl
  rw [hBS] at hc hother hind1 hind3 ⊢
  rw [hND] at hind1 hind3
  generalize hlbdef : pos / 4096 = lb at *
  have hcost : alloc_cost d node lb
      = if (block_of d node lb).isSome then 0
        else if lb < 13 then 1 else if node.indirect = 0 then 2 else 1 := rfl
  unfold write_need
  rw [if_neg (by omega : ¬ len = 0), hBS, hND, hlbdef]
  by_cases hrest : len - c = 0
  · -- the write ends in this block
    rw [if_pos hrest]
    have hlast : (pos + len - 1) / 4096 = lb := by omega
    rw [hlast]
    have e1 : lb - lb + 1 = 0 + 1 := by omega
    rw [e1, missing_succ]
    simp only [missing]
    rw [hcost]
    by_cases hsome : (block_of d node lb).isSome = true
    · simp only [hsome, if_true]; omega
    · simp only [hsome]
      by_cases h13 : lb < 13
      · simp only [h13, if_true]
        have : ¬ (node.indirect = 0 ∧ 13 ≤ lb) := by omega
        simp only [this, if_false]
        simp
      · by_cases hi : node.indirect = 0
        · have : node.indirect = 0 ∧ 13 ≤ lb := ⟨hi, by omega⟩
          simp only [h13, hi, this, if_true, if_false]
          simp
        · simp only [h13, hi, if_false, false_and]
          simp
  · -- the write goes on in the next block
    rw [if_neg hrest]
    have hcval : c = 4096 - pos % 4096 := by omega
    have hnext : (pos + c) / 4096 = lb + 1 := by omega
    have hlast : (pos + c + (len - c) - 1) / 4096 = (pos + len - 1) / 4096 := by
      have : pos + c + (len - c) = pos + len := by omega
      rw [this]
    rw [hnext, hlast]
    generalize hlastdef : (pos + len - 1) / 4096 = last
    have hll : lb + 1 ≤ last := by omega
    have e1 : last - lb + 1 = (last - (lb + 1) + 1) + 1 := by omega
    have hm : missing d2 node1 (lb + 1) (last - (lb + 1) + 1)
        = missing d node (lb + 1) (last - (lb + 1) + 1) :=
      missing_congr (lb + 1) (fun lb1 h1 => hother lb1 (by omega)) _ _ (le_refl _)
    have e2 : missing d node lb (last - lb + 1)
        = (if (block_of d node lb).isSome then 0 else 1)
          + missing d node (lb + 1) (last - (lb + 1) + 1) := by
      rw [e1, missing_succ]
    rw [hm, e2, hcost]
    generalize missing d node (lb + 1) (last - (lb + 1) + 1) = M
    by_cases h13 : lb < 13
    · have hi := hind1 h13
      rw [hi]
      simp only [h13, if_true]
      by_cases hsome : (block_of d node lb).isSome = true
      · simp only [hsome, if_true]; omega
      · simp only [hsome]
        simp only [Bool.false_eq_true, if_false]
        omega
    · have hi1 := hind3 (by omega)
      have hl13 : 13 ≤ last := by omega
      simp only [hi1, false_and, if_false, h13]
      by_cases hsome : (block_of d node lb).isSome = true
      · simp only [hsome, if_true]; omega
      · simp only [hsome]
        simp only [Bool.false_eq_true, if_false]
        by_cases hi : node.indirect = 0
        · simp only [hi, hl13, and_self, if_true]; omega
        · simp only [hi, false_and, if_false]; omega

/-- The first iteration of a write needs no more blocks than the whole write. -/
theorem alloc_cost_le_write_need (d : Disk) (node : Inode) (pos len : Nat) (hlen : 0 < len) :
    alloc_cost d node (pos / SOFTWARE_DISK_BLOCK_SIZE) ≤ write_need d node pos len := by
  have hBS : SOFTWARE_DISK_BLOCK_SIZE = 4096 := rfl
  have hND : NUM_DIRECT_INODE_BLOCKS = 13 := rfl
  unfold write_need
  rw [if_neg (by omega : ¬ len = 0), hBS, hND]
  generalize hlbdef : pos / 4096 = lb
  generalize hlastdef : (pos + len - 1) / 4096 = last
  have hll : lb ≤ last := by omega
  have hcost : alloc_cost d node lb
      = if (block_of d node lb).isSome then 0
        else if lb < 13 then 1 else if node.indirect = 0 then 2 else 1 := rfl
  have e1 : last - lb + 1 = (last - lb) + 1 := rfl
  rw [hcost, e1, missing_succ]
  generalize missing d node (lb + 1) (last - lb) = M
  by_cases hsome : (block_of d node lb).isSome = true
  · simp only [hsome, if_true]; omega
  · simp only [hsome]
    simp only [Bool.false_eq_true, if_false]
    by_cases h13 : lb < 13
    · simp only [h13, if_true]; omega
    · have hl13 : 13 ≤ last := by omega
      by_cases hi : node.indirect = 0
      · simp only [h13, hi, hl13, and_self, if_true, if_false]; omega
      · simp only [h13, hi, if_false]; omega

/-- With enough fuel, enough free blocks and the end of the write within the
largest file size, the loop of `write_file` writes every byte. -/
theorem write_loop_complete (U : Nat → Prop) (n : Nat) (src : Block) (numbytes : Nat) :
    ∀ (fuel : Nat) (tab : Nat → Inode) (node : Inode) (bw pos : Nat) (s : FSState) (k : Nat),
      tab n = node → PtrInv s.disk U tab → U n → node.WF → s.disk.capacity ≤ 65536 →
      bw ≤ numbytes → numbytes - bw ≤ fuel → pos + (numbytes - bw) ≤ MAX_FILE_SIZE →
      FreeAtLeast s.disk (write_need s.disk node pos (numbytes - bw) + k) →
      (write_loop src numbytes fuel bw pos node s).1 = numbytes ∧
      FreeAtLeast (write_loop src numbytes fuel bw pos node s).2.2.2.disk k := by
  intro fuel
  induction fuel with
  | zero =>
    intro tab node bw pos s k _ _ _ _ _ hbw hfuel _ hfree
    have e : numbytes - bw = 0 := by omega
    rw [e] at hfree
    simp only [write_need, if_true, Nat.zero_add] at hfree
    exact ⟨by simp only [write_loop]; omega, hfree⟩
  | succ fuel ih =>
    intro tab node bw pos s k hn h hU hwf hcap hbw hfuel hmax hfree
    subst hn
    unfold write_loop
    by_cases hlt : bw < numbytes
    · rw [if_pos hlt]
      simp only []
      have hlen : 0 < numbytes - bw := by omega
      have hlb : pos / SOFTWARE_DISK_BLOCK_SIZE
          < NUM_DIRECT_INODE_BLOCKS + NUM_SINGLE_INDIRECT_BLOCKS := by
        simp only [MAX_FILE_SIZE, SOFTWARE_DISK_BLOCK_SIZE, NUM_DIRECT_INODE_BLOCKS,
          NUM_SINGLE_INDIRECT_BLOCKS] at hmax ⊢
        omega
      have spec := get_data_block_alloc_spec (pos / SOFTWARE_DISK_BLOCK_SIZE) h hU hwf hcap
      rcases hg : get_data_block_for_offset s (tab n) (pos / SOFTWARE_DISK_BLOCK_SIZE) true
        with ⟨r, node1, s1⟩
      rw [hg] at spec
      simp only [] at spec
      generalize hc : min (SOFTWARE_DISK_BLOCK_SIZE - pos % SOFTWARE_DISK_BLOCK_SIZE)
        (numbytes - bw) = c
      have hinv := spec.inv
      have e1 : (fun m => if m = n then node1 else tab m) n = node1 := by simp
      have hcle := alloc_cost_le_write_need s.disk (tab n) pos (numbytes - bw) hlen
      have hen := get_data_block_enough (tab n)
        (write_need s.disk (tab n) pos (numbytes - bw)
          - alloc_cost s.disk (tab n) (pos / SOFTWARE_DISK_BLOCK_SIZE) + k) hcap hlb
        (hfree.weaken (by omega))
      rw [hg] at hen
      cases r with
      | none => cases hen.1
      | some p =>
        simp only []
        have hres : block_of s1.disk node1 (pos / SOFTWARE_DISK_BLOCK_SIZE) = some p :=
          spec.res.symm
        have hres' : block_of s1.disk ((fun m => if m = n then node1 else tab m) n)
            (pos / SOFTWARE_DISK_BLOCK_SIZE) = some p := by rw [e1]; exact hres
        obtain ⟨dinv, dgrows, dres, dsame, dother⟩ := data_write_spec hinv hU hres'
          (memcpy (read_unchecked s1.disk p) (pos % SOFTWARE_DISK_BLOCK_SIZE) src bw c)
        simp only [↓reduceIte] at dgrows dres
        obtain ⟨hp1, hp2, _⟩ := hinv.block_of_range hU hres'
        have hp0 : p ≠ 0 := by unfold FIRST_DATA_BLOCK at hp1; omega
        generalize hd2 : write_unchecked s1.disk (memcpy (read_unchecked s1.disk p)
          (pos % SOFTWARE_DISK_BLOCK_SIZE) src bw c) p = d2 at *
        have hc1 : c ≤ SOFTWARE_DISK_BLOCK_SIZE - pos % SOFTWARE_DISK_BLOCK_SIZE := by
          rw [← hc]; exact Nat.min_le_left _ _
        have hc2 : c ≤ numbytes - bw := by
          rw [← hc]; exact Nat.min_le_right _ _
        have hc0 : 0 < c := by
          rw [← hc]
          have : pos % SOFTWARE_DISK_BLOCK_SIZE < SOFTWARE_DISK_BLOCK_SIZE :=
            Nat.mod_lt _ (by decide)
          omega
        have hposc : (pos + c) % 2 ^ 32 = pos + c := by
          apply Nat.mod_eq_of_lt
          simp only [MAX_FILE_SIZE, SOFTWARE_DISK_BLOCK_SIZE, NUM_DIRECT_INODE_BLOCKS,
            NUM_SINGLE_INDIRECT_BLOCKS] at hmax
          omega
        rw [hposc]
        have hstep := write_need_step s.disk d2 (tab n) node1 pos (numbytes - bw) c hlen hc.symm
          (fun lb1 hne => by rw [dres, spec.res_other lb1 hne])
          spec.ind_direct
          (fun h0 => by
            have := (spec.grows.keep .indirect trivial h0).2
            simp only [slot_val] at this
            rw [this]; exact h0)
          (fun h13 => by
            rcases (block_of_eq_some hres).2 with ⟨hl, _⟩ | ⟨_, _, hi, _⟩
            · omega
            · exact hi)
        have hf2 : FreeAtLeast d2 (write_need d2 node1 (pos + c) (numbytes - bw - c) + k) :=
          (hen.2.congr_free dgrows.cap (dother 0 (Ne.symm hp0))).weaken (by omega)
        have hcap2 : d2.capacity ≤ 65536 := by
          have := dgrows.cap; have := spec.grows.cap; omega
        have e3 : numbytes - (bw + c) = numbytes - bw - c := by omega
        have hfu : numbytes - (bw + c) ≤ fuel := by omega
        have hmx : pos + c + (numbytes - (bw + c)) ≤ MAX_FILE_SIZE := by omega
        have rec := ih (fun m => if m = n then node1 else tab m) node1 (bw + c) (pos + c)
          ⟨d2, s1.fserror⟩ k (by simp) dinv hU spec.wf hcap2 (by omega) hfu hmx
          (by rw [e3]; exact hf2)
        exact rec
    · rw [if_neg hlt]
      have e : numbytes - bw = 0 := by omega
      rw [e] at hfree
      simp only [write_need, if_true, Nat.zero_add] at hfree
      exact ⟨by simp only []; omega, hfree⟩

/-! ## Saving the inode after an operation -/

theorem inode_block_offset_inj {m n : Nat} (h1 : inode_block_for m = inode_block_for n)
    (h2 : inode_offset_in_block m = inode_offset_in_block n) : m = n := by
  unfold inode_block_for inode_offset_in_block FIRST_INODE_BLOCK INODES_PER_BLOCK at *
  omega

theorem inode_block_for_range {n : Nat} (h : n < MAX_FILES) :
    FIRST_INODE_BLOCK ≤ inode_block_for n ∧ inode_block_for n ≤ LAST_INODE_BLOCK := by
  unfold inode_block_for FIRST_INODE_BLOCK LAST_INODE_BLOCK INODES_PER_BLOCK
  unfold MAX_FILES at h
  omega

/-- The effect of a `save_inode` on a readable inode block. -/
theorem save_inode_unchecked_spec {d : Disk} {n : Nat} (h : inode_block_for n < d.capacity)
    {node : Inode} (hwf : node.WF) :
    (save_inode_unchecked d n node).capacity = d.capacity ∧
    (∀ m, m ≠ inode_block_for n → (save_inode_unchecked d n node).blocks m = d.blocks m) ∧
    inode_at (save_inode_unchecked d n node) n = node ∧
    (∀ m, m ≠ n → inode_at (save_inode_unchecked d n node) m = inode_at d m) := by
  rw [save_inode_unchecked_of_lt h]
  refine ⟨rfl, fun m hm => by simp only [if_neg hm], ?_, ?_⟩
  · unfold inode_at
    simp only [if_true]
    exact get_put_same _ _ hwf
  · intro m hm
    unfold inode_at
    simp only []
    by_cases hb : inode_block_for m = inode_block_for n
    · rw [if_pos hb, hb]
      apply get_put_other
      intro c
      exact hm (inode_block_offset_inj hb c)
    · rw [if_neg hb]

/-- Slot values only depend on the pointers of the inode and on the contents
of its indirect block. -/
theorem slot_val_congr {d d1 : Disk} {node node1 : Inode} (hd : node1.direct = node.direct)
    (hi : node1.indirect = node.indirect)
    (hb : node.indirect ≠ 0 → d1.blocks node.indirect = d.blocks node.indirect) (sl : Slot) :
    (sl.valid node1 ↔ sl.valid node) ∧
    (sl.valid node → slot_val d1 node1 sl = slot_val d node sl) := by
  cases sl with
  | direct i => exact ⟨Iff.rfl, fun _ => by simp only [slot_val, hd]⟩
  | indirect => exact ⟨Iff.rfl, fun _ => by simp only [slot_val, hi]⟩
  | entry j =>
    refine ⟨by simp only [Slot.valid, hi], fun hv => ?_⟩
    simp only [slot_val, hi]
    rw [hb hv.1]

theorem holds_congr {d d1 : Disk} {node node1 : Inode} (hd : node1.direct = node.direct)
    (hi : node1.indirect = node.indirect)
    (hb : node.indirect ≠ 0 → d1.blocks node.indirect = d.blocks node.indirect) (b : Nat) :
    holds d1 node1 b ↔ holds d node b := by
  unfold holds
  constructor
  · rintro ⟨hb0, sl, hv, e⟩
    have := slot_val_congr hd hi hb sl
    exact ⟨hb0, sl, this.1.1 hv, by rw [← this.2 (this.1.1 hv)]; exact e⟩
  · rintro ⟨hb0, sl, hv, e⟩
    have := slot_val_congr hd hi hb sl
    exact ⟨hb0, sl, this.1.2 hv, by rw [this.2 hv]; exact e⟩

theorem block_of_congr_node {d d1 : Disk} {node node1 : Inode} (hd : node1.direct = node.direct)
    (hi : node1.indirect = node.indirect)
    (hb : node.indirect ≠ 0 → read_unchecked d1 node.indirect = read_unchecked d node.indirect)
    (lb : Nat) : block_of d1 node1 lb = block_of d node lb := by
  by_cases h1 : lb < NUM_DIRECT_INODE_BLOCKS
  · rw [block_of_direct _ _ h1, block_of_direct _ _ h1, hd]
  · by_cases h0 : node.indirect = 0
    · rw [block_of_no_indirect _ _ (by omega) (by rw [hi]; exact h0),
        block_of_no_indirect _ _ (by omega) h0]
    · by_cases h2 : lb < NUM_DIRECT_INODE_BLOCKS + NUM_SINGLE_INDIRECT_BLOCKS
      · rw [block_of_entry _ _ (by omega) (by rw [hi]; exact h0) h2,
          block_of_entry _ _ (by omega) h0 h2, hi, hb h0]
      · rw [block_of_too_large _ _ (by omega), block_of_too_large _ _ (by omega)]

/-- Saving the in-memory inode of `n` (with its pointers as in the table, any
size) turns the invariant for the table into the invariant for the disk. -/
theorem save_inode_inv {d : Disk} {U : Nat → Prop} {tab : Nat → Inode} {n : Nat} {node : Inode}
    (hinv : PtrInv d U tab) (hU : U n) (hn : n < MAX_FILES)
    (hib : inode_block_for n < d.capacity)
    (htab : ∀ m, U m → m ≠ n → tab m = inode_at d m)
    (hd : node.direct = (tab n).direct) (hi : node.indirect = (tab n).indirect)
    (hwf : node.WF) :
    PtrInv (save_inode_unchecked d n node) U (inode_at (save_inode_unchecked d n node)) ∧
    (∀ b, FIRST_DATA_BLOCK ≤ b → (save_inode_unchecked d n node).blocks b = d.blocks b) ∧
    (∀ b, data_bit (save_inode_unchecked d n node) b = data_bit d b) := by
  obtain ⟨scap, sblk, sself, sother⟩ := save_inode_unchecked_spec hib hwf
  generalize save_inode_unchecked d n node = d2 at *
  have hibr := inode_block_for_range hn
  unfold FIRST_INODE_BLOCK LAST_INODE_BLOCK at hibr
  have hdata : ∀ b, FIRST_DATA_BLOCK ≤ b → d2.blocks b = d.blocks b := by
    intro b hb
    apply sblk
    unfold FIRST_DATA_BLOCK at hb
    omega
  have hbits : ∀ b, data_bit d2 b = data_bit d b := by
    intro b
    unfold data_bit
    rw [sblk 0 (by omega)]
  refine ⟨?_, hdata, hbits⟩
  -- the indirect block of a selected inode is a data block
  have hind : ∀ m, U m → (tab m).indirect ≠ 0 →
      d2.blocks (tab m).indirect = d.blocks (tab m).indirect := by
    intro m hUm h0
    exact hdata _ (hinv.range m .indirect hUm trivial h0).1
  have hsl : ∀ m (sl : Slot), U m →
      (sl.valid (inode_at d2 m) ↔ sl.valid (tab m)) ∧
      (sl.valid (tab m) → slot_val d2 (inode_at d2 m) sl = slot_val d (tab m) sl) := by
    intro m sl hUm
    by_cases hm : m = n
    · subst hm
      rw [sself]
      exact slot_val_congr hd hi (hind m hUm) sl
    · rw [sother m hm, ← htab m hUm hm]
      exact slot_val_congr rfl rfl (hind m hUm) sl
  exact hinv.congr scap (fun b hb => by rw [hbits]; exact hb)
    (fun m sl hUm hv => ((hsl m sl hUm).1).1 hv)
    (fun m sl hUm hv => (hsl m sl hUm).2 (((hsl m sl hUm).1).1 hv))

/-! ## `write_file` on a disk that satisfies the ownership invariant -/

theorem file_byte_congr {d d1 : Disk} {node node1 : Inode} (hcap : d1.capacity = d.capacity)
    (hblk : ∀ lb, block_of d1 node1 lb = block_of d node lb)
    (hdata : ∀ lb q, block_of d node lb = some q → d1.blocks q = d.blocks q) (off : Nat) :
    file_byte d1 node1 off = file_byte d node off := by
  unfold file_byte
  rw [hblk]
  cases hq : block_of d node (off / SOFTWARE_DISK_BLOCK_SIZE) with
  | none => rfl
  | some q =>
    simp only []
    unfold read_sd_block
    rw [hcap, hdata _ q hq]

/-- The file-level effect of `write_file`. -/
theorem write_file_spec {U : Nat → Prop} {s : FSState} (f : FileInternals) (buf : Block)
    (cnt : Nat) (hmode : f.mode = .READ_WRITE) (hpos : f.pos < 2 ^ 32)
    (hinv : PtrInv s.disk U (inode_at s.disk)) (hU : U f.inode_num)
    (hU512 : ∀ m, U m → m < MAX_FILES)
    (hn : f.inode_num < MAX_FILES) (hcap1 : LAST_INODE_BLOCK < s.disk.capacity)
    (hcap2 : s.disk.capacity ≤ 65536) :
    WriteFileSpec U s f buf cnt (write_file s (some f) buf cnt) := by
  have hibr := inode_block_for_range hn
  have hib : inode_block_for f.inode_num < s.disk.capacity := by omega
  have hload := load_inode_of_lt hib
  rw [write_file_eq buf cnt hmode hload]
  have hwf0 : (inode_at s.disk f.inode_num).WF := get_inode_wf _ _
  have ws := write_loop_spec U f.inode_num buf cnt cnt (inode_at s.disk)
    (inode_at s.disk f.inode_num) 0 f.pos s rfl hinv hU hwf0 hcap2
  have wc := fun k => write_loop_complete U f.inode_num buf cnt cnt (inode_at s.disk)
    (inode_at s.disk f.inode_num) 0 f.pos s k rfl hinv hU hwf0 hcap2 (Nat.zero_le _)
    (by omega)
  obtain ⟨_, _, _, hp32⟩ := write_loop_raw buf cnt cnt 0 f.pos (inode_at s.disk f.inode_num) s
  generalize write_loop buf cnt cnt 0 f.pos (inode_at s.disk f.inode_num) s = res at ws wc hp32 ⊢
  obtain ⟨bw1, pos1, node1, s1⟩ := res
  simp only [] at ws wc hp32 ⊢
  have winv := ws.inv
  have wgrows := ws.grows
  have wpos := ws.pos_eq
  have wwritten := ws.written
  have wkept := ws.kept
  simp only [Nat.sub_zero, Nat.zero_add] at wpos wwritten wkept wc
  have e1 : (fun m => if m = f.inode_num then node1 else inode_at s.disk m) f.inode_num
      = node1 := by simp
  generalize hnode2 : (if pos1 > node1.size then { node1 with size := pos1 } else node1) = node2
  have hd2 : node2.direct = node1.direct := by rw [← hnode2]; split <;> rfl
  have hi2 : node2.indirect = node1.indirect := by rw [← hnode2]; split <;> rfl
  have hs2 : node2.size = max node1.size pos1 := by rw [← hnode2]; exact raise_size_size _ _
  have hwf2 : node2.WF := by rw [← hnode2]; exact raise_size_wf ws.wf (hp32 hpos)
  have hib1 : inode_block_for f.inode_num < s1.disk.capacity := by rw [wgrows.cap]; exact hib
  -- the loop left the blocks below the data region alone, except the bitmap
  have hheld : ∀ m, holds s1.disk node1 m → FIRST_DATA_BLOCK ≤ m := by
    intro m hm
    have := winv.holds_range hU (b := m) (by simpa using hm)
    exact this.1
  have hlow1 : ∀ m, 0 < m → m < FIRST_DATA_BLOCK → s1.disk.blocks m = s.disk.blocks m := by
    intro m h0 h1
    apply wgrows.frame m (by omega)
    intro c
    have := hheld m c
    omega
  have hat1 : ∀ m, m < MAX_FILES → inode_at s1.disk m = inode_at s.disk m := by
    intro m hm
    have := inode_block_for_range hm
    unfold inode_at
    rw [hlow1 _ (by unfold FIRST_INODE_BLOCK at this; omega)
      (by unfold LAST_INODE_BLOCK at this; unfold FIRST_DATA_BLOCK; omega)]
  obtain ⟨scap, sblk, sself, sother⟩ := save_inode_unchecked_spec hib1 hwf2
  obtain ⟨inv2, data2, bits2⟩ := save_inode_inv winv hU hn hib1
    (fun m hUm hm => by simp only [if_neg hm]; exact (hat1 m (hU512 m hUm)).symm)
    (by simpa using hd2) (by simpa using hi2) hwf2
  generalize save_inode_unchecked s1.disk f.inode_num node2 = d2 at *
  have hind2 : node1.indirect ≠ 0 → d2.blocks node1.indirect = s1.disk.blocks node1.indirect := by
    intro h0
    apply data2
    apply hheld
    exact ⟨h0, .indirect, trivial, rfl⟩
  have hslot := fun sl => slot_val_congr hd2 hi2 hind2 sl
  have hholds := fun b => holds_congr hd2 hi2 hind2 b
  have hblk : ∀ lb, block_of d2 node2 lb = block_of s1.disk node1 lb := by
    intro lb
    apply block_of_congr_node hd2 hi2
    intro h0
    unfold read_unchecked read_sd_block
    rw [scap, hind2 h0]
  have hfb : ∀ off, file_byte d2 node2 off = file_byte s1.disk node1 off := by
    intro off
    apply file_byte_congr scap hblk
    intro lb q hq
    apply data2
    have := @PtrInv.block_of_range _ _ _ winv f.inode_num hU lb q (by simpa using hq)
    exact this.1
  have hibr' := hibr
  unfold FIRST_INODE_BLOCK LAST_INODE_BLOCK at hibr'
  refine ⟨by rw [wpos], inv2, ⟨scap.trans wgrows.cap, ?_, ?_, ?_, ?_, ?_, ?_⟩, ?_, ?_, ?_, ?_, ?_⟩
  · intro m hm hm5
    rw [sother m hm, hat1 m hm5]
  · intro m hm0 hmib hnh
    rw [sblk m hmib]
    apply wgrows.frame m hm0
    intro c
    apply hnh
    rw [sself]
    exact (hholds m).2 c
  · intro b hb
    rw [bits2]; exact wgrows.bit_mono b hb
  · intro b hb
    rw [bits2] at hb
    rcases wgrows.bit_new b hb with h1 | h1
    · exact Or.inl h1
    · right; rw [sself]; exact (hholds b).2 h1
  · intro sl hv hne
    obtain ⟨hv1, e⟩ := wgrows.keep sl hv hne
    rw [sself]
    exact ⟨(hslot sl).1.2 hv1, ((hslot sl).2 hv1).trans e⟩
  · intro sl hv hne
    rw [sself] at hv hne ⊢
    have hv1 := (hslot sl).1.1 hv
    have e := (hslot sl).2 hv1
    rw [e] at hne ⊢
    exact wgrows.fresh sl hv1 hne
  · intro m h0 h1 hmib
    simp only []
    rw [sblk m hmib, hlow1 m h0 h1]
  · simp only []
    rw [sself, hs2, wgrows.size, wpos]
  · intro k hk
    simp only [] at hk ⊢
    rw [sself, hfb]
    exact wwritten k hk
  · intro off v hoff hv
    simp only [] at hoff ⊢
    rw [sself, hfb]
    exact wkept off v hoff hv
  · intro k hmax hfree
    obtain ⟨c1, c2⟩ := wc k hmax hfree
    refine ⟨c1, c2.congr_free scap ?_⟩
    apply sblk
    omega

/-! ## Names in directory entries -/

theorem strcmp_eq_iff (mem : Block) : ∀ (name : List Byte) (p : Nat),
    strcmp_eq mem p name = true ↔
      (∀ k, k < name.length → mem (p + k) = name.getD k 0) ∧ mem (p + name.length) = 0 := by
  intro name
  induction name with
  | nil =>
    intro p
    simp [strcmp_eq]
  | cons c cs ih =>
    intro p
    simp only [strcmp_eq, Bool.and_eq_true, beq_iff_eq, ih (p + 1), List.length_cons]
    constructor
    · rintro ⟨h0, h1, h2⟩
      refine ⟨?_, ?_⟩
      · intro k hk
        cases k with
        | zero => simpa using h0
        | succ k =>
          have := h1 k (by omega)
          rw [show p + (k + 1) = p + 1 + k by omega]
          simpa using this
      · rw [show p + (cs.length + 1) = p + 1 + cs.length by omega]
        exact h2
    · rintro ⟨h1, h2⟩
      refine ⟨?_, ?_, ?_⟩
      · have := h1 0 (by omega)
        simpa using this
      · intro k hk
        have := h1 (k + 1) (by omega)
        rw [show p + (k + 1) = p + 1 + k by omega] at this
        simpa using this
      · rw [show p + (cs.length + 1) = p + 1 + cs.length by omega] at h2
        exact h2

theorem getD_mem_ne_zero {nm : List Byte} (h : CString nm) {k : Nat} (hk : k < nm.length) :
    nm.getD k 0 ≠ 0 := by
  apply h
  rw [List.getD_eq_getElem _ _ hk]
  exact List.getElem_mem hk

/-- Two C strings stored at the same place are equal. -/
theorem StoredName.unique {mem : Block} {p : Nat} {a b : List Byte} (ha : StoredName mem p a)
    (hb : StoredName mem p b) : a = b := by
  obtain ⟨a1, a2, a3⟩ := ha
  obtain ⟨b1, b2, b3⟩ := hb
  have hlen : a.length = b.length := by
    rcases Nat.lt_trichotomy a.length b.length with h | h | h
    · exfalso
      have := b1 a.length h
      rw [a2] at this
      exact getD_mem_ne_zero b3 h this.symm
    · exact h
    · exfalso
      have := a1 b.length h
      rw [b2] at this
      exact getD_mem_ne_zero a3 h this.symm
  apply List.ext_getElem hlen
  intro k h1 h2
  have e1 := a1 k h1
  have e2 := b1 k h2
  rw [List.getD_eq_getElem _ _ h1] at e1
  rw [List.getD_eq_getElem _ _ h2] at e2
  rw [← e1, ← e2]

/-- Against a stored name, `strcmp` answers 0 exactly for that name. -/
theorem strcmp_stored {mem : Block} {p : Nat} {nm name : List Byte} (h : StoredName mem p nm)
    (hname : CString name) : strcmp_eq mem p name = true ↔ name = nm := by
  rw [strcmp_eq_iff]
  constructor
  · rintro ⟨h1, h2⟩
    exact StoredName.unique ⟨h1, h2, hname⟩ h
  · rintro rfl
    exact ⟨h.1, h.2.1⟩

theorem stored_of_strcmp {mem : Block} {p : Nat} {name : List Byte}
    (h : strcmp_eq mem p name = true) (hname : CString name) : StoredName mem p name := by
  rw [strcmp_eq_iff] at h
  exact ⟨h.1, h.2, hname⟩

/-- A stored name only depends on the bytes up to its NUL. -/
theorem StoredName.congr_mem {mem mem1 : Block} {p : Nat} {nm : List Byte}
    (h : StoredName mem p nm) (hm : ∀ k, k ≤ nm.length → mem1 (p + k) = mem (p + k)) :
    StoredName mem1 p nm := by
  refine ⟨fun k hk => ?_, ?_, h.2.2⟩
  · rw [hm k (by omega)]; exact h.1 k hk
  · rw [hm _ (le_refl _)]; exact h.2.1

/-! ## The bytes `create_file` and `delete_file` write into a directory block -/

theorem strcpy_stored (mem : Block) (p : Nat) {name : List Byte} (h : CString name) :
    StoredName (strcpy mem p name) p name := by
  refine ⟨fun k hk => ?_, ?_, h⟩
  · unfold strcpy
    rw [if_pos ⟨Nat.le_add_right _ _, by omega⟩, Nat.add_sub_cancel_left]
  · unfold strcpy
    rw [if_neg (by omega), if_pos rfl]

theorem strcpy_out (mem : Block) (p : Nat) (name : List Byte) {k : Nat}
    (h : k < p ∨ p + name.length < k) : strcpy mem p name k = mem k := by
  unfold strcpy
  rw [if_neg (by omega), if_neg (by omega)]

/-- The entry `create_file` writes at index `i`: the bytes outside the entry
are untouched, the entry is used, records the inode number and stores the
name. -/
theorem new_entry_spec (entries : Block) (i inode_num : Nat) {name : List Byte}
    (hname : ValidName name) :
    (∀ k, k < DIR_ENTRY_SIZE * i ∨ DIR_ENTRY_SIZE * i + DIR_ENTRY_SIZE ≤ k →
      wr8 (wr16 (strcpy entries (DIR_ENTRY_SIZE * i) name) (DIR_ENTRY_SIZE * i + 508) inode_num)
        (DIR_ENTRY_SIZE * i + 510) 1 k = entries k) ∧
    entry_used (wr8 (wr16 (strcpy entries (DIR_ENTRY_SIZE * i) name) (DIR_ENTRY_SIZE * i + 508)
        inode_num) (DIR_ENTRY_SIZE * i + 510) 1) i = 1 ∧
    entry_inode_num (wr8 (wr16 (strcpy entries (DIR_ENTRY_SIZE * i) name)
        (DIR_ENTRY_SIZE * i + 508) inode_num) (DIR_ENTRY_SIZE * i + 510) 1) i
      = inode_num % 65536 ∧
    StoredName (wr8 (wr16 (strcpy entries (DIR_ENTRY_SIZE * i) name) (DIR_ENTRY_SIZE * i + 508)
        inode_num) (DIR_ENTRY_SIZE * i + 510) 1) (DIR_ENTRY_SIZE * i) name := by
  have hlen : name.length ≤ 507 := hname.2
  unfold DIR_ENTRY_SIZE
  refine ⟨?_, ?_, ?_, ?_⟩
  · intro k hk
    unfold wr8 wr16
    rw [if_neg (by omega), if_neg (by omega), if_neg (by omega)]
    exact strcpy_out _ _ _ (by omega)
  · unfold entry_used wr8 DIR_ENTRY_SIZE
    rw [if_pos rfl]
    rfl
  · unfold entry_inode_num DIR_ENTRY_SIZE rd16 wr8
    rw [if_neg (by omega), if_neg (by omega)]
    have := rd16_wr16_same (strcpy entries (512 * i) name) (512 * i + 508) inode_num
    unfold rd16 at this
    exact this
  · apply (strcpy_stored entries (512 * i) hname.1).congr_mem
    intro k hk
    unfold wr8 wr16
    rw [if_neg (by omega), if_neg (by omega), if_neg (by omega)]

/-- The entry `delete_file` clears at index `i`: only its `used` byte changes,
to 0. -/
theorem cleared_entry_spec (entries : Block) (i : Nat) :
    (∀ k, k ≠ DIR_ENTRY_SIZE * i + 510 →
      wr8 entries (DIR_ENTRY_SIZE * i + 510) 0 k = entries k) ∧
    entry_used (wr8 entries (DIR_ENTRY_SIZE * i + 510) 0) i = 0 := by
  refine ⟨fun k hk => ?_, ?_⟩
  · unfold wr8; rw [if_neg hk]
  · unfold entry_used wr8; rw [if_pos rfl]; rfl

/-- The fields of entry `j` only depend on the bytes of entry `j`. -/
theorem entry_congr {e1 e2 : Block} {j : Nat}
    (h : ∀ k, DIR_ENTRY_SIZE * j ≤ k → k < DIR_ENTRY_SIZE * j + DIR_ENTRY_SIZE → e1 k = e2 k) :
    entry_used e1 j = entry_used e2 j ∧ entry_inode_num e1 j = entry_inode_num e2 j ∧
    ∀ nm, nm.length ≤ MAX_FILENAME_SIZE →
      (StoredName e1 (DIR_ENTRY_SIZE * j) nm ↔ StoredName e2 (DIR_ENTRY_SIZE * j) nm) := by
  unfold DIR_ENTRY_SIZE at h
  refine ⟨?_, ?_, ?_⟩
  · unfold entry_used DIR_ENTRY_SIZE
    exact h _ (by omega) (by omega)
  · unfold entry_inode_num DIR_ENTRY_SIZE
    exact rd16_congr (h _ (by omega) (by omega)) (h _ (by omega) (by omega))
  · intro nm hnm
    unfold MAX_FILENAME_SIZE at hnm
    unfold DIR_ENTRY_SIZE
    constructor
    · intro hs
      exact hs.congr_mem (fun k hk => (h _ (by omega) (by omega)).symm)
    · intro hs
      exact hs.congr_mem (fun k hk => h _ (by omega) (by omega))

/-! ## The directory scans -/

theorem mem_dir_blocks {b : Nat} :
    b ∈ dir_blocks ↔ FIRST_DIR_ENTRY_BLOCK ≤ b ∧ b ≤ LAST_DIR_ENTRY_BLOCK := by
  unfold dir_blocks
  rw [List.mem_range'_1]
  unfold FIRST_DIR_ENTRY_BLOCK LAST_DIR_ENTRY_BLOCK
  omega

theorem find_file_entry_in_some (d : Disk) (name : List Byte) :
    ∀ (bs : List Nat) (e : DirectoryEntry) (b i : Nat),
      find_file_entry_in d name bs = some (e, b, i) →
      b ∈ bs ∧ b < d.capacity ∧ i < DIR_ENTRIES_PER_BLOCK ∧ entry_used (d.blocks b) i ≠ 0 ∧
        strcmp_eq (d.blocks b) (DIR_ENTRY_SIZE * i) name = true ∧
        e = get_entry (d.blocks b) i := by
  intro bs
  induction bs with
  | nil => intro e b i h; cases h
  | cons b0 bs ih =>
    intro e b i h
    simp only [find_file_entry_in] at h
    split at h
    · cases h
    · rename_i entries hr
      obtain ⟨hlt, he⟩ := read_sd_block_eq_some hr
      subst he
      split at h
      · rename_i j hj
        simp only [Option.some.injEq, Prod.mk.injEq] at h
        obtain ⟨h1, h2, h3⟩ := h
        subst h2 h3
        have hmem := List.mem_of_find?_eq_some hj
        have hp := List.find?_some hj
        simp only [Bool.and_eq_true, bne_iff_ne, ne_eq] at hp
        exact ⟨List.mem_cons_self _ _, hlt, List.mem_range.1 hmem, hp.1, hp.2, h1.symm⟩
      · obtain ⟨a1, a2⟩ := ih e b i h
        exact ⟨List.mem_cons_of_mem _ a1, a2⟩

theorem find_file_entry_in_none (d : Disk) (name : List Byte) :
    ∀ (bs : List Nat), (∀ b ∈ bs, b < d.capacity) → find_file_entry_in d name bs = none →
      ∀ b ∈ bs, ∀ i, i < DIR_ENTRIES_PER_BLOCK → entry_used (d.blocks b) i ≠ 0 →
        strcmp_eq (d.blocks b) (DIR_ENTRY_SIZE * i) name = false := by
  intro bs
  induction bs with
  | nil => intro _ _ b hb; cases hb
  | cons b0 bs ih =>
    intro hcap h b hb i hi hu
    simp only [find_file_entry_in] at h
    rw [read_sd_block_of_lt (hcap b0 (List.mem_cons_self _ _))] at h
    simp only [] at h
    split at h
    · cases h
    · rename_i hnone
      rcases List.mem_cons.1 hb with e | hin
      · subst e
        rw [List.find?_eq_none] at hnone
        have := hnone i (List.mem_range.2 hi)
        simp only [Bool.and_eq_true, bne_iff_ne, ne_eq, not_and, Bool.not_eq_true] at this
        exact this hu
      · exact ih (fun b hb => hcap b (List.mem_cons_of_mem _ hb)) h b hin i hi hu

theorem find_file_entry_in_congr {d d1 : Disk} (name : List Byte)
    (hcap : d1.capacity = d.capacity) :
    ∀ (bs : List Nat), (∀ b ∈ bs, d1.blocks b = d.blocks b) →
      find_file_entry_in d1 name bs = find_file_entry_in d name bs := by
  intro bs
  induction bs with
  | nil => intro _; rfl
  | cons b0 bs ih =>
    intro h
    simp only [find_file_entry_in]
    unfold read_sd_block
    rw [hcap, h b0 (List.mem_cons_self _ _), ih (fun b hb => h b (List.mem_cons_of_mem _ hb))]

/-- A successful `find_file_entry` returns a used directory slot whose stored
name compares equal. -/
theorem find_file_entry_some {d : Disk} {name : List Byte} {e : DirectoryEntry} {b i : Nat}
    (h : find_file_entry d name = some (e, b, i)) :
    DirSlot b i ∧ b < d.capacity ∧ slot_used d b i ∧
      strcmp_eq (d.blocks b) (DIR_ENTRY_SIZE * i) name = true ∧
      e = get_entry (d.blocks b) i := by
  obtain ⟨h1, h2, h3, h4, h5, h6⟩ := find_file_entry_in_some d name _ e b i h
  have := mem_dir_blocks.1 h1
  exact ⟨⟨this.1, this.2, h3⟩, h2, h4, h5, h6⟩

/-- When every directory block is readable, a failed `find_file_entry` means
that no used slot compares equal. -/
theorem find_file_entry_none {d : Disk} {name : List Byte}
    (hcap : LAST_DIR_ENTRY_BLOCK < d.capacity) (h : find_file_entry d name = none) {b i : Nat}
    (hs : DirSlot b i) (hu : slot_used d b i) :
    strcmp_eq (d.blocks b) (DIR_ENTRY_SIZE * i) name = false := by
  apply find_file_entry_in_none d name dir_blocks _ h b (mem_dir_blocks.2 ⟨hs.1, hs.2.1⟩) i
    hs.2.2 hu
  intro b hb
  have := (mem_dir_blocks.1 hb).2
  omega

theorem find_file_entry_congr {d d1 : Disk} (name : List Byte)
    (hcap : d1.capacity = d.capacity)
    (h : ∀ b, FIRST_DIR_ENTRY_BLOCK ≤ b → b ≤ LAST_DIR_ENTRY_BLOCK → d1.blocks b = d.blocks b) :
    find_file_entry d1 name = find_file_entry d name :=
  find_file_entry_in_congr name hcap _ (fun b hb => h b (mem_dir_blocks.1 hb).1
    (mem_dir_blocks.1 hb).2)

theorem find_free_dir_entry_in_some (d : Disk) :
    ∀ (bs : List Nat) (b i : Nat), find_free_dir_entry_in d bs = some (b, i) →
      b ∈ bs ∧ b < d.capacity ∧ i < DIR_ENTRIES_PER_BLOCK ∧ entry_used (d.blocks b) i = 0 := by
  intro bs
  induction bs with
  | nil => intro b i h; cases h
  | cons b0 bs ih =>
    intro b i h
    simp only [find_free_dir_entry_in] at h
    split at h
    · cases h
    · rename_i entries hr
      obtain ⟨hlt, he⟩ := read_sd_block_eq_some hr
      subst he
      split at h
      · rename_i j hj
        simp only [Option.some.injEq, Prod.mk.injEq] at h
        obtain ⟨h2, h3⟩ := h
        subst h2 h3
        have hmem := List.mem_of_find?_eq_some hj
        have hp := List.find?_some hj
        simp only [beq_iff_eq] at hp
        exact ⟨List.mem_cons_self _ _, hlt, List.mem_range.1 hmem, hp⟩
      · obtain ⟨a1, a2⟩ := ih b i h
        exact ⟨List.mem_cons_of_mem _ a1, a2⟩

theorem find_free_dir_entry_in_congr {d d1 : Disk} (hcap : d1.capacity = d.capacity) :
    ∀ (bs : List Nat), (∀ b ∈ bs, d1.blocks b = d.blocks b) →
      find_free_dir_entry_in d1 bs = find_free_dir_entry_in d bs := by
  intro bs
  induction bs with
  | nil => intro _; rfl
  | cons b0 bs ih =>
    intro h
    simp only [find_free_dir_entry_in]
    unfold read_sd_block
    rw [hcap, h b0 (List.mem_cons_self _ _), ih (fun b hb => h b (List.mem_cons_of_mem _ hb))]

/-- A successful `find_free_dir_entry` returns an unused directory slot. -/
theorem find_free_dir_entry_some {d : Disk} {b i : Nat}
    (h : find_free_dir_entry d = some (b, i)) :
    DirSlot b i ∧ b < d.capacity ∧ ¬ slot_used d b i := by
  obtain ⟨h1, h2, h3, h4⟩ := find_free_dir_entry_in_some d _ b i h
  have := mem_dir_blocks.1 h1
  exact ⟨⟨this.1, this.2, h3⟩, h2, fun c => c h4⟩

/-- When every directory block is readable, a used slot whose stored name
compares equal makes `find_file_entry` succeed. -/
theorem find_file_entry_of_match {d : Disk} {name : List Byte}
    (hcap : LAST_DIR_ENTRY_BLOCK < d.capacity) {b i : Nat} (hs : DirSlot b i)
    (hu : slot_used d b i) (hm : strcmp_eq (d.blocks b) (DIR_ENTRY_SIZE * i) name = true) :
    ∃ e b1 i1, find_file_entry d name = some (e, b1, i1) := by
  cases h : find_file_entry d name with
  | none =>
    have := find_file_entry_none hcap h hs hu
    rw [hm] at this
    cases this
  | some r => exact ⟨r.1, r.2.1, r.2.2, rfl⟩

/-! ## Allocation of inodes and `create_file` -/

/-- What a successful `alloc_inode` does: the inode returned is the lowest one
whose bit was clear, and only that bit of block 1 changes. -/
theorem alloc_inode_some {s s1 : FSState} {n : Nat} (h : alloc_inode s = (some n, s1)) :
    n < MAX_FILES ∧ inode_bit s.disk n = false ∧
      (∀ q, q < n → inode_bit s.disk q = true) ∧
      s1.disk.capacity = s.disk.capacity ∧ s1.fserror = s.fserror ∧
      INODE_BITMAP_BLOCK < s.disk.capacity ∧
      ∀ m, s1.disk.blocks m
        = if m = INODE_BITMAP_BLOCK then set_bit (s.disk.blocks INODE_BITMAP_BLOCK) n
          else s.disk.blocks m := by
  unfold alloc_inode alloc_bitmap_block at h
  split at h
  · rename_i r d1 heq
    cases h
  · rename_i num d1 heq
    simp only [Prod.mk.injEq, Option.some.injEq] at h
    obtain ⟨hn, hs⟩ := h
    subst hn hs
    split at heq
    · cases heq
    · rename_i buf hr
      obtain ⟨hlt, hb⟩ := read_sd_block_eq_some hr
      subst hb
      split at heq
      · cases heq
      · rename_i j hj
        split at heq
        · cases heq
        · rename_i d2 hw
          simp only [Prod.mk.injEq, Option.some.injEq] at heq
          obtain ⟨e1, e2⟩ := heq
          subst e1 e2
          obtain ⟨_, hc, hbl⟩ := write_sd_block_eq_some hw
          have hmem := List.mem_range.1 (List.mem_of_find?_eq_some hj)
          have hp := List.find?_some hj
          simp only [Bool.not_eq_true'] at hp
          refine ⟨hmem, hp, ?_, hc, rfl, hlt, hbl⟩
          intro q hq
          rw [List.find?_eq_some] at hj
          obtain ⟨_, as, bs, hsplit, hall⟩ := hj
          have hqmem : q ∈ List.range MAX_FILES := List.mem_range.2 (by omega)
          rw [hsplit] at hqmem
          rcases List.mem_append.1 hqmem with hin | hin
          · have := hall q hin
            simpa [inode_bit] using this
          · exfalso
            have hsorted : (List.range MAX_FILES).Pairwise (· < ·) := List.pairwise_lt_range _
            rw [hsplit, List.pairwise_append] at hsorted
            rcases List.mem_cons.1 hin with e | hin2
            · omega
            · have := (List.pairwise_cons.1 hsorted.2.1).1 q hin2
              omega

theorem alloc_inode_none {s s1 : FSState} (h : alloc_inode s = (none, s1)) :
    s1.disk = s.disk ∧ s1.fserror = .FS_OUT_OF_SPACE ∧
      (INODE_BITMAP_BLOCK < s.disk.capacity → ∀ q, q < MAX_FILES → inode_bit s.disk q = true) := by
  unfold alloc_inode alloc_bitmap_block at h
  split at h
  · rename_i r d1 heq
    simp only [Prod.mk.injEq, true_and] at h
    subst h
    split at heq
    · rename_i hr
      simp only [Prod.mk.injEq, true_and] at heq
      subst heq
      refine ⟨rfl, rfl, fun hlt => ?_⟩
      have := read_sd_block_eq_none hr
      omega
    · rename_i buf hr
      obtain ⟨hlt, hb⟩ := read_sd_block_eq_some hr
      subst hb
      split at heq
      · rename_i hnone
        simp only [Prod.mk.injEq, true_and] at heq
        subst heq
        refine ⟨rfl, rfl, fun _ q hq => ?_⟩
        rw [List.find?_eq_none] at hnone
        have := hnone q (List.mem_range.2 hq)
        simpa [inode_bit] using this
      · split at heq
        · rename_i hw
          rw [write_sd_block_of_lt _ hlt] at hw
          cases hw
        · cases heq
  · cases h

theorem alloc_inode_of_free {s : FSState} (hcap : INODE_BITMAP_BLOCK < s.disk.capacity)
    {q : Nat} (hq : q < MAX_FILES) (hfree : inode_bit s.disk q = false) :
    ∃ n s1, alloc_inode s = (some n, s1) := by
  rcases h : alloc_inode s with ⟨r, s1⟩
  cases r with
  | some n => exact ⟨n, s1, rfl⟩
  | none =>
    have := (alloc_inode_none h).2.2 hcap q hq
    rw [hfree] at this
    cases this

/-- The outcomes of `create_file` on a device with every metadata block: either
nothing changes and the null handle is returned, or the directory is full and
an inode was allocated and zeroed, or the call succeeds. -/
theorem create_file_cases (s : FSState) (name : List Byte)
    (hcap : LAST_DIR_ENTRY_BLOCK < s.disk.capacity) :
    ((create_file s name).1 = none ∧ (create_file s name).2.disk = s.disk) ∨
    (∃ n, (create_file s name).1 = none ∧ n < MAX_FILES ∧ inode_bit s.disk n = false ∧
      (create_file s name).2.disk.capacity = s.disk.capacity ∧
      (create_file s name).2.disk.blocks = with_new_inode s.disk n ∧
      find_free_dir_entry ⟨s.disk.capacity, with_new_inode s.disk n⟩ = none) ∨
    (∃ n b i, (create_file s name).1 = some ⟨n, .READ_WRITE, 0⟩ ∧
      Created s name n b i (create_file s name).2) := by
  unfold LAST_DIR_ENTRY_BLOCK at hcap
  unfold create_file
  by_cases hne : name = []
  · rw [if_pos hne]; exact Or.inl ⟨rfl, rfl⟩
  · rw [if_neg hne]
    cases hfind : find_file_entry s.disk name with
    | some e => exact Or.inl ⟨rfl, rfl⟩
    | none =>
      simp only [Option.isSome_none, Bool.false_eq_true, if_false]
      rcases ha : alloc_inode s with ⟨r, s1⟩
      cases r with
      | none =>
        simp only []
        exact Or.inl ⟨trivial, (alloc_inode_none ha).1⟩
      | some n =>
        simp only []
        obtain ⟨hn, hfree, _, hc1, he1, _, hbl1⟩ := alloc_inode_some ha
        have hibr := inode_block_for_range hn
        unfold FIRST_INODE_BLOCK LAST_INODE_BLOCK at hibr
        have hib : inode_block_for n < s1.disk.capacity := by omega
        rw [save_inode_of_lt hib]
        simp only []
        have hblk2 : (fun m => if m = inode_block_for n then
            (put_inode (s1.disk.blocks (inode_block_for n)) (inode_offset_in_block n) Inode.zero)
            else s1.disk.blocks m) = with_new_inode s.disk n := by
          funext m
          unfold with_new_inode
          by_cases hm : m = inode_block_for n
          · rw [if_pos hm, if_pos hm, hbl1, if_neg (by unfold INODE_BITMAP_BLOCK; omega)]
          · rw [if_neg hm, if_neg hm, hbl1]
        rw [hblk2]
        cases hff : find_free_dir_entry ⟨s1.disk.capacity, with_new_inode s.disk n⟩ with
        | none =>
          simp only []
          exact Or.inr (Or.inl ⟨n, trivial, hn, hfree, hc1, rfl, by rw [← hc1]; exact hff⟩)
        | some bi =>
          obtain ⟨b, i⟩ := bi
          simp only []
          obtain ⟨hslot, hblt, hunused⟩ := find_free_dir_entry_some hff
          simp only [] at hblt
          have hb6 := hslot.1
          unfold FIRST_DIR_ENTRY_BLOCK at hb6
          have hwb : with_new_inode s.disk n b = s.disk.blocks b := by
            unfold with_new_inode INODE_BITMAP_BLOCK
            rw [if_neg (by omega), if_neg (by omega)]
          rw [read_sd_block_of_lt (by exact hblt)]
          simp only []
          rw [write_sd_block_of_lt _ (by exact hblt)]
          simp only []
          refine Or.inr (Or.inr ⟨n, b, i, rfl, hn, hfree, hslot, ?_, hfind, hne, hc1, rfl, ?_⟩)
          · intro c
            apply hunused
            unfold slot_used at c ⊢
            simp only []
            rw [hwb]; exact c
          · intro m
            simp only []
            by_cases hm : m = b
            · rw [if_pos hm, if_pos hm, hwb]
              rfl
            · rw [if_neg hm, if_neg hm]

/-! ## `read_file` as a whole -/

/-- The contract of `read_file` on a non-null handle whose inode loads. -/
theorem read_file_spec (s : FSState) (f : FileInternals) (buf : Block) (n : Nat)
    (node : Inode) (hload : load_inode s.disk f.inode_num = some node) :
    (read_file s (some f) buf n).1 ≤ n ∧
    (read_file s (some f) buf n).1 ≤ node.size - f.pos ∧
    (read_file s (some f) buf n).2.1
      = some { f with pos := f.pos + (read_file s (some f) buf n).1 } ∧
    (read_file s (some f) buf n).2.2.2.disk = s.disk ∧
    ((∀ off, f.pos ≤ off → off < f.pos + min n (node.size - f.pos) →
        (file_byte s.disk node off).isSome) →
      (read_file s (some f) buf n).1 = min n (node.size - f.pos) ∧
      ∀ k, k < (read_file s (some f) buf n).1 →
        file_byte s.disk node (f.pos + k) = some ((read_file s (some f) buf n).2.2.1 k)) := by
  rw [read_file_eq buf n hload]
  have hsize := (load_inode_wf hload).size_lt
  have spec := read_loop_spec node n hsize n 0 f.pos buf s
  have hcomp := read_loop_complete node n hsize n 0 f.pos buf s (by omega)
  generalize read_loop node n n 0 f.pos buf s = res at spec hcomp ⊢
  obtain ⟨c, pos1, dst1, s1⟩ := res
  simp only [] at spec hcomp ⊢
  have h1 := spec.le_n (Nat.zero_le _)
  have h2 := spec.le_size
  have h3 := spec.pos_eq
  simp only [Nat.sub_zero] at h2 h3 hcomp
  refine ⟨h1, h2, by rw [h3], spec.disk, ?_⟩
  intro hback
  refine ⟨hcomp (fun off ho1 ho2 => file_byte_isSome_block (hback off ho1 ho2)), ?_⟩
  intro k hk
  have hsome := hback (f.pos + k) (by omega) (by omega)
  cases hv : file_byte s.disk node (f.pos + k) with
  | none => rw [hv] at hsome; cases hsome
  | some v =>
    have := spec.bytes k v (by omega) hv
    simp only [Nat.zero_add] at this
    rw [this]

/-- Reading `len` bytes from position 0 of a file of at least `len` bytes whose
first `len` bytes are `src` returns them. -/
theorem read_back {s : FSState} {f : FileInternals} {node : Inode} (buf : Block) {len : Nat}
    {src : Block} (hload : load_inode s.disk f.inode_num = some node) (hpos : f.pos = 0)
    (hsize : len ≤ node.size)
    (hbytes : ∀ k, k < len → file_byte s.disk node k = some (src k)) :
    (read_file s (some f) buf len).1 = len ∧
    ∀ k, k < len → (read_file s (some f) buf len).2.2.1 k = src k := by
  obtain ⟨_, _, _, _, h5⟩ := read_file_spec s f buf len node hload
  rw [hpos] at h5
  have hmin : min len (node.size - 0) = len := by omega
  rw [hmin] at h5
  simp only [Nat.zero_add] at h5
  obtain ⟨c1, c2⟩ := h5 (fun off _ ho => by rw [hbytes off ho]; rfl)
  refine ⟨c1, fun k hk => ?_⟩
  have := c2 k (by omega)
  rw [hbytes k hk] at this
  injection this with this
  exact this.symm

/-! ## A file just created -/

theorem block_of_zero (d : Disk) (lb : Nat) : block_of d Inode.zero lb = none := by
  by_cases h : lb < NUM_DIRECT_INODE_BLOCKS
  · rw [block_of_direct _ _ h]; rfl
  · exact block_of_no_indirect _ _ (by omega) rfl

theorem missing_zero (d : Disk) : ∀ (m lb : Nat), missing d Inode.zero lb m = m := by
  intro m
  induction m with
  | zero => intro lb; rfl
  | succ m ih =>
    intro lb
    rw [missing_succ, block_of_zero, ih]
    simp only [Option.isSome_none, Bool.false_eq_true, if_false]
    omega

/-- A write at position 0 of a file without blocks needs the blocks of a new
file. -/
theorem write_need_zero (d : Disk) (len : Nat) :
    write_need d Inode.zero 0 len = blocks_for len := by
  unfold write_need blocks_for
  simp only [SOFTWARE_DISK_BLOCK_SIZE, NUM_DIRECT_INODE_BLOCKS]
  by_cases h0 : len = 0
  · subst h0; rfl
  · rw [if_neg h0, missing_zero]
    simp only [Nat.zero_add, Nat.zero_div, Nat.sub_zero]
    have e : (len + 4096 - 1) / 4096 = (len - 1) / 4096 + 1 := by omega
    rw [e]
    by_cases h13 : 13 ≤ (len - 1) / 4096
    · rw [if_pos ⟨rfl, h13⟩, if_pos (by omega)]
    · have : ¬ (Inode.zero.indirect = 0 ∧ 13 ≤ (len - 1) / 4096) := fun c => h13 c.2
      rw [if_neg this, if_neg (by omega)]

/-- An inode without blocks satisfies the ownership invariant on its own. -/
theorem PtrInv.of_zero {d : Disk} {tab : Nat → Inode} {n : Nat} (h : tab n = Inode.zero) :
    PtrInv d (fun m => m = n) tab := by
  have hval : ∀ sl : Slot, sl.valid (tab n) → slot_val d (tab n) sl = 0 := by
    intro sl hv
    rw [h] at hv ⊢
    cases sl with
    | direct i => rfl
    | indirect => rfl
    | entry j => exact absurd rfl hv.1
  constructor
  · intro m sl hm hv hne
    subst hm
    exact absurd (hval sl hv) hne
  · intro m m1 sl sl1 hm _ hv _ hne
    subst hm
    exact absurd (hval sl hv) hne

/-- The blocks of `with_new_inode`. -/
theorem with_new_inode_spec (d : Disk) {n : Nat} (hn : n < MAX_FILES) :
    with_new_inode d n 0 = d.blocks 0 ∧
    (∀ m, FIRST_DIR_ENTRY_BLOCK ≤ m → with_new_inode d n m = d.blocks m) ∧
    (∀ m, bit_is_set (with_new_inode d n INODE_BITMAP_BLOCK) m
      = (inode_bit d m || decide (m = n))) ∧
    get_inode (with_new_inode d n (inode_block_for n)) (inode_offset_in_block n) = Inode.zero ∧
    (∀ m, m ≠ n → m < MAX_FILES →
      get_inode (with_new_inode d n (inode_block_for m)) (inode_offset_in_block m)
        = inode_at d m) := by
  have hibr := inode_block_for_range hn
  unfold FIRST_INODE_BLOCK LAST_INODE_BLOCK at hibr
  refine ⟨?_, ?_, ?_, ?_, ?_⟩
  · unfold with_new_inode INODE_BITMAP_BLOCK
    rw [if_neg (by omega), if_neg (by omega)]
  · intro m hm
    unfold FIRST_DIR_ENTRY_BLOCK at hm
    unfold with_new_inode INODE_BITMAP_BLOCK
    rw [if_neg (by omega), if_neg (by omega)]
  · intro m
    unfold with_new_inode inode_bit
    rw [if_neg (by unfold INODE_BITMAP_BLOCK; omega), if_pos rfl, bit_is_set_set_bit]
  · unfold with_new_inode
    rw [if_pos rfl]
    exact get_put_same _ _ Inode.zero_wf
  · intro m hm hm5
    have hmr := inode_block_for_range hm5
    unfold FIRST_INODE_BLOCK LAST_INODE_BLOCK at hmr
    unfold with_new_inode inode_at
    by_cases hb : inode_block_for m = inode_block_for n
    · rw [if_pos hb, hb]
      apply get_put_other
      intro c
      exact hm (inode_block_offset_inj hb c)
    · rw [if_neg hb, if_neg (by unfold INODE_BITMAP_BLOCK; omega)]

/-! ## Consequences of a successful `create_file` -/

theorem Created.block_facts {s s1 : FSState} {name : List Byte} {n b i : Nat}
    (c : Created s name n b i s1) :
    s1.disk.blocks 0 = s.disk.blocks 0 ∧
    (∀ m, FIRST_DATA_BLOCK ≤ m → s1.disk.blocks m = s.disk.blocks m) ∧
    (∀ m, FIRST_DIR_ENTRY_BLOCK ≤ m → m ≠ b → s1.disk.blocks m = s.disk.blocks m) ∧
    s1.disk.blocks b = new_entry (s.disk.blocks b) i n name ∧
    (∀ m, m < FIRST_DIR_ENTRY_BLOCK → s1.disk.blocks m = with_new_inode s.disk n m) := by
  obtain ⟨w0, w6, _⟩ := with_new_inode_spec s.disk c.inode_lt
  have hb := c.slot
  unfold DirSlot FIRST_DIR_ENTRY_BLOCK LAST_DIR_ENTRY_BLOCK at hb
  refine ⟨?_, ?_, ?_, ?_, ?_⟩
  · rw [c.blocks, if_neg (by omega), w0]
  · intro m hm
    unfold FIRST_DATA_BLOCK at hm
    rw [c.blocks, if_neg (by omega), w6 m (by unfold FIRST_DIR_ENTRY_BLOCK; omega)]
  · intro m hm hmb
    rw [c.blocks, if_neg hmb, w6 m hm]
  · rw [c.blocks, if_pos rfl]
  · intro m hm
    unfold FIRST_DIR_ENTRY_BLOCK at hm
    rw [c.blocks, if_neg (by omega)]

theorem Created.inode_facts {s s1 : FSState} {name : List Byte} {n b i : Nat}
    (c : Created s name n b i s1) :
    (∀ m, inode_bit s1.disk m = (inode_bit s.disk m || decide (m = n))) ∧
    inode_at s1.disk n = Inode.zero ∧
    (∀ m, m ≠ n → m < MAX_FILES → inode_at s1.disk m = inode_at s.disk m) := by
  obtain ⟨_, _, w1, wn, wm⟩ := with_new_inode_spec s.disk c.inode_lt
  have hlow := c.block_facts.2.2.2.2
  have hibr := inode_block_for_range c.inode_lt
  unfold FIRST_INODE_BLOCK LAST_INODE_BLOCK at hibr
  refine ⟨?_, ?_, ?_⟩
  · intro m
    unfold inode_bit at w1 ⊢
    rw [hlow _ (by unfold INODE_BITMAP_BLOCK FIRST_DIR_ENTRY_BLOCK; omega)]
    exact w1 m
  · unfold inode_at
    rw [hlow _ (by unfold FIRST_DIR_ENTRY_BLOCK; omega)]
    exact wn
  · intro m hm hm5
    have hmr := inode_block_for_range hm5
    unfold FIRST_INODE_BLOCK LAST_INODE_BLOCK at hmr
    unfold inode_at
    rw [hlow _ (by unfold FIRST_DIR_ENTRY_BLOCK; omega)]
    exact wm m hm hm5

/-- The new directory entry. -/
theorem Created.new_slot {s s1 : FSState} {name : List Byte} {n b i : Nat}
    (c : Created s name n b i s1) (hname : ValidName name) :
    slot_used s1.disk b i ∧ slot_inode s1.disk b i = n ∧
    StoredName (s1.disk.blocks b) (DIR_ENTRY_SIZE * i) name := by
  obtain ⟨_, e2, e3, e4⟩ := new_entry_spec (s.disk.blocks b) i n hname
  have hb := c.block_facts.2.2.2.1
  unfold slot_used slot_inode
  rw [hb]
  unfold new_entry
  refine ⟨by rw [e2]; decide, ?_, e4⟩
  rw [e3]
  have := c.inode_lt
  unfold MAX_FILES at this
  omega

/-- The bytes of every other directory entry are as before. -/
theorem Created.other_slot {s s1 : FSState} {name : List Byte} {n b i : Nat}
    (c : Created s name n b i s1) (hname : ValidName name) {b1 i1 : Nat} (hs : DirSlot b1 i1)
    (hne : ¬ (b1 = b ∧ i1 = i)) :
    ∀ k, DIR_ENTRY_SIZE * i1 ≤ k → k < DIR_ENTRY_SIZE * i1 + DIR_ENTRY_SIZE →
      s1.disk.blocks b1 k = s.disk.blocks b1 k := by
  intro k hk1 hk2
  by_cases hb : b1 = b
  · subst hb
    have hi : i1 ≠ i := fun e => hne ⟨rfl, e⟩
    rw [c.block_facts.2.2.2.1]
    apply (new_entry_spec (s.disk.blocks b1) i n hname).1
    unfold DIR_ENTRY_SIZE at hk1 hk2 ⊢
    omega
  · rw [c.block_facts.2.2.1 b1 hs.1 hb]

/-- After a successful `create_file(name)`, `find_file_entry(name)` finds the
new entry, which records the new inode. -/
theorem Created.find {s s1 : FSState} {name : List Byte} {n b i : Nat}
    (c : Created s name n b i s1) (hname : ValidName name)
    (hcap : LAST_DIR_ENTRY_BLOCK < s.disk.capacity) :
    ∃ e, find_file_entry s1.disk name = some (e, b, i) ∧ e.inode_num = n := by
  obtain ⟨hused, hino, hstored⟩ := c.new_slot hname
  have hcap1 : LAST_DIR_ENTRY_BLOCK < s1.disk.capacity := by rw [c.cap]; exact hcap
  obtain ⟨e, b1, i1, hf⟩ := find_file_entry_of_match hcap1 c.slot hused
    ((strcmp_stored hstored hname.1).2 rfl)
  obtain ⟨hs1, _, hu1, hm1, he1⟩ := find_file_entry_some hf
  have hsame : b1 = b ∧ i1 = i := by
    by_contra hne
    have hbytes := c.other_slot hname hs1 hne
    have hcong := entry_congr hbytes
    have hu0 : slot_used s.disk b1 i1 := by
      unfold slot_used at hu1 ⊢
      rw [← hcong.1]; exact hu1
    have hst1 := stored_of_strcmp hm1 hname.1
    have hst0 := (hcong.2.2 name hname.2).1 hst1
    have := find_file_entry_none hcap c.absent hs1 hu0
    rw [(strcmp_stored hst0 hname.1).2 rfl] at this
    cases this
  obtain ⟨rfl, rfl⟩ := hsame
  refine ⟨e, hf, ?_⟩
  rw [he1]
  exact hino

/-! ## `seek_file` on a disk that satisfies the ownership invariant -/

/-- The file-level effect of `seek_file`. -/
theorem seek_file_spec {U : Nat → Prop} {s : FSState} (f : FileInternals) (bytepos : Nat)
    (hinv : PtrInv s.disk U (inode_at s.disk)) (hU : U f.inode_num)
    (hn : f.inode_num < MAX_FILES) (hcap1 : LAST_INODE_BLOCK < s.disk.capacity) :
    (seek_file s (some f) bytepos).2.1 = some { f with pos := bytepos % 2 ^ 32 } ∧
    (seek_file s (some f) bytepos).2.2.fserror = s.fserror ∧
    (seek_file s (some f) bytepos).2.2.disk.capacity = s.disk.capacity ∧
    PtrInv (seek_file s (some f) bytepos).2.2.disk U
      (inode_at (seek_file s (some f) bytepos).2.2.disk) ∧
    inode_at (seek_file s (some f) bytepos).2.2.disk f.inode_num
      = { inode_at s.disk f.inode_num with
          size := max (inode_at s.disk f.inode_num).size (bytepos % 2 ^ 32) } ∧
    (∀ m, m ≠ inode_block_for f.inode_num →
      (seek_file s (some f) bytepos).2.2.disk.blocks m = s.disk.blocks m) ∧
    (∀ m, m ≠ f.inode_num →
      inode_at (seek_file s (some f) bytepos).2.2.disk m = inode_at s.disk m) ∧
    (∀ off, file_byte (seek_file s (some f) bytepos).2.2.disk
        (inode_at (seek_file s (some f) bytepos).2.2.disk f.inode_num) off
      = file_byte s.disk (inode_at s.disk f.inode_num) off) := by
  have hibr := inode_block_for_range hn
  have hib : inode_block_for f.inode_num < s.disk.capacity := by omega
  have hload := load_inode_of_lt hib
  rw [seek_file_eq bytepos hload]
  simp only []
  have hwf0 : (inode_at s.disk f.inode_num).WF := get_inode_wf _ _
  have hp : bytepos % 2 ^ 32 < 2 ^ 32 := Nat.mod_lt _ (by norm_num)
  generalize hnode2 : (if bytepos % 2 ^ 32 > (inode_at s.disk f.inode_num).size
    then { inode_at s.disk f.inode_num with size := bytepos % 2 ^ 32 }
    else inode_at s.disk f.inode_num) = node2
  have hd2 : node2.direct = (inode_at s.disk f.inode_num).direct := by
    rw [← hnode2]; split <;> rfl
  have hi2 : node2.indirect = (inode_at s.disk f.inode_num).indirect := by
    rw [← hnode2]; split <;> rfl
  have hs2 : node2.size = max (inode_at s.disk f.inode_num).size (bytepos % 2 ^ 32) := by
    rw [← hnode2]; exact raise_size_size _ _
  have hwf2 : node2.WF := by rw [← hnode2]; exact raise_size_wf hwf0 hp
  obtain ⟨scap, sblk, sself, sother⟩ := save_inode_unchecked_spec hib hwf2
  obtain ⟨inv2, data2, bits2⟩ := save_inode_inv hinv hU hn hib (fun m _ _ => rfl) hd2 hi2 hwf2
  generalize save_inode_unchecked s.disk f.inode_num node2 = d2 at *
  refine ⟨trivial, trivial, scap, inv2, ?_, sblk, sother, ?_⟩
  · rw [sself]
    apply Inode.ext_inode
    · intro i; rw [hd2]
    · exact hi2
    · exact hs2
  · intro off
    rw [sself]
    have hind : (inode_at s.disk f.inode_num).indirect ≠ 0 →
        d2.blocks (inode_at s.disk f.inode_num).indirect
          = s.disk.blocks (inode_at s.disk f.inode_num).indirect := by
      intro h0
      exact data2 _ (hinv.range _ .indirect hU trivial h0).1
    apply file_byte_congr scap
    · intro lb
      apply block_of_congr_node hd2 hi2
      intro h0
      unfold read_unchecked read_sd_block
      rw [scap, hind h0]
    · intro lb q hq
      exact data2 _ (hinv.block_of_range hU hq).1

/-! ## Freeing blocks and `delete_file` -/

theorem free_data_block_spec (s : FSState) (x : Nat) (hcap : 0 < s.disk.capacity) :
    (free_data_block s x).fserror = s.fserror ∧
    (free_data_block s x).disk.capacity = s.disk.capacity ∧
    (free_data_block s x).disk.blocks 0 = clear_bit (s.disk.blocks 0) x ∧
    ∀ m, m ≠ 0 → (free_data_block s x).disk.blocks m = s.disk.blocks m := by
  unfold free_data_block
  rw [read_sd_block_of_lt hcap]
  simp only []
  refine ⟨trivial, write_unchecked_capacity _ _ _, ?_, fun m hm => write_unchecked_blocks_ne _ _ hm⟩
  rw [write_unchecked_blocks_of_lt _ hcap]
  simp

/-- The loop that frees the non-zero pointers `ptr i`, `i` in `L`: only the
bitmap block changes, and a bit is set afterwards exactly when it was set and
is not one of the pointers. -/
theorem free_pointers_spec (ptr : Nat → Nat) : ∀ (L : List Nat) (s : FSState),
    0 < s.disk.capacity →
    (free_pointers ptr L s).fserror = s.fserror ∧
    (free_pointers ptr L s).disk.capacity = s.disk.capacity ∧
    (∀ m, m ≠ 0 → (free_pointers ptr L s).disk.blocks m = s.disk.blocks m) ∧
    ∀ x, data_bit (free_pointers ptr L s).disk x = true ↔
      data_bit s.disk x = true ∧ ∀ i ∈ L, ptr i ≠ 0 → ptr i ≠ x := by
  intro L
  induction L with
  | nil =>
    intro s _
    refine ⟨rfl, rfl, fun _ _ => rfl, fun x => ?_⟩
    simp [free_pointers]
  | cons i is ih =>
    intro s hcap
    unfold free_pointers
    by_cases h0 : ptr i ≠ 0
    · rw [if_pos h0]
      obtain ⟨f1, f2, f3, f4⟩ := free_data_block_spec s (ptr i) hcap
      obtain ⟨g1, g2, g3, g4⟩ := ih (free_data_block s (ptr i)) (by rw [f2]; exact hcap)
      refine ⟨g1.trans f1, g2.trans f2, fun m hm => (g3 m hm).trans (f4 m hm), fun x => ?_⟩
      rw [g4]
      have : data_bit (free_data_block s (ptr i)).disk x
          = (data_bit s.disk x && !decide (x = ptr i)) := by
        unfold data_bit
        rw [f3, bit_is_set_clear_bit]
      rw [this]
      simp only [Bool.and_eq_true, Bool.not_eq_true', decide_eq_false_iff_not, List.mem_cons,
        forall_eq_or_imp]
      constructor
      · rintro ⟨⟨a, b⟩, c⟩
        exact ⟨a, fun _ e => b e.symm, c⟩
      · rintro ⟨a, b, c⟩
        exact ⟨⟨a, fun e => b h0 e.symm⟩, c⟩
    · rw [if_neg h0]
      obtain ⟨g1, g2, g3, g4⟩ := ih s hcap
      refine ⟨g1, g2, g3, fun x => ?_⟩
      rw [g4]
      simp only [List.mem_cons, forall_eq_or_imp]
      constructor
      · rintro ⟨a, c⟩
        exact ⟨a, fun h => absurd h h0, c⟩
      · rintro ⟨a, _, c⟩
        exact ⟨a, c⟩

/-- A block is not held by an inode exactly when it is none of its non-zero
direct pointers, not its indirect block and none of the non-zero entries of
its indirect block. -/
theorem not_holds_iff (d : Disk) (node : Inode) (x : Nat) :
    ¬ holds d node x ↔
      (∀ i, i < NUM_DIRECT_INODE_BLOCKS → node.direct i ≠ 0 → node.direct i ≠ x) ∧
      (node.indirect ≠ 0 → node.indirect ≠ x ∧
        ∀ j, j < NUM_SINGLE_INDIRECT_BLOCKS → rd16 (d.blocks node.indirect) (2 * j) ≠ 0 →
          rd16 (d.blocks node.indirect) (2 * j) ≠ x) := by
  constructor
  · intro h
    refine ⟨fun i hi h0 e => h ⟨by rw [← e]; exact h0, .direct i, hi, e⟩, fun hi0 => ⟨?_, ?_⟩⟩
    · intro e
      exact h ⟨by rw [← e]; exact hi0, .indirect, trivial, e⟩
    · intro j hj h0 e
      exact h ⟨by rw [← e]; exact h0, .entry j, ⟨hi0, hj⟩, e⟩
  · rintro ⟨h1, h2⟩ ⟨hx, sl, hv, e⟩
    cases sl with
    | direct i => exact h1 i hv (by rw [show node.direct i = x from e]; exact hx) e
    | indirect =>
      have e1 : node.indirect = x := e
      exact (h2 (by rw [e1]; exact hx)).1 e1
    | entry j =>
      have e1 : rd16 (d.blocks node.indirect) (2 * j) = x := e
      exact (h2 hv.1).2 j hv.2 (by rw [e1]; exact hx) e1

/-- The blocks `delete_file` frees: only the bitmap block changes, and a bit
is set afterwards exactly when it was set and the block is not held by the
inode. -/
theorem free_file_blocks_spec (s : FSState) (node : Inode) (hcap : 0 < s.disk.capacity)
    (hind : node.indirect < s.disk.capacity) :
    (free_file_blocks s node).fserror = s.fserror ∧
    (free_file_blocks s node).disk.capacity = s.disk.capacity ∧
    (∀ m, m ≠ 0 → (free_file_blocks s node).disk.blocks m = s.disk.blocks m) ∧
    ∀ x, data_bit (free_file_blocks s node).disk x = true ↔
      data_bit s.disk x = true ∧ ¬ holds s.disk node x := by
  unfold free_file_blocks
  obtain ⟨a1, a2, a3, a4⟩ :=
    free_pointers_spec node.direct (List.range NUM_DIRECT_INODE_BLOCKS) s hcap
  generalize free_pointers node.direct (List.range NUM_DIRECT_INODE_BLOCKS) s = s1 at *
  simp only []
  by_cases hi0 : node.indirect ≠ 0
  · rw [if_pos hi0]
    have hp : read_unchecked s1.disk node.indirect = s.disk.blocks node.indirect := by
      rw [read_unchecked_of_lt (by rw [a2]; exact hind), a3 _ hi0]
    rw [hp]
    obtain ⟨b1, b2, b3, b4⟩ :=
      free_pointers_spec (fun i => rd16 (s.disk.blocks node.indirect) (2 * i))
        (List.range NUM_SINGLE_INDIRECT_BLOCKS) s1 (by rw [a2]; exact hcap)
    generalize free_pointers (fun i => rd16 (s.disk.blocks node.indirect) (2 * i))
      (List.range NUM_SINGLE_INDIRECT_BLOCKS) s1 = s2 at *
    obtain ⟨c1, c2, c3, c4⟩ := free_data_block_spec s2 node.indirect
      (by rw [b2, a2]; exact hcap)
    refine ⟨c1.trans (b1.trans a1), c2.trans (b2.trans a2),
      fun m hm => (c4 m hm).trans ((b3 m hm).trans (a3 m hm)), fun x => ?_⟩
    have : data_bit (free_data_block s2 node.indirect).disk x
        = (data_bit s2.disk x && !decide (x = node.indirect)) := by
      unfold data_bit
      rw [c3, bit_is_set_clear_bit]
    rw [this, not_holds_iff]
    simp only [Bool.and_eq_true, Bool.not_eq_true', decide_eq_false_iff_not, b4, a4,
      List.mem_range]
    constructor
    · rintro ⟨⟨⟨h1, h2⟩, h3⟩, h4⟩
      exact ⟨h1, h2, fun _ => ⟨fun e => h4 e.symm, h3⟩⟩
    · rintro ⟨h1, h2, h3⟩
      exact ⟨⟨⟨h1, h2⟩, (h3 hi0).2⟩, fun e => (h3 hi0).1 e.symm⟩
  · rw [if_neg hi0]
    refine ⟨a1, a2, a3, fun x => ?_⟩
    rw [a4, not_holds_iff]
    simp only [List.mem_range]
    constructor
    · rintro ⟨h1, h2⟩
      exact ⟨h1, h2, fun h => absurd h hi0⟩
    · rintro ⟨h1, h2, _⟩
      exact ⟨h1, h2⟩

/-- The effect of a `delete_file` that finds the entry `e` of `name` in the
directory slot `(b, i)`. -/
theorem delete_file_spec {s : FSState} {name : List Byte} {e : DirectoryEntry} {b i : Nat}
    (hfind : find_file_entry s.disk name = some (e, b, i))
    (hcap : LAST_DIR_ENTRY_BLOCK < s.disk.capacity)
    (hn : e.inode_num < MAX_FILES)
    (hind : (inode_at s.disk e.inode_num).indirect < s.disk.capacity) :
    (delete_file s name).1 = 1 ∧
    (delete_file s name).2.fserror = .FS_NONE ∧
    (delete_file s name).2.disk.capacity = s.disk.capacity ∧
    (∀ x, data_bit (delete_file s name).2.disk x = true ↔
      data_bit s.disk x = true ∧ ¬ holds s.disk (inode_at s.disk e.inode_num) x) ∧
    (delete_file s name).2.disk.blocks INODE_BITMAP_BLOCK
      = clear_bit (s.disk.blocks INODE_BITMAP_BLOCK) e.inode_num ∧
    (delete_file s name).2.disk.blocks b = wr8 (s.disk.blocks b) (DIR_ENTRY_SIZE * i + 510) 0 ∧
    ∀ m, m ≠ 0 → m ≠ INODE_BITMAP_BLOCK → m ≠ b →
      (delete_file s name).2.disk.blocks m = s.disk.blocks m := by
  obtain ⟨hslot, hb, -, -, -⟩ := find_file_entry_some hfind
  have hb6 : 6 ≤ b := hslot.1
  unfold LAST_DIR_ENTRY_BLOCK at hcap
  have hibr := inode_block_for_range hn
  unfold FIRST_INODE_BLOCK LAST_INODE_BLOCK at hibr
  have hload : load_inode s.disk e.inode_num = some (inode_at s.disk e.inode_num) :=
    load_inode_of_lt (by omega)
  unfold delete_file
  rw [hfind]
  simp only [hload]
  generalize inode_at s.disk e.inode_num = node at *
  obtain ⟨a1, a2, a3, a4⟩ := free_file_blocks_spec s node (by omega) hind
  generalize free_file_blocks s node = s2 at *
  have hb2 : b < s2.disk.capacity := by rw [a2]; exact hb
  have he : read_unchecked s2.disk b = s.disk.blocks b := by
    rw [read_unchecked_of_lt hb2, a3 b (by omega)]
  rw [he]
  generalize hd3 : write_unchecked s2.disk (wr8 (s.disk.blocks b) (DIR_ENTRY_SIZE * i + 510) 0) b
    = d3
  have d3cap : d3.capacity = s.disk.capacity := by
    rw [← hd3, write_unchecked_capacity, a2]
  have d3b : ∀ m, d3.blocks m
      = if m = b then wr8 (s.disk.blocks b) (DIR_ENTRY_SIZE * i + 510) 0 else s2.disk.blocks m := by
    intro m
    rw [← hd3, write_unchecked_blocks_of_lt _ hb2]
  unfold free_inode
  have h1c : INODE_BITMAP_BLOCK < d3.capacity := by
    rw [d3cap]; unfold INODE_BITMAP_BLOCK; omega
  simp only [read_sd_block_of_lt h1c]
  have hfin : ∀ m, (write_unchecked d3 (clear_bit (d3.blocks INODE_BITMAP_BLOCK) e.inode_num)
      INODE_BITMAP_BLOCK).blocks m
      = if m = INODE_BITMAP_BLOCK then clear_bit (s.disk.blocks INODE_BITMAP_BLOCK) e.inode_num
        else if m = b then wr8 (s.disk.blocks b) (DIR_ENTRY_SIZE * i + 510) 0
        else s2.disk.blocks m := by
    intro m
    rw [write_unchecked_blocks_of_lt _ h1c, d3b, d3b]
    unfold INODE_BITMAP_BLOCK
    rw [if_neg (by omega : ¬ 1 = b), a3 1 (by omega)]
  refine ⟨trivial, trivial, ?_, ?_, ?_, ?_, ?_⟩
  · rw [write_unchecked_capacity, d3cap]
  · intro x
    rw [← a4]
    unfold data_bit
    rw [hfin]
    unfold INODE_BITMAP_BLOCK
    rw [if_neg (by omega), if_neg (by omega)]
  · rw [hfin, if_pos rfl]
  · rw [hfin]
    unfold INODE_BITMAP_BLOCK
    rw [if_neg (by omega), if_pos rfl]
  · intro m h0 h1 hmb
    rw [hfin, if_neg h1, if_neg hmb, a3 m h0]

/-! ## The invariant of a volume: directory part -/

theorem Inv.of_disk {s s1 : FSState} (h : s1.disk = s.disk) (hinv : Inv s) : Inv s1 := by
  obtain ⟨a, b, c, d⟩ := hinv
  exact ⟨by rw [h]; exact a, by rw [h]; exact b, by rw [h]; exact c, by rw [h]; exact d⟩

theorem InUse.of_bitmap {d d1 : Disk}
    (h : d1.blocks INODE_BITMAP_BLOCK = d.blocks INODE_BITMAP_BLOCK) (n : Nat) :
    InUse d1 n ↔ InUse d n := by
  unfold InUse inode_bit
  rw [h]

/-- The fields of a directory slot only depend on the bytes of its entry. -/
theorem slot_transfer {d d1 : Disk} {b i : Nat}
    (h : ∀ k, DIR_ENTRY_SIZE * i ≤ k → k < DIR_ENTRY_SIZE * i + DIR_ENTRY_SIZE →
      d1.blocks b k = d.blocks b k) :
    (slot_used d1 b i ↔ slot_used d b i) ∧ slot_inode d1 b i = slot_inode d b i ∧
    ∀ nm, nm.length ≤ MAX_FILENAME_SIZE →
      (StoredName (d1.blocks b) (DIR_ENTRY_SIZE * i) nm ↔
        StoredName (d.blocks b) (DIR_ENTRY_SIZE * i) nm) := by
  obtain ⟨e1, e2, e3⟩ := entry_congr h
  unfold slot_used slot_inode
  rw [e1, e2]
  exact ⟨Iff.rfl, rfl, e3⟩

/-- The directory invariant is kept when the entries of the slots selected by
`K` keep their bytes, at most one slot is outside `K`, and that slot, if used
afterwards, stores a new non-empty name and the number of an inode in use that
no other slot records. -/
theorem DirInv.transfer {d d1 : Disk} (h : DirInv d) (K : Nat → Nat → Prop)
    (hK : ∀ b i, DirSlot b i → K b i → ∀ k, DIR_ENTRY_SIZE * i ≤ k →
      k < DIR_ENTRY_SIZE * i + DIR_ENTRY_SIZE → d1.blocks b k = d.blocks b k)
    (hone : ∀ b i b1 i1, DirSlot b i → DirSlot b1 i1 → ¬ K b i → ¬ K b1 i1 → b = b1 ∧ i = i1)
    (huse : ∀ b i, DirSlot b i → K b i → slot_used d b i → InUse d1 (slot_inode d b i))
    (hnew : ∀ b i, DirSlot b i → ¬ K b i → slot_used d1 b i →
      (∃ nm, StoredName (d1.blocks b) (DIR_ENTRY_SIZE * i) nm ∧ nm ≠ [] ∧
        nm.length ≤ MAX_FILENAME_SIZE ∧
        ∀ b1 i1, DirSlot b1 i1 → K b1 i1 → slot_used d b1 i1 →
          ¬ StoredName (d.blocks b1) (DIR_ENTRY_SIZE * i1) nm) ∧
      InUse d1 (slot_inode d1 b i) ∧
      ∀ b1 i1, DirSlot b1 i1 → K b1 i1 → slot_used d b1 i1 →
        slot_inode d b1 i1 ≠ slot_inode d1 b i) :
    DirInv d1 := by
  -- facts about a kept slot that is used afterwards
  have kept : ∀ b i, DirSlot b i → K b i → slot_used d1 b i →
      slot_used d b i ∧ slot_inode d1 b i = slot_inode d b i ∧
      ∃ nm, StoredName (d.blocks b) (DIR_ENTRY_SIZE * i) nm ∧
        StoredName (d1.blocks b) (DIR_ENTRY_SIZE * i) nm ∧ nm ≠ [] ∧
        nm.length ≤ MAX_FILENAME_SIZE := by
    intro b i hs hk hu
    obtain ⟨e1, e2, e3⟩ := slot_transfer (hK b i hs hk)
    have hu0 := e1.1 hu
    obtain ⟨nm, n1, n2, n3⟩ := h.named b i hs hu0
    exact ⟨hu0, e2, nm, n1, (e3 nm n3).2 n1, n2, n3⟩
  constructor
  · intro b i hs hu
    by_cases hk : K b i
    · obtain ⟨_, _, nm, _, n1, n2, n3⟩ := kept b i hs hk hu
      exact ⟨nm, n1, n2, n3⟩
    · obtain ⟨⟨nm, n1, n2, n3, _⟩, _, _⟩ := hnew b i hs hk hu
      exact ⟨nm, n1, n2, n3⟩
  · intro b i hs hu
    by_cases hk : K b i
    · obtain ⟨hu0, e, _⟩ := kept b i hs hk hu
      rw [e]
      exact huse b i hs hk hu0
    · exact (hnew b i hs hk hu).2.1
  · intro b i b1 i1 nm hs hs1 hu hu1 hn hn1
    by_cases hk : K b i
    · obtain ⟨hu0, _, nm0, m1, m2, _, _⟩ := kept b i hs hk hu
      have e0 : nm0 = nm := m2.unique hn
      subst e0
      by_cases hk1 : K b1 i1
      · obtain ⟨hu10, _, nm1, p1, p2, _, _⟩ := kept b1 i1 hs1 hk1 hu1
        have e1 : nm1 = nm0 := p2.unique hn1
        subst e1
        exact h.name_inj b i b1 i1 nm1 hs hs1 hu0 hu10 m1 p1
      · obtain ⟨⟨nm2, q1, _, _, q4⟩, _, _⟩ := hnew b1 i1 hs1 hk1 hu1
        have e2 : nm2 = nm0 := q1.unique hn1
        subst e2
        exact absurd m1 (q4 b i hs hk hu0)
    · obtain ⟨⟨nm2, q1, _, _, q4⟩, _, _⟩ := hnew b i hs hk hu
      have e2 : nm2 = nm := q1.unique hn
      subst e2
      by_cases hk1 : K b1 i1
      · obtain ⟨hu10, _, nm1, p1, p2, _, _⟩ := kept b1 i1 hs1 hk1 hu1
        have e1 : nm1 = nm2 := p2.unique hn1
        subst e1
        exact absurd p1 (q4 b1 i1 hs1 hk1 hu10)
      · exact hone b i b1 i1 hs hs1 hk hk1
  · intro b i b1 i1 hs hs1 hu hu1 he
    by_cases hk : K b i
    · obtain ⟨hu0, e, _⟩ := kept b i hs hk hu
      by_cases hk1 : K b1 i1
      · obtain ⟨hu10, e1, _⟩ := kept b1 i1 hs1 hk1 hu1
        rw [e, e1] at he
        exact h.inode_inj b i b1 i1 hs hs1 hu0 hu10 he
      · have := (hnew b1 i1 hs1 hk1 hu1).2.2 b i hs hk hu0
        rw [← e] at this
        exact absurd he this
    · by_cases hk1 : K b1 i1
      · obtain ⟨hu10, e1, _⟩ := kept b1 i1 hs1 hk1 hu1
        have := (hnew b i hs hk hu).2.2 b1 i1 hs1 hk1 hu10
        rw [← e1] at this
        exact absurd he.symm this
      · exact hone b i b1 i1 hs hs1 hk hk1

/-- The directory invariant is kept when the directory blocks keep their
contents and the inodes in use stay in use. -/
theorem DirInv.congr_dir {d d1 : Disk} (h : DirInv d)
    (hblk : ∀ b, FIRST_DIR_ENTRY_BLOCK ≤ b → b ≤ LAST_DIR_ENTRY_BLOCK →
      d1.blocks b = d.blocks b)
    (huse : ∀ n, InUse d n → InUse d1 n) : DirInv d1 := by
  apply h.transfer (fun _ _ => True)
  · intro b i hs _ k _ _
    rw [hblk b hs.1 hs.2.1]
  · intro b i b1 i1 _ _ hk
    exact absurd trivial hk
  · intro b i hs _ hu
    exact huse _ (h.inode_ok b i hs hu)
  · intro b i _ hk
    exact absurd trivial hk

/-! ## The invariant of a volume: ownership part -/

theorem slot_val_zero (d : Disk) (sl : Slot) (hv : sl.valid Inode.zero) :
    slot_val d Inode.zero sl = 0 := by
  cases sl with
  | direct i => rfl
  | indirect => rfl
  | entry j => exact absurd rfl hv.1

/-- The ownership invariant over the inodes in use is kept when inode `n`
comes into use with a zeroed record, the other records, the data-block
bitmap and the data blocks being as before. -/
theorem PtrInv.new_inode {d d1 : Disk} {n : Nat}
    (h : PtrInv d (InUse d) (inode_at d)) (hcap : d1.capacity = d.capacity)
    (h0 : d1.blocks 0 = d.blocks 0)
    (hdata : ∀ m, FIRST_DATA_BLOCK ≤ m → d1.blocks m = d.blocks m)
    (hbit : ∀ m, inode_bit d1 m = (inode_bit d m || decide (m = n)))
    (hz : inode_at d1 n = Inode.zero)
    (hoth : ∀ m, m ≠ n → m < MAX_FILES → inode_at d1 m = inode_at d m) :
    PtrInv d1 (InUse d1) (inode_at d1) := by
  have old : ∀ m, InUse d1 m → m ≠ n → InUse d m ∧ inode_at d1 m = inode_at d m ∧
      ∀ sl : Slot, sl.valid (inode_at d m) →
        slot_val d1 (inode_at d m) sl = slot_val d (inode_at d m) sl := by
    intro m hm hne
    have hu : InUse d m := by
      refine ⟨hm.1, ?_⟩
      have := hm.2
      rw [hbit] at this
      simpa [hne] using this
    refine ⟨hu, hoth m hne hm.1, fun sl hv => ?_⟩
    refine (slot_val_congr rfl rfl ?_ sl).2 hv
    intro hi
    exact hdata _ (h.range m .indirect hu trivial hi).1
  have hb : ∀ x, data_bit d1 x = data_bit d x := by
    intro x
    unfold data_bit
    rw [h0]
  constructor
  · intro m sl hm hv hne
    by_cases hmn : m = n
    · subst hmn
      rw [hz] at hv hne
      exact absurd (slot_val_zero d1 sl hv) hne
    · obtain ⟨hu, e, hsl⟩ := old m hm hmn
      rw [e] at hv hne ⊢
      rw [hsl sl hv] at hne ⊢
      rw [hcap, hb]
      exact h.range m sl hu hv hne
  · intro m m1 sl sl1 hm hm1 hv hv1 hne heq
    by_cases hmn : m = n
    · subst hmn
      rw [hz] at hv hne
      exact absurd (slot_val_zero d1 sl hv) hne
    · obtain ⟨hu, e, hsl⟩ := old m hm hmn
      rw [e] at hv hne heq
      rw [hsl sl hv] at hne heq
      by_cases hmn1 : m1 = n
      · subst hmn1
        rw [hz] at hv1 heq
        rw [slot_val_zero d1 sl1 hv1] at heq
        exact absurd heq hne
      · obtain ⟨hu1, e1, hsl1⟩ := old m1 hm1 hmn1
        rw [e1] at hv1 heq
        rw [hsl1 sl1 hv1] at heq
        exact h.inj m m1 sl sl1 hu hu1 hv hv1 hne heq

/-- The ownership invariant over the inodes in use is kept when inode `n`
goes out of use and exactly the bits of the blocks it held are cleared, the
inode records and the data blocks being as before. -/
theorem PtrInv.drop_inode {d d1 : Disk} {n : Nat}
    (h : PtrInv d (InUse d) (inode_at d)) (hcap : d1.capacity = d.capacity)
    (hn : InUse d n)
    (hbits : ∀ x, data_bit d1 x = true ↔ data_bit d x = true ∧ ¬ holds d (inode_at d n) x)
    (hdata : ∀ m, FIRST_DATA_BLOCK ≤ m → d1.blocks m = d.blocks m)
    (huse : ∀ m, InUse d1 m → InUse d m ∧ m ≠ n)
    (hoth : ∀ m, m < MAX_FILES → inode_at d1 m = inode_at d m) :
    PtrInv d1 (InUse d1) (inode_at d1) := by
  have old : ∀ m, InUse d1 m → InUse d m ∧ m ≠ n ∧ inode_at d1 m = inode_at d m ∧
      ∀ sl : Slot, sl.valid (inode_at d m) →
        slot_val d1 (inode_at d m) sl = slot_val d (inode_at d m) sl := by
    intro m hm
    obtain ⟨hu, hne⟩ := huse m hm
    refine ⟨hu, hne, hoth m hm.1, fun sl hv => ?_⟩
    refine (slot_val_congr rfl rfl ?_ sl).2 hv
    intro hi
    exact hdata _ (h.range m .indirect hu trivial hi).1
  constructor
  · intro m sl hm hv hne
    obtain ⟨hu, hmn, e, hsl⟩ := old m hm
    rw [e] at hv hne ⊢
    rw [hsl sl hv] at hne ⊢
    obtain ⟨r1, r2, r3⟩ := h.range m sl hu hv hne
    refine ⟨r1, by rw [hcap]; exact r2, (hbits _).2 ⟨r3, ?_⟩⟩
    rintro ⟨_, sl1, hv1, e1⟩
    exact hmn (h.inj m n sl sl1 hu hn hv hv1 hne e1.symm).1
  · intro m m1 sl sl1 hm hm1 hv hv1 hne heq
    obtain ⟨hu, _, e, hsl⟩ := old m hm
    obtain ⟨hu1, _, e1, hsl1⟩ := old m1 hm1
    rw [e] at hv hne heq
    rw [e1] at hv1 heq
    rw [hsl sl hv] at hne heq
    rw [hsl1 sl1 hv1] at heq
    exact h.inj m m1 sl sl1 hu hu1 hv hv1 hne heq

/-! ## Every operation keeps the invariant of a volume -/

theorem Inv.caps {s : FSState} (h : Inv s) :
    LAST_DIR_ENTRY_BLOCK < s.disk.capacity ∧ LAST_INODE_BLOCK < s.disk.capacity ∧
    s.disk.capacity ≤ 65536 ∧ 0 < s.disk.capacity := by
  have h1 := h.cap_lo
  have h2 := h.cap_hi
  unfold FIRST_DATA_BLOCK at h1
  unfold SOFTWARE_DISK_BLOCK_SIZE at h2
  unfold LAST_DIR_ENTRY_BLOCK LAST_INODE_BLOCK
  omega

theorem inode_at_formatted (c n : Nat) : inode_at (formatted c).disk n = Inode.zero := by
  unfold inode_at get_inode formatted Inode.zero
  simp [rd16, rd32]

theorem inv_formatted (capacity : Nat) (h1 : FIRST_DATA_BLOCK ≤ capacity)
    (h2 : capacity ≤ 8 * SOFTWARE_DISK_BLOCK_SIZE) : Inv (formatted capacity) := by
  refine ⟨h1, h2, ⟨?_, ?_⟩, ⟨?_, ?_, ?_, ?_⟩⟩
  · intro n sl _ hv hne
    rw [inode_at_formatted] at hv hne
    exact absurd (slot_val_zero _ sl hv) hne
  · intro n m sl sl1 _ _ hv _ hne _
    rw [inode_at_formatted] at hv hne
    exact absurd (slot_val_zero _ sl hv) hne
  · intro b i _ hu
    exact absurd rfl hu
  · intro b i _ hu
    exact absurd rfl hu
  · intro b i b1 i1 nm _ _ hu
    exact absurd rfl hu
  · intro b i b1 i1 _ _ hu
    exact absurd rfl hu

theorem LiveHandle.in_use {s : FSState} {f : FileInternals} (hl : LiveHandle s f)
    (hinv : Inv s) : InUse s.disk f.inode_num := by
  obtain ⟨_, b, i, hs, hu, e⟩ := hl
  rw [← e]
  exact hinv.dir.inode_ok b i hs hu

theorem inv_create {s : FSState} (name : List Byte) (hinv : Inv s) (hname : ValidName name) :
    Inv (create_file s name).2 := by
  have hcap := hinv.caps.1
  rcases create_file_cases s name hcap with ⟨_, e⟩ | ⟨n, _, hn, _, ecap, eblk, _⟩ | ⟨n, b, i, _, c⟩
  · exact Inv.of_disk e hinv
  · generalize (create_file s name).2 = s1 at *
    obtain ⟨w0, w1, w2, w3, w4⟩ := with_new_inode_spec s.disk hn
    refine ⟨by rw [ecap]; exact hinv.cap_lo, by rw [ecap]; exact hinv.cap_hi, ?_, ?_⟩
    · apply hinv.ptr.new_inode ecap
      · rw [eblk]; exact w0
      · intro m hm
        rw [eblk]
        apply w1 m
        unfold FIRST_DATA_BLOCK at hm
        unfold FIRST_DIR_ENTRY_BLOCK
        omega
      · intro m
        unfold inode_bit
        rw [eblk]
        exact w2 m
      · unfold inode_at
        rw [eblk]
        exact w3
      · intro m hne hm
        unfold inode_at
        rw [eblk]
        exact w4 m hne hm
    · apply hinv.dir.congr_dir
      · intro b hb _
        rw [eblk]
        exact w1 b hb
      · intro m hm
        refine ⟨hm.1, ?_⟩
        have := w2 m
        unfold inode_bit
        rw [eblk, this, hm.2]
        rfl
  · generalize (create_file s name).2 = s1 at *
    obtain ⟨b0, b1, _, _, _⟩ := c.block_facts
    obtain ⟨j1, j2, j3⟩ := c.inode_facts
    obtain ⟨n1, n2, n3⟩ := c.new_slot hname
    refine ⟨by rw [c.cap]; exact hinv.cap_lo, by rw [c.cap]; exact hinv.cap_hi, ?_, ?_⟩
    · exact hinv.ptr.new_inode c.cap b0 b1 j1 j2 j3
    · apply hinv.dir.transfer (fun b1 i1 => ¬ (b1 = b ∧ i1 = i))
      · intro b1 i1 hs hk
        exact c.other_slot hname hs hk
      · intro b1 i1 b2 i2 _ _ hk hk2
        have h1 := not_not.1 hk
        have h2 := not_not.1 hk2
        exact ⟨h1.1.trans h2.1.symm, h1.2.trans h2.2.symm⟩
      · intro b1 i1 hs hk hu
        have := hinv.dir.inode_ok b1 i1 hs hu
        refine ⟨this.1, ?_⟩
        rw [j1, this.2]
        rfl
      · intro b1 i1 hs hk hu
        obtain ⟨hb, hi⟩ := not_not.1 hk
        subst hb
        subst hi
        refine ⟨⟨name, n3, c.nonempty, hname.2, ?_⟩, ?_, ?_⟩
        · intro b2 i2 hs2 _ hu2 hst
          have hm := (strcmp_stored hst hname.1).2 rfl
          obtain ⟨e, b3, i3, hf⟩ := find_file_entry_of_match hcap hs2 hu2 hm
          rw [c.absent] at hf
          cases hf
        · rw [n2]
          refine ⟨c.inode_lt, ?_⟩
          rw [j1]
          simp
        · intro b2 i2 hs2 _ hu2 he
          rw [n2] at he
          have := (hinv.dir.inode_ok b2 i2 hs2 hu2).2
          rw [he, c.inode_free] at this
          cases this

theorem inv_write {s : FSState} (file : File) (buf : Block) (cnt : Nat) (hinv : Inv s)
    (hlive : ∀ f, file = some f → LiveHandle s f) : Inv (write_file s file buf cnt).2.2 := by
  cases file with
  | none => exact Inv.of_disk (s := s) rfl hinv
  | some f =>
    by_cases hmode : f.mode = .READ_WRITE
    · have hl := hlive f rfl
      have hu := hl.in_use hinv
      obtain ⟨_, c2, c3, _⟩ := hinv.caps
      have W := write_file_spec f buf cnt hmode hl.1 hinv.ptr hu (fun m hm => hm.1) hu.1 c2 c3
      generalize write_file s (some f) buf cnt = r at W
      have hibr := inode_block_for_range hu.1
      unfold FIRST_INODE_BLOCK LAST_INODE_BLOCK at hibr
      have e1 : r.2.2.disk.blocks INODE_BITMAP_BLOCK = s.disk.blocks INODE_BITMAP_BLOCK := by
        apply W.low
        · unfold INODE_BITMAP_BLOCK; omega
        · unfold INODE_BITMAP_BLOCK FIRST_DATA_BLOCK; omega
        · unfold INODE_BITMAP_BLOCK; omega
      refine ⟨by rw [W.step.cap]; exact hinv.cap_lo, by rw [W.step.cap]; exact hinv.cap_hi,
        ?_, ?_⟩
      · exact W.inv.restrict (fun m hm => (InUse.of_bitmap e1 m).1 hm)
      · apply hinv.dir.congr_dir
        · intro b hb1 hb2
          unfold FIRST_DIR_ENTRY_BLOCK at hb1
          unfold LAST_DIR_ENTRY_BLOCK at hb2
          apply W.low
          · omega
          · unfold FIRST_DATA_BLOCK; omega
          · omega
        · intro m hm
          exact (InUse.of_bitmap e1 m).2 hm
    · have : write_file s (some f) buf cnt = (0, some f, ⟨s.disk, .FS_FILE_READ_ONLY⟩) := by
        unfold write_file
        simp [hmode]
      rw [this]
      exact Inv.of_disk (s := s) rfl hinv

theorem inv_seek {s : FSState} (file : File) (bytepos : Nat) (hinv : Inv s)
    (hlive : ∀ f, file = some f → LiveHandle s f) : Inv (seek_file s file bytepos).2.2 := by
  cases file with
  | none => exact Inv.of_disk (s := s) rfl hinv
  | some f =>
    have hl := hlive f rfl
    have hu := hl.in_use hinv
    obtain ⟨_, c2, _, _⟩ := hinv.caps
    obtain ⟨_, _, k3, k4, _, k6, _, _⟩ := seek_file_spec f bytepos hinv.ptr hu hu.1 c2
    generalize seek_file s (some f) bytepos = r at *
    have hibr := inode_block_for_range hu.1
    unfold FIRST_INODE_BLOCK LAST_INODE_BLOCK at hibr
    have e1 : r.2.2.disk.blocks INODE_BITMAP_BLOCK = s.disk.blocks INODE_BITMAP_BLOCK := by
      apply k6
      unfold INODE_BITMAP_BLOCK
      omega
    refine ⟨by rw [k3]; exact hinv.cap_lo, by rw [k3]; exact hinv.cap_hi, ?_, ?_⟩
    · exact k4.restrict (fun m hm => (InUse.of_bitmap e1 m).1 hm)
    · apply hinv.dir.congr_dir
      · intro b hb1 hb2
        unfold FIRST_DIR_ENTRY_BLOCK at hb1
        apply k6
        omega
      · intro m hm
        exact (InUse.of_bitmap e1 m).2 hm

theorem read_file_disk (s : FSState) (file : File) (buf : Block) (n : Nat) :
    (read_file s file buf n).2.2.2.disk = s.disk := by
  cases file with
  | none => rfl
  | some f =>
    cases hload : load_inode s.disk f.inode_num with
    | none =>
      unfold read_file
      simp only [hload]
      split <;> rfl
    | some node => exact (read_file_spec s f buf n node hload).2.2.2.1

theorem file_length_disk (s : FSState) (file : File) : (file_length s file).2.disk = s.disk := by
  cases file with
  | none => rfl
  | some f =>
    unfold file_length
    simp only []
    split <;> rfl

theorem inv_delete {s : FSState} (name : List Byte) (hinv : Inv s) :
    Inv (delete_file s name).2 := by
  obtain ⟨c1, _, _, c4⟩ := hinv.caps
  cases hf : find_file_entry s.disk name with
  | none =>
    have : delete_file s name = (0, ⟨s.disk, .FS_FILE_NOT_FOUND⟩) := by
      unfold delete_file
      rw [hf]
    rw [this]
    exact Inv.of_disk (s := s) rfl hinv
  | some r =>
    obtain ⟨e, b, i⟩ := r
    obtain ⟨hs, hb, hu, _, he⟩ := find_file_entry_some hf
    have hino : e.inode_num = slot_inode s.disk b i := by rw [he]; rfl
    have huse := hinv.dir.inode_ok b i hs hu
    rw [← hino] at huse
    have hind : (inode_at s.disk e.inode_num).indirect < s.disk.capacity := by
      by_cases h0 : (inode_at s.disk e.inode_num).indirect = 0
      · rw [h0]; exact c4
      · exact hinv.ptr.indirect_lt huse h0
    obtain ⟨_, _, d3, d4, d5, d6, d7⟩ := delete_file_spec hf c1 huse.1 hind
    generalize delete_file s name = r at *
    have hb6 : 6 ≤ b := hs.1
    have hb69 : b ≤ 69 := hs.2.1
    refine ⟨by rw [d3]; exact hinv.cap_lo, by rw [d3]; exact hinv.cap_hi, ?_, ?_⟩
    · apply hinv.ptr.drop_inode d3 huse d4
      · intro m hm
        unfold FIRST_DATA_BLOCK at hm
        apply d7 m
        · omega
        · unfold INODE_BITMAP_BLOCK; omega
        · omega
      · intro m hm
        have := hm.2
        unfold inode_bit at this
        rw [d5, bit_is_set_clear_bit] at this
        simp only [Bool.and_eq_true, Bool.not_eq_true', decide_eq_false_iff_not] at this
        exact ⟨⟨hm.1, this.1⟩, this.2⟩
      · intro m hm
        have hibr := inode_block_for_range hm
        unfold FIRST_INODE_BLOCK LAST_INODE_BLOCK at hibr
        unfold inode_at
        rw [d7 (inode_block_for m) (by omega) (by unfold INODE_BITMAP_BLOCK; omega) (by omega)]
    · apply hinv.dir.transfer (fun b1 i1 => ¬ (b1 = b ∧ i1 = i))
      · intro b1 i1 hs1 hk k hk1 hk2
        by_cases hbb : b1 = b
        · subst hbb
          rw [d6]
          have hne : i1 ≠ i := fun h => hk ⟨rfl, h⟩
          apply (cleared_entry_spec _ i).1 k
          unfold DIR_ENTRY_SIZE at *
          omega
        · have := hs1.1
          unfold FIRST_DIR_ENTRY_BLOCK at this
          rw [d7 b1 (by omega) (by unfold INODE_BITMAP_BLOCK; omega) hbb]
      · intro b1 i1 b2 i2 _ _ hk hk2
        have h1 := not_not.1 hk
        have h2 := not_not.1 hk2
        exact ⟨h1.1.trans h2.1.symm, h1.2.trans h2.2.symm⟩
      · intro b1 i1 hs1 hk hu1
        have h1 := hinv.dir.inode_ok b1 i1 hs1 hu1
        refine ⟨h1.1, ?_⟩
        unfold inode_bit
        rw [d5, bit_is_set_clear_bit]
        simp only [Bool.and_eq_true, Bool.not_eq_true', decide_eq_false_iff_not]
        refine ⟨h1.2, fun heq => hk ?_⟩
        exact hinv.dir.inode_inj b1 i1 b i hs1 hs hu1 hu (by rw [heq, hino])
      · intro b1 i1 hs1 hk hu1
        obtain ⟨hb1, hi1⟩ := not_not.1 hk
        subst hb1
        subst hi1
        exfalso
        unfold slot_used at hu1
        rw [d6] at hu1
        exact hu1 (cleared_entry_spec _ i1).2

/-- Every reachable state satisfies the invariant of a volume. -/
theorem reachable_inv {s : FSState} (h : Reachable s) : Inv s := by
  induction h with
  | format capacity h1 h2 => exact inv_formatted capacity h1 h2
  | create s name _ hname ih => exact inv_create name ih hname
  | open_file s name mode _ _ ih =>
    apply Inv.of_disk _ ih
    unfold open_file
    split <;> rfl
  | close s file _ ih =>
    apply Inv.of_disk _ ih
    unfold close_file
    split <;> rfl
  | length s file _ _ ih => exact Inv.of_disk (file_length_disk s file) ih
  | seek s file bytepos _ hlive ih => exact inv_seek file bytepos ih hlive
  | read s file buf numbytes _ _ ih => exact Inv.of_disk (read_file_disk s file buf numbytes) ih
  | write s file buf numbytes _ hlive ih => exact inv_write file buf numbytes ih hlive
  | delete s name _ _ ih => exact inv_delete name ih
  | file_exists s name _ _ ih => exact Inv.of_disk (s := s) rfl ih

/-! ## Names in the directory, `create_file` on an existing name, `delete_file` -/

theorem present_of_find {d : Disk} {name : List Byte} {e : DirectoryEntry} {b i : Nat}
    (hname : CString name) (h : find_file_entry d name = some (e, b, i)) : Present d name := by
  obtain ⟨hs, _, hu, hm, _⟩ := find_file_entry_some h
  exact ⟨b, i, hs, hu, stored_of_strcmp hm hname⟩

theorem find_of_present {d : Disk} {name : List Byte}
    (hcap : LAST_DIR_ENTRY_BLOCK < d.capacity) (hname : CString name) (hp : Present d name) :
    ∃ e b i, find_file_entry d name = some (e, b, i) := by
  obtain ⟨b, i, hs, hu, hst⟩ := hp
  exact find_file_entry_of_match hcap hs hu ((strcmp_stored hst hname).2 rfl)

theorem present_nonempty {s : FSState} {name : List Byte} (hinv : Inv s)
    (hp : Present s.disk name) : name ≠ [] := by
  obtain ⟨b, i, hs, hu, hst⟩ := hp
  obtain ⟨nm, n1, n2, _⟩ := hinv.dir.named b i hs hu
  rw [hst.unique n1]
  exact n2

theorem create_existing {s : FSState} {name : List Byte} {r : DirectoryEntry × Nat × Nat}
    (hne : name ≠ []) (hfound : find_file_entry s.disk name = some r) :
    create_file s name = (none, ⟨s.disk, .FS_FILE_ALREADY_EXISTS⟩) := by
  unfold create_file
  rw [if_neg hne, hfound]
  rfl

theorem delete_absent {s : FSState} {name : List Byte}
    (hname : CString name) (hp : ¬ Present s.disk name) :
    delete_file s name = (0, ⟨s.disk, .FS_FILE_NOT_FOUND⟩) := by
  cases hf : find_file_entry s.disk name with
  | none =>
    unfold delete_file
    rw [hf]
  | some r =>
    obtain ⟨e, b, i⟩ := r
    exact absurd (present_of_find hname hf) hp

/-- The facts about a `delete_file` that finds its entry on a volume that
satisfies the invariant. -/
theorem delete_facts {s : FSState} {name : List Byte} {e : DirectoryEntry} {b i : Nat}
    (hinv : Inv s) (hf : find_file_entry s.disk name = some (e, b, i)) :
    DirSlot b i ∧ slot_used s.disk b i ∧ e.inode_num = slot_inode s.disk b i ∧
    strcmp_eq (s.disk.blocks b) (DIR_ENTRY_SIZE * i) name = true ∧
    InUse s.disk e.inode_num ∧
    (delete_file s name).1 = 1 ∧
    (delete_file s name).2.fserror = .FS_NONE ∧
    (delete_file s name).2.disk.capacity = s.disk.capacity ∧
    (∀ x, data_bit (delete_file s name).2.disk x = true ↔
      data_bit s.disk x = true ∧ ¬ holds s.disk (inode_at s.disk e.inode_num) x) ∧
    (delete_file s name).2.disk.blocks INODE_BITMAP_BLOCK
      = clear_bit (s.disk.blocks INODE_BITMAP_BLOCK) e.inode_num ∧
    (delete_file s name).2.disk.blocks b = wr8 (s.disk.blocks b) (DIR_ENTRY_SIZE * i + 510) 0 ∧
    ∀ m, m ≠ 0 → m ≠ INODE_BITMAP_BLOCK → m ≠ b →
      (delete_file s name).2.disk.blocks m = s.disk.blocks m := by
  obtain ⟨c1, _, _, c4⟩ := hinv.caps
  obtain ⟨hs, hb, hu, hm, he⟩ := find_file_entry_some hf
  have hino : e.inode_num = slot_inode s.disk b i := by rw [he]; rfl
  have huse := hinv.dir.inode_ok b i hs hu
  rw [← hino] at huse
  have hind : (inode_at s.disk e.inode_num).indirect < s.disk.capacity := by
    by_cases h0 : (inode_at s.disk e.inode_num).indirect = 0
    · rw [h0]; exact c4
    · exact hinv.ptr.indirect_lt huse h0
  exact ⟨hs, hu, hino, hm, huse, delete_file_spec hf c1 huse.1 hind⟩

/-- After `delete_file` cleared the slot `(b, i)`, the slot is unused and the
entries of the other slots keep their bytes. -/
theorem delete_slots {d d1 : Disk} {b i : Nat} (hs : DirSlot b i)
    (hb : d1.blocks b = wr8 (d.blocks b) (DIR_ENTRY_SIZE * i + 510) 0)
    (hoth : ∀ m, m ≠ 0 → m ≠ INODE_BITMAP_BLOCK → m ≠ b → d1.blocks m = d.blocks m) :
    ¬ slot_used d1 b i ∧
    ∀ b1 i1, DirSlot b1 i1 → ¬ (b1 = b ∧ i1 = i) → ∀ k, DIR_ENTRY_SIZE * i1 ≤ k →
      k < DIR_ENTRY_SIZE * i1 + DIR_ENTRY_SIZE → d1.blocks b1 k = d.blocks b1 k := by
  constructor
  · intro hu
    unfold slot_used at hu
    rw [hb] at hu
    exact hu (cleared_entry_spec _ i).2
  · intro b1 i1 hs1 hk k hk1 hk2
    by_cases hbb : b1 = b
    · subst hbb
      rw [hb]
      have hne : i1 ≠ i := fun h => hk ⟨rfl, h⟩
      apply (cleared_entry_spec _ i).1 k
      unfold DIR_ENTRY_SIZE at *
      omega
    · have := hs1.1
      unfold FIRST_DIR_ENTRY_BLOCK at this
      rw [hoth b1 (by omega) (by unfold INODE_BITMAP_BLOCK; omega) hbb]

/-- On a volume that satisfies the invariant, `delete_file` of a name that is
present returns 1 and leaves no used entry with that name. -/
theorem delete_removes {s : FSState} {name : List Byte} (hinv : Inv s)
    (hname : CString name) (hp : Present s.disk name) :
    (delete_file s name).1 = 1 ∧ ¬ Present (delete_file s name).2.disk name ∧
    (file_exists (delete_file s name).2 name).1 = 0 := by
  obtain ⟨e, b, i, hf⟩ := find_of_present hinv.caps.1 hname hp
  obtain ⟨hs, hu, _, hm, _, d1, _, _, _, _, d6, d7⟩ := delete_facts hinv hf
  obtain ⟨g1, g2⟩ := delete_slots hs d6 d7
  generalize delete_file s name = r at *
  have hnp : ¬ Present r.2.disk name := by
    rintro ⟨b1, i1, hs1, hu1, hst1⟩
    have hk : ¬ (b1 = b ∧ i1 = i) := by
      rintro ⟨hb, hi⟩
      subst hb
      subst hi
      exact g1 hu1
    obtain ⟨e1, _, e3⟩ := slot_transfer (g2 b1 i1 hs1 hk)
    have hu0 := e1.1 hu1
    obtain ⟨nm, n1, _, n3⟩ := hinv.dir.named b1 i1 hs1 hu0
    have : nm = name := ((e3 nm n3).2 n1).unique hst1
    subst this
    exact hk (hinv.dir.name_inj b1 i1 b i nm hs1 hs hu0 hu n1 (stored_of_strcmp hm hname))
  refine ⟨d1, hnp, ?_⟩
  unfold file_exists
  cases hfd : find_file_entry r.2.disk name with
  | none => rfl
  | some q =>
    obtain ⟨e2, b2, i2⟩ := q
    exact absurd (present_of_find hname hfd) hnp

/-! ## A file that is created, written and deleted -/

theorem not_holds_zero (d : Disk) (x : Nat) : ¬ holds d Inode.zero x := by
  rintro ⟨hx, sl, hv, e⟩
  rw [slot_val_zero d sl hv] at e
  exact hx e.symm

theorem Written.start {n : Nat} {s1 : FSState} (hz : inode_at s1.disk n = Inode.zero) :
    Written n s1 (some ⟨n, .READ_WRITE, 0⟩) s1 := by
  refine ⟨⟨_, rfl, rfl, rfl, by norm_num⟩, PtrInv.of_zero hz, rfl, fun _ _ _ _ => rfl,
    fun _ h => h, fun _ h => Or.inl h, ?_⟩
  intro x hx
  rw [hz] at hx
  exact absurd hx (not_holds_zero _ x)

theorem Written.step {n : Nat} {s1 s2 : FSState} {file : File} (w : Written n s1 file s2)
    (hn : n < MAX_FILES) (hcap1 : LAST_INODE_BLOCK < s1.disk.capacity)
    (hcap2 : s1.disk.capacity ≤ 65536) (buf : Block) (cnt : Nat) :
    Written n s1 (write_file s2 file buf cnt).2.1 (write_file s2 file buf cnt).2.2 := by
  obtain ⟨f, hfile, hfn, hmode, hpos⟩ := w.handle
  subst hfile
  subst hfn
  have W := write_file_spec (U := fun m => m = f.inode_num) f buf cnt hmode hpos w.inv rfl
    (fun m hm => by rw [hm]; exact hn) hn (by rw [w.cap]; exact hcap1)
    (by rw [w.cap]; exact hcap2)
  generalize write_file s2 (some f) buf cnt = r at W
  have hsz : (inode_at r.2.2.disk f.inode_num).size < 2 ^ 32 := (get_inode_wf _ _).size_lt
  have hkeep : ∀ x, holds s2.disk (inode_at s2.disk f.inode_num) x →
      holds r.2.2.disk (inode_at r.2.2.disk f.inode_num) x := by
    rintro x ⟨hx, sl, hv, e⟩
    obtain ⟨k1, k2⟩ := W.step.keep sl hv (by rw [e]; exact hx)
    exact ⟨hx, sl, k1, k2.trans e⟩
  refine ⟨⟨_, W.handle, rfl, hmode, ?_⟩, W.inv, W.step.cap.trans w.cap, ?_, ?_, ?_, ?_⟩
  · have := W.size
    have h2 := Nat.le_max_right (inode_at s2.disk f.inode_num).size (f.pos + r.1)
    simp only []
    omega
  · intro m h1 h2 h3
    rw [W.low m h1 h2 h3, w.low m h1 h2 h3]
  · intro x hx
    exact W.step.bit_mono x (w.bit_mono x hx)
  · intro x hx
    rcases W.step.bit_new x hx with h | h
    · rcases w.bit_new x h with h1 | h1
      · exact Or.inl h1
      · exact Or.inr (hkeep x h1)
    · exact Or.inr h
  · rintro x ⟨hx, sl, hv, e⟩
    rcases W.step.fresh sl hv (by rw [e]; exact hx) with ⟨k1, k2⟩ | k
    · exact w.fresh x ⟨hx, sl, k1, k2.trans e⟩
    · rw [e] at k
      cases hb : data_bit s1.disk x with
      | false => rfl
      | true =>
        rw [w.bit_mono x hb] at k
        cases k

theorem write_seq_written {n : Nat} {s1 : FSState} (hn : n < MAX_FILES)
    (hcap1 : LAST_INODE_BLOCK < s1.disk.capacity) (hcap2 : s1.disk.capacity ≤ 65536) :
    ∀ (ws : List (Block × Nat)) (file : File) (s2 : FSState), Written n s1 file s2 →
      Written n s1 (write_seq ws file s2).1 (write_seq ws file s2).2 := by
  intro ws
  induction ws with
  | nil => intro file s2 w; exact w
  | cons w0 ws ih =>
    intro file s2 w
    unfold write_seq
    exact ih _ _ (w.step hn hcap1 hcap2 w0.1 w0.2)

/-- After `create_file(name)`, any sequence of writes through the new handle
and `delete_file(name)`, both bitmap blocks are as before the create. -/
theorem bitmaps_restored {s s1 : FSState} {name : List Byte} {h : FileInternals}
    (ws : List (Block × Nat))
    (hcap1 : LAST_DIR_ENTRY_BLOCK < s.disk.capacity)
    (hcap2 : s.disk.capacity ≤ 8 * SOFTWARE_DISK_BLOCK_SIZE)
    (hname : ValidName name) (hcreate : create_file s name = (some h, s1)) :
    (delete_file (write_seq ws (some h) s1).2 name).1 = 1 ∧
    (delete_file (write_seq ws (some h) s1).2 name).2.disk.blocks 0 = s.disk.blocks 0 ∧
    (delete_file (write_seq ws (some h) s1).2 name).2.disk.blocks INODE_BITMAP_BLOCK
      = s.disk.blocks INODE_BITMAP_BLOCK := by
  have hc1 : (create_file s name).1 = some h := by rw [hcreate]
  have hc2 : (create_file s name).2 = s1 := by rw [hcreate]
  rcases create_file_cases s name hcap1 with ⟨e, _⟩ | ⟨n, e, _⟩ | ⟨n, b, i, e, c⟩
  · rw [hc1] at e; cases e
  · rw [hc1] at e; cases e
  rw [hc1] at e
  injection e with e
  subst e
  rw [hc2] at c
  obtain ⟨j1, hzero, _⟩ := c.inode_facts
  obtain ⟨b0, _, _, _, _⟩ := c.block_facts
  have hcapS : s1.disk.capacity ≤ 65536 := by
    rw [c.cap]; unfold SOFTWARE_DISK_BLOCK_SIZE at hcap2; omega
  have hcap5 : LAST_INODE_BLOCK < s1.disk.capacity := by
    rw [c.cap]; unfold LAST_DIR_ENTRY_BLOCK at hcap1; unfold LAST_INODE_BLOCK; omega
  have w := write_seq_written c.inode_lt hcap5 hcapS ws _ _ (Written.start hzero)
  generalize write_seq ws (some ⟨n, .READ_WRITE, 0⟩) s1 = r at w
  obtain ⟨file2, s2⟩ := r
  simp only [] at w ⊢
  have hibr := inode_block_for_range c.inode_lt
  unfold FIRST_INODE_BLOCK LAST_INODE_BLOCK at hibr
  -- the directory entry is still there
  obtain ⟨e, hfind, hino⟩ := c.find hname hcap1
  have hfind2 : find_file_entry s2.disk name = some (e, b, i) := by
    rw [← hfind]
    apply find_file_entry_congr name w.cap
    intro m h1 h2
    unfold FIRST_DIR_ENTRY_BLOCK at h1
    unfold LAST_DIR_ENTRY_BLOCK at h2
    exact w.low m (by omega) (by unfold FIRST_DATA_BLOCK; omega) (by omega)
  have hind : (inode_at s2.disk e.inode_num).indirect < s2.disk.capacity := by
    rw [hino]
    by_cases h0 : (inode_at s2.disk n).indirect = 0
    · rw [h0, w.cap, c.cap]; unfold LAST_DIR_ENTRY_BLOCK at hcap1; omega
    · exact w.inv.indirect_lt rfl h0
  obtain ⟨d1, _, _, d4, d5, _, _⟩ := delete_file_spec hfind2
    (by rw [w.cap, c.cap]; exact hcap1) (by rw [hino]; exact c.inode_lt) hind
  rw [hino] at d4 d5
  generalize delete_file s2 name = q at *
  refine ⟨d1, ?_, ?_⟩
  · apply block_ext_bits
    intro x
    rw [← b0]
    have key : data_bit q.2.disk x = data_bit s1.disk x := by
      cases hb : data_bit s1.disk x with
      | true =>
        apply (d4 x).2
        refine ⟨w.bit_mono x hb, fun hh => ?_⟩
        rw [w.fresh x hh] at hb
        cases hb
      | false =>
        cases hq : data_bit q.2.disk x with
        | false => rfl
        | true =>
          obtain ⟨q1, q2⟩ := (d4 x).1 hq
          rcases w.bit_new x q1 with h1 | h1
          · rw [hb] at h1; cases h1
          · exact absurd h1 q2
    exact key
  · rw [d5, w.low INODE_BITMAP_BLOCK (by unfold INODE_BITMAP_BLOCK; omega)
      (by unfold INODE_BITMAP_BLOCK FIRST_DATA_BLOCK; omega)
      (by unfold INODE_BITMAP_BLOCK; omega)]
    apply block_ext_bits
    intro m
    rw [bit_is_set_clear_bit]
    have := j1 m
    unfold inode_bit at this
    rw [this]
    by_cases hm : m = n
    · subst hm
      have hfree := c.inode_free
      unfold inode_bit at hfree
      rw [hfree]
      simp
    · simp [hm]

/-! ## Facts about the example runs -/

set_option maxRecDepth 100000

theorem ex_name_valid : ValidName ex_name :=
  ⟨fun c hc => by
    simp only [ex_name, List.mem_singleton] at hc
    subst hc
    decide, by decide⟩

theorem formatted_reachable : Reachable (formatted 100) :=
  Reachable.format 100 (by decide) (by decide)

theorem ex_created_reachable : Reachable ex_created.2 :=
  Reachable.create (formatted 100) ex_name formatted_reachable ex_name_valid

theorem ex_created_slot : DirSlot 6 0 ∧ slot_used ex_created.2.disk 6 0 ∧
    slot_inode ex_created.2.disk 6 0 = 0 ∧
    strcmp_eq (ex_created.2.disk.blocks 6) (DIR_ENTRY_SIZE * 0) ex_name = true := by
  refine ⟨⟨by decide, by decide, by decide⟩, ?_, by decide, by decide⟩
  unfold slot_used
  decide

theorem ex_created_present : Present ex_created.2.disk ex_name :=
  ⟨6, 0, ex_created_slot.1, ex_created_slot.2.1,
    stored_of_strcmp ex_created_slot.2.2.2 ex_name_valid.1⟩

theorem ex_created_handle : ex_created.1 = some ⟨0, .READ_WRITE, 0⟩ := by decide

theorem ex_created_live : ∀ f, ex_created.1 = some f → LiveHandle ex_created.2 f := by
  intro f hf
  rw [ex_created_handle] at hf
  injection hf with hf
  subst hf
  exact ⟨by decide, 6, 0, ex_created_slot.1, ex_created_slot.2.1, ex_created_slot.2.2.1⟩

theorem ex_written_reachable : Reachable ex_written.2.2 :=
  Reachable.write ex_created.2 ex_created.1 (fun _ => 65) 10 ex_created_reachable
    ex_created_live

theorem ex_written_find : (find_file_entry ex_written.2.2.disk ex_name).isSome = true := by
  decide

/-! ## First-fit allocation -/

/-- When `n` is the lowest clear bit of the inode bitmap, `alloc_inode` returns
`n` and sets exactly that bit. -/
theorem alloc_inode_lowest {s : FSState} (hcap : INODE_BITMAP_BLOCK < s.disk.capacity)
    {n : Nat} (hn : n < MAX_FILES) (hfree : inode_bit s.disk n = false)
    (hlow : ∀ q, q < n → inode_bit s.disk q = true) :
    (alloc_inode s).1 = some n ∧ (alloc_inode s).2.fserror = s.fserror ∧
    (alloc_inode s).2.disk.capacity = s.disk.capacity ∧
    (∀ m, inode_bit (alloc_inode s).2.disk m = (inode_bit s.disk m || decide (m = n))) ∧
    (∀ m, m ≠ INODE_BITMAP_BLOCK → (alloc_inode s).2.disk.blocks m = s.disk.blocks m) := by
  obtain ⟨n1, s1, h⟩ := alloc_inode_of_free hcap hn hfree
  obtain ⟨_, a2, a3, a4, a5, _, a7⟩ := alloc_inode_some h
  have e : n1 = n := by
    rcases Nat.lt_trichotomy n1 n with hlt | heq | hgt
    · rw [hlow n1 hlt] at a2; cases a2
    · exact heq
    · rw [a3 n hgt] at hfree; cases hfree
  subst e
  rw [h]
  refine ⟨rfl, a5, a4, fun m => ?_, fun m hm => ?_⟩
  · unfold inode_bit
    simp only [a7, if_true]
    exact bit_is_set_set_bit _ _ _
  · simp only [a7, if_neg hm]

/-- When every bit of the inode bitmap is set, `alloc_inode` fails with
`FS_OUT_OF_SPACE` and leaves the disk as it was. -/
theorem alloc_inode_full {s : FSState}
    (hfull : ∀ q, q < MAX_FILES → inode_bit s.disk q = true) :
    alloc_inode s = (none, ⟨s.disk, .FS_OUT_OF_SPACE⟩) := by
  rcases h : alloc_inode s with ⟨r, s1⟩
  cases r with
  | none =>
    obtain ⟨a1, a2, _⟩ := alloc_inode_none h
    obtain ⟨d, e⟩ := s1
    simp only [] at a1 a2
    rw [a1, a2]
  | some n =>
    obtain ⟨a1, a2, _⟩ := alloc_inode_some h
    rw [hfull n a1] at a2
    cases a2

/-- When `p` is the lowest clear bit of the data-block bitmap among the data
blocks of the device, `alloc_data_block` returns `p` and sets exactly that
bit. -/
theorem alloc_data_block_lowest {s : FSState} {p : Nat}
    (hp1 : FIRST_DATA_BLOCK ≤ p) (hp2 : p < s.disk.capacity)
    (hfree : data_bit s.disk p = false)
    (hlow : ∀ q, FIRST_DATA_BLOCK ≤ q → q < p → data_bit s.disk q = true) :
    (alloc_data_block s).1 = some p ∧ (alloc_data_block s).2.fserror = s.fserror ∧
    (alloc_data_block s).2.disk.capacity = s.disk.capacity ∧
    (∀ b, data_bit (alloc_data_block s).2.disk b = (data_bit s.disk b || decide (b = p))) ∧
    (∀ m, m ≠ 0 → (alloc_data_block s).2.disk.blocks m = s.disk.blocks m) := by
  obtain ⟨p1, s1, h⟩ := alloc_data_block_succeeds (by omega) hp1 hp2 hfree
  obtain ⟨a1, _, a3, a4, a5, a6, _, a8⟩ := alloc_data_block_some h
  have e : p1 = p := by
    rcases Nat.lt_trichotomy p1 p with hlt | heq | hgt
    · rw [hlow p1 a1 hlt] at a3; cases a3
    · exact heq
    · rw [a4 p hp1 hgt] at hfree; cases hfree
  subst e
  rw [h]
  refine ⟨rfl, a6, a5, fun b => ?_, fun m hm => ?_⟩
  · exact data_bit_after_set (by simp only [a8, if_true]) b
  · simp only [a8, if_neg hm]

/-- When every data block of the device has its bit set, `alloc_data_block`
fails with `FS_OUT_OF_SPACE` and leaves the disk as it was. -/
theorem alloc_data_block_full {s : FSState} (hcap : 0 < s.disk.capacity)
    (hfull : ∀ q, FIRST_DATA_BLOCK ≤ q → q < s.disk.capacity → data_bit s.disk q = true) :
    alloc_data_block s = (none, ⟨s.disk, .FS_OUT_OF_SPACE⟩) := by
  rcases h : alloc_data_block s with ⟨r, s1⟩
  cases r with
  | none =>
    obtain ⟨a1, a2⟩ := alloc_data_block_none h
    obtain ⟨d, e⟩ := s1
    simp only [] at a1 a2
    rw [a1, (a2 hcap).1]
  | some p =>
    obtain ⟨a1, a2, a3, _⟩ := alloc_data_block_some h
    rw [hfull p a1 a2] at a3
    cases a3

theorem free_inode_spec (s : FSState) (n : Nat) (hcap : INODE_BITMAP_BLOCK < s.disk.capacity) :
    (free_inode s n).fserror = s.fserror ∧
    (free_inode s n).disk.capacity = s.disk.capacity ∧
    (∀ m, inode_bit (free_inode s n).disk m = (inode_bit s.disk m && !decide (m = n))) ∧
    ∀ m, m ≠ INODE_BITMAP_BLOCK → (free_inode s n).disk.blocks m = s.disk.blocks m := by
  unfold free_inode
  rw [read_sd_block_of_lt hcap]
  simp only []
  refine ⟨trivial, write_unchecked_capacity _ _ _, fun m => ?_,
    fun m hm => write_unchecked_blocks_ne _ _ hm⟩
  unfold inode_bit
  rw [write_unchecked_blocks_of_lt _ hcap]
  simp only [if_true]
  exact bit_is_set_clear_bit _ _ _

/-- After `free_inode(n)` the next `alloc_inode` returns the smaller of `n` and
the index a call before the free would have returned, and `n` when that call
would have failed. -/
theorem alloc_after_free (s : FSState) {n : Nat} (hcap : INODE_BITMAP_BLOCK < s.disk.capacity)
    (hn : n < MAX_FILES) :
    (alloc_inode (free_inode s n)).1
      = some (match (alloc_inode s).1 with
        | some m => min n m
        | none => n) := by
  obtain ⟨_, f2, f3, _⟩ := free_inode_spec s n hcap
  have hclear : inode_bit (free_inode s n).disk n = false := by
    rw [f3]; simp
  obtain ⟨n1, s1, h⟩ := alloc_inode_of_free (by rw [f2]; exact hcap) hn hclear
  obtain ⟨_, a2, a3, _⟩ := alloc_inode_some h
  rw [h]
  simp only []
  have hle : n1 ≤ n := by
    by_contra hc
    rw [a3 n (by omega)] at hclear
    cases hclear
  rw [f3] at a2
  rcases h0 : alloc_inode s with ⟨r, s0⟩
  cases r with
  | none =>
    simp only []
    obtain ⟨_, _, b3⟩ := alloc_inode_none h0
    by_cases e : n1 = n
    · rw [e]
    · have := b3 hcap n1 (by omega)
      rw [this] at a2
      simp [e] at a2
  | some m =>
    simp only []
    obtain ⟨_, b2, b3, _⟩ := alloc_inode_some h0
    have hm : n1 ≤ m := by
      by_contra hc
      have := a3 m (by omega)
      rw [f3, b2] at this
      cases this
    by_cases e : n1 = n
    · rw [e] at hm ⊢
      rw [Nat.min_eq_left hm]
    · have h1 : inode_bit s.disk n1 = false := by
        cases hb : inode_bit s.disk n1 with
        | false => rfl
        | true => rw [hb] at a2; simp [e] at a2
      have h2 : ¬ n1 < m := fun hlt => by
        rw [b3 n1 hlt] at h1
        cases h1
      have : n1 = m := by omega
      rw [this] at hle ⊢
      rw [Nat.min_eq_right hle]

/-! ## Isolation between files -/

theorem read_unchecked_congr {d d1 : Disk} {q : Nat} (hcap : d1.capacity = d.capacity)
    (hq : d1.blocks q = d.blocks q) : read_unchecked d1 q = read_unchecked d q := by
  unfold read_unchecked read_sd_block
  rw [hcap, hq]

/-- The loop of `read_file` only depends on the backing blocks of the inode
and on their contents. -/
theorem read_loop_congr (node : Inode) (numbytes : Nat) {d d1 : Disk}
    (hcap : d1.capacity = d.capacity)
    (hblk : ∀ lb, block_of d1 node lb = block_of d node lb)
    (hdata : ∀ lb q, block_of d node lb = some q → d1.blocks q = d.blocks q) :
    ∀ (fuel br pos : Nat) (dst : Block) (e e1 : FSError),
      (read_loop node numbytes fuel br pos dst ⟨d1, e1⟩).1
        = (read_loop node numbytes fuel br pos dst ⟨d, e⟩).1 ∧
      (read_loop node numbytes fuel br pos dst ⟨d1, e1⟩).2.1
        = (read_loop node numbytes fuel br pos dst ⟨d, e⟩).2.1 ∧
      (read_loop node numbytes fuel br pos dst ⟨d1, e1⟩).2.2.1
        = (read_loop node numbytes fuel br pos dst ⟨d, e⟩).2.2.1 := by
  intro fuel
  induction fuel with
  | zero => intro br pos dst e e1; exact ⟨rfl, rfl, rfl⟩
  | succ fuel ih =>
    intro br pos dst e e1
    unfold read_loop
    by_cases hc : br < numbytes ∧ pos < node.size
    · rw [if_pos hc, if_pos hc]
      simp only [get_data_block_no_alloc, hblk]
      cases hq : block_of d node (pos / SOFTWARE_DISK_BLOCK_SIZE) with
      | none => exact ⟨rfl, rfl, rfl⟩
      | some q =>
        simp only []
        rw [read_unchecked_congr hcap (hdata _ q hq)]
        exact ih _ _ _ _ _
    · rw [if_neg hc, if_neg hc]
      exact ⟨rfl, rfl, rfl⟩

/-- The results of `read_file` (count, handle and buffer) on two disks that
agree on the inode record of the handle, on its backing blocks and on their
contents. -/
theorem read_file_congr {d d1 : Disk} (g : FileInternals) (buf : Block) (k : Nat)
    (e e1 : FSError) (hcap : d1.capacity = d.capacity)
    (hnode : inode_at d1 g.inode_num = inode_at d g.inode_num)
    (hblk : ∀ lb, block_of d1 (inode_at d g.inode_num) lb
      = block_of d (inode_at d g.inode_num) lb)
    (hdata : ∀ lb q, block_of d (inode_at d g.inode_num) lb = some q →
      d1.blocks q = d.blocks q) :
    (read_file ⟨d1, e1⟩ (some g) buf k).1 = (read_file ⟨d, e⟩ (some g) buf k).1 ∧
    (read_file ⟨d1, e1⟩ (some g) buf k).2.1 = (read_file ⟨d, e⟩ (some g) buf k).2.1 ∧
    (read_file ⟨d1, e1⟩ (some g) buf k).2.2.1 = (read_file ⟨d, e⟩ (some g) buf k).2.2.1 := by
  by_cases hlt : inode_block_for g.inode_num < d.capacity
  · have hl : load_inode d g.inode_num = some (inode_at d g.inode_num) := load_inode_of_lt hlt
    have hl1 : load_inode d1 g.inode_num = some (inode_at d g.inode_num) := by
      rw [← hnode]
      exact load_inode_of_lt (by rw [hcap]; exact hlt)
    rw [read_file_eq (s := ⟨d1, e1⟩) buf k hl1, read_file_eq (s := ⟨d, e⟩) buf k hl]
    obtain ⟨h1, h2, h3⟩ := read_loop_congr (inode_at d g.inode_num) k hcap hblk hdata k 0 g.pos
      buf e e1
    simp only []
    rw [h1, h2, h3]
    exact ⟨rfl, rfl, rfl⟩
  · have hl : load_inode d g.inode_num = none := by
      unfold load_inode read_sd_block
      rw [if_neg hlt]
    have hl1 : load_inode d1 g.inode_num = none := by
      unfold load_inode read_sd_block
      rw [hcap, if_neg hlt]
    unfold read_file
    simp only [hl, hl1]
    split <;> exact ⟨rfl, rfl, rfl⟩

/-- Under the ownership invariant after an operation on the file with inode
`n`, another inode `m` keeps its record, its backing blocks and their
contents. -/
theorem other_file_kept {d d1 : Disk} {U : Nat → Prop} {n m : Nat}
    (hinv : PtrInv d U (inode_at d)) (hinv1 : PtrInv d1 U (inode_at d1))
    (hstep : FileStep n d d1) (hn : U n) (hm : U m) (hne : m ≠ n) (hm512 : m < MAX_FILES)
    (hn512 : n < MAX_FILES) :
    inode_at d1 m = inode_at d m ∧
    (∀ lb, block_of d1 (inode_at d m) lb = block_of d (inode_at d m) lb) ∧
    (∀ lb q, block_of d (inode_at d m) lb = some q → d1.blocks q = d.blocks q) := by
  have hnode := hstep.others m hne hm512
  have hibr := inode_block_for_range hn512
  unfold FIRST_INODE_BLOCK LAST_INODE_BLOCK at hibr
  -- a block held by `m` afterwards is unchanged
  have keep : ∀ q, holds d1 (inode_at d1 m) q → d1.blocks q = d.blocks q := by
    intro q hq
    obtain ⟨r1, _, _⟩ := hinv1.holds_range hm hq
    unfold FIRST_DATA_BLOCK at r1
    apply hstep.frame q (by omega) (by omega)
    rintro ⟨_, sl1, hv1, e1⟩
    obtain ⟨hq0, sl, hv, e⟩ := hq
    exact hne (hinv1.inj m n sl sl1 hm hn hv hv1 (by rw [e]; exact hq0) (e.trans e1.symm)).1
  have hind : (inode_at d m).indirect ≠ 0 →
      d1.blocks (inode_at d m).indirect = d.blocks (inode_at d m).indirect := by
    intro h0
    apply keep
    rw [hnode]
    exact ⟨h0, .indirect, trivial, rfl⟩
  have hblk : ∀ lb, block_of d1 (inode_at d m) lb = block_of d (inode_at d m) lb := by
    intro lb
    apply block_of_congr
    intro h0
    exact read_unchecked_congr hstep.cap (hind h0)
  refine ⟨hnode, hblk, fun lb q hq => ?_⟩
  apply keep
  rw [hnode]
  have hi1 : (inode_at d m).indirect ≠ 0 → (inode_at d m).indirect < d1.capacity := by
    intro h0
    rw [hstep.cap]
    exact hinv.indirect_lt hm h0
  have hq1 : block_of d1 (inode_at d m) lb = some q := by rw [hblk]; exact hq
  obtain ⟨q0, hv, e⟩ := (block_of_iff_slot hi1 lb q).1 hq1
  exact ⟨q0, lb_slot lb, hv, e⟩

/-! ## A file is unaffected by operations on another file -/

theorem file_length_congr {d d1 : Disk} (g : FileInternals) (e e1 : FSError)
    (hcap : d1.capacity = d.capacity)
    (hnode : inode_at d1 g.inode_num = inode_at d g.inode_num) :
    (file_length ⟨d1, e1⟩ (some g)).1 = (file_length ⟨d, e⟩ (some g)).1 := by
  unfold file_length
  simp only []
  by_cases hlt : inode_block_for g.inode_num < d.capacity
  · rw [load_inode_of_lt hlt, load_inode_of_lt (by rw [hcap]; exact hlt), hnode]
  · have hl : load_inode d g.inode_num = none := by
      unfold load_inode read_sd_block
      rw [if_neg hlt]
    have hl1 : load_inode d1 g.inode_num = none := by
      unfold load_inode read_sd_block
      rw [hcap, if_neg hlt]
    rw [hl, hl1]

theorem unaffected_of {s s1 : FSState} (g : FileInternals)
    (hcap : s1.disk.capacity = s.disk.capacity)
    (hnode : inode_at s1.disk g.inode_num = inode_at s.disk g.inode_num)
    (hblk : ∀ lb, block_of s1.disk (inode_at s.disk g.inode_num) lb
      = block_of s.disk (inode_at s.disk g.inode_num) lb)
    (hdata : ∀ lb q, block_of s.disk (inode_at s.disk g.inode_num) lb = some q →
      s1.disk.blocks q = s.disk.blocks q)
    (hdir : ∀ b, FIRST_DIR_ENTRY_BLOCK ≤ b → b ≤ LAST_DIR_ENTRY_BLOCK →
      s1.disk.blocks b = s.disk.blocks b)
    (hbit : s1.disk.blocks INODE_BITMAP_BLOCK = s.disk.blocks INODE_BITMAP_BLOCK) :
    Unaffected g s s1 := by
  obtain ⟨d, e⟩ := s
  obtain ⟨d1, e1⟩ := s1
  exact ⟨file_length_congr g e e1 hcap hnode,
    fun rbuf k => read_file_congr g rbuf k e e1 hcap hnode hblk hdata, hdir, hbit⟩

theorem unaffected_same_disk {s s1 : FSState} (g : FileInternals) (h : s1.disk = s.disk) :
    Unaffected g s s1 := by
  apply unaffected_of g
  · rw [h]
  · rw [h]
  · intro lb; rw [h]
  · intro lb q _; rw [h]
  · intro b _ _; rw [h]
  · rw [h]

/-- On a volume that satisfies the invariant, `write_file` through a live
handle `f` leaves every other file in use unaffected. -/
theorem unaffected_write {s : FSState} (f g : FileInternals) (buf : Block) (n : Nat)
    (hinv : Inv s) (hf : LiveHandle s f) (hg : InUse s.disk g.inode_num)
    (hne : g.inode_num ≠ f.inode_num) :
    Unaffected g s (write_file s (some f) buf n).2.2 := by
  by_cases hmode : f.mode = .READ_WRITE
  · have hu := hf.in_use hinv
    obtain ⟨_, c2, c3, _⟩ := hinv.caps
    have W := write_file_spec f buf n hmode hf.1 hinv.ptr hu (fun m hm => hm.1) hu.1 c2 c3
    generalize write_file s (some f) buf n = r at W
    have hibr := inode_block_for_range hu.1
    unfold FIRST_INODE_BLOCK LAST_INODE_BLOCK at hibr
    obtain ⟨k1, k2, k3⟩ := other_file_kept hinv.ptr W.inv W.step hu hg hne hg.1 hu.1
    apply unaffected_of g W.step.cap k1 k2 k3
    · intro b hb1 hb2
      unfold FIRST_DIR_ENTRY_BLOCK at hb1
      unfold LAST_DIR_ENTRY_BLOCK at hb2
      exact W.low b (by omega) (by unfold FIRST_DATA_BLOCK; omega) (by omega)
    · exact W.low _ (by unfold INODE_BITMAP_BLOCK; omega)
        (by unfold INODE_BITMAP_BLOCK FIRST_DATA_BLOCK; omega)
        (by unfold INODE_BITMAP_BLOCK; omega)
  · have : write_file s (some f) buf n = (0, some f, ⟨s.disk, .FS_FILE_READ_ONLY⟩) := by
      unfold write_file
      simp [hmode]
    rw [this]
    exact unaffected_same_disk g rfl

/-- On a volume that satisfies the invariant, `seek_file` through a live handle
`f` leaves every other file in use unaffected. -/
theorem unaffected_seek {s : FSState} (f g : FileInternals) (bytepos : Nat)
    (hinv : Inv s) (hf : LiveHandle s f) (hg : InUse s.disk g.inode_num)
    (hne : g.inode_num ≠ f.inode_num) :
    Unaffected g s (seek_file s (some f) bytepos).2.2 := by
  have hu := hf.in_use hinv
  obtain ⟨_, c2, _, _⟩ := hinv.caps
  obtain ⟨_, _, k3, _, _, k6, k7, _⟩ := seek_file_spec f bytepos hinv.ptr hu hu.1 c2
  generalize seek_file s (some f) bytepos = r at *
  have hibr := inode_block_for_range hu.1
  unfold FIRST_INODE_BLOCK LAST_INODE_BLOCK at hibr
  have hdata : ∀ q, FIRST_DATA_BLOCK ≤ q → r.2.2.disk.blocks q = s.disk.blocks q := by
    intro q hq
    unfold FIRST_DATA_BLOCK at hq
    exact k6 q (by omega)
  apply unaffected_of g k3 (k7 _ hne)
  · intro lb
    apply block_of_congr
    intro h0
    exact read_unchecked_congr k3 (hdata _ (hinv.ptr.range _ .indirect hg trivial h0).1)
  · intro lb q hq
    exact hdata q (hinv.ptr.block_of_range hg hq).1
  · intro b hb1 _
    unfold FIRST_DIR_ENTRY_BLOCK at hb1
    exact k6 b (by omega)
  · exact k6 _ (by unfold INODE_BITMAP_BLOCK; omega)

/-! ## Used directory entries and inodes in use -/

theorem slot_of_number {k : Nat} (hk : k < MAX_FILES) :
    DirSlot (slot_block k) (slot_index k) := by
  unfold MAX_FILES at hk
  unfold DirSlot slot_block slot_index FIRST_DIR_ENTRY_BLOCK LAST_DIR_ENTRY_BLOCK
    DIR_ENTRIES_PER_BLOCK
  omega

theorem number_of_slot {b i : Nat} (h : DirSlot b i) :
    ∃ k, k < MAX_FILES ∧ slot_block k = b ∧ slot_index k = i := by
  unfold DirSlot FIRST_DIR_ENTRY_BLOCK LAST_DIR_ENTRY_BLOCK DIR_ENTRIES_PER_BLOCK at h
  refine ⟨(b - 6) * 8 + i, ?_, ?_, ?_⟩
  · unfold MAX_FILES; omega
  · unfold slot_block FIRST_DIR_ENTRY_BLOCK DIR_ENTRIES_PER_BLOCK; omega
  · unfold slot_index DIR_ENTRIES_PER_BLOCK; omega

theorem slot_number_inj {k k1 : Nat} (h1 : slot_block k = slot_block k1)
    (h2 : slot_index k = slot_index k1) : k = k1 := by
  unfold slot_block FIRST_DIR_ENTRY_BLOCK DIR_ENTRIES_PER_BLOCK at h1
  unfold slot_index DIR_ENTRIES_PER_BLOCK at h2
  omega

theorem find_free_dir_entry_in_none (d : Disk) :
    ∀ (bs : List Nat), (∀ b ∈ bs, b < d.capacity) → find_free_dir_entry_in d bs = none →
      ∀ b ∈ bs, ∀ i, i < DIR_ENTRIES_PER_BLOCK → entry_used (d.blocks b) i ≠ 0 := by
  intro bs
  induction bs with
  | nil => intro _ _ b hb; cases hb
  | cons b0 bs ih =>
    intro hcap h b hb i hi
    simp only [find_free_dir_entry_in] at h
    rw [read_sd_block_of_lt (hcap b0 (List.mem_cons_self _ _))] at h
    simp only [] at h
    split at h
    · cases h
    · rename_i hnone
      rcases List.mem_cons.1 hb with e | hin
      · subst e
        rw [List.find?_eq_none] at hnone
        have := hnone i (List.mem_range.2 hi)
        simpa using this
      · exact ih (fun b hb => hcap b (List.mem_cons_of_mem _ hb)) h b hin i hi

/-- When every directory block is readable and some slot is unused,
`find_free_dir_entry` finds a slot. -/
theorem find_free_dir_entry_of_free {d : Disk} (hcap : LAST_DIR_ENTRY_BLOCK < d.capacity)
    {b i : Nat} (hs : DirSlot b i) (hfree : ¬ slot_used d b i) :
    ∃ r, find_free_dir_entry d = some r := by
  cases h : find_free_dir_entry d with
  | some r => exact ⟨r, rfl⟩
  | none =>
    exfalso
    apply hfree
    apply find_free_dir_entry_in_none d dir_blocks _ h b (mem_dir_blocks.2 ⟨hs.1, hs.2.1⟩) i
      hs.2.2
    intro b hb
    have := (mem_dir_blocks.1 hb).2
    omega

theorem length_filter_range (p : Nat → Bool) (n : Nat) :
    ((List.range n).filter p).length = ((Finset.range n).filter (fun k => p k = true)).card := by
  rw [← List.toFinset_card_of_nodup ((List.nodup_range n).filter _)]
  congr 1
  ext k
  simp [List.mem_toFinset, List.mem_filter, List.mem_range, Finset.mem_filter, Finset.mem_range]

/-- On a volume that satisfies the invariant, a free inode comes with an
unused directory slot: the used slots record distinct inodes in use, of which
there are at most 511. -/
theorem free_slot_exists {s : FSState} (hinv : Inv s) {n : Nat} (hn : n < MAX_FILES)
    (hfree : inode_bit s.disk n = false) : ∃ b i, DirSlot b i ∧ ¬ slot_used s.disk b i := by
  by_contra hall
  have hused : ∀ b i, DirSlot b i → slot_used s.disk b i := by
    intro b i hs
    by_contra hu
    exact hall ⟨b, i, hs, hu⟩
  have hmaps : ∀ k ∈ Finset.range MAX_FILES,
      slot_inode s.disk (slot_block k) (slot_index k) ∈ (Finset.range MAX_FILES).erase n := by
    intro k hk
    have hs := slot_of_number (Finset.mem_range.1 hk)
    have hu := hinv.dir.inode_ok _ _ hs (hused _ _ hs)
    rw [Finset.mem_erase, Finset.mem_range]
    refine ⟨fun e => ?_, hu.1⟩
    have := hu.2
    rw [e, hfree] at this
    cases this
  have hinj : Set.InjOn (fun k => slot_inode s.disk (slot_block k) (slot_index k))
      (Finset.range MAX_FILES) := by
    intro k hk k1 hk1 e
    have hs := slot_of_number (Finset.mem_range.1 (Finset.mem_coe.1 hk))
    have hs1 := slot_of_number (Finset.mem_range.1 (Finset.mem_coe.1 hk1))
    obtain ⟨e1, e2⟩ := hinv.dir.inode_inj _ _ _ _ hs hs1 (hused _ _ hs) (hused _ _ hs1) e
    exact slot_number_inj e1 e2
  have hle := Finset.card_le_card_of_injOn _ hmaps hinj
  rw [Finset.card_erase_of_mem (Finset.mem_range.2 hn), Finset.card_range] at hle
  unfold MAX_FILES at hle
  omega

/-- On a volume that satisfies the invariant and where every inode in use is
recorded by a used entry, there are as many used directory entries as set bits
in the inode bitmap. -/
theorem counts_equal {s : FSState} (hinv : Inv s) (how : Owned s.disk) :
    used_entries s.disk = inodes_in_use s.disk := by
  unfold used_entries inodes_in_use
  rw [length_filter_range, length_filter_range]
  apply Finset.card_bij (fun k _ => slot_inode s.disk (slot_block k) (slot_index k))
  · intro k hk
    rw [Finset.mem_filter, Finset.mem_range] at hk ⊢
    have hs := slot_of_number hk.1
    have hu : slot_used s.disk (slot_block k) (slot_index k) := by
      unfold slot_used
      simpa using hk.2
    exact hinv.dir.inode_ok _ _ hs hu
  · intro k hk k1 hk1 e
    rw [Finset.mem_filter, Finset.mem_range] at hk hk1
    have hu : slot_used s.disk (slot_block k) (slot_index k) := by
      unfold slot_used
      simpa using hk.2
    have hu1 : slot_used s.disk (slot_block k1) (slot_index k1) := by
      unfold slot_used
      simpa using hk1.2
    obtain ⟨e1, e2⟩ := hinv.dir.inode_inj _ _ _ _ (slot_of_number hk.1) (slot_of_number hk1.1)
      hu hu1 e
    exact slot_number_inj e1 e2
  · intro m hm
    rw [Finset.mem_filter, Finset.mem_range] at hm
    obtain ⟨b, i, hs, hu, e⟩ := how m ⟨hm.1, hm.2⟩
    obtain ⟨k, hk, e1, e2⟩ := number_of_slot hs
    subst e1
    subst e2
    refine ⟨k, ?_, e⟩
    rw [Finset.mem_filter, Finset.mem_range]
    refine ⟨hk, ?_⟩
    unfold slot_used at hu
    simpa using hu

/-! ## `create_file` never leaves an inode without an entry -/

/-- On a volume that satisfies the invariant, after `alloc_inode` and
`save_inode` succeeded inside `create_file`, `find_free_dir_entry` finds a
slot. -/
theorem slot_after_alloc {s s1 : FSState} {n : Nat} {d2 : Disk} (hinv : Inv s)
    (ha : alloc_inode s = (some n, s1)) (hsave : save_inode s1.disk n Inode.zero = some d2) :
    ∃ r, find_free_dir_entry d2 = some r := by
  obtain ⟨hn, hfree, _, hc1, _, _, hbl1⟩ := alloc_inode_some ha
  obtain ⟨b, i, hs, hu⟩ := free_slot_exists hinv hn hfree
  have hibr := inode_block_for_range hn
  unfold FIRST_INODE_BLOCK LAST_INODE_BLOCK at hibr
  have hlt := save_inode_lt hsave
  rw [save_inode_of_lt hlt] at hsave
  injection hsave with hsave
  subst hsave
  have hb6 : 6 ≤ b := hs.1
  apply find_free_dir_entry_of_free (b := b) (i := i) _ hs
  · unfold slot_used at hu ⊢
    simp only []
    rw [if_neg (by omega), hbl1, if_neg (by unfold INODE_BITMAP_BLOCK; omega)]
    exact hu
  · simp only []
    rw [hc1]
    exact hinv.caps.1

/-- On a volume that satisfies the invariant, a `create_file` that returns
the null handle leaves the disk as it was. -/
theorem create_fail_unchanged {s : FSState} (hinv : Inv s) (name : List Byte)
    (h : (create_file s name).1 = none) : (create_file s name).2.disk = s.disk := by
  have hcap := hinv.caps.1
  rcases create_file_cases s name hcap with ⟨_, e⟩ | ⟨n, _, hn, hfree, _, _, hff⟩ | ⟨n, b, i, e, _⟩
  · exact e
  · exfalso
    obtain ⟨b, i, hs, hu⟩ := free_slot_exists hinv hn hfree
    have hb6 : FIRST_DIR_ENTRY_BLOCK ≤ b := hs.1
    obtain ⟨r, hr⟩ := find_free_dir_entry_of_free
      (d := ⟨s.disk.capacity, with_new_inode s.disk n⟩) hcap hs
      (by
        unfold slot_used at hu ⊢
        simp only []
        rw [(with_new_inode_spec s.disk hn).2.1 b hb6]
        exact hu)
    rw [hff] at hr
    cases hr
  · rw [h] at e
    cases e

/-! ## Every inode in use is recorded by a used entry -/

theorem Owned.congr_owned {d d1 : Disk} (h : Owned d)
    (hblk : ∀ b, FIRST_DIR_ENTRY_BLOCK ≤ b → b ≤ LAST_DIR_ENTRY_BLOCK →
      d1.blocks b = d.blocks b)
    (hbit : d1.blocks INODE_BITMAP_BLOCK = d.blocks INODE_BITMAP_BLOCK) : Owned d1 := by
  intro n hn
  obtain ⟨b, i, hs, hu, e⟩ := h n ((InUse.of_bitmap hbit n).1 hn)
  refine ⟨b, i, hs, ?_, ?_⟩
  · unfold slot_used at hu ⊢
    rw [hblk b hs.1 hs.2.1]
    exact hu
  · unfold slot_inode at e ⊢
    rw [hblk b hs.1 hs.2.1]
    exact e

theorem Owned.same_disk {d d1 : Disk} (h : Owned d) (e : d1 = d) : Owned d1 := by
  rw [e]
  exact h

theorem owned_formatted (c : Nat) : Owned (formatted c).disk := by
  intro n hn
  have h := hn.2
  have e : inode_bit (formatted c).disk n = false := by
    unfold inode_bit bit_is_set formatted
    simp
  rw [e] at h
  cases h

theorem owned_create {s : FSState} (hinv : Inv s) (how : Owned s.disk) (name : List Byte)
    (hname : ValidName name) : Owned (create_file s name).2.disk := by
  by_cases hnone : (create_file s name).1 = none
  · exact how.same_disk (create_fail_unchanged hinv name hnone)
  · rcases create_file_cases s name hinv.caps.1 with ⟨e, _⟩ | ⟨n, e, _⟩ | ⟨n, b, i, _, c⟩
    · exact absurd e hnone
    · exact absurd e hnone
    · generalize (create_file s name).2 = s1 at *
      obtain ⟨j1, _, _⟩ := c.inode_facts
      obtain ⟨n1, n2, _⟩ := c.new_slot hname
      intro m hm
      by_cases hmn : m = n
      · subst hmn
        exact ⟨b, i, c.slot, n1, n2⟩
      · have hu : InUse s.disk m := by
          refine ⟨hm.1, ?_⟩
          have := hm.2
          rw [j1] at this
          simpa [hmn] using this
        obtain ⟨b1, i1, hs, hu1, e⟩ := how m hu
        have hk : ¬ (b1 = b ∧ i1 = i) := by
          rintro ⟨hb, hi⟩
          subst hb
          subst hi
          exact c.slot_free hu1
        obtain ⟨e1, e2, _⟩ := slot_transfer (c.other_slot hname hs hk)
        exact ⟨b1, i1, hs, e1.2 hu1, e2.trans e⟩

theorem owned_delete {s : FSState} (hinv : Inv s) (how : Owned s.disk) (name : List Byte) :
    Owned (delete_file s name).2.disk := by
  cases hf : find_file_entry s.disk name with
  | none =>
    have : delete_file s name = (0, ⟨s.disk, .FS_FILE_NOT_FOUND⟩) := by
      unfold delete_file
      rw [hf]
    rw [this]
    exact how
  | some r =>
    obtain ⟨e, b, i⟩ := r
    obtain ⟨hs, _, hino, _, _, _, _, _, _, d5, d6, d7⟩ := delete_facts hinv hf
    obtain ⟨_, g2⟩ := delete_slots hs d6 d7
    generalize delete_file s name = r at *
    intro m hm
    have hm2 := hm.2
    unfold inode_bit at hm2
    rw [d5, bit_is_set_clear_bit] at hm2
    simp only [Bool.and_eq_true, Bool.not_eq_true', decide_eq_false_iff_not] at hm2
    obtain ⟨b1, i1, hs1, hu1, e1⟩ := how m ⟨hm.1, hm2.1⟩
    have hk : ¬ (b1 = b ∧ i1 = i) := by
      rintro ⟨hb, hi⟩
      subst hb
      subst hi
      exact hm2.2 (e1.symm.trans hino.symm)
    obtain ⟨t1, t2, _⟩ := slot_transfer (g2 b1 i1 hs1 hk)
    exact ⟨b1, i1, hs1, t1.2 hu1, t2.trans e1⟩

theorem owned_write {s : FSState} (file : File) (buf : Block) (cnt : Nat) (hinv : Inv s)
    (how : Owned s.disk) (hlive : ∀ f, file = some f → LiveHandle s f) :
    Owned (write_file s file buf cnt).2.2.disk := by
  cases file with
  | none => exact how
  | some f =>
    by_cases hmode : f.mode = .READ_WRITE
    · have hl := hlive f rfl
      have hu := hl.in_use hinv
      obtain ⟨_, c2, c3, _⟩ := hinv.caps
      have W := write_file_spec f buf cnt hmode hl.1 hinv.ptr hu (fun m hm => hm.1) hu.1 c2 c3
      generalize write_file s (some f) buf cnt = r at W
      have hibr := inode_block_for_range hu.1
      unfold FIRST_INODE_BLOCK LAST_INODE_BLOCK at hibr
      apply how.congr_owned
      · intro b hb1 hb2
        unfold FIRST_DIR_ENTRY_BLOCK at hb1
        unfold LAST_DIR_ENTRY_BLOCK at hb2
        exact W.low b (by omega) (by unfold FIRST_DATA_BLOCK; omega) (by omega)
      · exact W.low _ (by unfold INODE_BITMAP_BLOCK; omega)
          (by unfold INODE_BITMAP_BLOCK FIRST_DATA_BLOCK; omega)
          (by unfold INODE_BITMAP_BLOCK; omega)
    · have : write_file s (some f) buf cnt = (0, some f, ⟨s.disk, .FS_FILE_READ_ONLY⟩) := by
        unfold write_file
        simp [hmode]
      rw [this]
      exact how

theorem owned_seek {s : FSState} (file : File) (bytepos : Nat) (hinv : Inv s)
    (how : Owned s.disk) (hlive : ∀ f, file = some f → LiveHandle s f) :
    Owned (seek_file s file bytepos).2.2.disk := by
  cases file with
  | none => exact how
  | some f =>
    have hl := hlive f rfl
    have hu := hl.in_use hinv
    obtain ⟨_, c2, _, _⟩ := hinv.caps
    obtain ⟨_, _, _, _, _, k6, _, _⟩ := seek_file_spec f bytepos hinv.ptr hu hu.1 c2
    generalize seek_file s (some f) bytepos = r at *
    have hibr := inode_block_for_range hu.1
    unfold FIRST_INODE_BLOCK LAST_INODE_BLOCK at hibr
    apply how.congr_owned
    · intro b hb1 _
      unfold FIRST_DIR_ENTRY_BLOCK at hb1
      exact k6 b (by omega)
    · exact k6 _ (by unfold INODE_BITMAP_BLOCK; omega)

/-- In every reachable state every inode in use is recorded by a used
directory entry. -/
theorem reachable_owned {s : FSState} (h : Reachable s) : Owned s.disk := by
  induction h with
  | format capacity _ _ => exact owned_formatted capacity
  | create s name hr hname ih => exact owned_create (reachable_inv hr) ih name hname
  | open_file s name mode _ _ ih =>
    apply ih.same_disk
    unfold open_file
    split <;> rfl
  | close s file _ ih =>
    apply ih.same_disk
    unfold close_file
    split <;> rfl
  | length s file _ _ ih => exact ih.same_disk (file_length_disk s file)
  | seek s file bytepos hr hlive ih => exact owned_seek file bytepos (reachable_inv hr) ih hlive
  | read s file buf numbytes _ _ ih => exact ih.same_disk (read_file_disk s file buf numbytes)
  | write s file buf numbytes hr hlive ih =>
    exact owned_write file buf numbytes (reachable_inv hr) ih hlive
  | delete s name hr _ ih => exact owned_delete (reachable_inv hr) ih name
  | file_exists s name _ _ ih => exact ih

/-! ## The last error of a failing `get_data_block_for_offset` -/

/-- Beyond the addressable range `get_data_block_for_offset` fails. -/
theorem get_data_block_beyond (s : FSState) (inode : Inode) {lb : Nat} (allocate : Bool)
    (hlb : NUM_DIRECT_INODE_BLOCKS + NUM_SINGLE_INDIRECT_BLOCKS ≤ lb) :
    (get_data_block_for_offset s inode lb allocate).1 = none := by
  unfold get_data_block_for_offset
  rw [if_neg (by omega)]
  rcases he : ensure_indirect s inode allocate with ⟨r, inode1, s1⟩
  cases r with
  | none => rfl
  | some u =>
    simp only []
    unfold indirect_lookup
    simp only []
    rw [if_pos (by omega)]

/-- Beyond the addressable range an allocating call of
`get_data_block_for_offset` fails with `FS_EXCEEDS_MAX_FILE_SIZE` when the inode
has an indirect block or a data block is free for one. -/
theorem get_data_block_exceeds {s : FSState} (inode : Inode) {lb : Nat}
    (hlb : NUM_DIRECT_INODE_BLOCKS + NUM_SINGLE_INDIRECT_BLOCKS ≤ lb)
    (hfree : inode.indirect ≠ 0 ∨ FreeAtLeast s.disk 1) :
    (get_data_block_for_offset s inode lb true).1 = none ∧
    (get_data_block_for_offset s inode lb true).2.2.fserror = .FS_EXCEEDS_MAX_FILE_SIZE := by
  refine ⟨get_data_block_beyond s inode true hlb, ?_⟩
  unfold get_data_block_for_offset
  rw [if_neg (by omega)]
  unfold ensure_indirect
  by_cases hi : inode.indirect = 0
  · simp only [hi, if_true, Bool.not_true, Bool.false_eq_true, if_false]
    rcases hfree with h | h
    · exact absurd hi h
    · obtain ⟨b, s1, ha, _⟩ := alloc_data_block_of_free (k := 0) h
      rw [ha]
      simp only []
      unfold indirect_lookup
      simp only []
      rw [if_pos (by omega)]
  · simp only [hi, if_false]
    unfold indirect_lookup
    simp only []
    rw [if_pos (by omega)]

/-! ## Early ends of the loop of `write_file` -/

theorem max_file_size_val : MAX_FILE_SIZE = 8441856 := by decide

/-- The loop of `write_file` never moves the position past the largest file
size, and writes nothing from a position at or beyond it. -/
theorem write_loop_bound (src : Block) (numbytes : Nat) :
    ∀ (fuel bw pos : Nat) (node : Inode) (s : FSState),
      (pos ≤ MAX_FILE_SIZE →
        (write_loop src numbytes fuel bw pos node s).2.1 ≤ MAX_FILE_SIZE) ∧
      (MAX_FILE_SIZE ≤ pos →
        (write_loop src numbytes fuel bw pos node s).2.1 = pos ∧
        (write_loop src numbytes fuel bw pos node s).1 = bw) := by
  intro fuel
  induction fuel with
  | zero =>
    intro bw pos node s
    exact ⟨fun h => h, fun _ => ⟨rfl, rfl⟩⟩
  | succ fuel ih =>
    intro bw pos node s
    unfold write_loop
    by_cases hlt : bw < numbytes
    · rw [if_pos hlt]
      simp only []
      have hbeyond := fun hl => @get_data_block_beyond s node (pos / SOFTWARE_DISK_BLOCK_SIZE)
        true hl
      rcases hg : get_data_block_for_offset s node (pos / SOFTWARE_DISK_BLOCK_SIZE) true
        with ⟨r, node1, s1⟩
      rw [hg] at hbeyond
      cases r with
      | none => exact ⟨fun h => h, fun _ => ⟨rfl, rfl⟩⟩
      | some p =>
        simp only [] at hbeyond ⊢
        have hlb : pos / SOFTWARE_DISK_BLOCK_SIZE
            < NUM_DIRECT_INODE_BLOCKS + NUM_SINGLE_INDIRECT_BLOCKS := by
          by_contra hc
          have := hbeyond (by omega)
          cases this
        generalize hc : min (SOFTWARE_DISK_BLOCK_SIZE - pos % SOFTWARE_DISK_BLOCK_SIZE)
          (numbytes - bw) = c
        have hc1 : c ≤ SOFTWARE_DISK_BLOCK_SIZE - pos % SOFTWARE_DISK_BLOCK_SIZE := by
          rw [← hc]; exact Nat.min_le_left _ _
        have hle : pos + c ≤ MAX_FILE_SIZE := by
          simp only [MAX_FILE_SIZE, SOFTWARE_DISK_BLOCK_SIZE, NUM_DIRECT_INODE_BLOCKS,
            NUM_SINGLE_INDIRECT_BLOCKS] at hlb hc1 ⊢
          omega
        have hlt2 : pos < MAX_FILE_SIZE := by
          simp only [MAX_FILE_SIZE, SOFTWARE_DISK_BLOCK_SIZE, NUM_DIRECT_INODE_BLOCKS,
            NUM_SINGLE_INDIRECT_BLOCKS] at hlb ⊢
          omega
        have hposc : (pos + c) % 2 ^ 32 = pos + c := by
          apply Nat.mod_eq_of_lt
          rw [max_file_size_val] at hle
          omega
        rw [hposc]
        refine ⟨fun _ => (ih (bw + c) (pos + c) node1 _).1 hle, fun h => ?_⟩
        omega
    · rw [if_neg hlt]
      exact ⟨fun h => h, fun _ => ⟨rfl, rfl⟩⟩

/-- With enough free blocks, a run of the loop of `write_file` that would go
past the largest file size writes up to it and stops there with the last error
`FS_EXCEEDS_MAX_FILE_SIZE`. -/
theorem write_loop_to_max (U : Nat → Prop) (n : Nat) (src : Block) (numbytes : Nat) :
    ∀ (fuel : Nat) (tab : Nat → Inode) (node : Inode) (bw pos : Nat) (s : FSState),
      tab n = node → PtrInv s.disk U tab → U n → node.WF → s.disk.capacity ≤ 65536 →
      bw ≤ numbytes → numbytes - bw ≤ fuel → pos ≤ MAX_FILE_SIZE →
      MAX_FILE_SIZE < pos + (numbytes - bw) →
      FreeAtLeast s.disk (write_need s.disk node pos (MAX_FILE_SIZE - pos) + 1) →
      (write_loop src numbytes fuel bw pos node s).1 = bw + (MAX_FILE_SIZE - pos) ∧
      (write_loop src numbytes fuel bw pos node s).2.1 = MAX_FILE_SIZE ∧
      (write_loop src numbytes fuel bw pos node s).2.2.2.fserror
        = .FS_EXCEEDS_MAX_FILE_SIZE := by
  intro fuel
  induction fuel with
  | zero =>
    intro tab node bw pos s _ _ _ _ _ _ hfuel hpos hover _
    omega
  | succ fuel ih =>
    intro tab node bw pos s hn h hU hwf hcap hbw hfuel hpos hover hfree
    subst hn
    unfold write_loop
    have hlt : bw < numbytes := by omega
    rw [if_pos hlt]
    simp only []
    by_cases hat : pos = MAX_FILE_SIZE
    · -- at the largest file size: the resolver fails
      have hlb : NUM_DIRECT_INODE_BLOCKS + NUM_SINGLE_INDIRECT_BLOCKS
          ≤ pos / SOFTWARE_DISK_BLOCK_SIZE := by
        rw [hat]
        decide
      have hex := get_data_block_exceeds (s := s) (tab n) hlb
        (Or.inr (hfree.weaken (by omega)))
      rcases hg : get_data_block_for_offset s (tab n) (pos / SOFTWARE_DISK_BLOCK_SIZE) true
        with ⟨r, node1, s1⟩
      rw [hg] at hex
      simp only [] at hex
      obtain ⟨e1, e2⟩ := hex
      subst e1
      simp only []
      exact ⟨by omega, hat, e2⟩
    · have hltm : pos < MAX_FILE_SIZE := by omega
      have hlen : 0 < MAX_FILE_SIZE - pos := by omega
      have hlb : pos / SOFTWARE_DISK_BLOCK_SIZE
          < NUM_DIRECT_INODE_BLOCKS + NUM_SINGLE_INDIRECT_BLOCKS := by
        simp only [MAX_FILE_SIZE, SOFTWARE_DISK_BLOCK_SIZE, NUM_DIRECT_INODE_BLOCKS,
          NUM_SINGLE_INDIRECT_BLOCKS] at hltm ⊢
        omega
      have spec := get_data_block_alloc_spec (pos / SOFTWARE_DISK_BLOCK_SIZE) h hU hwf hcap
      rcases hg : get_data_block_for_offset s (tab n) (pos / SOFTWARE_DISK_BLOCK_SIZE) true
        with ⟨r, node1, s1⟩
      rw [hg] at spec
      simp only [] at spec
      generalize hc : min (SOFTWARE_DISK_BLOCK_SIZE - pos % SOFTWARE_DISK_BLOCK_SIZE)
        (numbytes - bw) = c
      have hcm : c = min (SOFTWARE_DISK_BLOCK_SIZE - pos % SOFTWARE_DISK_BLOCK_SIZE)
          (MAX_FILE_SIZE - pos) := by
        rw [← hc]
        simp only [MAX_FILE_SIZE, SOFTWARE_DISK_BLOCK_SIZE, NUM_DIRECT_INODE_BLOCKS,
          NUM_SINGLE_INDIRECT_BLOCKS] at hltm hover ⊢
        omega
      have hinv := spec.inv
      have e1 : (fun m => if m = n then node1 else tab m) n = node1 := by simp
      have hcle := alloc_cost_le_write_need s.disk (tab n) pos (MAX_FILE_SIZE - pos) hlen
      have hen := get_data_block_enough (tab n)
        (write_need s.disk (tab n) pos (MAX_FILE_SIZE - pos)
          - alloc_cost s.disk (tab n) (pos / SOFTWARE_DISK_BLOCK_SIZE) + 1) hcap hlb
        (hfree.weaken (by omega))
      rw [hg] at hen
      cases r with
      | none => cases hen.1
      | some p =>
        simp only []
        have hres : block_of s1.disk node1 (pos / SOFTWARE_DISK_BLOCK_SIZE) = some p :=
          spec.res.symm
        have hres' : block_of s1.disk ((fun m => if m = n then node1 else tab m) n)
            (pos / SOFTWARE_DISK_BLOCK_SIZE) = some p := by rw [e1]; exact hres
        obtain ⟨dinv, dgrows, dres, dsame, dother⟩ := data_write_spec hinv hU hres'
          (memcpy (read_unchecked s1.disk p) (pos % SOFTWARE_DISK_BLOCK_SIZE) src bw c)
        simp only [↓reduceIte] at dgrows dres
        obtain ⟨hp1, hp2, _⟩ := hinv.block_of_range hU hres'
        have hp0 : p ≠ 0 := by unfold FIRST_DATA_BLOCK at hp1; omega
        generalize hd2 : write_unchecked s1.disk (memcpy (read_unchecked s1.disk p)
          (pos % SOFTWARE_DISK_BLOCK_SIZE) src bw c) p = d2 at *
        have hc1 : c ≤ SOFTWARE_DISK_BLOCK_SIZE - pos % SOFTWARE_DISK_BLOCK_SIZE := by
          rw [← hc]; exact Nat.min_le_left _ _
        have hc2 : c ≤ numbytes - bw := by
          rw [← hc]; exact Nat.min_le_right _ _
        have hc3 : c ≤ MAX_FILE_SIZE - pos := by
          rw [hcm]; exact Nat.min_le_right _ _
        have hc0 : 0 < c := by
          rw [← hc]
          have : pos % SOFTWARE_DISK_BLOCK_SIZE < SOFTWARE_DISK_BLOCK_SIZE :=
            Nat.mod_lt _ (by decide)
          omega
        have hposc : (pos + c) % 2 ^ 32 = pos + c := by
          apply Nat.mod_eq_of_lt
          rw [max_file_size_val] at hc3 hltm
          omega
        rw [hposc]
        have hstep := write_need_step s.disk d2 (tab n) node1 pos (MAX_FILE_SIZE - pos) c hlen
          hcm
          (fun lb1 hne => by rw [dres, spec.res_other lb1 hne])
          spec.ind_direct
          (fun h0 => by
            have := (spec.grows.keep .indirect trivial h0).2
            simp only [slot_val] at this
            rw [this]; exact h0)
          (fun h13 => by
            rcases (block_of_eq_some hres).2 with ⟨hl, _⟩ | ⟨_, _, hi, _⟩
            · omega
            · exact hi)
        have e3 : MAX_FILE_SIZE - (pos + c) = MAX_FILE_SIZE - pos - c := by omega
        have hf2 : FreeAtLeast d2
            (write_need d2 node1 (pos + c) (MAX_FILE_SIZE - (pos + c)) + 1) := by
          rw [e3]
          exact (hen.2.congr_free dgrows.cap (dother 0 (Ne.symm hp0))).weaken (by omega)
        have hcap2 : d2.capacity ≤ 65536 := by
          have := dgrows.cap; have := spec.grows.cap; omega
        have rec := ih (fun m => if m = n then node1 else tab m) node1 (bw + c) (pos + c)
          ⟨d2, s1.fserror⟩ (by simp) dinv hU spec.wf hcap2 (by omega) (by omega) (by omega)
          (by omega) hf2
        obtain ⟨r1, r2, r3⟩ := rec
        exact ⟨by rw [r1]; omega, r2, r3⟩

/-! ## A complete write had the free blocks it needed -/

theorem FreeAtLeast.zero (d : Disk) : FreeAtLeast d 0 :=
  ⟨[], List.nodup_nil, le_refl _, fun b hb => by cases hb⟩

theorem write_file_bound {s : FSState} {f : FileInternals} {node : Inode} (buf : Block)
    (n : Nat) (hmode : f.mode = .READ_WRITE)
    (hload : load_inode s.disk f.inode_num = some node) :
    ∃ f1, (write_file s (some f) buf n).2.1 = some f1 ∧
      (f.pos ≤ MAX_FILE_SIZE → f1.pos ≤ MAX_FILE_SIZE) ∧
      (MAX_FILE_SIZE ≤ f.pos → f1.pos = f.pos ∧ (write_file s (some f) buf n).1 = 0) := by
  rw [write_file_eq buf n hmode hload]
  obtain ⟨h1, h2⟩ := write_loop_bound buf n n 0 f.pos node s
  exact ⟨_, rfl, h1, h2⟩

theorem write_file_to_max {U : Nat → Prop} {s : FSState} (f : FileInternals) (buf : Block)
    (n : Nat) (hmode : f.mode = .READ_WRITE)
    (hinv : PtrInv s.disk U (inode_at s.disk)) (hU : U f.inode_num)
    (hn : f.inode_num < MAX_FILES) (hcap1 : LAST_INODE_BLOCK < s.disk.capacity)
    (hcap2 : s.disk.capacity ≤ 65536) (hpos : f.pos ≤ MAX_FILE_SIZE)
    (hover : MAX_FILE_SIZE < f.pos + n)
    (hfree : FreeAtLeast s.disk
      (write_need s.disk (inode_at s.disk f.inode_num) f.pos (MAX_FILE_SIZE - f.pos) + 1)) :
    (write_file s (some f) buf n).1 = MAX_FILE_SIZE - f.pos ∧
    (write_file s (some f) buf n).2.1 = some { f with pos := MAX_FILE_SIZE } ∧
    (write_file s (some f) buf n).2.2.fserror = .FS_EXCEEDS_MAX_FILE_SIZE := by
  have hibr := inode_block_for_range hn
  have hib : inode_block_for f.inode_num < s.disk.capacity := by omega
  have hload := load_inode_of_lt hib
  rw [write_file_eq buf n hmode hload]
  obtain ⟨h1, h2, h3⟩ := write_loop_to_max U f.inode_num buf n n (inode_at s.disk)
    (inode_at s.disk f.inode_num) 0 f.pos s rfl hinv hU (get_inode_wf _ _) hcap2
    (Nat.zero_le _) (by omega) hpos (by omega) hfree
  simp only []
  rw [h1, h2]
  exact ⟨by omega, rfl, h3⟩

set_option maxRecDepth 100000

theorem ex_near_max_reachable : Reachable ex_near_max.2.2 :=
  Reachable.seek ex_created.2 ex_created.1 8441846 ex_created_reachable ex_created_live

theorem ex_near_max_live : LiveHandle ex_near_max.2.2 ⟨0, .READ_WRITE, 8441846⟩ := by
  refine ⟨by decide, 6, 0, ⟨by decide, by decide, by decide⟩, ?_, by decide⟩
  unfold slot_used
  decide

theorem ex_two_reachable : Reachable ex_two.2 :=
  Reachable.create ex_written.2.2 [98] ex_written_reachable
    ⟨fun c hc => by
      simp only [List.mem_singleton] at hc
      subst hc
      decide, by decide⟩

theorem ex_two_live_a : LiveHandle ex_two.2 ⟨0, .READ_ONLY, 0⟩ := by
  refine ⟨by decide, 6, 0, ⟨by decide, by decide, by decide⟩, ?_, by decide⟩
  unfold slot_used
  decide

theorem ex_two_live_b : LiveHandle ex_two.2 ⟨1, .READ_WRITE, 0⟩ := by
  refine ⟨by decide, 6, 1, ⟨by decide, by decide, by decide⟩, ?_, by decide⟩
  unfold slot_used
  decide

/-! ## Lookups decided slot by slot -/

set_option maxRecDepth 100000

theorem find_in_range (p : Nat → Bool) : ∀ (n a i : Nat), a ≤ i → i < a + n →
    (∀ j, a ≤ j → j < i → p j = false) → p i = true →
    (List.range' a n).find? p = some i := by
  intro n
  induction n with
  | zero => intro a i h1 h2; omega
  | succ n ih =>
    intro a i h1 h2 hb hp
    rw [List.range'_succ, List.find?_cons]
    by_cases e : a = i
    · subst e
      rw [hp]
    · rw [hb a (le_refl _) (by omega)]
      exact ih (a + 1) i (by omega) (by omega) (fun j hj1 hj2 => hb j (by omega) hj2) hp

/-- The lookup of a name that entry `i` of the first directory block stores,
when no used entry before it compares equal. -/
theorem find_file_entry_first_block {d : Disk} {name : List Byte} (i : Nat)
    (hcap : FIRST_DIR_ENTRY_BLOCK < d.capacity) (hi : i < DIR_ENTRIES_PER_BLOCK)
    (hbefore : ∀ j, j < i → (entry_used (d.blocks FIRST_DIR_ENTRY_BLOCK) j != 0 &&
      strcmp_eq (d.blocks FIRST_DIR_ENTRY_BLOCK) (DIR_ENTRY_SIZE * j) name) = false)
    (hu : entry_used (d.blocks FIRST_DIR_ENTRY_BLOCK) i ≠ 0)
    (hm : strcmp_eq (d.blocks FIRST_DIR_ENTRY_BLOCK) (DIR_ENTRY_SIZE * i) name = true) :
    find_file_entry d name
      = some (get_entry (d.blocks FIRST_DIR_ENTRY_BLOCK) i, FIRST_DIR_ENTRY_BLOCK, i) := by
  have hr : read_sd_block d FIRST_DIR_ENTRY_BLOCK = some (d.blocks FIRST_DIR_ENTRY_BLOCK) := by
    unfold read_sd_block
    rw [if_pos hcap]
  have hf : (List.range DIR_ENTRIES_PER_BLOCK).find?
      (fun i => entry_used (d.blocks FIRST_DIR_ENTRY_BLOCK) i != 0 &&
        strcmp_eq (d.blocks FIRST_DIR_ENTRY_BLOCK) (DIR_ENTRY_SIZE * i) name) = some i := by
    rw [List.range_eq_range']
    apply find_in_range _ _ 0 i (Nat.zero_le _) (by omega) (fun j _ hj => hbefore j hj)
    simp only [hm, Bool.and_true, bne_iff_ne, ne_eq]
    exact hu
  have hd : dir_blocks = FIRST_DIR_ENTRY_BLOCK :: List.range' 7 63 := rfl
  unfold find_file_entry
  rw [hd]
  unfold find_file_entry_in
  rw [hr]
  simp only [hf]

/-- A lookup fails when no used entry other than `(b0, i0)` compares equal and
the bytes of entry `(b0, i0)` do not end where the name ends. -/
theorem find_file_entry_absent {d : Disk} {name : List Byte} (b0 i0 : Nat)
    (hslots : ∀ b, b < 70 → ∀ i, i < 8 → 6 ≤ b → ¬ (b = b0 ∧ i = i0) →
      (entry_used (d.blocks b) i != 0 &&
        strcmp_eq (d.blocks b) (DIR_ENTRY_SIZE * i) name) = false)
    (hend : d.blocks b0 (DIR_ENTRY_SIZE * i0 + name.length) ≠ 0) :
    find_file_entry d name = none := by
  cases hf : find_file_entry d name with
  | none => rfl
  | some r =>
    exfalso
    obtain ⟨e, b, i⟩ := r
    obtain ⟨hs, _, hu, hm, _⟩ := find_file_entry_some hf
    by_cases hbi : b = b0 ∧ i = i0
    · obtain ⟨rfl, rfl⟩ := hbi
      exact hend ((strcmp_eq_iff _ _ _).1 hm).2
    · have := hslots b (by have := hs.2.1; unfold LAST_DIR_ENTRY_BLOCK at this; omega) i
        (by have := hs.2.2; unfold DIR_ENTRIES_PER_BLOCK at this; omega)
        (by have := hs.1; unfold FIRST_DIR_ENTRY_BLOCK at this; omega) hbi
      rw [hm, Bool.and_true] at this
      unfold slot_used at hu
      simp only [bne_eq_false_iff_eq] at this
      exact hu this

/-- The result of `open_file` when the lookup fails. -/
theorem open_file_not_found {s : FSState} {name : List Byte} (mode : FileMode)
    (h : find_file_entry s.disk name = none) :
    open_file s name mode = (none, ⟨s.disk, .FS_FILE_NOT_FOUND⟩) := by
  unfold open_file
  rw [h]

/-- The result of `delete_file` when the lookup fails. -/
theorem delete_file_not_found {s : FSState} {name : List Byte}
    (h : find_file_entry s.disk name = none) :
    delete_file s name = (0, ⟨s.disk, .FS_FILE_NOT_FOUND⟩) := by
  unfold delete_file
  rw [h]

/-- The result of a `delete_file` that finds the entry `e` in the directory
slot `(b, i)` and loads the inode record `node`. -/
theorem delete_file_found {s : FSState} {name : List Byte} {e : DirectoryEntry} {b i n : Nat}
    {node : Inode} (hfind : find_file_entry s.disk name = some (e, b, i))
    (hn : e.inode_num = n) (hload : load_inode s.disk n = some node) :
    delete_file s name = (1, ⟨(free_inode
      ⟨write_unchecked (free_file_blocks s node).disk
        (wr8 (read_unchecked (free_file_blocks s node).disk b) (DIR_ENTRY_SIZE * i + 510) 0) b,
        (free_file_blocks s node).fserror⟩ n).disk, .FS_NONE⟩) := by
  unfold delete_file
  rw [hfind]
  simp only [hn, hload]

/-! ## Facts about the runs with names longer than `MAX_FILENAME_SIZE` -/

theorem long_name_length : long_name.length = 508 := by
  simp [long_name]

/-- After the write through the handle of the file created with the name of
508 characters, no directory entry compares equal to that name: slot 1 stores
its 508 characters followed by the byte 1 of the inode number. -/
theorem ex_long_written_absent : find_file_entry ex_long_written.2.disk long_name = none := by
  apply find_file_entry_absent 6 1
  · decide
  · rw [long_name_length]
    decide

theorem ex_long_closed_absent :
    find_file_entry (close_file (rt_write ex_long.2 ⟨1, .READ_WRITE, 0⟩ [72, 105]).2.2
      (rt_write ex_long.2 ⟨1, .READ_WRITE, 0⟩ [72, 105]).2.1).disk long_name = none := by
  apply find_file_entry_absent 6 1
  · decide
  · rw [long_name_length]
    decide

/-- The `open_file` of the round trip fails for the name of 508 characters. -/
theorem ex_long_reopen :
    rt_reopen ex_long.2 ⟨1, .READ_WRITE, 0⟩ [72, 105] long_name .READ_ONLY
      = (none, ⟨(close_file (rt_write ex_long.2 ⟨1, .READ_WRITE, 0⟩ [72, 105]).2.2
          (rt_write ex_long.2 ⟨1, .READ_WRITE, 0⟩ [72, 105]).2.1).disk, .FS_FILE_NOT_FOUND⟩) :=
  open_file_not_found .READ_ONLY ex_long_closed_absent

/-- The `delete_file` of the name of 508 characters finds no entry. -/
theorem ex_long_delete :
    delete_file ex_long_written.2 long_name
      = (0, ⟨ex_long_written.2.disk, .FS_FILE_NOT_FOUND⟩) :=
  delete_file_not_found ex_long_written_absent

theorem alias_name_length : alias_name.length = 511 := by
  simp [alias_name]

theorem clobber_name_length : clobber_name.length = 1023 := by
  simp [clobber_name, alias_name]

/-- The first directory block after the two `create_file` calls of the run. -/
theorem ex_f_block : ex_f.2.disk.blocks FIRST_DIR_ENTRY_BLOCK =
    new_entry (new_entry (ex_written.2.2.disk.blocks 6) 1 1 clobber_name) 3 2 [70] := rfl

/-- Slot 2 stores `alias_name`: `strcpy` of the name of 1023 characters into
slot 1 wrote it there, up to the NUL in the last byte of slot 2. -/
theorem ex_f_alias : strcmp_eq (ex_f.2.disk.blocks FIRST_DIR_ENTRY_BLOCK) (DIR_ENTRY_SIZE * 2)
    alias_name = true := by
  rw [strcmp_eq_iff, ex_f_block, alias_name_length]
  unfold new_entry wr8 wr16 DIR_ENTRY_SIZE
  constructor
  · intro k hk
    rw [if_neg (by omega), if_neg (by omega), if_neg (by omega),
      strcpy_out _ _ _ (Or.inl (by omega)), if_neg (by omega), if_neg (by omega),
      if_neg (by omega)]
    unfold strcpy
    rw [if_pos ⟨by omega, by rw [clobber_name_length]; omega⟩]
    unfold clobber_name
    rw [List.getD_append_right _ _ _ _ (by simp; omega), List.length_replicate]
    congr 1
    omega
  · rw [if_neg (by omega), if_neg (by omega), if_neg (by omega),
      strcpy_out _ _ _ (Or.inl (by omega)), if_neg (by omega), if_neg (by omega),
      if_neg (by omega)]
    unfold strcpy
    rw [clobber_name_length, if_neg (by omega), if_pos (by omega)]

/-- The lookup of `alias_name` finds slot 2 of the first directory block. -/
theorem ex_f_find : find_file_entry ex_f.2.disk alias_name
    = some (get_entry (ex_f.2.disk.blocks FIRST_DIR_ENTRY_BLOCK) 2, FIRST_DIR_ENTRY_BLOCK, 2) := by
  apply find_file_entry_first_block 2 (by decide) (by decide) _ (by decide) ex_f_alias
  intro j hj
  interval_cases j
  · decide
  · decide

/-- The `delete_file` of the run: the entry found records the inode number
560, whose record `load_inode` reads from the first directory block. -/
theorem ex_alias_deleted_eq : ex_alias_deleted = (1, ⟨(free_inode
      ⟨write_unchecked (free_file_blocks ex_f.2 (inode_at ex_f.2.disk 560)).disk
        (wr8 (read_unchecked (free_file_blocks ex_f.2 (inode_at ex_f.2.disk 560)).disk
          FIRST_DIR_ENTRY_BLOCK) (DIR_ENTRY_SIZE * 2 + 510) 0) FIRST_DIR_ENTRY_BLOCK,
        (free_file_blocks ex_f.2 (inode_at ex_f.2.disk 560)).fserror⟩ 560).disk, .FS_NONE⟩) :=
  delete_file_found ex_f_find (by decide) (load_inode_of_lt (by decide))

theorem ex_reused_eq : ex_reused = write_file ex_alias_deleted.2 ex_f.1 (fun _ => 66) 10 := rfl

/-! ## The claims -/

set_option maxRecDepth 100000

/-- C10: for a handle `f` (its mode is `READ_ONLY` or `READ_WRITE`) at position
`f.pos` on a file whose inode `node` loads with recorded size `node.size`,
`read_file` returns a count `c` with `c ≤ n` and `c ≤ node.size - f.pos` (so
`c = 0` when the position is at or past the size), leaves the handle at
position `f.pos + c` and the disk as it was; and when every byte offset of
`[f.pos, f.pos + min n (node.size - f.pos))` lies in a logical block with a
backing block, `c = min n (node.size - f.pos)` and the `c` bytes copied are the
bytes of the file at offsets `f.pos .. f.pos + c - 1`. -/
theorem read_file_contract (s : FSState) (f : FileInternals) (buf : Block) (n : Nat)
    (node : Inode) (hload : load_inode s.disk f.inode_num = some node) :
    (read_file s (some f) buf n).1 ≤ n ∧
    (read_file s (some f) buf n).1 ≤ node.size - f.pos ∧
    (read_file s (some f) buf n).2.1
      = some { f with pos := f.pos + (read_file s (some f) buf n).1 } ∧
    (read_file s (some f) buf n).2.2.2.disk = s.disk ∧
    ((∀ off, f.pos ≤ off → off < f.pos + min n (node.size - f.pos) →
        (file_byte s.disk node off).isSome) →
      (read_file s (some f) buf n).1 = min n (node.size - f.pos) ∧
      ∀ k, k < (read_file s (some f) buf n).1 →
        file_byte s.disk node (f.pos + k) = some ((read_file s (some f) buf n).2.2.1 k)) := by
  exact read_file_spec s f buf n node hload

/-- Witness for C10: on the volume where ten bytes `'A'` were written to the
file `"a"` (recorded size 10, logical block 0 backed by block 70), a read of 20
bytes through a read-only handle at position 3 returns `min 20 (10 - 3) = 7`,
leaves the handle at position 10 and the disk as it was, and the seven bytes
copied are the bytes of the file at offsets 3 to 9, all `'A'`. -/
theorem read_file_contract_witness :
    load_inode ex_written.2.2.disk 0 = some (inode_at ex_written.2.2.disk 0) ∧
    (inode_at ex_written.2.2.disk 0).size = 10 ∧
    (read_file ex_written.2.2 (some ⟨0, .READ_ONLY, 3⟩) (fun _ => 0) 20).1
      = min 20 ((inode_at ex_written.2.2.disk 0).size - 3) ∧
    (read_file ex_written.2.2 (some ⟨0, .READ_ONLY, 3⟩) (fun _ => 0) 20).1 = 7 ∧
    (read_file ex_written.2.2 (some ⟨0, .READ_ONLY, 3⟩) (fun _ => 0) 20).2.1
      = some ⟨0, .READ_ONLY, 3 + (read_file ex_written.2.2 (some ⟨0, .READ_ONLY, 3⟩)
          (fun _ => 0) 20).1⟩ ∧
    (read_file ex_written.2.2 (some ⟨0, .READ_ONLY, 3⟩) (fun _ => 0) 20).2.2.2.disk
      = ex_written.2.2.disk ∧
    (∀ k, k < (read_file ex_written.2.2 (some ⟨0, .READ_ONLY, 3⟩) (fun _ => 0) 20).1 →
      file_byte ex_written.2.2.disk (inode_at ex_written.2.2.disk 0) (3 + k)
        = some ((read_file ex_written.2.2 (some ⟨0, .READ_ONLY, 3⟩) (fun _ => 0) 20).2.2.1 k)) ∧
    (read_file ex_written.2.2 (some ⟨0, .READ_ONLY, 3⟩) (fun _ => 0) 20).2.2.1 6 = 65 :=
  have h := read_file_contract ex_written.2.2 ⟨0, .READ_ONLY, 3⟩ (fun _ => 0) 20
    (inode_at ex_written.2.2.disk 0) rfl
  have hb := h.2.2.2.2 (fun off h1 h2 => by
    have e : min 20 ((inode_at ex_written.2.2.disk 0).size - 3) = 7 := by decide
    have h3 : 3 ≤ off := h1
    have h4 : off < 3 + min 20 ((inode_at ex_written.2.2.disk 0).size - 3) := h2
    rw [e] at h4
    interval_cases off <;> decide)
  ⟨rfl, by decide, hb.1, by decide, h.2.2.1, h.2.2.2.1, hb.2, by decide⟩


/-- C2: for a read-write handle `f` (its position fits `uint32_t`) whose inode
loads as `node`, every buffer and every byte count `n`: after `write_file`
returns, whether it wrote all `n` bytes or stopped early, `file_length` on the
handle is the maximum of the size recorded before the call and the position of
the handle after the call. -/
theorem write_file_length (s : FSState) (f : FileInternals) (buf : Block) (n : Nat)
    (node : Inode) (hmode : f.mode = .READ_WRITE)
    (hload : load_inode s.disk f.inode_num = some node) (hpos : f.pos < 2 ^ 32) :
    ∃ f1, (write_file s (some f) buf n).2.1 = some f1 ∧
      (file_length (write_file s (some f) buf n).2.2 (some f1)).1 = max node.size f1.pos := by
  rw [write_file_eq buf n hmode hload]
  obtain ⟨hcap, hsize, hwf, hp⟩ := write_loop_raw buf n n 0 f.pos node s
  generalize write_loop buf n n 0 f.pos node s = res at hcap hsize hwf hp ⊢
  obtain ⟨bw, pos1, node1, s1⟩ := res
  simp only [] at hcap hsize hwf hp ⊢
  refine ⟨_, rfl, ?_⟩
  have hlt : inode_block_for f.inode_num < s1.disk.capacity := by
    rw [hcap]; exact (load_inode_eq_some hload).1
  have hwf2 := raise_size_wf (hwf (load_inode_wf hload)) (hp hpos)
  unfold file_length
  simp only [save_inode_unchecked_load hlt hwf2]
  rw [raise_size_size, hsize]

/-- Witness for C2: a write of three bytes through the handle of a file just
created on a formatted volume of 100 blocks. -/
theorem write_file_length_witness :
    ∃ f1, (write_file ex_created.2 (some ⟨0, .READ_WRITE, 0⟩) (fun _ => 65) 3).2.1 = some f1 ∧
      (file_length (write_file ex_created.2 (some ⟨0, .READ_WRITE, 0⟩) (fun _ => 65) 3).2.2
        (some f1)).1 = max (inode_at ex_created.2.disk 0).size f1.pos :=
  write_file_length ex_created.2 ⟨0, .READ_WRITE, 0⟩ (fun _ => 65) 3
    (inode_at ex_created.2.disk 0) rfl rfl (by decide)

/-- C4: in every state reachable from a freshly formatted volume (`Reachable`:
the names given to `create_file` have at most `MAX_FILENAME_SIZE` characters),
for every name held by a used directory entry, `create_file` returns the null handle,
sets the last error to `FS_FILE_ALREADY_EXISTS` and leaves the disk (its
capacity and every block: both bitmaps, the inode records, the directory
entries and the data blocks) exactly as it was. -/
theorem create_existing_fails (s : FSState) (name : List Byte) (hr : Reachable s)
    (hname : CString name) (hp : Present s.disk name) :
    create_file s name = (none, ⟨s.disk, .FS_FILE_ALREADY_EXISTS⟩) := by
  have hinv := reachable_inv hr
  obtain ⟨e, b, i, hf⟩ := find_of_present hinv.caps.1 hname hp
  exact create_existing (present_nonempty hinv hp) hf

/-- Witness for C4: a second `create_file("a")` on the volume that holds the
file `"a"`. -/
theorem create_existing_fails_witness :
    create_file ex_created.2 ex_name = (none, ⟨ex_created.2.disk, .FS_FILE_ALREADY_EXISTS⟩) :=
  create_existing_fails ex_created.2 ex_name ex_created_reachable ex_name_valid.1
    ex_created_present

/-- C8, as amended: for a non-null handle `f` on one of the 512 inodes whose
record loads as `node`, and every `bytepos`, `seek_file` returns 1 and sets the
position to `bytepos % 2 ^ 32` (to `bytepos` itself when it fits `uint32_t`);
the inode record afterwards is `node` with its size raised to the new position
when that is larger (direct and indirect pointers and, otherwise, the size
unchanged); the error slot, the capacity, the data-block bitmap (block 0),
every data block and every block other than the block of the inode record are
unchanged. -/
theorem seek_file_effect (s : FSState) (f : FileInternals) (bytepos : Nat) (node : Inode)
    (hload : load_inode s.disk f.inode_num = some node) (hnum : f.inode_num < MAX_FILES) :
    (seek_file s (some f) bytepos).1 = 1 ∧
    (seek_file s (some f) bytepos).2.1 = some { f with pos := bytepos % 2 ^ 32 } ∧
    (bytepos < 2 ^ 32 → (seek_file s (some f) bytepos).2.1 = some { f with pos := bytepos }) ∧
    load_inode (seek_file s (some f) bytepos).2.2.disk f.inode_num
      = some { node with size := max node.size (bytepos % 2 ^ 32) } ∧
    (seek_file s (some f) bytepos).2.2.fserror = s.fserror ∧
    (seek_file s (some f) bytepos).2.2.disk.capacity = s.disk.capacity ∧
    (seek_file s (some f) bytepos).2.2.disk.blocks 0 = s.disk.blocks 0 ∧
    (∀ b, FIRST_DATA_BLOCK ≤ b →
      (seek_file s (some f) bytepos).2.2.disk.blocks b = s.disk.blocks b) ∧
    (∀ b, b ≠ inode_block_for f.inode_num →
      (seek_file s (some f) bytepos).2.2.disk.blocks b = s.disk.blocks b) := by
  rw [seek_file_eq bytepos hload]
  have hlt := (load_inode_eq_some hload).1
  have hwf := load_inode_wf hload
  have hp : bytepos % 2 ^ 32 < 2 ^ 32 := Nat.mod_lt _ (by norm_num)
  have hblk : 2 ≤ inode_block_for f.inode_num ∧ inode_block_for f.inode_num ≤ 5 := by
    unfold inode_block_for FIRST_INODE_BLOCK INODES_PER_BLOCK
    unfold MAX_FILES at hnum
    omega
  have hother : ∀ b, b ≠ inode_block_for f.inode_num →
      (save_inode_unchecked s.disk f.inode_num
        (if bytepos % 2 ^ 32 > node.size then { node with size := bytepos % 2 ^ 32 }
          else node)).blocks b = s.disk.blocks b := by
    intro b hb
    rw [save_inode_unchecked_of_lt hlt]
    simp only [if_neg hb]
  refine ⟨rfl, rfl, ?_, ?_, rfl, ?_, ?_, ?_, hother⟩
  · intro hb
    simp only [Nat.mod_eq_of_lt hb]
  · simp only []
    rw [save_inode_unchecked_load hlt (raise_size_wf hwf hp)]
    congr 1
    split
    · rename_i h
      congr 1
      omega
    · rename_i h
      have e : max node.size (bytepos % 2 ^ 32) = node.size := by omega
      rw [e]
  · simp only []
    rw [save_inode_unchecked_of_lt hlt]
  · exact hother 0 (by omega)
  · intro b hb
    apply hother
    unfold FIRST_DATA_BLOCK at hb
    omega

/-- Witness for C8: a seek to position 100 through the handle of the example
file of length 10. -/
theorem seek_file_effect_witness :
    load_inode ex_written.2.2.disk 0 = some (inode_at ex_written.2.2.disk 0) ∧
    (seek_file ex_written.2.2 (some ⟨0, .READ_WRITE, 10⟩) 100).2.1
      = some ⟨0, .READ_WRITE, 100 % 2 ^ 32⟩ :=
  ⟨rfl, (seek_file_effect ex_written.2.2 ⟨0, .READ_WRITE, 10⟩ 100 _ rfl (by decide)).2.1⟩

/-- C8 as stated fails: on the handle of a file just created, `seek_file` to
byte position `2 ^ 32` (an `unsigned long` of 64 bits) succeeds and leaves the position at
0, not at `2 ^ 32`. -/
theorem seek_file_truncates :
    ex_created.1 = some ⟨0, .READ_WRITE, 0⟩ ∧
    (seek_file ex_created.2 ex_created.1 4294967296).1 = 1 ∧
    (seek_file ex_created.2 ex_created.1 4294967296).2.1 = some ⟨0, .READ_WRITE, 0⟩ ∧
    (seek_file ex_created.2 ex_created.1 4294967296).2.1
      ≠ some ⟨0, .READ_WRITE, 4294967296⟩ := by
  decide

/-- C9, as amended: when the logical block of the handle's position has no
backing block (and its index is below 13 + 2048), `read_file` copies nothing:
it returns 0 and leaves the position, the destination buffer, the last error
and the disk as they were. -/
theorem read_file_hole (s : FSState) (f : FileInternals) (buf : Block) (n : Nat) (node : Inode)
    (hload : load_inode s.disk f.inode_num = some node)
    (hhole : block_of s.disk node (f.pos / SOFTWARE_DISK_BLOCK_SIZE) = none)
    (hrange : f.pos / SOFTWARE_DISK_BLOCK_SIZE
      < NUM_DIRECT_INODE_BLOCKS + NUM_SINGLE_INDIRECT_BLOCKS) :
    read_file s (some f) buf n = (0, some f, buf, s) := by
  rw [read_file_eq buf n hload]
  cases n with
  | zero => rfl
  | succ m =>
    unfold read_loop
    split
    · simp only []
      rw [get_data_block_no_alloc, hhole]
      simp only []
      have hno : ¬ (NUM_DIRECT_INODE_BLOCKS ≤ f.pos / SOFTWARE_DISK_BLOCK_SIZE ∧
          node.indirect ≠ 0 ∧ NUM_SINGLE_INDIRECT_BLOCKS ≤
            f.pos / SOFTWARE_DISK_BLOCK_SIZE - NUM_DIRECT_INODE_BLOCKS) := by
        intro h
        omega
      rw [if_neg hno]
    · rfl

/-- Witness for C9 as amended: the example file has length 10; `seek_file` to
10000 raises the length to 10000 and `seek_file` to 5000 puts the handle
inside `[10, 10000)`, below the recorded size, in logical block 1, which has no
backing block; the loop of `read_file` is entered, the resolver returns -1, and
the read of 10 bytes returns 0 and changes nothing. -/
theorem read_file_hole_witness :
    (file_length ex_written.2.2 ex_written.2.1).1 = 10 ∧
    (file_length ex_far.2.2 ex_far.2.1).1 = 10000 ∧
    ex_far_hole.2.1 = some ⟨0, .READ_WRITE, 5000⟩ ∧
    load_inode ex_far_hole.2.2.disk 0 = some (inode_at ex_far_hole.2.2.disk 0) ∧
    (inode_at ex_far_hole.2.2.disk 0).size = 10000 ∧
    block_of ex_far_hole.2.2.disk (inode_at ex_far_hole.2.2.disk 0) 0 = some 70 ∧
    block_of ex_far_hole.2.2.disk (inode_at ex_far_hole.2.2.disk 0) 1 = none ∧
    read_file ex_far_hole.2.2 (some ⟨0, .READ_WRITE, 5000⟩) (fun _ => 0) 10
      = (0, some ⟨0, .READ_WRITE, 5000⟩, fun _ => 0, ex_far_hole.2.2) :=
  ⟨by decide, by decide, by decide, rfl, by decide, by decide, by decide,
    read_file_hole ex_far_hole.2.2 ⟨0, .READ_WRITE, 5000⟩ (fun _ => 0) 10 _ rfl
      (by decide) (by decide)⟩

/-- C9 as stated fails: the example file has length 10 (one backed block);
`seek_file` to 100 raises the length to 100; a `read_file` of 10 bytes started
at position 50, inside `[10, 100)`, copies 10 bytes and moves the position to
60 instead of returning 0. -/
theorem read_in_grown_range_copies :
    (file_length ex_written.2.2 ex_written.2.1).1 = 10 ∧
    (file_length ex_grown.2.2 ex_grown.2.1).1 = 100 ∧
    ex_in_hole.2.1 = some ⟨0, .READ_WRITE, 50⟩ ∧
    (read_file ex_in_hole.2.2 ex_in_hole.2.1 (fun _ => 0) 10).1 = 10 ∧
    (read_file ex_in_hole.2.2 ex_in_hole.2.1 (fun _ => 0) 10).2.1
      = some ⟨0, .READ_WRITE, 60⟩ := by
  decide


/-- The round trip for names within the limit: on a device that has every
metadata block and is covered by the bitmap block, let `create_file(name)` (a
name of at most `MAX_FILENAME_SIZE` characters) return the handle `h`, and let `B` be any byte string of at most
`13 * block_size + 2048 * block_size` bytes for which enough data blocks are
free (`blocks_for`: the data blocks and, beyond thirteen, the indirect block).
Then `write_file(h, B, len(B))` returns `len(B)`; after `seek_file(h, 0)`,
`read_file(h, buf, len(B))` returns `len(B)` and the bytes of `B`; and after
`close_file(h)`, `open_file(name, mode)` returns a handle on which
`read_file(buf, len(B))` returns `len(B)` and the bytes of `B`. -/
theorem write_read_round_trip (s : FSState) (name B : List Byte) (mode : FileMode)
    (buf : Block) (h : FileInternals) (s1 : FSState)
    (hcap1 : LAST_DIR_ENTRY_BLOCK < s.disk.capacity)
    (hcap2 : s.disk.capacity ≤ 8 * SOFTWARE_DISK_BLOCK_SIZE)
    (hname : ValidName name) (hcreate : create_file s name = (some h, s1))
    (hlen : B.length ≤ 13 * SOFTWARE_DISK_BLOCK_SIZE + 2048 * SOFTWARE_DISK_BLOCK_SIZE)
    (hfree : blocks_for B.length ≤ free_count s.disk) :
    (rt_write s1 h B).1 = B.length ∧
    ((rt_read_same s1 h B buf).1 = B.length ∧
      ∀ k, k < B.length → (rt_read_same s1 h B buf).2.2.1 k = B.getD k 0) ∧
    (∃ g, (rt_reopen s1 h B name mode).1 = some g ∧
      (rt_read_reopened s1 h B name mode buf).1 = B.length ∧
      ∀ k, k < B.length → (rt_read_reopened s1 h B name mode buf).2.2.1 k = B.getD k 0) := by
  -- the create succeeded
  have hc1 : (create_file s name).1 = some h := by rw [hcreate]
  have hc2 : (create_file s name).2 = s1 := by rw [hcreate]
  rcases create_file_cases s name hcap1 with ⟨e, _⟩ | ⟨n, e, _⟩ | ⟨n, b, i, e, c⟩
  · rw [hc1] at e; cases e
  · rw [hc1] at e; cases e
  rw [hc1] at e
  injection e with e
  subst e
  rw [hc2] at c
  obtain ⟨_, hzero, _⟩ := c.inode_facts
  have hcapS : s.disk.capacity ≤ 65536 := by
    unfold SOFTWARE_DISK_BLOCK_SIZE at hcap2; omega
  have hcap5 : LAST_INODE_BLOCK < s1.disk.capacity := by
    rw [c.cap]; unfold LAST_DIR_ENTRY_BLOCK at hcap1; unfold LAST_INODE_BLOCK; omega
  have hinv : PtrInv s1.disk (fun m => m = n) (inode_at s1.disk) := PtrInv.of_zero hzero
  -- the write
  have wspec := write_file_spec (U := fun m => m = n) ⟨n, .READ_WRITE, 0⟩ (bytes_of B) B.length
    rfl (by norm_num) hinv rfl (fun m hm => by rw [hm]; exact c.inode_lt) c.inode_lt hcap5
    (by rw [c.cap]; exact hcapS)
  have hfree1 : FreeAtLeast s1.disk
      (write_need s1.disk (inode_at s1.disk n) 0 B.length + 0) := by
    rw [hzero, write_need_zero, Nat.add_zero]
    exact (FreeAtLeast.of_free_count hfree).congr_free c.cap c.block_facts.1
  have hmax : 0 + B.length ≤ MAX_FILE_SIZE := by
    simp only [MAX_FILE_SIZE, NUM_DIRECT_INODE_BLOCKS, NUM_SINGLE_INDIRECT_BLOCKS,
      SOFTWARE_DISK_BLOCK_SIZE] at hlen ⊢
    omega
  have hall := (wspec.complete 0 hmax hfree1).1
  have hhandle := wspec.handle
  have hsize := wspec.size
  have hwritten := wspec.written
  have hwinv := wspec.inv
  have hlow := wspec.low
  have hwcap := wspec.step.cap
  unfold rt_read_reopened rt_read_same rt_reopen rt_write
  generalize write_file s1 (some ⟨n, .READ_WRITE, 0⟩) (bytes_of B) B.length = W at *
  obtain ⟨cnt, file2, s2⟩ := W
  simp only [] at hall hhandle hsize hwritten hwinv hlow hwcap ⊢
  subst hall
  simp only [Nat.zero_add] at hhandle hsize hwritten
  rw [hzero] at hsize
  have hsize2 : B.length ≤ (inode_at s2.disk n).size := by
    rw [hsize]; exact Nat.le_max_right _ _
  have hib : inode_block_for n < s2.disk.capacity := by
    have := inode_block_for_range c.inode_lt
    omega
  subst hhandle
  refine ⟨rfl, ?_, ?_⟩
  · -- the same handle, after a seek to 0
    obtain ⟨k1, _, k3, k4, k5, _, _, k8⟩ := seek_file_spec (U := fun m => m = n)
      (s := s2) ⟨n, .READ_WRITE, B.length⟩ 0 hwinv rfl c.inode_lt (by rw [hwcap]; exact hcap5)
    simp only [] at k1 k3 k4 k5 k8
    generalize seek_file s2 (some ⟨n, .READ_WRITE, B.length⟩) 0 = K at *
    obtain ⟨rv, file3, s3⟩ := K
    simp only [] at k1 k3 k4 k5 k8 ⊢
    subst k1
    have hload3 : load_inode s3.disk n = some (inode_at s3.disk n) :=
      load_inode_of_lt (by rw [k3]; exact hib)
    apply read_back buf hload3 rfl
    · rw [k5]; simp only []; exact le_trans hsize2 (Nat.le_max_left _ _)
    · intro k hk
      rw [k8]
      exact hwritten k hk
  · -- a fresh handle
    obtain ⟨e, hfind, hino⟩ := c.find hname hcap1
    have hfind2 : find_file_entry s2.disk name = some (e, b, i) := by
      rw [← hfind]
      apply find_file_entry_congr name hwcap
      intro m h1 h2
      have := inode_block_for_range c.inode_lt
      unfold FIRST_DIR_ENTRY_BLOCK at h1
      unfold LAST_DIR_ENTRY_BLOCK at h2
      unfold LAST_INODE_BLOCK at this
      apply hlow m (by omega) (by unfold FIRST_DATA_BLOCK; omega)
      omega
    refine ⟨⟨n, mode, 0⟩, ?_, ?_⟩
    · simp only [open_file, close_file, hfind2, hino]
    · simp only [open_file, close_file, hfind2, hino]
      have hload2 : load_inode s2.disk n = some (inode_at s2.disk n) := load_inode_of_lt hib
      exact read_back (s := ⟨s2.disk, .FS_NONE⟩) (f := ⟨n, mode, 0⟩) buf hload2 rfl hsize2 hwritten

/-- An instance of the round trip: the two bytes `"Hi"` written to the file
`"a"` created on a freshly formatted volume of 100 blocks, and read back
through a read-only handle. -/
theorem write_read_round_trip_witness :
    (rt_write ex_created.2 ⟨0, .READ_WRITE, 0⟩ [72, 105]).1 = 2 ∧
    (rt_read_same ex_created.2 ⟨0, .READ_WRITE, 0⟩ [72, 105] (fun _ => 0)).2.2.1 1 = 105 :=
  have h := write_read_round_trip (formatted 100) ex_name [72, 105] .READ_ONLY (fun _ => 0)
    ⟨0, .READ_WRITE, 0⟩ ex_created.2 (by decide) (by decide)
    ⟨fun c hc => by
        simp only [ex_name, List.mem_singleton] at hc
        subst hc
        decide, by decide⟩
    rfl (by decide) (by decide)
  ⟨h.1, h.2.1.2 1 (by decide)⟩

/-- C3 fails at a concrete input: on the volume that holds the file `"a"` (inode
0), the name of 508 characters `'b'` is not empty and not present and inode 1
is free; `create_file` returns a non-null handle on inode 1 with the error slot
`FS_NONE`, and yet `file_exists` of that name returns 0 and `open_file` returns
the null handle: `strcpy` wrote the terminating NUL into the first byte of
`inode_num`, which the store of the inode number then overwrote. -/
theorem create_long_name_lost :
    long_name ≠ [] ∧ (file_exists ex_created.2 long_name).1 = 0 ∧
    inode_bit ex_created.2.disk 1 = false ∧
    ex_long.1 = some ⟨1, .READ_WRITE, 0⟩ ∧ ex_long.2.fserror = .FS_NONE ∧
    (file_exists ex_long.2 long_name).1 = 0 ∧
    (open_file ex_long.2 long_name .READ_ONLY).1 = none := by
  decide

/-- The contract of `delete_file` for names within the limit: in every state
of `Reachable` (the names given to `create_file` have at most
`MAX_FILENAME_SIZE` characters, handles are used while their file exists),
for every name held by a used directory entry `delete_file` returns 1 and afterwards
`file_exists` returns 0 and no used directory entry holds the name; for every
name held by no used directory entry `delete_file` returns 0, sets the last
error to `FS_FILE_NOT_FOUND` and leaves the disk exactly as it was. -/
theorem delete_file_contract (s : FSState) (name : List Byte) (hr : Reachable s)
    (hname : CString name) :
    (Present s.disk name →
      (delete_file s name).1 = 1 ∧
      (file_exists (delete_file s name).2 name).1 = 0 ∧
      ¬ Present (delete_file s name).2.disk name) ∧
    (¬ Present s.disk name → delete_file s name = (0, ⟨s.disk, .FS_FILE_NOT_FOUND⟩)) := by
  refine ⟨fun hp => ?_, fun hp => delete_absent hname hp⟩
  obtain ⟨h1, h2, h3⟩ := delete_removes (reachable_inv hr) hname hp
  exact ⟨h1, h3, h2⟩

/-- An instance of the contract of `delete_file`: `delete_file("a")` on the
volume that holds the file `"a"`. -/
theorem delete_file_contract_witness :
    (delete_file ex_created.2 ex_name).1 = 1 ∧
    (file_exists (delete_file ex_created.2 ex_name).2 ex_name).1 = 0 ∧
    ¬ Present (delete_file ex_created.2 ex_name).2.disk ex_name :=
  (delete_file_contract ex_created.2 ex_name ex_created_reachable ex_name_valid.1).1
    ex_created_present

/-- The bitmaps under `delete_file` for names within the limit: in every state
of `Reachable` (the names given to `create_file` have at most
`MAX_FILENAME_SIZE` characters, handles are used while their file exists), (1) when
`delete_file(name)` finds the entry `e` of `name`, it returns 1, a bit of the
data-block bitmap is set afterwards exactly when it was set before and its
block is not held by the inode `e.inode_num` (not one of its non-zero direct
pointers, not its indirect block, not a non-zero entry of its indirect block),
the bits of the blocks the inode held were set before, and a bit of the inode
bitmap is set afterwards exactly when it was set before and is not bit
`e.inode_num`; (2) when `create_file(name)` (a name of at most
`MAX_FILENAME_SIZE` characters) returns the handle `h`, then after any
sequence `ws` of `write_file` calls through `h`, `delete_file(name)` returns 1
and leaves both bitmap blocks with the contents they had before the create. -/
theorem delete_file_bitmaps (s : FSState) (name : List Byte) (hr : Reachable s) :
    (∀ e b i, find_file_entry s.disk name = some (e, b, i) →
      (delete_file s name).1 = 1 ∧
      (∀ x, data_bit (delete_file s name).2.disk x = true ↔
        data_bit s.disk x = true ∧ ¬ holds s.disk (inode_at s.disk e.inode_num) x) ∧
      (∀ x, holds s.disk (inode_at s.disk e.inode_num) x → data_bit s.disk x = true) ∧
      (∀ m, inode_bit (delete_file s name).2.disk m
        = (inode_bit s.disk m && !decide (m = e.inode_num)))) ∧
    (∀ (ws : List (Block × Nat)) (h : FileInternals) (s1 : FSState), ValidName name →
      create_file s name = (some h, s1) →
      (delete_file (write_seq ws (some h) s1).2 name).1 = 1 ∧
      (delete_file (write_seq ws (some h) s1).2 name).2.disk.blocks 0 = s.disk.blocks 0 ∧
      (delete_file (write_seq ws (some h) s1).2 name).2.disk.blocks INODE_BITMAP_BLOCK
        = s.disk.blocks INODE_BITMAP_BLOCK) := by
  have hinv := reachable_inv hr
  constructor
  · intro e b i hf
    obtain ⟨_, _, _, _, huse, d1, _, _, d4, d5, _, _⟩ := delete_facts hinv hf
    refine ⟨d1, d4, fun x hx => (hinv.ptr.holds_range huse hx).2.2, fun m => ?_⟩
    unfold inode_bit
    rw [d5, bit_is_set_clear_bit]
  · intro ws h s1 hname hcreate
    exact bitmaps_restored ws hinv.caps.1 hinv.cap_hi hname hcreate

/-- An instance of the bitmap effect: `delete_file("a")` on the volume where
ten bytes were written to the file `"a"`, and `create_file("a")`, two writes and
`delete_file("a")` on a freshly formatted volume of 100 blocks. -/
theorem delete_file_bitmaps_witness :
    (delete_file ex_written.2.2 ex_name).1 = 1 ∧
    (delete_file (write_seq [(fun _ => 65, 5000), (fun _ => 66, 60000)] (some ⟨0, .READ_WRITE, 0⟩)
      ex_created.2).2 ex_name).2.disk.blocks 0 = (formatted 100).disk.blocks 0 := by
  constructor
  · cases hf : find_file_entry ex_written.2.2.disk ex_name with
    | none =>
      have := ex_written_find
      rw [hf] at this
      cases this
    | some r =>
      exact ((delete_file_bitmaps ex_written.2.2 ex_name ex_written_reachable).1
        r.1 r.2.1 r.2.2 hf).1
  · exact ((delete_file_bitmaps (formatted 100) ex_name formatted_reachable).2
      [(fun _ => 65, 5000), (fun _ => 66, 60000)] ⟨0, .READ_WRITE, 0⟩ ex_created.2
      ex_name_valid rfl).2.1

/-- Block ownership for names within the limit: in every state reachable from
a freshly formatted volume of at most 32768 blocks by the public operations
with names given to `create_file` of at most `MAX_FILENAME_SIZE` characters
and no handle used after its file was deleted (`Reachable`), every non-zero block number held by an inode in use (a direct
pointer, the indirect pointer, or an entry of its indirect block) lies in
`[FIRST_DATA_BLOCK, capacity)` and has its bit set in the data-block bitmap,
and no block number is held twice: two slots of inodes in use that hold the
same non-zero block number are the same slot of the same inode. -/
theorem no_shared_block (s : FSState) (hr : Reachable s) :
    (∀ n (sl : Slot), InUse s.disk n → sl.valid (inode_at s.disk n) →
      slot_val s.disk (inode_at s.disk n) sl ≠ 0 →
      FIRST_DATA_BLOCK ≤ slot_val s.disk (inode_at s.disk n) sl ∧
      slot_val s.disk (inode_at s.disk n) sl < s.disk.capacity ∧
      data_bit s.disk (slot_val s.disk (inode_at s.disk n) sl) = true) ∧
    (∀ n m (sl sl1 : Slot), InUse s.disk n → InUse s.disk m →
      sl.valid (inode_at s.disk n) → sl1.valid (inode_at s.disk m) →
      slot_val s.disk (inode_at s.disk n) sl ≠ 0 →
      slot_val s.disk (inode_at s.disk n) sl = slot_val s.disk (inode_at s.disk m) sl1 →
      n = m ∧ sl = sl1) :=
  ⟨(reachable_inv hr).ptr.range, (reachable_inv hr).ptr.inj⟩

/-- An instance of block ownership: the first direct pointer of inode 0 on the
volume where ten bytes were written to the file `"a"`. -/
theorem no_shared_block_witness :
    FIRST_DATA_BLOCK ≤ slot_val ex_written.2.2.disk (inode_at ex_written.2.2.disk 0) (.direct 0) ∧
    slot_val ex_written.2.2.disk (inode_at ex_written.2.2.disk 0) (.direct 0)
      < ex_written.2.2.disk.capacity ∧
    data_bit ex_written.2.2.disk
      (slot_val ex_written.2.2.disk (inode_at ex_written.2.2.disk 0) (.direct 0)) = true :=
  (no_shared_block ex_written.2.2 ex_written_reachable).1 0 (.direct 0)
    ⟨by decide, by decide⟩ (show 0 < NUM_DIRECT_INODE_BLOCKS by decide) (by decide)

/-- C13: when the 512 bits of the inode bitmap are all set, `create_file` of a
non-empty name that `find_file_entry` does not find returns the null handle,
sets the last error to `FS_OUT_OF_SPACE` and leaves the disk (both bitmap
blocks, the inode blocks, the directory blocks and every other block) exactly
as it was. -/
theorem create_no_free_inode (s : FSState) (name : List Byte) (hne : name ≠ [])
    (habs : find_file_entry s.disk name = none)
    (hfull : ∀ i, i < MAX_FILES → inode_bit s.disk i = true) :
    create_file s name = (none, ⟨s.disk, .FS_OUT_OF_SPACE⟩) := by
  unfold create_file
  rw [if_neg hne, habs]
  simp only [Option.isSome_none, Bool.false_eq_true, if_false]
  rw [alloc_inode_full hfull]

/-- Witness for C13: `create_file("a")` on a volume of 100 blocks whose inode
bitmap is full and whose directory is empty. -/
theorem create_no_free_inode_witness :
    create_file ex_no_inode ex_name = (none, ⟨ex_no_inode.disk, .FS_OUT_OF_SPACE⟩) :=
  create_no_free_inode ex_no_inode ex_name (by decide) (by decide)
    (by unfold MAX_FILES; decide)

/-- C14: for every handle `f` whose mode is `READ_ONLY`, every buffer and every
`n`, `write_file` returns 0, sets the last error to `FS_FILE_READ_ONLY`, leaves
the handle (its position included) as it was and leaves the disk exactly as it
was. -/
theorem write_read_only (s : FSState) (f : FileInternals) (buf : Block) (n : Nat)
    (hmode : f.mode = .READ_ONLY) :
    write_file s (some f) buf n = (0, some f, ⟨s.disk, .FS_FILE_READ_ONLY⟩) := by
  unfold write_file
  simp [hmode]

/-- Witness for C14: a write of five bytes through a read-only handle at
position 3 on the example file. -/
theorem write_read_only_witness :
    write_file ex_written.2.2 (some ⟨0, .READ_ONLY, 3⟩) (fun _ => 66) 5
      = (0, some ⟨0, .READ_ONLY, 3⟩, ⟨ex_written.2.2.disk, .FS_FILE_READ_ONLY⟩) :=
  write_read_only ex_written.2.2 ⟨0, .READ_ONLY, 3⟩ (fun _ => 66) 5 rfl

/-- C15 fails for `write_file`: with the null handle, `close_file`, `seek_file`,
`file_length` and `read_file` set the last error to `FS_FILE_NOT_OPEN`, return
0 where they return a value and leave the disk as it was; `write_file` returns
0 and leaves the disk as it was but sets the last error to
`FS_FILE_READ_ONLY`. -/
theorem null_handle_errors (s : FSState) (buf : Block) (n bytepos : Nat) :
    close_file s none = ⟨s.disk, .FS_FILE_NOT_OPEN⟩ ∧
    seek_file s none bytepos = (0, none, ⟨s.disk, .FS_FILE_NOT_OPEN⟩) ∧
    file_length s none = (0, ⟨s.disk, .FS_FILE_NOT_OPEN⟩) ∧
    read_file s none buf n = (0, none, buf, ⟨s.disk, .FS_FILE_NOT_OPEN⟩) ∧
    write_file s none buf n = (0, none, ⟨s.disk, .FS_FILE_READ_ONLY⟩) ∧
    (write_file s none buf n).2.2.fserror ≠ .FS_FILE_NOT_OPEN :=
  ⟨rfl, rfl, rfl, rfl, rfl, fun h => FSError.noConfusion h⟩

/-- C16 fails for `file_length`, `seek_file`, `read_file` and `write_file`: on
the volume where a failed `open_file` left the last error `FS_FILE_NOT_FOUND`,
each of the four succeeds on a handle of the example file (length 10, one
successful seek, ten bytes read, ten bytes written) and the last error is
still `FS_FILE_NOT_FOUND`, not `FS_NONE`. -/
theorem success_keeps_stale_error :
    ex_stale.fserror = .FS_FILE_NOT_FOUND ∧
    (file_length ex_stale (some ⟨0, .READ_WRITE, 0⟩)).1 = 10 ∧
    (file_length ex_stale (some ⟨0, .READ_WRITE, 0⟩)).2.fserror = .FS_FILE_NOT_FOUND ∧
    (seek_file ex_stale (some ⟨0, .READ_WRITE, 0⟩) 5).1 = 1 ∧
    (seek_file ex_stale (some ⟨0, .READ_WRITE, 0⟩) 5).2.2.fserror = .FS_FILE_NOT_FOUND ∧
    (read_file ex_stale (some ⟨0, .READ_WRITE, 0⟩) (fun _ => 0) 10).1 = 10 ∧
    (read_file ex_stale (some ⟨0, .READ_WRITE, 0⟩) (fun _ => 0) 10).2.2.2.fserror
      = .FS_FILE_NOT_FOUND ∧
    (write_file ex_stale (some ⟨0, .READ_WRITE, 0⟩) (fun _ => 66) 10).1 = 10 ∧
    (write_file ex_stale (some ⟨0, .READ_WRITE, 0⟩) (fun _ => 66) 10).2.2.fserror
      = .FS_FILE_NOT_FOUND := by
  decide

/-- C18: on a device that has the bitmap blocks and at most 32768 blocks,
(1) when `n` is the lowest index below 512 whose bit is clear in the inode
bitmap, `alloc_inode` returns `n`, leaves the last error as it was and changes
the disk in exactly bit `n` of the inode bitmap, now set; (2) when all 512
bits are set it returns -1, sets `FS_OUT_OF_SPACE` and leaves the disk as it
was; (3) when `p` is the lowest block number in `[FIRST_DATA_BLOCK, capacity)`
whose bit is clear in the data-block bitmap, `alloc_data_block` returns `p`,
leaves the last error as it was and changes the disk in exactly bit `p` of the
data-block bitmap, now set; (4) when all those bits are set it returns -1,
sets `FS_OUT_OF_SPACE` and leaves the disk as it was; (5) after
`free_inode(n)` the next `alloc_inode` returns the smaller of `n` and the index
`alloc_inode` would have returned before the free, and `n` when it would have
failed. -/
theorem first_fit_allocation (s : FSState)
    (hcap1 : INODE_BITMAP_BLOCK < s.disk.capacity)
    (hcap2 : s.disk.capacity ≤ 8 * SOFTWARE_DISK_BLOCK_SIZE) :
    (∀ n, n < MAX_FILES → inode_bit s.disk n = false →
      (∀ q, q < n → inode_bit s.disk q = true) →
      (alloc_inode s).1 = some n ∧ (alloc_inode s).2.fserror = s.fserror ∧
      (alloc_inode s).2.disk.capacity = s.disk.capacity ∧
      (∀ m, inode_bit (alloc_inode s).2.disk m = (inode_bit s.disk m || decide (m = n))) ∧
      (∀ m, m ≠ INODE_BITMAP_BLOCK → (alloc_inode s).2.disk.blocks m = s.disk.blocks m)) ∧
    ((∀ q, q < MAX_FILES → inode_bit s.disk q = true) →
      alloc_inode s = (none, ⟨s.disk, .FS_OUT_OF_SPACE⟩)) ∧
    (∀ p, FIRST_DATA_BLOCK ≤ p → p < s.disk.capacity → data_bit s.disk p = false →
      (∀ q, FIRST_DATA_BLOCK ≤ q → q < p → data_bit s.disk q = true) →
      (alloc_data_block s).1 = some p ∧ (alloc_data_block s).2.fserror = s.fserror ∧
      (alloc_data_block s).2.disk.capacity = s.disk.capacity ∧
      (∀ b, data_bit (alloc_data_block s).2.disk b = (data_bit s.disk b || decide (b = p))) ∧
      (∀ m, m ≠ 0 → (alloc_data_block s).2.disk.blocks m = s.disk.blocks m)) ∧
    ((∀ q, FIRST_DATA_BLOCK ≤ q → q < s.disk.capacity → data_bit s.disk q = true) →
      alloc_data_block s = (none, ⟨s.disk, .FS_OUT_OF_SPACE⟩)) ∧
    (∀ n, n < MAX_FILES →
      (alloc_inode (free_inode s n)).1
        = some (match (alloc_inode s).1 with
          | some m => min n m
          | none => n)) := by
  have _ := hcap2
  refine ⟨fun n hn hfree hlow => alloc_inode_lowest hcap1 hn hfree hlow,
    fun hfull => alloc_inode_full hfull,
    fun p hp1 hp2 hfree hlow => alloc_data_block_lowest hp1 hp2 hfree hlow,
    fun hfull => alloc_data_block_full (by omega) hfull,
    fun n hn => alloc_after_free s hcap1 hn⟩

/-- Witness for C18: on the volume where ten bytes were written to the file
`"a"` (inode 0, data block 70), `alloc_inode` returns 1, `alloc_data_block`
returns 71, and after `free_inode(0)` `alloc_inode` returns 0. -/
theorem first_fit_allocation_witness :
    (alloc_inode ex_written.2.2).1 = some 1 ∧ (alloc_data_block ex_written.2.2).1 = some 71 ∧
    (alloc_inode (free_inode ex_written.2.2 0)).1 = some 0 :=
  have h := first_fit_allocation ex_written.2.2 (by decide) (by decide)
  ⟨(h.1 1 (by decide) (by decide) (by decide)).1,
   (h.2.2.1 71 (by decide) (by decide) (by decide) (fun q h1 h2 => by
      have e : q = 70 := by unfold FIRST_DATA_BLOCK at h1; omega
      subst e
      decide)).1,
   (h.2.2.2.2 0 (by decide)).trans (by decide)⟩

/-- The directory for names within the limit: in every state of `Reachable`
(the names given to `create_file` have at most `MAX_FILENAME_SIZE`
characters, handles are used while their file exists), among the 512 directory slots (blocks 6 to
69, eight per block) no two used entries store the same name, and the inode
number of every used entry is below 512 and has its bit set in the inode
bitmap. -/
theorem directory_invariant (s : FSState) (hr : Reachable s) :
    (∀ b i b1 i1 nm, DirSlot b i → DirSlot b1 i1 → slot_used s.disk b i →
      slot_used s.disk b1 i1 → StoredName (s.disk.blocks b) (DIR_ENTRY_SIZE * i) nm →
      StoredName (s.disk.blocks b1) (DIR_ENTRY_SIZE * i1) nm → b = b1 ∧ i = i1) ∧
    (∀ b i, DirSlot b i → slot_used s.disk b i →
      slot_inode s.disk b i < MAX_FILES ∧ inode_bit s.disk (slot_inode s.disk b i) = true) :=
  ⟨(reachable_inv hr).dir.name_inj, fun b i hs hu => (reachable_inv hr).dir.inode_ok b i hs hu⟩

/-- An instance for the directory: the entry of the file `"a"` in slot 0 of
block 6. -/
theorem directory_invariant_witness :
    slot_inode ex_created.2.disk 6 0 < MAX_FILES ∧
    inode_bit ex_created.2.disk (slot_inode ex_created.2.disk 6 0) = true :=
  (directory_invariant ex_created.2 ex_created_reachable).2 6 0 ex_created_slot.1
    ex_created_slot.2.1

/-- C12: in every state reachable from a freshly formatted volume
(`Reachable`), (1) an allocating call of `get_data_block_for_offset` for a
logical block index below `13 + 2048` succeeds when the blocks it has to
allocate are free; (2) for an index of `13 + 2048` or more it returns -1 and
sets `FS_EXCEEDS_MAX_FILE_SIZE`, when the inode has an indirect block or a data
block is free for one; (3) `write_file` through a live read-write handle never
moves a position at or below the largest file size `(13 + 2048) * 4096` past
it, and from a position at or beyond it writes nothing and leaves the position;
(4) a write that would go past the largest file size, with the data blocks for
the part up to it and one more free, writes exactly up to it, leaves the
position there and the last error `FS_EXCEEDS_MAX_FILE_SIZE`. -/
theorem max_file_size_boundary (s : FSState) (hr : Reachable s) :
    (∀ (inode : Inode) (lb : Nat),
      lb < NUM_DIRECT_INODE_BLOCKS + NUM_SINGLE_INDIRECT_BLOCKS →
      alloc_cost s.disk inode lb ≤ free_count s.disk →
      (get_data_block_for_offset s inode lb true).1.isSome = true) ∧
    (∀ (inode : Inode) (lb : Nat),
      NUM_DIRECT_INODE_BLOCKS + NUM_SINGLE_INDIRECT_BLOCKS ≤ lb →
      (inode.indirect ≠ 0 ∨ 1 ≤ free_count s.disk) →
      (get_data_block_for_offset s inode lb true).1 = none ∧
      (get_data_block_for_offset s inode lb true).2.2.fserror = .FS_EXCEEDS_MAX_FILE_SIZE) ∧
    (∀ (f : FileInternals) (buf : Block) (n : Nat), LiveHandle s f → f.mode = .READ_WRITE →
      ∃ f1, (write_file s (some f) buf n).2.1 = some f1 ∧
        (f.pos ≤ MAX_FILE_SIZE → f1.pos ≤ MAX_FILE_SIZE) ∧
        (MAX_FILE_SIZE ≤ f.pos → f1.pos = f.pos ∧ (write_file s (some f) buf n).1 = 0)) ∧
    (∀ (f : FileInternals) (buf : Block) (n : Nat), LiveHandle s f → f.mode = .READ_WRITE →
      f.pos ≤ MAX_FILE_SIZE → MAX_FILE_SIZE < f.pos + n →
      write_need s.disk (inode_at s.disk f.inode_num) f.pos (MAX_FILE_SIZE - f.pos) + 1
        ≤ free_count s.disk →
      (write_file s (some f) buf n).1 = MAX_FILE_SIZE - f.pos ∧
      (write_file s (some f) buf n).2.1 = some { f with pos := MAX_FILE_SIZE } ∧
      (write_file s (some f) buf n).2.2.fserror = .FS_EXCEEDS_MAX_FILE_SIZE) := by
  have hinv := reachable_inv hr
  obtain ⟨_, c2, c3, _⟩ := hinv.caps
  refine ⟨fun inode lb hlb hfree => ?_, fun inode lb hlb hfree => ?_,
    fun f buf n hlive hmode => ?_, fun f buf n hlive hmode hpos hover hfree => ?_⟩
  · exact (get_data_block_enough inode 0 c3 hlb (FreeAtLeast.of_free_count (by omega))).1
  · apply get_data_block_exceeds inode hlb
    rcases hfree with h | h
    · exact Or.inl h
    · exact Or.inr (FreeAtLeast.of_free_count h)
  · have hu := hlive.in_use hinv
    have hibr := inode_block_for_range hu.1
    exact write_file_bound buf n hmode (load_inode_of_lt (by omega))
  · have hu := hlive.in_use hinv
    exact write_file_to_max f buf n hmode hinv.ptr hu hu.1 c2 c3 hpos hover
      (FreeAtLeast.of_free_count hfree)

/-- Witness for C12: on the volume that holds the empty file `"a"`, a write of
20 bytes from ten bytes before the largest file size writes 10 bytes, stops at
the largest file size and leaves `FS_EXCEEDS_MAX_FILE_SIZE`. -/
theorem max_file_size_boundary_witness :
    (write_file ex_near_max.2.2 (some ⟨0, .READ_WRITE, 8441846⟩) (fun _ => 65) 20).1
      = MAX_FILE_SIZE - 8441846 ∧
    (write_file ex_near_max.2.2 (some ⟨0, .READ_WRITE, 8441846⟩) (fun _ => 65) 20).2.1
      = some ⟨0, .READ_WRITE, MAX_FILE_SIZE⟩ ∧
    (write_file ex_near_max.2.2 (some ⟨0, .READ_WRITE, 8441846⟩) (fun _ => 65) 20).2.2.fserror
      = .FS_EXCEEDS_MAX_FILE_SIZE :=
  (max_file_size_boundary ex_near_max.2.2 ex_near_max_reachable).2.2.2
    ⟨0, .READ_WRITE, 8441846⟩ (fun _ => 65) 20 ex_near_max_live rfl (by decide) (by decide)
    (by decide)

/-- Isolation for names within the limit: in every state of `Reachable` (the
names given to `create_file` have at most `MAX_FILENAME_SIZE` characters, no
handle used after its file was deleted), for a live handle `f` on one file
and a live handle `g` on another file (a different inode), `write_file` and
`seek_file` through `f` leave the other file unaffected (`Unaffected`):
`file_length` on `g` returns the same length, `read_file` on `g` returns the
same count, the same position and the same bytes for every buffer and every
count (`g` at any position), and every directory block and the inode bitmap
block are unchanged. -/
theorem write_isolation (s : FSState) (f g : FileInternals) (buf : Block) (n bytepos : Nat)
    (hr : Reachable s) (hf : LiveHandle s f) (hg : LiveHandle s g)
    (hne : g.inode_num ≠ f.inode_num) :
    Unaffected g s (write_file s (some f) buf n).2.2 ∧
    Unaffected g s (seek_file s (some f) bytepos).2.2 :=
  ⟨unaffected_write f g buf n (reachable_inv hr) hf (hg.in_use (reachable_inv hr)) hne,
   unaffected_seek f g bytepos (reachable_inv hr) hf (hg.in_use (reachable_inv hr)) hne⟩

/-- An instance of isolation: on the volume with the files `"a"` (ten bytes)
and `"b"`,
a write of 5000 bytes to `"b"` leaves the count returned by a read of ten bytes
of `"a"` as it was. -/
theorem write_isolation_witness :
    (read_file (write_file ex_two.2 (some ⟨1, .READ_WRITE, 0⟩) (fun _ => 66) 5000).2.2
      (some ⟨0, .READ_ONLY, 0⟩) (fun _ => 0) 10).1
      = (read_file ex_two.2 (some ⟨0, .READ_ONLY, 0⟩) (fun _ => 0) 10).1 :=
  ((write_isolation ex_two.2 ⟨1, .READ_WRITE, 0⟩ ⟨0, .READ_ONLY, 0⟩ (fun _ => 66) 5000 0
    ex_two_reachable ex_two_live_b ex_two_live_a (by decide)).1.2.1 (fun _ => 0) 10).1

/-- Entries and inodes for names within the limit: in every state of
`Reachable` (the names given to `create_file` have at most
`MAX_FILENAME_SIZE` characters, handles are used while their file exists),
the number of used directory entries equals
the number of set bits among the 512 bits of the inode bitmap; whenever
`alloc_inode` and the `save_inode` after it succeed as in `create_file`,
`find_free_dir_entry` finds a slot; a `create_file` that returns the null
handle leaves the disk as it was, so no inode stays allocated; and a
`create_file` that returns a handle leaves a used directory entry that records
the inode of the handle. -/
theorem directory_never_full (s : FSState) (hr : Reachable s) :
    used_entries s.disk = inodes_in_use s.disk ∧
    (∀ n s1 d2, alloc_inode s = (some n, s1) → save_inode s1.disk n Inode.zero = some d2 →
      ∃ r, find_free_dir_entry d2 = some r) ∧
    (∀ name, (create_file s name).1 = none → (create_file s name).2.disk = s.disk) ∧
    (∀ name h, ValidName name → (create_file s name).1 = some h →
      ∃ b i, DirSlot b i ∧ slot_used (create_file s name).2.disk b i ∧
        slot_inode (create_file s name).2.disk b i = h.inode_num) := by
  have hinv := reachable_inv hr
  refine ⟨counts_equal hinv (reachable_owned hr),
    fun n s1 d2 ha hsave => slot_after_alloc hinv ha hsave,
    fun name hnone => create_fail_unchanged hinv name hnone,
    fun name h hname hsome => ?_⟩
  rcases create_file_cases s name hinv.caps.1 with ⟨e, _⟩ | ⟨n, e, _⟩ | ⟨n, b, i, e, c⟩
  · rw [hsome] at e; cases e
  · rw [hsome] at e; cases e
  · rw [hsome] at e
    injection e with e
    subst e
    obtain ⟨n1, n2, _⟩ := c.new_slot hname
    exact ⟨b, i, c.slot, n1, n2⟩

/-- An instance of the count: on the volume that holds the file `"a"`, one
directory entry is used and one bit of the inode bitmap is set. -/
theorem directory_never_full_witness :
    used_entries ex_created.2.disk = inodes_in_use ex_created.2.disk :=
  (directory_never_full ex_created.2 ex_created_reachable).1

/-! ## Claims that fail for names longer than `MAX_FILENAME_SIZE`

`create_file` copies the name with `strcpy` into `filename[508]` without a
length check.  The runs below start from a freshly formatted volume of 100
blocks and use the public operations only. -/

/-- C1 fails at a concrete input: on the volume of 100 blocks that holds the
file `"a"` (inode 0) thirty data blocks are free, and `create_file` with the
name of 508 characters `'b'` returns a handle on inode 1.  The two bytes `"Hi"`
written through it at position 0 are written in full and are read back through
the same handle after `seek_file(h, 0)`; but after `close_file(h)`,
`open_file` of the same name returns the null handle with `FS_FILE_NOT_FOUND`,
and the read through it returns 0: the stored name runs on into the byte 1 of
the inode number and never compares equal. -/
theorem round_trip_reopen_fails :
    blocks_for 2 ≤ free_count ex_created.2.disk ∧
    ex_long.1 = some ⟨1, .READ_WRITE, 0⟩ ∧
    (rt_write ex_long.2 ⟨1, .READ_WRITE, 0⟩ [72, 105]).1 = 2 ∧
    (rt_read_same ex_long.2 ⟨1, .READ_WRITE, 0⟩ [72, 105] (fun _ => 0)).1 = 2 ∧
    (rt_read_same ex_long.2 ⟨1, .READ_WRITE, 0⟩ [72, 105] (fun _ => 0)).2.2.1 0 = 72 ∧
    (rt_read_same ex_long.2 ⟨1, .READ_WRITE, 0⟩ [72, 105] (fun _ => 0)).2.2.1 1 = 105 ∧
    (rt_reopen ex_long.2 ⟨1, .READ_WRITE, 0⟩ [72, 105] long_name .READ_ONLY).1 = none ∧
    (rt_reopen ex_long.2 ⟨1, .READ_WRITE, 0⟩ [72, 105] long_name .READ_ONLY).2.fserror
      = .FS_FILE_NOT_FOUND ∧
    (rt_read_reopened ex_long.2 ⟨1, .READ_WRITE, 0⟩ [72, 105] long_name .READ_ONLY
      (fun _ => 0)).1 = 0 := by
  have e : rt_read_reopened ex_long.2 ⟨1, .READ_WRITE, 0⟩ [72, 105] long_name .READ_ONLY
      (fun _ => 0)
      = read_file (rt_reopen ex_long.2 ⟨1, .READ_WRITE, 0⟩ [72, 105] long_name .READ_ONLY).2
          (rt_reopen ex_long.2 ⟨1, .READ_WRITE, 0⟩ [72, 105] long_name .READ_ONLY).1
          (fun _ => 0) 2 := rfl
  refine ⟨by decide, by decide, by decide, by decide, by decide, by decide, ?_, ?_, ?_⟩
  · rw [ex_long_reopen]
  · rw [ex_long_reopen]
  · rw [e, ex_long_reopen]
    rfl

/-- C5 fails at a concrete input: `create_file` of `"p"`, `"x"`, `"y"` and
`delete_file("p")` leave slot 0 free before the used slots 1 (`"x"`) and 2
(`"y"`); `create_file` with the name of 513 characters (512 characters `'b'`
and `'y'`) takes slot 0, and `strcpy` writes `'y'` and the NUL over the first
two bytes of slot 1.  Two used entries now store `"y"`; `delete_file("y")`
returns 1 and `file_exists("y")` still returns 1. -/
theorem delete_leaves_name :
    ex_gap.1 = 1 ∧ ex_spilled.1 = some ⟨0, .READ_WRITE, 0⟩ ∧
    entry_used (ex_spilled.2.disk.blocks 6) 1 ≠ 0 ∧
    strcmp_eq (ex_spilled.2.disk.blocks 6) (DIR_ENTRY_SIZE * 1) [121] = true ∧
    entry_used (ex_spilled.2.disk.blocks 6) 2 ≠ 0 ∧
    strcmp_eq (ex_spilled.2.disk.blocks 6) (DIR_ENTRY_SIZE * 2) [121] = true ∧
    (file_exists ex_spilled.2 [121]).1 = 1 ∧
    (delete_file ex_spilled.2 [121]).1 = 1 ∧
    (file_exists (delete_file ex_spilled.2 [121]).2 [121]).1 = 1 := by
  decide

/-- C6 fails at a concrete input: on the volume that holds the file `"a"`, bit
1 of the inode bitmap and bit 70 of the data-block bitmap are clear;
`create_file` with the name of 508 characters `'b'` returns a handle on inode
1, and two bytes are written through it (data block 70); `delete_file` of the
same name then finds no entry, returns 0 with `FS_FILE_NOT_FOUND`, and both
bits stay set: the bitmaps are not restored to their contents before the
create. -/
theorem delete_long_name_keeps_bits :
    inode_bit ex_created.2.disk 1 = false ∧ data_bit ex_created.2.disk 70 = false ∧
    ex_long.1 = some ⟨1, .READ_WRITE, 0⟩ ∧
    (delete_file ex_long_written.2 long_name).1 = 0 ∧
    (delete_file ex_long_written.2 long_name).2.fserror = .FS_FILE_NOT_FOUND ∧
    inode_bit (delete_file ex_long_written.2 long_name).2.disk 1 = true ∧
    data_bit (delete_file ex_long_written.2 long_name).2.disk 70 = true := by
  rw [ex_long_delete]
  decide

/-- C7 fails at a concrete input, on a volume of 100 blocks with no handle used
after its file was deleted: the file `"a"` (inode 0) holds data block 70;
`create_file` with the name of 1023 characters takes slot 1 and inode 1 and
overwrites slot 2 with a used entry of inode number 560; `create_file("F")`
takes slot 3 and inode 2, and the bytes 70, 0 of its name are the first direct
pointer of the record read for inode 560; `delete_file` of the name stored in
slot 2 returns 1 and frees block 70.  Inode 0 is in use and holds block 70,
whose bit is now clear; after ten bytes are written through the handle of
`"F"`, the inodes 0 and 2, both in use, hold block 70. -/
theorem shared_block_after_long_name :
    ex_clobbered.1 = some ⟨1, .READ_WRITE, 0⟩ ∧ ex_f.1 = some ⟨2, .READ_WRITE, 0⟩ ∧
    ex_alias_deleted.1 = 1 ∧
    (file_exists ex_alias_deleted.2 ex_name).1 = 1 ∧
    (file_exists ex_alias_deleted.2 [70]).1 = 1 ∧
    inode_bit ex_alias_deleted.2.disk 0 = true ∧
    (inode_at ex_alias_deleted.2.disk 0).direct 0 = 70 ∧
    data_bit ex_alias_deleted.2.disk 70 = false ∧
    ex_reused.1 = 10 ∧
    inode_bit ex_reused.2.2.disk 0 = true ∧ inode_bit ex_reused.2.2.disk 2 = true ∧
    (inode_at ex_reused.2.2.disk 0).direct 0 = 70 ∧
    (inode_at ex_reused.2.2.disk 2).direct 0 = 70 := by
  rw [ex_reused_eq, ex_alias_deleted_eq]
  decide

/-- C17 fails at a concrete input, on a volume of 100 blocks with no handle
used after its file was deleted: the file `"a"` (inode 0) holds ten bytes `'A'`
in data block 70; `create_file` with the name of 1023 characters overwrites
slot 2 with a used entry of inode number 560, `create_file("F")` takes inode 2,
and `delete_file` of the name stored in slot 2 frees block 70.  The files `"a"`
and `"F"` both exist, on different inodes; a `write_file` of ten bytes `'B'`
through the handle that `create_file("F")` returned takes block 70 again and
changes the bytes that `read_file` returns for `"a"` from `'A'` to `'B'`, so
`"a"` is not `Unaffected`. -/
theorem write_reaches_other_file :
    (open_file ex_alias_deleted.2 ex_name .READ_ONLY).1 = some ⟨0, .READ_ONLY, 0⟩ ∧
    (open_file ex_alias_deleted.2 [70] .READ_WRITE).1 = some ⟨2, .READ_WRITE, 0⟩ ∧
    ex_f.1 = some ⟨2, .READ_WRITE, 0⟩ ∧
    (file_length ex_alias_deleted.2 (some ⟨0, .READ_ONLY, 0⟩)).1 = 10 ∧
    (read_file ex_alias_deleted.2 (some ⟨0, .READ_ONLY, 0⟩) (fun _ => 0) 10).1 = 10 ∧
    (read_file ex_alias_deleted.2 (some ⟨0, .READ_ONLY, 0⟩) (fun _ => 0) 10).2.2.1 0 = 65 ∧
    ex_reused.1 = 10 ∧
    (read_file ex_reused.2.2 (some ⟨0, .READ_ONLY, 0⟩) (fun _ => 0) 10).1 = 10 ∧
    (read_file ex_reused.2.2 (some ⟨0, .READ_ONLY, 0⟩) (fun _ => 0) 10).2.2.1 0 = 66 ∧
    ¬ Unaffected ⟨0, .READ_ONLY, 0⟩ ex_alias_deleted.2 ex_reused.2.2 := by
  have h : (open_file ex_alias_deleted.2 ex_name .READ_ONLY).1 = some ⟨0, .READ_ONLY, 0⟩ ∧
      (open_file ex_alias_deleted.2 [70] .READ_WRITE).1 = some ⟨2, .READ_WRITE, 0⟩ ∧
      ex_f.1 = some ⟨2, .READ_WRITE, 0⟩ ∧
      (file_length ex_alias_deleted.2 (some ⟨0, .READ_ONLY, 0⟩)).1 = 10 ∧
      (read_file ex_alias_deleted.2 (some ⟨0, .READ_ONLY, 0⟩) (fun _ => 0) 10).1 = 10 ∧
      (read_file ex_alias_deleted.2 (some ⟨0, .READ_ONLY, 0⟩) (fun _ => 0) 10).2.2.1 0 = 65 ∧
      ex_reused.1 = 10 ∧
      (read_file ex_reused.2.2 (some ⟨0, .READ_ONLY, 0⟩) (fun _ => 0) 10).1 = 10 ∧
      (read_file ex_reused.2.2 (some ⟨0, .READ_ONLY, 0⟩) (fun _ => 0) 10).2.2.1 0 = 66 := by
    rw [ex_reused_eq, ex_alias_deleted_eq]
    decide
  obtain ⟨h1, h2, h3, h4, h5, h6, h7, h8, h9⟩ := h
  refine ⟨h1, h2, h3, h4, h5, h6, h7, h8, h9, fun hu => ?_⟩
  have hq := congrFun (hu.2.1 (fun _ => 0) 10).2.2 0
  rw [h6, h9] at hq
  exact absurd hq (by decide)

/-- C19 fails at a concrete input: on a freshly formatted volume of 100 blocks
`create_file` with the name of 1023 characters `'b'` returns a handle on inode
0; `strcpy` wrote the characters 512 to 1022 over slot 1 of block 6, which is
now a used entry whose inode number is `98 + 98 * 256 = 25186`: not in
`[0, 511]`, and its bit is clear in the inode bitmap. -/
theorem entry_without_inode :
    ex_double.1 = some ⟨0, .READ_WRITE, 0⟩ ∧ ex_double.2.fserror = .FS_NONE ∧
    DirSlot 6 1 ∧ slot_used ex_double.2.disk 6 1 ∧
    slot_inode ex_double.2.disk 6 1 = 25186 ∧
    ¬ slot_inode ex_double.2.disk 6 1 < MAX_FILES ∧
    inode_bit ex_double.2.disk (slot_inode ex_double.2.disk 6 1) = false :=
  ⟨by decide, by decide, ⟨by decide, by decide, by decide⟩,
    show entry_used (ex_double.2.disk.blocks 6) 1 ≠ 0 by decide,
    by decide, by decide, by decide⟩

/-- C20 fails at a concrete input: on a freshly formatted volume of 100 blocks
`create_file` with the name of 1023 characters `'b'` returns a handle on inode
0 and leaves two used directory entries (slots 0 and 1 of block 6) while one
bit of the inode bitmap is set. -/
theorem entries_outnumber_inodes :
    ex_double.1 = some ⟨0, .READ_WRITE, 0⟩ ∧
    used_entries ex_double.2.disk = 2 ∧ inodes_in_use ex_double.2.disk = 1 ∧
    used_entries ex_double.2.disk ≠ inodes_in_use ex_double.2.disk := by
  decide

end SimpleFS
